import Mathlib

/-!
# Binasc: a model of `src/xLights/MIDI/Binasc.cpp`

Conventions of the embedding.

* A `std::string`, a line of text and the content of a stream are lists of byte
  values (`Nat`, each below 256).  Character constants are written as their ASCII
  codes, with the character named in a comment.
* An `ostream` is the list of bytes written to it so far.  A function that writes
  takes that list and returns its C++ return value together with the extended list.
* What the source sends to `cerr` is not data written to `out` and is left out.
* Integer types are those of an LP64 little-endian platform: `int` has 32 bits,
  `long` and `ulong` have 64 bits, `char` has 8 bits and is signed.  Conversions are
  written with an explicit modulus.  `atoi` is `(int) strtol(s, NULL, 10)`.
* The `hex` and `dec` manipulators set a flag that stays on the stream; where the
  flag outlives the statement that sets it, it is a parameter (`showBase`).
* Character classification (`isdigit`, `isxdigit`, `isprint`, `isspace`) is that of
  the "C" locale.
* Floating point conversions are not modelled: what the source computes with
  `atof`, `strtod` and the printing of a `double` is a parameter (`FloatOps`).
-/

namespace Binasc

/-- Outcome of code that has a `while` loop or an access that C++ leaves undefined. -/
inductive Run (α : Type) where
  /-- the call returns -/
  | ret (a : α)
  /-- the call reaches undefined behaviour (a store outside a fixed-size buffer,
  the use of an uninitialised variable) -/
  | undef
  /-- the loop is still running when the fuel is used up -/
  | spin
deriving DecidableEq, Repr

/-! ## Character classes and number conversions -/

/-- `isdigit` -/
def isdigit (c : Nat) : Bool := decide (48 ≤ c) && decide (c ≤ 57)

/-- `isxdigit` -/
def isxdigit (c : Nat) : Bool :=
  isdigit c || (decide (97 ≤ c) && decide (c ≤ 102)) || (decide (65 ≤ c) && decide (c ≤ 70))

/-- `isprint` -/
def isprint (c : Nat) : Bool := decide (32 ≤ c) && decide (c ≤ 126)

/-- `isspace` -/
def isspace (c : Nat) : Bool := decide (c = 32) || (decide (9 ≤ c) && decide (c ≤ 13))

/-- The digit loop of `strtol` in base 10: the value of the longest prefix of
decimal digits, starting from the accumulator. -/
def digitsValue : Nat → List Nat → Nat
  | acc, [] => acc
  | acc, c :: cs => if isdigit c then digitsValue (acc * 10 + (c - 48)) cs else acc

/-- `strtol(s, NULL, 10)` with a 64-bit `long`: white space, an optional sign, the
digits; a value outside the range of `long` is replaced by the nearest bound. -/
def strtol10 (s : List Nat) : Int :=
  match s.dropWhile isspace with
  | 45 :: ds => max (-(2 ^ 63)) (-(digitsValue 0 ds : Int))      -- '-'
  | 43 :: ds => min (2 ^ 63 - 1) (digitsValue 0 ds : Int)        -- '+'
  | ds => min (2 ^ 63 - 1) (digitsValue 0 ds : Int)

/-- Conversion to `int`: the value modulo 2^32 in the range -2^31 .. 2^31 - 1. -/
def toInt32 (z : Int) : Int := (z + 2 ^ 31) % 2 ^ 32 - 2 ^ 31

/-- `atoi` -/
def atoi (s : List Nat) : Int := toInt32 (strtol10 s)

/-- Conversion to `ulong` (64 bits). -/
def toULong (z : Int) : Nat := (z % 2 ^ 64).toNat

/-- Conversion of an integer to `char` or `uchar`, as the byte written by `out << c`. -/
def toByte (z : Int) : Nat := (z % 256).toNat

/-- Value of a hexadecimal digit. -/
def hexDigitValue (c : Nat) : Nat :=
  if isdigit c then c - 48
  else if decide (97 ≤ c) && decide (c ≤ 102) then c - 87
  else c - 55

/-- `strtol(s, NULL, 16)` on a word made of hexadecimal digits only: the value of
the longest prefix of hexadecimal digits. -/
def strtol16 : Nat → List Nat → Nat
  | acc, [] => acc
  | acc, c :: cs => if isxdigit c then strtol16 (acc * 16 + hexDigitValue c) cs else acc

/-- The floating point computations of the source, which the model takes as given. -/
structure FloatOps where
  /-- the four bytes, lowest address first, of `(float)atof(s)` -/
  floatBytes : List Nat → List Nat
  /-- the eight bytes, lowest address first, of `atof(s)` -/
  doubleBytes : List Nat → List Nat
  /-- the value of `int(60.0 * 1000000.0 / value + 0.5)` for `value = fabs(strtod(s))` -/
  tempoInt : List Nat → Int
  /-- the value of `(int)(((1 << 13)-0.5) * (value + 1.0) + 0.5)` for `strtod(s)` clamped
  to the range -1.0 .. 1.0 -/
  bendInt : List Nat → Int
  /-- the text of `output << tempo` for `tempo = 1000000.0 / number * 60.0` -/
  showTempo : Int → List Nat

/-! ## Byte emitters -/

/-- `Binasc::processHexWord` -/
def processHexWord (out word : List Nat) : Nat × List Nat :=
  if word.length > 2 then (0, out)
  else if !isxdigit (word.getD 0 0) || (decide (word.length = 2) && !isxdigit (word.getD 1 0)) then
    (0, out)
  else (1, out ++ [strtol16 0 word % 256])

/-- `Binasc::processStringWord` -/
def processStringWord (out word : List Nat) : Nat × List Nat :=
  (1, out ++ word)

/-- `Binasc::processAsciiWord` -/
def processAsciiWord (out word : List Nat) : Nat × List Nat :=
  if word.getD 0 0 ≠ 43 then (0, out)                              -- '+'
  else if word.length > 2 then (0, out)
  else if word.length = 2 then (1, out ++ [word.getD 1 0])
  else (1, out ++ [32])                                            -- ' '

/-- The validation loop of `processBinaryWord`: `none` when the loop returns 0,
otherwise the final `commaIndex`. -/
def binaryScan : List Nat → Int → Int → Option Int
  | [], _, commaIndex => some commaIndex
  | c :: cs, i, commaIndex =>
    if c = 44 then                                                 -- ','
      if commaIndex ≠ -1 then none else binaryScan cs (i + 1) i
    else if !(decide (c = 49) || decide (c = 48)) then none        -- '1' '0'
    else binaryScan cs (i + 1) commaIndex

/-- The digit loops of `processBinaryWord`: `output = output << 1; output |= c - '0'`
on a `uchar`, for each digit in turn. -/
def binaryBits (output : Nat) (digits : List Nat) : Nat :=
  digits.foldl (fun o c => ((o <<< 1) % 256) ||| (c - 48)) output

/-- `Binasc::processBinaryWord` -/
def processBinaryWord (out word : List Nat) : Nat × List Nat :=
  let length : Int := word.length
  match binaryScan word 0 (-1) with
  | none => (0, out)
  | some commaIndex =>
    if commaIndex = 0 then (0, out)
    else if commaIndex = length - 1 then (0, out)
    else if commaIndex = -1 ∧ length > 8 then (0, out)
    else
      let leftDigits : Int := if commaIndex ≠ -1 then commaIndex else -1
      let rightDigits : Int := if commaIndex ≠ -1 then length - commaIndex - 1 else -1
      if leftDigits > 4 then (0, out)
      else if rightDigits > 4 then (0, out)
      else if commaIndex = -1 then (1, out ++ [binaryBits 0 word])
      else
        let left := binaryBits 0 (word.take leftDigits.toNat)
        let shifted := (left <<< (4 - rightDigits).toNat) % 256
        (1, out ++ [binaryBits shifted
          ((word.drop (commaIndex + 1).toNat).take rightDigits.toNat)])

/-- The loop of `processVlvWord` that sets the continuation bit on the first four
groups, from the first non-zero one on. -/
def vlvMark : Bool → List Nat → List Nat
  | _, [] => []
  | flag, b :: bs =>
    let flag1 := flag || decide (b ≠ 0)
    (if flag1 then b ||| 0x80 else b) :: vlvMark flag1 bs

/-- The bytes that `processVlvWord` writes for the `ulong` value. -/
def vlvBytes (value : Nat) : List Nat :=
  let byte := vlvMark false
    [(value >>> 28) &&& 0x7f, (value >>> 21) &&& 0x7f, (value >>> 14) &&& 0x7f,
     (value >>> 7) &&& 0x7f]
  byte.filter (fun b => decide (b ≥ 0x80)) ++ [(value >>> 0) &&& 0x7f]

/-- `Binasc::processVlvWord` -/
def processVlvWord (out word : List Nat) : Nat × List Nat :=
  if word.length < 2 then (0, out)
  else if !isdigit (word.getD 1 0) then (0, out)
  else (1, out ++ vlvBytes (toULong (atoi (word.drop 1))))

/-- `Binasc::processMidiTempoWord` -/
def processMidiTempoWord (F : FloatOps) (out word : List Nat) : Nat × List Nat :=
  if word.length < 2 then (0, out)
  else
    let c := word.getD 1 0
    if !(isdigit c || decide (c = 46) || decide (c = 45) || decide (c = 43)) then (0, out)
    else
      let intval := (F.tempoInt (word.drop 1) % 2 ^ 32).toNat
      let byte0 := intval &&& 0xff
      let byte1 := (intval >>> 8) &&& 0xff
      let byte2 := (intval >>> 16) &&& 0xff
      (1, out ++ [byte2, byte1, byte0])

/-- `Binasc::processMidiPitchBendWord` -/
def processMidiPitchBendWord (F : FloatOps) (out word : List Nat) : Nat × List Nat :=
  if word.length < 2 then (0, out)
  else
    let c := word.getD 1 0
    if !(isdigit c || decide (c = 46) || decide (c = 45) || decide (c = 43)) then (0, out)
    else
      let intval := (F.bendInt (word.drop 1) % 2 ^ 32).toNat
      let lsb := intval &&& 0x7f
      let msb := (intval >>> 7) &&& 0x7f
      (1, out ++ [lsb, msb])

/-- The variables that the validation loop of `processDecimalWord` sets. -/
structure DecimalScan where
  byteCount : Int
  quoteIndex : Int
  signIndex : Int
  periodIndex : Int
  endianIndex : Int
deriving DecidableEq, Repr

/-- The validation loop of `processDecimalWord` from index `i` on (`rest` is the
word from that index): `none` when the loop returns 0. -/
def decimalScan (word : List Nat) : List Nat → Nat → DecimalScan → Option DecimalScan
  | [], _, s => some s
  | c :: cs, i, s =>
    if c = 39 then                                                 -- quote
      if s.quoteIndex ≠ -1 then none
      else decimalScan word cs (i + 1) { s with quoteIndex := i }
    else if c = 45 then                                            -- '-'
      if s.signIndex ≠ -1 then none
      else if i = 0 ∨ word.getD (i - 1) 0 ≠ 39 then none
      else decimalScan word cs (i + 1) { s with signIndex := i }
    else if c = 46 then                                            -- '.'
      if s.quoteIndex = -1 then none
      else if s.periodIndex ≠ -1 then none
      else decimalScan word cs (i + 1) { s with periodIndex := i }
    else if c = 117 ∨ c = 85 then                                  -- 'u' 'U'
      if s.quoteIndex ≠ -1 then none
      else if s.endianIndex ≠ -1 then none
      else decimalScan word cs (i + 1) { s with endianIndex := i }
    else if c = 56 ∨ c = 49 ∨ c = 50 ∨ c = 51 ∨ c = 52 then        -- '8' '1' '2' '3' '4'
      if s.quoteIndex = -1 ∧ s.byteCount ≠ -1 then none
      else if s.quoteIndex = -1 then
        decimalScan word cs (i + 1) { s with byteCount := (c : Int) - 48 }
      else decimalScan word cs (i + 1) s
    else if c = 48 ∨ c = 53 ∨ c = 54 ∨ c = 55 ∨ c = 57 then        -- '0' '5' '6' '7' '9'
      if s.quoteIndex = -1 then none
      else decimalScan word cs (i + 1) s
    else none

/-- The `k` low bytes of a value, lowest first: what the unions of the
`writeLittleEndian...` functions hold on a little-endian machine. -/
def lowBytes : Nat → Nat → List Nat
  | 0, _ => []
  | k + 1, v => (v % 256) :: lowBytes k (v / 256)

/-- `writeLittleEndianUShort`, `writeLittleEndianShort`, `writeLittleEndianULong`,
`writeLittleEndianLong`: the `k` low bytes, lowest first. -/
def writeLittleEndian (out : List Nat) (k : Nat) (value : Int) : List Nat :=
  out ++ lowBytes k (toULong value)

/-- `writeBigEndianUShort`, `writeBigEndianShort`, `writeBigEndianULong`,
`writeBigEndianLong`: the `k` low bytes, highest first. -/
def writeBigEndian (out : List Nat) (k : Nat) (value : Int) : List Nat :=
  out ++ (lowBytes k (toULong value)).reverse

/-- `Binasc::processDecimalWord` -/
def processDecimalWord (F : FloatOps) (out word : List Nat) : Nat × List Nat :=
  let length : Int := word.length
  match decimalScan word word 0 ⟨-1, -1, -1, -1, -1⟩ with
  | none => (0, out)
  | some s =>
    if s.quoteIndex = -1 then (0, out)
    else if s.quoteIndex = length - 1 then (0, out)
    else if s.periodIndex = -1 ∧ s.byteCount = 8 then (0, out)
    else
      let byteCount : Int := if s.periodIndex ≠ -1 ∧ s.byteCount = -1 then 4 else s.byteCount
      let number := word.drop (s.quoteIndex + 1).toNat
      if s.periodIndex ≠ -1 then
        if byteCount = 4 then
          if s.endianIndex = -1 then (1, out ++ (F.floatBytes number).reverse)
          else (1, out ++ F.floatBytes number)
        else if byteCount = 8 then
          if s.endianIndex = -1 then (1, out ++ (F.doubleBytes number).reverse)
          else (1, out ++ F.doubleBytes number)
        else (0, out)
      else if byteCount = -1 then
        if s.signIndex ≠ -1 then
          let tempLong : Int := atoi number
          if tempLong > 127 ∨ tempLong < -128 then (0, out)
          else (1, out ++ [toByte tempLong])
        else
          let tempLong : Nat := toULong (atoi number)
          if tempLong > 255 then (0, out)
          else (1, out ++ [tempLong % 256])
      else if byteCount = 1 then
        if s.signIndex ≠ -1 then (1, out ++ [toByte (atoi number)])
        else (1, out ++ [toULong (atoi number) % 256])
      else if byteCount = 2 then
        if s.endianIndex = -1 then (1, writeBigEndian out 2 (atoi number))
        else (1, writeLittleEndian out 2 (atoi number))
      else if byteCount = 3 then
        if s.signIndex ≠ -1 then (0, out)
        else
          let tempLong : Nat := toULong (atoi number)
          let byte1 := ((tempLong &&& 0x00ff0000) >>> 16) % 256
          let byte2 := ((tempLong &&& 0x0000ff00) >>> 8) % 256
          let byte3 := (tempLong &&& 0x000000ff) % 256
          if s.endianIndex = -1 then (1, out ++ [byte1, byte2, byte3])
          else (1, out ++ [byte3, byte2, byte1])
      else if byteCount = 4 then
        if s.endianIndex = -1 then (1, writeBigEndian out 4 (atoi number))
        else (1, writeLittleEndian out 4 (atoi number))
      else (0, out)

/-! ## The line processor -/

/-- The loop of `Binasc::getWord` on the input from index `i` on: the word built and
the input from the returned index on.  `ecount` counts the double quotes met. -/
def getWordLoop (escape : Bool) (terminators : List Nat) :
    Nat → List Nat → Nat → List Nat → List Nat × List Nat
  | 0, rest, _, word => (word, rest)
  | _ + 1, [], _, word => (word, [])
  | fuel + 1, c :: cs, ecount, word =>
    let hit := escape && decide (c = 34)                           -- '"'
    let ecount1 := if hit then ecount + 1 else ecount
    let rest1 := if hit then cs else c :: cs
    if hit && decide (ecount1 ≥ 2) then (word, rest1)
    else
      match rest1 with
      | [] =>
        -- `input[i]` with `i == input.size()` reads as the null character
        if !terminators.contains 0 then (word ++ [0], []) else (word, [])
      | d :: ds =>
        if escape && decide (d = 92) && decide (ds.head? = some 34) then   -- '\\' '"'
          getWordLoop escape terminators fuel (ds.drop 1) ecount1 (word ++ [34])
        else if !terminators.contains d then
          getWordLoop escape terminators fuel ds ecount1 (word ++ [d])
        else (word, ds)

/-- `Binasc::getWord`, called at index `i` where `input` is the line from `i` on. -/
def getWord (input terminators : List Nat) : List Nat × List Nat :=
  getWordLoop (terminators.contains 34) terminators (input.length + 1) input 0 []

/-- The kinds of word that `processLine` tells apart. -/
inductive Kind where
  | ascii | string | vlv | pitchBend | tempo | decimal | binary | hex
deriving DecidableEq, Repr

/-- The branch of `processLine` taken at a character that starts a word, and the
terminators it passes to `getWord`. -/
def classify (input : List Nat) : Kind × List Nat × List Nat :=
  let c := input.getD 0 0
  if c = 43 then (Kind.ascii, getWord input [32, 10, 9])           -- '+'
  else if c = 34 then (Kind.string, getWord input [34])            -- '"'
  else if c = 118 then (Kind.vlv, getWord input [32, 10, 9])       -- 'v'
  else if c = 112 then (Kind.pitchBend, getWord input [32, 10, 9]) -- 'p'
  else if c = 116 then (Kind.tempo, getWord input [32, 10, 9])     -- 't'
  else
    let w := getWord input [32, 10, 9]
    if w.1.contains 39 then (Kind.decimal, w)                      -- quote
    else if w.1.contains 44 || decide (w.1.length > 2) then (Kind.binary, w)   -- ','
    else (Kind.hex, w)

/-- The emitter that `processLine` calls for a word of the given kind. -/
def emit (F : FloatOps) (k : Kind) (out word : List Nat) : Nat × List Nat :=
  match k with
  | Kind.ascii => processAsciiWord out word
  | Kind.string => processStringWord out word
  | Kind.vlv => processVlvWord out word
  | Kind.pitchBend => processMidiPitchBendWord F out word
  | Kind.tempo => processMidiTempoWord F out word
  | Kind.decimal => processDecimalWord F out word
  | Kind.binary => processBinaryWord out word
  | Kind.hex => processHexWord out word

/-- The loop of `Binasc::processLine` on the line from index `i` on. -/
def processLineLoop (F : FloatOps) : Nat → List Nat → List Nat → Run (Nat × List Nat)
  | 0, _, _ => Run.spin
  | _ + 1, [], out => Run.ret (1, out)
  | fuel + 1, c :: cs, out =>
    if c = 59 ∨ c = 35 ∨ c = 47 then Run.ret (1, out)              -- ';' '#' '/'
    else if c = 32 ∨ c = 10 ∨ c = 9 then processLineLoop F fuel cs out   -- ' ' '\n' '\t'
    else
      let t := classify (c :: cs)
      let r := emit F t.1 out t.2.1
      if r.1 = 0 then Run.ret (0, r.2) else processLineLoop F fuel t.2.2 r.2

/-- `Binasc::processLine`: the status and the output stream after the line. -/
def processLine (F : FloatOps) (out input : List Nat) : Run (Nat × List Nat) :=
  processLineLoop F (input.length + 1) input out

/-! ## Input streams and `writeToBinary` -/

/-- An `istream`: the bytes not yet read and the two state bits the source tests. -/
structure IStream where
  buf : List Nat
  eofbit : Bool
  failbit : Bool
deriving DecidableEq, Repr

/-- A stream just opened on the given bytes. -/
def IStream.open (bytes : List Nat) : IStream := ⟨bytes, false, false⟩

/-- `istream::good` -/
def IStream.good (s : IStream) : Bool := !s.eofbit && !s.failbit

/-- The extraction loop of `istream::getline(s, n, '\n')`; `room` is the number of
characters that may still be stored.  Returns the characters stored, the bytes left,
`eofbit` and `failbit`. -/
def getlineLoop : Nat → List Nat → List Nat → List Nat × List Nat × Bool × Bool
  | _, [], acc => (acc, [], true, acc.isEmpty)
  | room, c :: cs, acc =>
    if c = 10 then (acc, cs, false, false)                         -- the delimiter is extracted
    else match room with
      | 0 => (acc, c :: cs, false, true)                           -- `n - 1` characters stored
      | room1 + 1 => getlineLoop room1 cs (acc ++ [c])

/-- `input.getline(inputLine, 1024, '\n')`: the content of `inputLine` as a C string
and the stream afterwards.  On a stream that is not good nothing is extracted, the
line is empty and `failbit` is set. -/
def getline (s : IStream) : List Nat × IStream :=
  if s.good then
    let r := getlineLoop 1023 s.buf []
    (r.1.takeWhile (fun c => decide (c ≠ 0)), ⟨r.2.1, r.2.2.1, r.2.2.2⟩)
  else ([], { s with failbit := true })

/-- The `while (!input.eof())` loop of `writeToBinary`.  The value of `processLine`
is not looked at. -/
def writeToBinaryLoop (F : FloatOps) : Nat → IStream → List Nat → List Nat →
    Run (Nat × List Nat)
  | 0, _, _, _ => Run.spin
  | fuel + 1, input, inputLine, out =>
    if input.eofbit then Run.ret (1, out)
    else
      match processLine F out inputLine with
      | Run.ret r =>
        let g := getline input
        writeToBinaryLoop F fuel g.2 g.1 r.2
      | Run.undef => Run.undef
      | Run.spin => Run.spin

/-- `Binasc::writeToBinary(ostream&, istream&)` on an input stream holding `text`,
with `fuel` bounding the number of lines processed. -/
def writeToBinary (F : FloatOps) (fuel : Nat) (out text : List Nat) : Run (Nat × List Nat) :=
  let g := getline (IStream.open text)
  writeToBinaryLoop F fuel g.2 g.1 out

/-! ## Reading bytes: `getVLV` -/

/-- `infile.read((char*)&ch, 1)`: the new value of `ch` and the stream afterwards.
When nothing can be read the variable keeps its value and `failbit` is set (with
`eofbit` when the end of the input is met). -/
def IStream.read1 (s : IStream) (ch : Option Nat) : Option Nat × IStream :=
  if s.good then
    match s.buf with
    | [] => (ch, { s with eofbit := true, failbit := true })
    | c :: cs => (some c, { s with buf := cs })
  else (ch, { s with failbit := true })

/-- Conversion to `int` of a 32-bit pattern. -/
def bitsToInt (n : Nat) : Int := toInt32 (n : Int)

/-- The `while (ch >= 0x80)` loop of `getVLV`.  `output` is held as its 32-bit
pattern; the result is the value returned, the stream and `trackbytes`. -/
def getVLVLoop : Nat → IStream → Int → Nat → Nat → Run (Int × IStream × Int)
  | 0, _, _, _, _ => Run.spin
  | fuel + 1, infile, trackbytes, output, ch =>
    if ch ≥ 0x80 then
      let r := infile.read1 (some ch)
      let ch1 := r.1.getD ch
      getVLVLoop fuel r.2 (trackbytes + 1) (((output <<< 7) % 2 ^ 32) ||| (0x7f &&& ch1)) ch1
    else Run.ret (bitsToInt output, infile, trackbytes)

/-- `Binasc::getVLV`.  The local `ch` is not initialised: when the first read fails
its value is indeterminate and the comparison that follows is undefined. -/
def getVLV (fuel : Nat) (infile : IStream) (trackbytes : Int) : Run (Int × IStream × Int) :=
  match infile.read1 none with
  | (none, _) => Run.undef
  | (some ch, infile1) =>
    getVLVLoop fuel infile1 (trackbytes + 1) (((0 <<< 7) % 2 ^ 32) ||| (0x7f &&& ch)) ch

/-! ## Definitions that follow the words of the specification -/

/-- The five 7-bit groups of `n`, `n >> 28` to `n >> 0`, most significant first. -/
def vlvGroups (n : Nat) : List Nat :=
  [n / 2 ^ 28 % 128, n / 2 ^ 21 % 128, n / 2 ^ 14 % 128, n / 2 ^ 7 % 128, n % 128]

/-- The encoding that the specification describes: of the five groups, those from
the first non-zero group among the first four on, or the last group alone; each
group but the last with its top bit set. -/
def vlvShape (n : Nat) : List Nat :=
  let kept := ((vlvGroups n).take 4).dropWhile (fun g => decide (g = 0))
  kept.map (fun g => g + 128) ++ (vlvGroups n).drop 4

/-- The decimal digits of a number, most significant first, as characters; `fuel`
bounds the number of digits. -/
def decimalDigits : Nat → Nat → List Nat → List Nat
  | 0, _, acc => acc
  | fuel + 1, n, acc =>
    if n < 10 then (48 + n) :: acc else decimalDigits fuel (n / 10) ((48 + n % 10) :: acc)

/-- The text of `out << dec << n` for a non-negative integer. -/
def showNat (n : Nat) : List Nat := decimalDigits (n + 1) n []

/-- The text of `out << dec << z` for an integer. -/
def showInt (z : Int) : List Nat :=
  if z < 0 then 45 :: showNat z.natAbs else showNat z.natAbs

/-- A list of binary digits read as a base-2 number, most significant digit first,
continuing from the value `a`. -/
def binaryValueFrom (a : Nat) (digits : List Nat) : Nat :=
  digits.foldl (fun v c => 2 * v + (c - 48)) a

/-- A list of binary digits read as a base-2 number. -/
def binaryValue (digits : List Nat) : Nat := binaryValueFrom 0 digits

/-- The characters `0` and `1`. -/
def isBinaryDigit (c : Nat) : Prop := c = 48 ∨ c = 49

instance : DecidablePred isBinaryDigit := fun c => by
  unfold isBinaryDigit; infer_instance

/-- The words that the specification says `processBinaryWord` rejects: a character
other than `0`, `1` and the comma; more than one comma; a comma in first or last
place; no comma and more than 8 digits; a comma with more than 4 digits on a side. -/
def binaryRejected (w : List Nat) : Prop :=
  (∃ c ∈ w, c ≠ 48 ∧ c ≠ 49 ∧ c ≠ 44) ∨
  (w.count 44 > 1) ∨
  (w.head? = some 44 ∨ w.getLast? = some 44) ∨
  (w.count 44 = 0 ∧ w.length > 8) ∨
  (∃ l r, w = l ++ 44 :: r ∧ (l.length > 4 ∨ r.length > 4))

/-- A `FloatOps` for running the model on inputs that take no floating point path:
every conversion gives zero. -/
def FloatOps.zero : FloatOps :=
  ⟨fun _ => [0, 0, 0, 0], fun _ => [0, 0, 0, 0, 0, 0, 0, 0], fun _ => 0, fun _ => 0, fun _ => [48]⟩

/-- The words of a line with their kinds, in the order in which `processLine` meets
them when no emitter fails: the scan of `processLine` with the emitter calls left out.
This is the ordered sequence of byte-emission attempts of the specification. -/
def tokensLoop : Nat → List Nat → List (Kind × List Nat)
  | 0, _ => []
  | _ + 1, [] => []
  | fuel + 1, c :: cs =>
    if c = 59 ∨ c = 35 ∨ c = 47 then []
    else if c = 32 ∨ c = 10 ∨ c = 9 then tokensLoop fuel cs
    else
      let t := classify (c :: cs)
      (t.1, t.2.1) :: tokensLoop fuel t.2.2

/-- The tokens of a line. -/
def tokens (input : List Nat) : List (Kind × List Nat) :=
  tokensLoop (input.length + 1) input

/-- The bytes that the emitter of a token writes. -/
def tokenBytes (F : FloatOps) (t : Kind × List Nat) : List Nat := (emit F t.1 [] t.2).2

/-- The status that the emitter of a token returns. -/
def tokenStatus (F : FloatOps) (t : Kind × List Nat) : Nat := (emit F t.1 [] t.2).1

/-! ## Plain byte dumps -/

/-- The character for a hexadecimal digit, in lower case. -/
def hexDigitChar (d : Nat) : Nat := if d < 10 then 48 + d else 87 + d

/-- The hexadecimal digits of a number, most significant first, as characters;
`fuel` bounds the number of digits. -/
def hexDigits : Nat → Nat → List Nat → List Nat
  | 0, _, acc => acc
  | fuel + 1, n, acc =>
    if n < 16 then hexDigitChar n :: acc
    else hexDigits fuel (n / 16) (hexDigitChar (n % 16) :: acc)

/-- The text of `out << hex << n` for a non-negative integer. -/
def showHex (n : Nat) : List Nat := hexDigits (n + 1) n []

/-- The text written for one byte by
`if (ch < 0x10) out << '0'; out << hex << (int)ch << ' ';`. -/
def hexByteText (ch : Nat) : List Nat :=
  (if ch < 0x10 then [48] else []) ++ showHex ch ++ [32]

/-- The loop of `outputStyleBinary` on the bytes still to read: the text written
and `currentByte` at the end of the input. -/
def outputStyleBinaryLoop (maxLineBytes : Int) : List Nat → Int → List Nat → List Nat × Int
  | [], currentByte, out => (out, currentByte)
  | ch :: rest, currentByte, out =>
    let out1 := out ++ hexByteText ch
    if currentByte + 1 ≥ maxLineBytes then
      outputStyleBinaryLoop maxLineBytes rest 0 (out1 ++ [10])
    else outputStyleBinaryLoop maxLineBytes rest (currentByte + 1) out1

/-- `Binasc::outputStyleBinary` on a stream just opened on `input`. -/
def outputStyleBinary (maxLineBytes : Int) (out input : List Nat) : Nat × List Nat :=
  match input with
  | [] => (0, out)
  | _ :: _ =>
    let r := outputStyleBinaryLoop maxLineBytes input 0 out
    if r.2 ≠ 0 then (1, r.1 ++ [10]) else (1, r.1)

/-- The assignment `asciiLine[index] = c` on `uchar asciiLine[256]`: `none` when
the index is outside the array. -/
def storeChar (asciiLine : List Nat) (index c : Nat) : Option (List Nat) :=
  if index < 256 then some (asciiLine.set index c) else none

/-- The text of `out << asciiLine`: the characters before the first null. -/
def cString (asciiLine : List Nat) : List Nat :=
  asciiLine.takeWhile (fun c => decide (c ≠ 0))

/-- The variables of `outputStyleBoth`. -/
structure BothState where
  out : List Nat
  asciiLine : List Nat
  currentByte : Int
  index : Nat
deriving DecidableEq, Repr

/-- The body of the loop of `outputStyleBoth` for the byte `ch`: `none` when a
store falls outside `asciiLine`. -/
def outputStyleBothStep (maxLineBytes : Int) (st : BothState) (ch : Nat) : Option BothState := do
  -- if (index == 0) { asciiLine[index++] = ';'; out << ' '; }
  let st1 ← if st.index = 0 then
      (storeChar st.asciiLine st.index 59).map
        (fun a => { st with asciiLine := a, index := st.index + 1, out := st.out ++ [32] })
    else some st
  let out2 := st1.out ++ hexByteText ch
  let currentByte := st1.currentByte + 1
  let a1 ← storeChar st1.asciiLine st1.index 32
  let a2 ← storeChar a1 (st1.index + 1) (if isprint ch then ch else 32)
  let a3 ← storeChar a2 (st1.index + 2) 32
  let index := st1.index + 3
  if currentByte ≥ maxLineBytes then
    let a4 ← storeChar a3 index 0
    some ⟨out2 ++ [10] ++ cString a4 ++ [10, 10], a4, 0, 0⟩
  else some ⟨out2, a3, currentByte, index⟩

/-- The loop of `outputStyleBoth` on the bytes still to read. -/
def outputStyleBothLoop (maxLineBytes : Int) : List Nat → BothState → Option BothState
  | [], st => some st
  | ch :: rest, st =>
    match outputStyleBothStep maxLineBytes st ch with
    | none => none
    | some st1 => outputStyleBothLoop maxLineBytes rest st1

/-- `Binasc::outputStyleBoth` on a stream just opened on `input`.  A store outside
the 256 bytes of `asciiLine` is undefined behaviour. -/
def outputStyleBoth (maxLineBytes : Int) (out input : List Nat) : Run (Nat × List Nat) :=
  match outputStyleBothLoop maxLineBytes input ⟨out, List.replicate 256 0, 0, 0⟩ with
  | none => Run.undef
  | some st =>
    if st.currentByte ≠ 0 then
      match storeChar st.asciiLine st.index 0 with
      | none => Run.undef
      | some a => Run.ret (1, st.out ++ [10] ++ cString a ++ [10] ++ [10])
    else Run.ret (1, st.out)

/-- The bytes that `processLine` writes for a line. -/
def processLineBytes (F : FloatOps) (line : List Nat) : List Nat :=
  match processLine F [] line with
  | Run.ret r => r.2
  | _ => []

/-- A text made of the given lines, each followed by the newline character. -/
def unlines (lines : List (List Nat)) : List Nat :=
  (lines.map (fun l => l ++ [10])).flatten

/-- The line of text that the hexadecimal dumps write for a group of bytes. -/
def hexLine (bytes : List Nat) : List Nat := (bytes.map hexByteText).flatten

/-- The comment line that `outputStyleBoth` writes for a group of bytes. -/
def commentLine (bytes : List Nat) : List Nat :=
  59 :: (bytes.map (fun ch => [32, if isprint ch then ch else 32, 32])).flatten

/-- The three lines that `outputStyleBoth` writes for a group of bytes: the bytes in
hexadecimal after a space, the comment, an empty line. -/
def bothLines (bytes : List Nat) : List (List Nat) :=
  [32 :: hexLine bytes, commentLine bytes, []]

/-- The state of `outputStyleBoth` inside a group, after the bytes `pre` of it. -/
def BothInv (st : BothState) (out0 pre : List Nat) : Prop :=
  st.out = out0 ++ 32 :: hexLine pre ∧ st.index = 1 + 3 * pre.length ∧
  st.currentByte = (pre.length : Int) ∧ st.asciiLine.length = 256 ∧
  ∃ r, st.asciiLine = commentLine pre ++ r

/-! ## The MIDI decoder -/

/-- The characters of a string literal of the source, as bytes. -/
def str (s : String) : List Nat := s.toList.map Char.toNat

/-- The value of `(int)c` for a `char` that holds the byte `b`. -/
def charToInt (b : Nat) : Int := if b < 128 then (b : Int) else (b : Int) - 256

/-- `Binasc::keyToPitchName`; `%` and `/` on `int` truncate towards zero. -/
def keyToPitchName (key : Int) : List Nat :=
  let pc := Int.tmod key 12
  let octave := Int.tdiv key 12 - 1
  let name :=
    if pc = 0 then str "C" else if pc = 1 then str "C#" else if pc = 2 then str "D"
    else if pc = 3 then str "D#" else if pc = 4 then str "E" else if pc = 5 then str "F"
    else if pc = 6 then str "F#" else if pc = 7 then str "G" else if pc = 8 then str "G#"
    else if pc = 9 then str "A" else if pc = 10 then str "A#" else if pc = 11 then str "B"
    else []
  name ++ showInt octave

/-- `infile.putback(c)`: `eofbit` is cleared; on a stream that is then good the
character is put in front of the bytes to read, otherwise `failbit` is set. -/
def IStream.putback (s : IStream) (c : Nat) : IStream :=
  if !s.failbit then { s with buf := c :: s.buf, eofbit := false }
  else { s with eofbit := false, failbit := true }

/-- A loop `for (i=0; i<n; i++) { infile.read((char*)&ch, 1); trackbytes++; ... }`
that prints each byte read with `item`: the stream, `trackbytes`, `ch` and the text
at the end.  A read that fails leaves `ch` as it was. -/
def readBytes (item : Nat → List Nat) : Nat → IStream → Int → Nat → List Nat →
    IStream × Int × Nat × List Nat
  | 0, infile, trackbytes, ch, output => (infile, trackbytes, ch, output)
  | n + 1, infile, trackbytes, ch, output =>
    let r := infile.read1 (some ch)
    let ch1 := r.1.getD ch
    readBytes item n r.2 (trackbytes + 1) ch1 (output ++ item ch1)

/-- The text ` 0` or a space and then the byte in hexadecimal, as the system
exclusive and the default meta-event loops print it. -/
def hexItem (ch : Nat) : List Nat :=
  (if ch < 0x10 then str " 0" else str " ") ++ showHex ch

/-- The text of `output << " '" << (int)ch` for a `uchar`. -/
def decItem (ch : Nat) : List Nat := str " '" ++ showNat ch

/-- The second `switch (metatype)` of `readMidiEvent`: the comment and whether the
event ends the track. -/
def metaComment (metatype : Nat) : List Nat :=
  if metatype = 0x00 then str "sequence number"
  else if metatype = 0x01 then str "text"
  else if metatype = 0x02 then str "copyright notice"
  else if metatype = 0x03 then str "track name"
  else if metatype = 0x04 then str "instrument name"
  else if metatype = 0x05 then str "lyric"
  else if metatype = 0x06 then str "marker"
  else if metatype = 0x07 then str "cue point"
  else if metatype = 0x08 then str "program name"
  else if metatype = 0x09 then str "device name"
  else if metatype = 0x20 then str "MIDI channel prefix"
  else if metatype = 0x21 then str "MIDI port"
  else if metatype = 0x51 then str "tempo"
  else if metatype = 0x54 then str "SMPTE offset"
  else if metatype = 0x58 then str "time signature"
  else if metatype = 0x59 then str "key signature"
  else if metatype = 0x7f then str "system exclusive"
  else if metatype = 0x2f then str "end-of-track"
  else str "meta-message"

/-- What a call of `readMidiEvent` leaves: the stream written to, the input stream,
`trackbytes` and `command`. -/
structure EventState where
  out : List Nat
  infile : IStream
  trackbytes : Int
  command : Nat
deriving DecidableEq, Repr

/-- The first `switch (metatype)` of `readMidiEvent`, after the length has been read:
the stream, `trackbytes` and the text. -/
def readMetaPayload (F : FloatOps) (metatype : Nat) (length : Int) (infile : IStream)
    (trackbytes : Int) (ch : Nat) (output : List Nat) : IStream × Int × List Nat :=
  if metatype = 0x00 then
    let r1 := infile.read1 (some ch)
    let c1 := r1.1.getD ch
    let r2 := r1.2.read1 (some c1)
    let c2 := r2.1.getD c1
    let number := ((c1 <<< 8) % 2 ^ 32) ||| c2
    (r2.2, trackbytes + 2, output ++ str " 2'" ++ showInt (bitsToInt number))
  else if metatype = 0x20 ∨ metatype = 0x21 then
    let r := readBytes decItem 1 infile trackbytes ch output
    (r.1, r.2.1, r.2.2.2)
  else if metatype = 0x51 then
    let r1 := infile.read1 (some ch)
    let c1 := r1.1.getD ch
    let r2 := r1.2.read1 (some c1)
    let c2 := r2.1.getD c1
    let r3 := r2.2.read1 (some c2)
    let c3 := r3.1.getD c2
    let number := ((((((0 <<< 8) % 2 ^ 32 ||| c1) <<< 8) % 2 ^ 32 ||| c2) <<< 8) % 2 ^ 32) ||| c3
    (r3.2, trackbytes + 3, output ++ str " t" ++ F.showTempo (bitsToInt number))
  else if metatype = 0x54 then
    let r := readBytes decItem 5 infile trackbytes ch output
    (r.1, r.2.1, r.2.2.2)
  else if metatype = 0x58 then
    let r := readBytes decItem 4 infile trackbytes ch output
    (r.1, r.2.1, r.2.2.2)
  else if metatype = 0x59 then
    let r := readBytes decItem 2 infile trackbytes ch output
    (r.1, r.2.1, r.2.2.2)
  else if 0x01 ≤ metatype ∧ metatype ≤ 0x09 then
    let r := readBytes (fun c => [c]) length.toNat infile trackbytes ch (output ++ str " \"")
    (r.1, r.2.1, r.2.2.2 ++ str "\"")
  else
    let r := readBytes (fun c => str " " ++ (if c < 0x10 then str "0" else []) ++ showHex c)
      length.toNat infile trackbytes ch output
    (r.1, r.2.1, r.2.2.2)

/-- `Binasc::readMidiEvent`: the value returned and the state left.  The local `ch`
is not initialised: when the read after the delta time fails, the comparison
`ch < 0x80` is undefined. -/
def readMidiEvent (F : FloatOps) (commentsQ : Bool) (fuel : Nat) (out : List Nat)
    (infile : IStream) (trackbytes : Int) (command : Nat) : Run (Nat × EventState) :=
  match getVLV fuel infile trackbytes with
  | Run.undef => Run.undef
  | Run.spin => Run.spin
  | Run.ret (vlv, infile1, tb1) =>
    let output0 := str "v" ++ showInt vlv ++ str "\t"
    match infile1.read1 none with
    | (none, _) => Run.undef
    | (some ch0, infile2) =>
      let tb2 := tb1 + 1
      -- running status, or a command byte and one more byte
      let r := infile2.read1 (some ch0)
      let output1 := if ch0 < 0x80 then output0 ++ str "   " else output0 ++ showHex ch0
      let command1 := if ch0 < 0x80 then command else ch0
      let ch1 := if ch0 < 0x80 then ch0 else r.1.getD ch0
      let infile3 := if ch0 < 0x80 then infile2 else r.2
      let tb3 := if ch0 < 0x80 then tb2 else tb2 + 1
      let byte1 := ch1
      let finish (output comment : List Nat) (status : Nat) (infile4 : IStream) (tb4 : Int) :
          Run (Nat × EventState) :=
        Run.ret (status,
          ⟨out ++ output ++ (if commentsQ then str "\t; " ++ comment else []),
           infile4, tb4, command1⟩)
      let twoBytes (comment : List Nat) : Run (Nat × EventState) :=
        let r2 := infile3.read1 (some ch1)
        let byte2 := r2.1.getD ch1
        finish (output1 ++ str " '" ++ showInt (charToInt byte1) ++ str " '" ++
          showInt (charToInt byte2)) comment 1 r2.2 (tb3 + 1)
      let hi := command1 &&& 0xf0
      if hi = 0x80 then twoBytes (str "note-off " ++ keyToPitchName (charToInt byte1))
      else if hi = 0x90 then
        let r2 := infile3.read1 (some ch1)
        let byte2 := r2.1.getD ch1
        finish (output1 ++ str " '" ++ showInt (charToInt byte1) ++ str " '" ++
          showInt (charToInt byte2))
          (if charToInt byte2 = 0 then str "note-off " ++ keyToPitchName (charToInt byte1)
           else str "note-on " ++ keyToPitchName (charToInt byte1)) 1 r2.2 (tb3 + 1)
      else if hi = 0xA0 then twoBytes (str "after-touch")
      else if hi = 0xB0 then twoBytes (str "controller")
      else if hi = 0xE0 then twoBytes (str "pitch-bend")
      else if hi = 0xC0 then
        finish (output1 ++ str " '" ++ showInt (charToInt byte1)) (str "patch-change") 1
          infile3 tb3
      else if hi = 0xD0 then
        finish (output1 ++ str " '" ++ showInt (charToInt byte1)) (str "channel pressure") 1
          infile3 tb3
      else if hi = 0xF0 then
        if command1 = 0xf7 then
          match getVLV fuel (infile3.putback byte1) (tb3 - 1) with
          | Run.undef => Run.undef
          | Run.spin => Run.spin
          | Run.ret (length, infile4, tb4) =>
            let p := readBytes hexItem length.toNat infile4 tb4 ch1
              (output1 ++ str " v" ++ showInt length)
            finish p.2.2.2 [] 1 p.1 p.2.1
        else if command1 = 0xfe then Run.ret (0, ⟨out, infile3, tb3, command1⟩)
        else if command1 = 0xff then
          let metatype := ch1
          match getVLV fuel infile3 tb3 with
          | Run.undef => Run.undef
          | Run.spin => Run.spin
          | Run.ret (length, infile4, tb4) =>
            let p := readMetaPayload F metatype length infile4 tb4 ch1
              (output1 ++ str " " ++ showHex metatype ++ str " v" ++ showInt length)
            finish p.2.2 (metaComment metatype) (if metatype = 0x2f then 0 else 1) p.1 p.2.1
        else finish output1 [] 1 infile3 tb3
      else finish output1 [] 1 infile3 tb3

/-- The text of `tempout << n` for an `int`: in decimal, or, once `hex` has been set on
the stream, the 32-bit pattern in hexadecimal. -/
def showBase (hexMode : Bool) (n : Int) : List Nat :=
  if hexMode then showHex (n % 2 ^ 32).toNat else showInt n

/-- Four reads of the form
`input.read((char*)&ch, 1); size = (size << 8) | ch;`: the 32-bit pattern of
`size`, `ch` and the stream. -/
def readBigEndian : Nat → IStream → Nat → Nat → Nat × Nat × IStream
  | 0, input, ch, size => (size, ch, input)
  | n + 1, input, ch, size =>
    let r := input.read1 (some ch)
    let ch1 := r.1.getD ch
    readBigEndian n r.2 ch1 (((size <<< 8) % 2 ^ 32) ||| ch1)

/-- The loop `while (readMidiEvent(tempout, input, trackbytes, command)) tempout << "\n";`
of `outputStyleMidi`. -/
def readTrackEvents (F : FloatOps) (commentsQ : Bool) : Nat → Nat → List Nat → IStream → Int →
    Nat → Run EventState
  | _, 0, _, _, _, _ => Run.spin
  | fuel, n + 1, tempout, input, trackbytes, command =>
    match readMidiEvent F commentsQ fuel tempout input trackbytes command with
    | Run.undef => Run.undef
    | Run.spin => Run.spin
    | Run.ret (status, st) =>
      if status ≠ 0 then
        readTrackEvents F commentsQ fuel n (st.out ++ str "\n") st.infile st.trackbytes st.command
      else Run.ret st

/-- The loop `for (i=0; i<trackcount; i++)` of `outputStyleMidi`, for the tracks from
number `i` on; `count` is the number of tracks left.  The result is `none` when a
track marker does not match (the function then returns 0), otherwise the text. -/
def readTracks (F : FloatOps) (commentsQ hexMode : Bool) (fuel : Nat) :
    Nat → Int → List Nat → IStream → Nat → Run (Option (List Nat))
  | 0, _, tempout, _, _ => Run.ret (some tempout)
  | count + 1, i, tempout, input, ch =>
    let tempout1 := tempout ++ str "\n;;; TRACK " ++ showBase hexMode i ++
      str " ----------------------------------" ++ str "\n"
    let r1 := input.read1 (some ch)
    let c1 := r1.1.getD ch
    if c1 ≠ 77 then Run.ret none else                                  -- 'M'
    let r2 := r1.2.read1 (some c1)
    let c2 := r2.1.getD c1
    if c2 ≠ 84 then Run.ret none else                                  -- 'T'
    let r3 := r2.2.read1 (some c2)
    let c3 := r3.1.getD c2
    if c3 ≠ 114 then Run.ret none else                                 -- 'r'
    let r4 := r3.2.read1 (some c3)
    let c4 := r4.1.getD c3
    if c4 ≠ 107 then Run.ret none else                                 -- 'k'
    let tempout2 := tempout1 ++ str "\"MTrk\"" ++
      (if commentsQ then str "\t\t\t; MIDI track chunk marker" else []) ++ str "\n"
    let t := readBigEndian 4 r4.2 c4 0
    let tracksize := bitsToInt t.1
    let tempout3 := tempout2 ++ str "4'" ++ showBase hexMode tracksize ++
      (if commentsQ then str "\t\t\t; bytes to follow in track chunk" else []) ++ str "\n"
    match readTrackEvents F commentsQ fuel fuel tempout3 t.2.2 0 0 with
    | Run.undef => Run.undef
    | Run.spin => Run.spin
    | Run.ret st =>
      let tempout4 := st.out ++ str "\n"
      let tempout5 :=
        if st.trackbytes ≠ tracksize then
          tempout4 ++ str "; TRACK SIZE ERROR, ACTUAL SIZE: " ++ showBase hexMode st.trackbytes ++
            str "\n"
        else tempout4
      -- `ch` of `outputStyleMidi` is not touched by `readMidiEvent`
      readTracks F commentsQ hexMode fuel count (i + 1) tempout5 st.infile t.2.1

/-- The part of `Binasc::outputStyleMidi` from the division bytes on: `tempout` holds
the text so far, `ch` the last byte read.  The locals `byte1` and `byte2` are not
initialised: when their reads fail, the test `byte1 & 0x80` is undefined. -/
def outputStyleMidiTracks (F : FloatOps) (commentsQ : Bool) (fuel : Nat) (out : List Nat)
    (tempout4 : List Nat) (headersize trackcount : Int) (input : IStream) (ch : Nat) :
    Run (Nat × List Nat) :=
  let b1 := input.read1 none
  let b2 := b1.2.read1 none
  match b1.1, b2.1 with
  | some byte1, some byte2 =>
    let tempout5 :=
      if byte1 &&& 0x80 ≠ 0 then
        tempout4 ++ str "1'-" ++ showNat (0xff - byte1 + 1) ++
          (if commentsQ then str "\t\t\t; SMPTE frames/second" else []) ++ str "\n" ++
          str "1'" ++ showNat byte2 ++
          (if commentsQ then str "\t\t\t; subframes per frame" else []) ++ str "\n"
      else
        tempout4 ++ str "2'" ++
          showInt (bitsToInt (((((0 <<< 8) % 2 ^ 32 ||| byte1) <<< 8) % 2 ^ 32) ||| byte2)) ++
          (if commentsQ then str "\t\t\t; ticks per quarter note" else []) ++ str "\n"
    -- the bytes of the header beyond the first six
    let extra := toInt32 (headersize - 6)
    let u := readBytes (fun c => (if c < 0x10 then str "0" else []) ++ showHex c)
      extra.toNat b2.2 0 ch tempout5
    let hexMode := decide (extra > 0)
    let tempout6 :=
      if extra > 0 then u.2.2.2 ++ str "\t\t\t; unknown header bytes" ++ str "\n" else u.2.2.2
    match readTracks F commentsQ hexMode fuel trackcount.toNat 0 tempout6 u.1 u.2.2.1 with
    | Run.undef => Run.undef
    | Run.spin => Run.spin
    | Run.ret none => Run.ret (0, out)
    | Run.ret (some tempout) => Run.ret (1, out ++ tempout)
  | _, _ => Run.undef

/-- The part of `Binasc::outputStyleMidi` after the header chunk marker: the header
size, the file type and the number of tracks; `ch` holds the last byte read. -/
def outputStyleMidiHeader (F : FloatOps) (commentsQ : Bool) (fuel : Nat) (out : List Nat)
    (input : IStream) (ch : Nat) : Run (Nat × List Nat) :=
  let tempout1 := str "\"MThd\"" ++
    (if commentsQ then str "\t\t\t; MIDI header chunk marker" else []) ++ str "\n"
  let h := readBigEndian 4 input ch 0
  let headersize := bitsToInt h.1
  let tempout2 := tempout1 ++ str "4'" ++ showInt headersize ++
    (if commentsQ then str "\t\t\t; bytes to follow in header chunk" else []) ++ str "\n"
  let f := readBigEndian 2 h.2.2 h.2.1 0
  let filetype := bitsToInt f.1
  let tempout3 := tempout2 ++ str "2'" ++ showInt filetype ++
    (if commentsQ then
      str "\t\t\t; file format: Type-" ++ showInt filetype ++ str " (" ++
        (if filetype = 0 then str "single track"
         else if filetype = 1 then str "multitrack"
         else if filetype = 2 then str "multisegment"
         else str "unknown") ++ str ")"
     else []) ++ str "\n"
  let t := readBigEndian 2 f.2.2 f.2.1 0
  let trackcount := bitsToInt t.1
  let tempout4 := tempout3 ++ str "2'" ++ showInt trackcount ++
    (if commentsQ then str "\t\t\t; number of tracks" else []) ++ str "\n"
  outputStyleMidiTracks F commentsQ fuel out tempout4 headersize trackcount t.2.2 t.2.1

/-- `Binasc::outputStyleMidi` on a stream just opened on `input`: the value returned
and the stream written to.  `fuel` bounds the number of events of a track and the
length of a variable-length value. -/
def outputStyleMidi (F : FloatOps) (commentsQ : Bool) (fuel : Nat) (out input : List Nat) :
    Run (Nat × List Nat) :=
  let r0 := (IStream.open input).read1 none
  if r0.2.eofbit then Run.ret (0, out) else
  match r0.1 with
  | none => Run.undef
  | some c0 =>
    if c0 ≠ 77 then Run.ret (0, out) else                              -- 'M'
    let r1 := r0.2.read1 (some c0)
    let c1 := r1.1.getD c0
    if c1 ≠ 84 then Run.ret (0, out) else                              -- 'T'
    let r2 := r1.2.read1 (some c1)
    let c2 := r2.1.getD c1
    if c2 ≠ 104 then Run.ret (0, out) else                             -- 'h'
    let r3 := r2.2.read1 (some c2)
    let c3 := r3.1.getD c2
    if c3 ≠ 100 then Run.ret (0, out) else                             -- 'd'
    outputStyleMidiHeader F commentsQ fuel out r3.2 c3

/-! ## Standard MIDI files

The files on which the MIDI decoder and the encoder are compared: a header of
declared length at most six, and tracks made of events that the decoder prints as
words the encoder reads back. -/

/-- What follows the delta time and the status byte of an event: two data bytes, one
data byte, the length and the bytes of a system exclusive continuation, or the type,
the length and the bytes of a meta event. -/
inductive Payload where
  | two (d1 d2 : Nat)
  | one (d1 : Nat)
  | sysex (bytes : List Nat)
  | metaEvent (type : Nat) (bytes : List Nat)
deriving DecidableEq, Repr

/-- An event of a track: the delta time, the status byte unless the event uses
running status, and what follows. -/
structure Event where
  delta : Nat
  status : Option Nat
  body : Payload
deriving DecidableEq, Repr

/-- A track chunk: the size that its header declares and its events. -/
structure Track where
  size : Nat
  events : List Event
deriving DecidableEq, Repr

/-- A MIDI file: the declared length of the header, the format, the two bytes of the
division and the tracks. -/
structure MidiFile where
  headerSize : Nat
  format : Nat
  division1 : Nat
  division2 : Nat
  tracks : List Track
deriving DecidableEq, Repr

/-- The bytes of the payload of an event. -/
def Payload.bytes : Payload → List Nat
  | Payload.two d1 d2 => [d1, d2]
  | Payload.one d1 => [d1]
  | Payload.sysex bs => vlvShape bs.length ++ bs
  | Payload.metaEvent ty bs => ty :: (vlvShape bs.length ++ bs)

/-- The bytes of an event. -/
def Event.bytes (e : Event) : List Nat :=
  vlvShape e.delta ++ (e.status.toList ++ e.body.bytes)

/-- The command in force for an event, given the command before it. -/
def Event.command (command : Nat) (e : Event) : Nat := e.status.getD command

/-- Whether the event is the end-of-track meta event. -/
def Event.isEnd (e : Event) : Bool :=
  match e.body with
  | Payload.metaEvent ty _ => decide (ty = 0x2f)
  | _ => false

/-- The bytes of the events of a track. -/
def eventsBytes (events : List Event) : List Nat := (events.map Event.bytes).flatten

/-- The bytes of a track chunk. -/
def Track.bytes (t : Track) : List Nat :=
  str "MTrk" ++ ((lowBytes 4 t.size).reverse ++ eventsBytes t.events)

/-- The bytes of a MIDI file. -/
def MidiFile.bytes (m : MidiFile) : List Nat :=
  str "MThd" ++ ((lowBytes 4 m.headerSize).reverse ++ ((lowBytes 2 m.format).reverse ++
    ((lowBytes 2 m.tracks.length).reverse ++
      (m.division1 :: m.division2 :: (m.tracks.map Track.bytes).flatten))))

/-- A text that comes back unchanged from between double quotes: no null character,
no newline, no double quote, and no backslash at the end. -/
def quotable (bs : List Nat) : Prop :=
  (0 : Nat) ∉ bs ∧ (10 : Nat) ∉ bs ∧ (34 : Nat) ∉ bs ∧ bs.getLast? ≠ some 92

/-- The meta events kept: the tempo event is left out, and the types that the decoder
reads with a fixed layout have the length of that layout. -/
def metaOk (ty : Nat) (bs : List Nat) : Prop :=
  if ty = 0x00 then bs.length = 2
  else if ty = 0x20 ∨ ty = 0x21 then bs.length = 1
  else if ty = 0x51 then False
  else if ty = 0x54 then bs.length = 5
  else if ty = 0x58 then bs.length = 4
  else if ty = 0x59 then bs.length = 2
  else if 0x01 ≤ ty ∧ ty ≤ 0x09 then quotable bs
  else True

/-- The payloads kept under the command in force; `running` tells that the event has
no status byte, so that its first byte is below `0x80`. -/
def Payload.ok (running : Bool) (command : Nat) : Payload → Prop
  | Payload.two d1 d2 =>
    (command &&& 0xf0 = 0x80 ∨ command &&& 0xf0 = 0x90 ∨ command &&& 0xf0 = 0xA0 ∨
      command &&& 0xf0 = 0xB0 ∨ command &&& 0xf0 = 0xE0) ∧
    d1 < 256 ∧ d2 < 256 ∧ (running = true → d1 < 0x80)
  | Payload.one d1 =>
    (command &&& 0xf0 = 0xC0 ∨ command &&& 0xf0 = 0xD0) ∧ d1 < 256 ∧
    (running = true → d1 < 0x80)
  | Payload.sysex bs =>
    command = 0xf7 ∧ bs.length < 2 ^ 31 ∧ (∀ b ∈ bs, b < 256) ∧
    (running = true → bs.length < 0x80)
  | Payload.metaEvent ty bs =>
    command = 0xff ∧ ty < 256 ∧ bs.length < 2 ^ 31 ∧ (∀ b ∈ bs, b < 256) ∧ metaOk ty bs ∧
    (running = true → ty < 0x80)

/-- The events kept under the command before them. -/
def Event.ok (command : Nat) (e : Event) : Prop :=
  e.delta < 2 ^ 31 ∧ (∀ s ∈ e.status, 0x80 ≤ s ∧ s < 256) ∧
  e.body.ok e.status.isNone (e.command command)

/-- The lists of events kept: every event is kept under the command before it, and
the end-of-track event is the last one and no other. -/
def eventsOk : Nat → List Event → Prop
  | _, [] => False
  | command, [e] => e.ok command ∧ e.isEnd = true
  | command, e :: e1 :: es =>
    e.ok command ∧ e.isEnd = false ∧ eventsOk (e.command command) (e1 :: es)

/-- The tracks kept. -/
def Track.ok (t : Track) : Prop := t.size < 2 ^ 31 ∧ eventsOk 0 t.events

/-- The files kept. -/
def MidiFile.ok (m : MidiFile) : Prop :=
  m.headerSize ≤ 6 ∧ m.format < 65536 ∧ m.tracks.length < 65536 ∧
  m.division1 < 256 ∧ m.division2 < 256 ∧ ∀ t ∈ m.tracks, t.ok

/-- The text of `output << " '" << (int)byte` for a `char`. -/
def dataItem (b : Nat) : List Nat := str " '" ++ showInt (charToInt b)

/-- The text of a byte in the default loop of the meta events. -/
def metaItem (c : Nat) : List Nat :=
  str " " ++ (if c < 0x10 then str "0" else []) ++ showHex c

/-- The text of the bytes of a meta event. -/
def metaText (ty : Nat) (bs : List Nat) : List Nat :=
  if ty = 0x00 then str " 2'" ++ showNat (bs.getD 0 0 * 256 + bs.getD 1 0)
  else if ty = 0x20 ∨ ty = 0x21 ∨ ty = 0x54 ∨ ty = 0x58 ∨ ty = 0x59 then
    (bs.map decItem).flatten
  else if 0x01 ≤ ty ∧ ty ≤ 0x09 then str " \"" ++ bs ++ str "\""
  else (bs.map metaItem).flatten

/-- The text of the payload of an event. -/
def Payload.text : Payload → List Nat
  | Payload.two d1 d2 => dataItem d1 ++ dataItem d2
  | Payload.one d1 => dataItem d1
  | Payload.sysex bs => str " v" ++ showNat bs.length ++ (bs.map hexItem).flatten
  | Payload.metaEvent ty bs =>
    str " " ++ showHex ty ++ str " v" ++ showNat bs.length ++ metaText ty bs

/-- The comment of an event. -/
def Payload.comment (command : Nat) : Payload → List Nat
  | Payload.two d1 d2 =>
    if command &&& 0xf0 = 0x80 then str "note-off " ++ keyToPitchName (charToInt d1)
    else if command &&& 0xf0 = 0x90 then
      (if charToInt d2 = 0 then str "note-off " ++ keyToPitchName (charToInt d1)
       else str "note-on " ++ keyToPitchName (charToInt d1))
    else if command &&& 0xf0 = 0xA0 then str "after-touch"
    else if command &&& 0xf0 = 0xB0 then str "controller"
    else str "pitch-bend"
  | Payload.one _ =>
    if command &&& 0xf0 = 0xC0 then str "patch-change" else str "channel pressure"
  | Payload.sysex _ => []
  | Payload.metaEvent ty _ => metaComment ty

/-- The line of text of an event. -/
def Event.text (commentsQ : Bool) (command : Nat) (e : Event) : List Nat :=
  str "v" ++ showNat e.delta ++ str "\t" ++
    (match e.status with
     | none => str "   "
     | some s => showHex s) ++
    e.body.text ++
    (if commentsQ then str "\t; " ++ e.body.comment (e.command command) else [])

/-- The lines of text of the events of a track. -/
def eventsLines (commentsQ : Bool) : Nat → List Event → List (List Nat)
  | _, [] => []
  | command, e :: es =>
    e.text commentsQ command :: eventsLines commentsQ (e.command command) es

/-- The lines of text of track number `i`. -/
def Track.lines (commentsQ : Bool) (i : Nat) (t : Track) : List (List Nat) :=
  [[], str ";;; TRACK " ++ showNat i ++ str " ----------------------------------",
    str "\"MTrk\"" ++ (if commentsQ then str "\t\t\t; MIDI track chunk marker" else []),
    str "4'" ++ showNat t.size ++
      (if commentsQ then str "\t\t\t; bytes to follow in track chunk" else [])] ++
  eventsLines commentsQ 0 t.events ++
  (if (eventsBytes t.events).length ≠ t.size then
    [str "; TRACK SIZE ERROR, ACTUAL SIZE: " ++ showNat (eventsBytes t.events).length]
   else [])

/-- The lines of text of the tracks from number `i` on. -/
def tracksLines (commentsQ : Bool) : Nat → List Track → List (List Nat)
  | _, [] => []
  | i, t :: ts => t.lines commentsQ i ++ tracksLines commentsQ (i + 1) ts

/-- The lines of text of the header. -/
def MidiFile.headerLines (commentsQ : Bool) (m : MidiFile) : List (List Nat) :=
  [str "\"MThd\"" ++ (if commentsQ then str "\t\t\t; MIDI header chunk marker" else []),
    str "4'" ++ showNat m.headerSize ++
      (if commentsQ then str "\t\t\t; bytes to follow in header chunk" else []),
    str "2'" ++ showNat m.format ++
      (if commentsQ then
        str "\t\t\t; file format: Type-" ++ showNat m.format ++ str " (" ++
          (if m.format = 0 then str "single track"
           else if m.format = 1 then str "multitrack"
           else if m.format = 2 then str "multisegment"
           else str "unknown") ++ str ")"
       else []),
    str "2'" ++ showNat m.tracks.length ++
      (if commentsQ then str "\t\t\t; number of tracks" else [])] ++
  (if 0x80 ≤ m.division1 then
    [str "1'-" ++ showNat (0xff - m.division1 + 1) ++
        (if commentsQ then str "\t\t\t; SMPTE frames/second" else []),
      str "1'" ++ showNat m.division2 ++
        (if commentsQ then str "\t\t\t; subframes per frame" else [])]
   else
    [str "2'" ++ showNat (m.division1 * 256 + m.division2) ++
        (if commentsQ then str "\t\t\t; ticks per quarter note" else [])])

/-- The lines of text of a MIDI file. -/
def MidiFile.lines (commentsQ : Bool) (m : MidiFile) : List (List Nat) :=
  m.headerLines commentsQ ++ tracksLines commentsQ 0 m.tracks

/-! ## Words and lines of a text -/

/-- The text after a word ends the word: it is empty or starts with a space, a
newline or a tab. -/
def wordEnd (tail : List Nat) : Prop :=
  tail = [] ∨ ∃ t ts, tail = t :: ts ∧ (t = 32 ∨ t = 10 ∨ t = 9)

/-- The text holds no more words: it ends a word and `processLine` writes nothing
for it. -/
def lineEnd (F : FloatOps) (tail : List Nat) : Prop :=
  wordEnd tail ∧ ∀ out, processLine F out tail = Run.ret (1, out)

/-- The characters that a line read by `getline` can hold: neither the newline nor
the null character. -/
def lineText (l : List Nat) : Prop := ∀ x ∈ l, x ≠ 10 ∧ x ≠ 0

/-! ## An example file -/

/-- A file of one track for the examples: a note played with running status, a track
name, a time signature, a system exclusive continuation, a patch change, a sequence
number and the end of the track. -/
def exampleFile : MidiFile :=
  ⟨6, 1, 0, 96, [⟨39, [
    ⟨0, some 0x90, Payload.two 60 100⟩,
    ⟨128, none, Payload.two 62 0⟩,
    ⟨0, some 0xff, Payload.metaEvent 3 [65, 66]⟩,
    ⟨0, none, Payload.metaEvent 0x58 [4, 2, 24, 8]⟩,
    ⟨5, some 0xf7, Payload.sysex [1, 200]⟩,
    ⟨5, some 0xc3, Payload.one 200⟩,
    ⟨0, some 0xff, Payload.metaEvent 0 [1, 200]⟩,
    ⟨0, some 0xff, Payload.metaEvent 0x2f []⟩]⟩]⟩

/-! ## Files on which the round trip fails -/

/-- A header that declares no track, followed by one more byte. -/
def trailingByteFile : List Nat := [77, 84, 104, 100, 0, 0, 0, 6, 0, 0, 0, 0, 0, 96, 0]

/-- The text that `outputStyleMidi` writes for `trailingByteFile`, without comments. -/
def trailingByteText : List Nat := str "\"MThd\"\n4'6\n2'0\n2'0\n2'96\n"

/-- A track whose only event has the delta time 0 written on two bytes, `80 00`. -/
def longDeltaFile : List Nat :=
  [77, 84, 104, 100, 0, 0, 0, 6, 0, 0, 0, 1, 0, 96,
    77, 84, 114, 107, 0, 0, 0, 5, 0x80, 0, 0xff, 0x2f, 0]

/-- The text that `outputStyleMidi` writes for `longDeltaFile`, without comments. -/
def longDeltaText : List Nat :=
  str "\"MThd\"\n4'6\n2'0\n2'1\n2'96\n\n;;; TRACK 0 ----------------------------------\n\"MTrk\"\n4'5\nv0\tff 2f v0\n"

/-- A track with a system exclusive event `f0 01` before the end of the track. -/
def sysexFile : List Nat :=
  [77, 84, 104, 100, 0, 0, 0, 6, 0, 0, 0, 1, 0, 96,
    77, 84, 114, 107, 0, 0, 0, 7, 0, 0xf0, 1, 0, 0xff, 0x2f, 0]

/-- The text that `outputStyleMidi` writes for `sysexFile`, without comments. -/
def sysexText : List Nat :=
  str "\"MThd\"\n4'6\n2'0\n2'1\n2'96\n\n;;; TRACK 0 ----------------------------------\n\"MTrk\"\n4'7\nv0\tf0\nv0\tff 2f v0\n"

/-- A track with a text meta event whose text is one double quote. -/
def quoteFile : List Nat :=
  [77, 84, 104, 100, 0, 0, 0, 6, 0, 0, 0, 1, 0, 96,
    77, 84, 114, 107, 0, 0, 0, 9, 0, 0xff, 1, 1, 0x22, 0, 0xff, 0x2f, 0]

/-- The text that `outputStyleMidi` writes for `quoteFile`, without comments. -/
def quoteText : List Nat :=
  str "\"MThd\"\n4'6\n2'0\n2'1\n2'96\n\n;;; TRACK 0 ----------------------------------\n\"MTrk\"\n4'9\nv0\tff 1 v1 \"\"\"\nv0\tff 2f v0\n"

/-- A track made of the status byte `fe` and one more byte. -/
def activeSensingFile : List Nat :=
  [77, 84, 104, 100, 0, 0, 0, 6, 0, 0, 0, 1, 0, 96, 77, 84, 114, 107, 0, 0, 0, 3, 0, 0xfe, 0]

/-- The text that `outputStyleMidi` writes for `activeSensingFile`, without comments. -/
def activeSensingText : List Nat :=
  str "\"MThd\"\n4'6\n2'0\n2'1\n2'96\n\n;;; TRACK 0 ----------------------------------\n\"MTrk\"\n4'3\n\n"

/-- A header of declared length seven and a track of declared size ten. -/
def longHeaderFile : List Nat :=
  [77, 84, 104, 100, 0, 0, 0, 7, 0, 0, 0, 1, 0, 96, 0,
    77, 84, 114, 107, 0, 0, 0, 10, 0, 0xff, 0x2f, 0]

/-- The text that `outputStyleMidi` writes for `longHeaderFile`, without comments. -/
def longHeaderText : List Nat :=
  str "\"MThd\"\n4'7\n2'0\n2'1\n2'96\n00\t\t\t; unknown header bytes\n\n;;; TRACK 0 ----------------------------------\n\"MTrk\"\n4'a\nv0\tff 2f v0\n; TRACK SIZE ERROR, ACTUAL SIZE: 4\n"

/-! ## Definitions that follow the words of the specification: words -/

/-- A hexadecimal digit, in either case. -/
def isHexChar (c : Nat) : Prop :=
  (48 ≤ c ∧ c ≤ 57) ∨ (97 ≤ c ∧ c ≤ 102) ∨ (65 ≤ c ∧ c ≤ 70)

instance : DecidablePred isHexChar := fun c => by unfold isHexChar; infer_instance

/-- The value of a hexadecimal digit: `0`..`9`, `a`..`f` or `A`..`F`. -/
def hexCharValue (c : Nat) : Nat :=
  if c ≤ 57 then c - 48 else if 97 ≤ c then c - 87 else c - 55

/-- A word of hexadecimal digits read in base 16. -/
def base16Value (word : List Nat) : Nat :=
  word.foldl (fun a c => 16 * a + hexCharValue c) 0

/-- The value of a list of decimal digits. -/
def decimalValue (ds : List Nat) : Nat := ds.foldl (fun a c => 10 * a + (c - 48)) 0

/-- The `k` base-256 digits of a number, most significant first. -/
def base256 (k x : Nat) : List Nat := (List.range k).reverse.map (fun i => x / 256 ^ i % 256)

/-- A decimal word with an explicit byte count: the digit of the byte count with the
marker `u` or `U`, if any, before or after it, the quote, the minus sign, if any, and
the digits. -/
def sizedWord (k : Nat) (marker : List Nat) (markerFirst negative : Bool) (ds : List Nat) :
    List Nat :=
  (if markerFirst then marker ++ [48 + k] else (48 + k) :: marker) ++
    39 :: ((if negative then [45] else []) ++ ds)

/-- The endian marker: `u` or `U`. -/
def isEndianMark (c : Nat) : Prop := c = 117 ∨ c = 85

/-- A digit that stands for a byte count: `1`, `2`, `3`, `4` or `8`. -/
def isCountDigit (c : Nat) : Prop := c = 49 ∨ c = 50 ∨ c = 51 ∨ c = 52 ∨ c = 56

/-- The words that the specification has `processDecimalWord` refuse, in the order of
the claim: no quote; a second quote; a second minus sign; a minus sign not right after
the quote; a period before the quote; a second period; `u` or `U` after the quote; a
second `u` or `U`; two byte-count digits before the quote; one of the digits 0, 5, 6,
7, 9 before the quote; a character that is none of digit, quote, minus, period, `u`,
`U`; nothing after the quote; the byte count 8 without a period; a period with a byte
count of 1, 2 or 3; a minus sign with the byte count 3. -/
def decimalRefused (word : List Nat) : Prop :=
  (39 : Nat) ∉ word ∨
  (∃ a b c, word = a ++ 39 :: (b ++ 39 :: c)) ∨
  (∃ a b c, word = a ++ 45 :: (b ++ 45 :: c)) ∨
  (∃ a b, word = a ++ 45 :: b ∧ a.getLast? ≠ some 39) ∨
  (∃ a b, word = a ++ 46 :: b ∧ (39 : Nat) ∉ a) ∨
  (∃ a b c, word = a ++ 46 :: (b ++ 46 :: c)) ∨
  (∃ a b u, word = a ++ u :: b ∧ isEndianMark u ∧ (39 : Nat) ∈ a) ∨
  (∃ a b c u1 u2, word = a ++ u1 :: (b ++ u2 :: c) ∧ isEndianMark u1 ∧ isEndianMark u2) ∨
  (∃ a b c d1 d2, word = a ++ d1 :: (b ++ d2 :: c) ∧ isCountDigit d1 ∧ isCountDigit d2 ∧
    (39 : Nat) ∉ a ∧ (39 : Nat) ∉ b) ∨
  (∃ a b d, word = a ++ d :: b ∧ (d = 48 ∨ d = 53 ∨ d = 54 ∨ d = 55 ∨ d = 57) ∧
    (39 : Nat) ∉ a) ∨
  (∃ c ∈ word, ¬ (isdigit c = true ∨ c = 39 ∨ c = 45 ∨ c = 46 ∨ isEndianMark c)) ∨
  (∃ a, word = a ++ [39]) ∨
  ((∃ a b, word = a ++ 56 :: b ∧ (39 : Nat) ∉ a) ∧ (46 : Nat) ∉ word) ∨
  ((∃ a b d, word = a ++ d :: b ∧ (d = 49 ∨ d = 50 ∨ d = 51) ∧ (39 : Nat) ∉ a) ∧
    (46 : Nat) ∈ word) ∨
  ((∃ a b, word = a ++ 51 :: b ∧ (39 : Nat) ∉ a) ∧ (45 : Nat) ∈ word)

/-- What a run of the validation loop of `processDecimalWord` over the characters `a`
keeps: an index that is set stays set, the byte count that is set stays as it is, and
the quote, the minus sign and the period set their index. -/
def scanKeeps (a : List Nat) (s s' : DecimalScan) : Prop :=
  (s.quoteIndex ≠ -1 → s'.quoteIndex ≠ -1) ∧
  (s.signIndex ≠ -1 → s'.signIndex ≠ -1) ∧
  (s.periodIndex ≠ -1 → s'.periodIndex ≠ -1) ∧
  (s.endianIndex ≠ -1 → s'.endianIndex ≠ -1) ∧
  (s.byteCount ≠ -1 → s'.byteCount = s.byteCount) ∧
  ((39 : Nat) ∈ a → s'.quoteIndex ≠ -1) ∧
  ((45 : Nat) ∈ a → s'.signIndex ≠ -1) ∧
  ((46 : Nat) ∈ a → s'.periodIndex ≠ -1) ∧
  (s.quoteIndex = -1 → (39 : Nat) ∉ a → s'.quoteIndex = -1) ∧
  (s.periodIndex = -1 → (46 : Nat) ∉ a → s'.periodIndex = -1)

/-- A text with every double quote replaced by a backslash and a double quote. -/
def escapeQuotes : List Nat → List Nat
  | [] => []
  | c :: cs => (if c = 34 then [92, 34] else [c]) ++ escapeQuotes cs

/-- A text after which `processLine` looks for the start of a word, outside any quoted
string: nothing; a space, newline or tab before such a text; a word with the space,
newline or tab that ends it; a quoted string with its closing quote; or a comment. -/
inductive WordBoundary : List Nat → Prop
  | nil : WordBoundary []
  | space (c : Nat) (p : List Nat) : (c = 32 ∨ c = 10 ∨ c = 9) → WordBoundary p →
      WordBoundary (c :: p)
  | word (w : List Nat) (c : Nat) (p : List Nat) : w ≠ [] →
      (∀ x ∈ w, x ≠ 32 ∧ x ≠ 10 ∧ x ≠ 9) →
      (w.getD 0 0 ≠ 34 ∧ w.getD 0 0 ≠ 59 ∧ w.getD 0 0 ≠ 35 ∧ w.getD 0 0 ≠ 47) →
      (c = 32 ∨ c = 10 ∨ c = 9) → WordBoundary p → WordBoundary (w ++ c :: p)
  | quoted (s p : List Nat) : s.getLast? ≠ some 92 → WordBoundary p →
      WordBoundary (34 :: (escapeQuotes s ++ 34 :: p))
  | comment (c : Nat) (r : List Nat) : (c = 59 ∨ c = 35 ∨ c = 47) → WordBoundary (c :: r)

/-- The bytes of a header chunk: the marker, the declared length, the format, the
declared number of tracks and the two bytes of the division. -/
def headerBytes (headerSize format trackCount division1 division2 : Nat) : List Nat :=
  str "MThd" ++ ((lowBytes 4 headerSize).reverse ++ ((lowBytes 2 format).reverse ++
    ((lowBytes 2 trackCount).reverse ++ [division1, division2])))

/-- A track made of the end-of-track event alone. -/
def endTrack : Track := ⟨4, [⟨0, some 0xff, Payload.metaEvent 0x2f []⟩]⟩

/-- `Binasc::readFromBinary(ostream&, istream&)` when `midiQ` is set: the value of
`outputStyleMidi` is returned. -/
def readFromBinaryMidi (F : FloatOps) (commentsQ : Bool) (fuel : Nat) (out input : List Nat) :
    Run (Nat × List Nat) :=
  outputStyleMidi F commentsQ fuel out input

/-- A file whose only track ends inside its end-of-track event: the event declares
one byte of data, which is missing. -/
def truncatedEndFile : List Nat :=
  [77, 84, 104, 100, 0, 0, 0, 6, 0, 0, 0, 1, 0, 96,
    77, 84, 114, 107, 0, 0, 0, 5, 0, 0xff, 0x2f, 1]

/-- The text that `outputStyleMidi` writes for `truncatedEndFile`, without comments. -/
def truncatedEndText : List Nat :=
  str "\"MThd\"\n4'6\n2'0\n2'1\n2'96\n\n;;; TRACK 0 ----------------------------------\n\"MTrk\"\n4'5\nv0\tff 2f v1 2f\n"

/-! ## Double precision

The computations on `double` of the tempo and pitch-bend words, for a platform on
which `double` is the IEEE 754 binary64 format, every operation is rounded to the
nearest `double` with ties to even, and `strtod` gives the `double` nearest to the
literal.  A finite `double` that is not negative is held as the natural number of
which it is the multiple by `2^-1074`. -/

/-- The `double` 1.0 as a multiple of `2^-1074`. -/
def doubleOne : Nat := 2 ^ 1074

/-- The integer nearest to `n / d`, the even one of the two when they are equally
near. -/
def roundEven (n d : Nat) : Nat :=
  if 2 * (n % d) < d then n / d
  else if d < 2 * (n % d) then n / d + 1
  else if n / d % 2 = 0 then n / d else n / d + 1

/-- The loop that counts the halvings of `n` down to 1; `fuel` bounds their number. -/
def floorLog2Loop : Nat → Nat → Nat → Nat
  | 0, _, acc => acc
  | fuel + 1, n, acc => if n < 2 then acc else floorLog2Loop fuel (n / 2) (acc + 1)

/-- The position of the highest bit of `n` that is set, 0 for 0. -/
def floorLog2 (n : Nat) : Nat := floorLog2Loop n n 0

/-- The `double` nearest to `n / d`, as a multiple of `2^-1074`; `none` is infinity.
Around a number whose multiple of `2^-1074` has `b + 1` bits the doubles are the
multiples of `2^(b - 52)` (of 1 for the subnormal numbers). -/
def toDouble (n d : Nat) : Option Nat :=
  let g := floorLog2 (n * doubleOne / d) - 52
  let m := roundEven (n * doubleOne) (d * 2 ^ g) * 2 ^ g
  if m < 2 ^ 1024 * doubleOne then some m else none

/-- The sign and the value, as a numerator and a denominator, of a text that `strtod`
reads to its end as a decimal literal: an optional sign, then digits with at most one
period and at least one digit.  Other texts are left out (`none`). -/
def strtodDecimal (s : List Nat) : Option (Bool × Nat × Nat) :=
  let body := if s.head? = some 45 ∨ s.head? = some 43 then s.drop 1 else s
  let ip := body.takeWhile isdigit
  let rest := body.dropWhile isdigit
  let fp := if rest.head? = some 46 then rest.drop 1 else []
  if fp.all isdigit ∧ (rest = [] ∨ rest.head? = some 46) ∧ ip ++ fp ≠ [] then
    some (decide (s.head? = some 45), decimalValue (ip ++ fp), 10 ^ fp.length)
  else none

/-- The conversion of a `double` that is not negative to `int`: the fraction is
dropped; the result is `none` when the conversion is undefined, the `double` being
infinite or not below `2^31`. -/
def doubleToInt (x : Option Nat) : Option Nat :=
  x.bind fun r => if r / doubleOne < 2 ^ 31 then some (r / doubleOne) else none

/-- The `double` `60.0 * 1000000.0 / value + 0.5` for a `double` `value` that is not
negative; `none` is infinity. -/
def tempoDouble : Option Nat → Option Nat
  | none => toDouble 1 2                               -- 6e7 / inf = 0, then 0.5
  | some value =>
    if value = 0 then none                             -- 6e7 / 0 = inf
    else
      (toDouble (60000000 * doubleOne) value).bind fun q =>
        toDouble (2 * q + doubleOne) (2 * doubleOne)

/-- The value of `int(60.0 * 1000000.0 / value + 0.5)` for `value = fabs(strtod(s))`
and `s` a decimal literal. -/
def tempoIeee (s : List Nat) : Option Nat :=
  (strtodDecimal s).bind fun p => doubleToInt (tempoDouble (toDouble p.2.1 p.2.2))

/-- The absolute value of a `double` after the two comparisons with 1.0 and -1.0 of
`processMidiPitchBendWord`; `none` is infinity. -/
def clampToOne : Option Nat → Nat
  | none => doubleOne
  | some value => if value > doubleOne then doubleOne else value

/-- The `double` `((1 << 13)-0.5) * (value + 1.0) + 0.5` for a `double` `value` of
absolute value `c`, at most 1.0, that is negative when `neg` is set. -/
def bendDouble (neg : Bool) (c : Nat) : Option Nat :=
  (toDouble (if neg then doubleOne - c else doubleOne + c) doubleOne).bind fun sum =>
    (toDouble (16383 * sum) (2 * doubleOne)).bind fun p =>
      toDouble (2 * p + doubleOne) (2 * doubleOne)

/-- The value of `(int)(((1 << 13)-0.5) * (value + 1.0) + 0.5)` for `strtod(s)` clamped
to the range -1.0 .. 1.0 and `s` a decimal literal. -/
def bendIeee (s : List Nat) : Option Nat :=
  (strtodDecimal s).bind fun p =>
    doubleToInt (bendDouble p.1 (clampToOne (toDouble p.2.1 p.2.2)))

/-- The floating point computations agree with the model of double precision on the
decimal literals for which the model gives a value. -/
def FloatOps.ieee (F : FloatOps) : Prop :=
  (∀ s v, tempoIeee s = some v → F.tempoInt s = (v : Int)) ∧
  (∀ s v, bendIeee s = some v → F.bendInt s = (v : Int))

/-- A `FloatOps` that follows the model of double precision for the tempo and
pitch-bend words. -/
def FloatOps.binary64 : FloatOps :=
  ⟨fun _ => [0, 0, 0, 0], fun _ => [0, 0, 0, 0, 0, 0, 0, 0],
    fun s => (((tempoIeee s).getD 0 : Nat) : Int), fun s => (((bendIeee s).getD 0 : Nat) : Int),
    fun _ => [48]⟩

/-- The integer nearest to `n / d`, the greater one of the two when they are equally
near: `round` on a number that is not negative. -/
def roundHalfUp (n d : Nat) : Nat := (2 * n + d) / (2 * d)

/-! ## Variable-length values and the bytes of an event -/

/-- A variable-length value as `getVLV` reads it: bytes with the top bit set and then
one byte with the top bit clear. -/
def isVlv (bs : List Nat) : Prop :=
  ∃ hs l, bs = hs ++ [l] ∧ (∀ h ∈ hs, 0x80 ≤ h ∧ h < 256) ∧ l < 0x80

/-- The number that the bytes of a variable-length value stand for, seven bits a
byte, the most significant first, as a 32-bit pattern. -/
def vlvValue (bs : List Nat) : Nat :=
  bs.foldl (fun a b => (a * 128 + b % 128) % 2 ^ 32) 0

/-- The commands of the channel voice messages that have two data bytes: high nibble
8, 9, A, B or E. -/
def twoDataBytes (command : Nat) : Prop :=
  command &&& 0xf0 = 0x80 ∨ command &&& 0xf0 = 0x90 ∨ command &&& 0xf0 = 0xA0 ∨
    command &&& 0xf0 = 0xB0 ∨ command &&& 0xf0 = 0xE0

/-- The commands of the channel voice messages that have one data byte: high nibble
C or D. -/
def oneDataByte (command : Nat) : Prop :=
  command &&& 0xf0 = 0xC0 ∨ command &&& 0xf0 = 0xD0

/-- The number of bytes that `readMidiEvent` reads after the length field of a meta
event of type `ty` and declared length `length`: the types 00, 20, 21, 51, 54, 58 and
59 have a fixed layout, for the others the declared length counts. -/
def metaBytesRead (ty : Nat) (length : Int) : Nat :=
  if ty = 0x00 then 2
  else if ty = 0x20 ∨ ty = 0x21 then 1
  else if ty = 0x51 then 3
  else if ty = 0x54 then 5
  else if ty = 0x58 then 4
  else if ty = 0x59 then 2
  else length.toNat

/-! ## The option values -/

/-- The option values of a `Binasc` object. -/
structure Options where
  bytesQ : Int
  commentsQ : Int
  midiQ : Int
  maxLineLength : Int
  maxLineBytes : Int
deriving DecidableEq, Repr

/-- `Binasc::Binasc`: the default option values. -/
def Options.default : Options := ⟨1, 0, 0, 75, 25⟩

/-- `Binasc::setLineLength`: the value returned and the object afterwards. -/
def setLineLength (b : Options) (length : Int) : Int × Options :=
  let b1 := if length < 1 then { b with maxLineLength := 75 }
    else { b with maxLineLength := length }
  (b1.maxLineLength, b1)

/-- `Binasc::getLineLength` -/
def getLineLength (b : Options) : Int := b.maxLineLength

/-- `Binasc::setLineBytes`: the value returned and the object afterwards. -/
def setLineBytes (b : Options) (length : Int) : Int × Options :=
  let b1 := if length < 1 then { b with maxLineBytes := 25 }
    else { b with maxLineBytes := length }
  (b1.maxLineBytes, b1)

/-- `Binasc::getLineBytes`, which returns `maxLineLength`. -/
def getLineBytes (b : Options) : Int := b.maxLineLength

/-- `Binasc::setComments` -/
def setComments (b : Options) (state : Int) : Options :=
  { b with commentsQ := if state ≠ 0 then 1 else 0 }

/-- `Binasc::getComments` -/
def getComments (b : Options) : Int := b.commentsQ

/-- `Binasc::setBytes` -/
def setBytes (b : Options) (state : Int) : Options :=
  { b with bytesQ := if state ≠ 0 then 1 else 0 }

/-- `Binasc::getBytes` -/
def getBytes (b : Options) : Int := b.bytesQ

/-- `Binasc::setMidi` -/
def setMidi (b : Options) (state : Int) : Options :=
  { b with midiQ := if state ≠ 0 then 1 else 0 }

/-- `Binasc::getMidi` -/
def getMidi (b : Options) : Int := b.midiQ

/-- The names of the twelve pitch classes, from C on. -/
def pitchNames : List (List Nat) :=
  [str "C", str "C#", str "D", str "D#", str "E", str "F", str "F#", str "G", str "G#",
    str "A", str "A#", str "B"]

/-! ## The track-length diagnostic -/

/-- A file of two tracks, the first of which declares five bytes and holds four. -/
def sizeErrorFile : MidiFile :=
  ⟨6, 1, 0, 96, [⟨5, [⟨0, some 0xff, Payload.metaEvent 0x2f []⟩]⟩, endTrack]⟩

/-! ## The ASCII dump -/

/-- The variables of `outputStyleAscii`: the stream written to, the array
`outputWord`, `index`, `lineCount` and `type`. -/
structure AsciiState where
  out : List Nat
  outputWord : List Nat
  index : Nat
  lineCount : Int
  type : Nat
deriving DecidableEq, Repr

/-- The test `isprint(ch) && !isspace(ch)` of `outputStyleAscii`. -/
def isWordByte (ch : Nat) : Bool := isprint ch && !isspace ch

/-- The body of the loop of `outputStyleAscii` for the byte `ch`: `none` when a store
falls outside `outputWord`.  The sum `index + lineCount` stays below
`maxLineLength + 257` and is taken without the overflow of `int`. -/
def outputStyleAsciiStep (maxLineLength : Int) (st : AsciiState) (ch : Nat) :
    Option AsciiState := do
  let lastType := st.type
  let type := if isWordByte ch then 1 else 0
  -- start of a new word: the old word is written
  let st1 ←
    if type = 1 ∧ lastType = 0 then
      if (st.index : Int) + st.lineCount ≥ maxLineLength then
        (storeChar st.outputWord st.index 0).map
          (fun a => (⟨st.out ++ [10] ++ cString a, a, 0, (st.index : Int), type⟩ : AsciiState))
      else
        (storeChar st.outputWord st.index 0).map
          (fun a => (⟨(if st.lineCount ≠ 0 then st.out ++ [32] else st.out) ++ cString a, a, 0,
            (if st.lineCount ≠ 0 then st.lineCount + 1 else st.lineCount) + (st.index : Int),
            type⟩ : AsciiState))
    else some ⟨st.out, st.outputWord, st.index, st.lineCount, type⟩
  -- if (type == 1) outputWord[index++] = ch;
  if type = 1 then
    (storeChar st1.outputWord st1.index ch).map
      (fun a => (⟨st1.out, a, st1.index + 1, st1.lineCount, st1.type⟩ : AsciiState))
  else some st1

/-- The loop of `outputStyleAscii` on the bytes still to read. -/
def outputStyleAsciiLoop (maxLineLength : Int) : List Nat → AsciiState → Option AsciiState
  | [], st => some st
  | ch :: rest, st =>
    match outputStyleAsciiStep maxLineLength st ch with
    | none => none
    | some st1 => outputStyleAsciiLoop maxLineLength rest st1

/-- `Binasc::outputStyleAscii` on a stream just opened on `input`.  A store outside
the 256 bytes of `outputWord` is undefined behaviour. -/
def outputStyleAscii (maxLineLength : Int) (out input : List Nat) : Run (Nat × List Nat) :=
  match outputStyleAsciiLoop maxLineLength input ⟨out, List.replicate 256 0, 0, 0, 0⟩ with
  | none => Run.undef
  | some st => if st.index ≠ 0 then Run.ret (1, st.out ++ [10]) else Run.ret (1, st.out)

/-- One step of the division of a text into runs: the runs closed so far and the run
that is open. -/
def runStep (p : Nat → Bool) (s : List (List Nat) × List Nat) (c : Nat) :
    List (List Nat) × List Nat :=
  if p c then (s.1, s.2 ++ [c]) else (if s.2 = [] then s.1 else s.1 ++ [s.2], [])

/-- The runs closed so far together with the open run, when it is not empty. -/
def closeRuns (s : List (List Nat) × List Nat) : List (List Nat) :=
  if s.2 = [] then s.1 else s.1 ++ [s.2]

/-- The maximal runs of bytes that satisfy `p` in a text, in order. -/
def maximalRuns (p : Nat → Bool) (text : List Nat) : List (List Nat) :=
  closeRuns (text.foldl (runStep p) ([], []))

/-- The words of a text: its maximal runs of bytes that are not white space. -/
def textWords (text : List Nat) : List (List Nat) := maximalRuns (fun c => !isspace c) text

/-- The state of `outputStyleAscii` after a part of the input whose division into runs
is `s`: the words written are the runs closed before the word `w` held in
`outputWord`. -/
def AsciiInv (out0 : List Nat) (st : AsciiState) (s : List (List Nat) × List Nat) : Prop :=
  ∃ text w r, st.out = out0 ++ text ∧ st.outputWord = w ++ r ∧ st.outputWord.length = 256 ∧
    st.index = w.length ∧ (∀ c ∈ w, isWordByte c = true) ∧ 0 ≤ st.lineCount ∧
    (st.lineCount = 0 → textWords text = []) ∧
    ((st.type = 1 ∧ s.2 = w ∧ w ≠ [] ∧ s.1 = textWords text) ∨
     (st.type = 0 ∧ s.2 = [] ∧ w ≠ [] ∧ s.1 = textWords text ++ [w]) ∨
     (st.type = 0 ∧ s.2 = [] ∧ w = [] ∧ s.1 = [] ∧ text = [] ∧ st.lineCount = 0))

/-! ## The choice of the decoder -/

/-- `Binasc::readFromBinary(ostream&, istream&)`: the decoder that the options choose. -/
def readFromBinary (F : FloatOps) (b : Options) (fuel : Nat) (out input : List Nat) :
    Run (Nat × List Nat) :=
  if b.midiQ ≠ 0 then outputStyleMidi F (decide (b.commentsQ ≠ 0)) fuel out input
  else if b.bytesQ = 0 then outputStyleAscii b.maxLineLength out input
  else if b.bytesQ ≠ 0 ∧ b.commentsQ ≠ 0 then outputStyleBoth b.maxLineBytes out input
  else Run.ret (outputStyleBinary b.maxLineBytes out input)

/-- A file whose only track stops after a patch change, without an end-of-track
event. -/
def exhaustedFile : List Nat :=
  headerBytes 6 0 1 0 96 ++ [77, 84, 114, 107, 0, 0, 0, 3, 0, 0xC0, 5]

/-- A file that ends inside the first delta time of its only track. -/
def openDeltaFile : List Nat :=
  headerBytes 6 0 1 0 96 ++ [77, 84, 114, 107, 0, 0, 0, 5, 0x81]

/-! ## The extra bytes of the header -/

/-- The text of a byte of the header beyond the first six, as the loop of
`outputStyleMidi` prints it: `if (ch < 0x10) tempout << '0'; tempout << hex << (int)ch;`,
with nothing between one byte and the next. -/
def headerItem (ch : Nat) : List Nat := (if ch < 0x10 then str "0" else []) ++ showHex ch

/-- The lines of text of track number `i` when the numbers sent to `tempout` are
printed in decimal or, with `hexMode`, in hexadecimal. -/
def Track.linesBase (hexMode commentsQ : Bool) (i : Nat) (t : Track) : List (List Nat) :=
  [[], str ";;; TRACK " ++ showBase hexMode (i : Int) ++
      str " ----------------------------------",
    str "\"MTrk\"" ++ (if commentsQ then str "\t\t\t; MIDI track chunk marker" else []),
    str "4'" ++ showBase hexMode (t.size : Int) ++
      (if commentsQ then str "\t\t\t; bytes to follow in track chunk" else [])] ++
  eventsLines commentsQ 0 t.events ++
  (if (eventsBytes t.events).length ≠ t.size then
    [str "; TRACK SIZE ERROR, ACTUAL SIZE: " ++
      showBase hexMode ((eventsBytes t.events).length : Int)]
   else [])

/-- The lines of text of the tracks from number `i` on, in the given base. -/
def tracksLinesBase (hexMode commentsQ : Bool) : Nat → List Track → List (List Nat)
  | _, [] => []
  | i, t :: ts => t.linesBase hexMode commentsQ i ++ tracksLinesBase hexMode commentsQ (i + 1) ts

/-- The bytes of a file whose header is followed by the bytes `extra` before the
first track. -/
def extendedBytes (m : MidiFile) (extra : List Nat) : List Nat :=
  headerBytes m.headerSize m.format m.tracks.length m.division1 m.division2 ++
    (extra ++ (m.tracks.map Track.bytes).flatten)

/-- The lines of text of a file whose header holds the bytes `extra` beyond the first
six: the lines of the header, the line of the bytes `extra`, and the lines of the
tracks with their numbers in hexadecimal. -/
def extendedLines (commentsQ : Bool) (m : MidiFile) (extra : List Nat) : List (List Nat) :=
  m.headerLines commentsQ ++
    [(extra.map headerItem).flatten ++ str "\t\t\t; unknown header bytes"] ++
    tracksLinesBase true commentsQ 0 m.tracks

/-- A header of declared length seven and a track of three notes that declares its
size, sixteen bytes. -/
def hexSizeFile : MidiFile :=
  ⟨7, 0, 0, 96, [⟨16, [
    ⟨0, some 0x90, Payload.two 60 100⟩,
    ⟨0, some 0x80, Payload.two 60 0⟩,
    ⟨0, some 0x90, Payload.two 62 100⟩,
    ⟨0, some 0xff, Payload.metaEvent 0x2f []⟩]⟩]⟩

/-- A header of declared length eight and a track made of the end-of-track event. -/
def twoExtraFile : MidiFile := ⟨8, 0, 0, 96, [endTrack]⟩

/-- A header of declared length seven and a track of declared size eight. -/
def oneExtraFile : MidiFile :=
  ⟨7, 0, 0, 96, [⟨8, [
    ⟨0, some 0x90, Payload.two 60 100⟩,
    ⟨0, some 0xff, Payload.metaEvent 0x2f []⟩]⟩]⟩

/-! ## The layout of the hexadecimal style -/

/-- The division of a byte sequence into groups of `m` bytes, the last group holding
the bytes left over; `fuel` bounds the number of groups. -/
def byteGroupsLoop (m : Nat) : Nat → List Nat → List (List Nat)
  | 0, _ => []
  | fuel + 1, b => if b = [] then [] else b.take m :: byteGroupsLoop m fuel (b.drop m)

/-- The groups of `m` bytes of a byte sequence, in order. -/
def byteGroups (m : Nat) (b : List Nat) : List (List Nat) := byteGroupsLoop m b.length b

/-! ## Sequences of setter calls -/

/-- `Binasc::setCommentsOn`, which calls `setComments(true)`. -/
def setCommentsOn (b : Options) : Options := setComments b 1

/-- `Binasc::setCommentsOff`, which calls `setComments(false)`. -/
def setCommentsOff (b : Options) : Options := setComments b 0

/-- `Binasc::setBytesOn`, which calls `setBytes(true)`. -/
def setBytesOn (b : Options) : Options := setBytes b 1

/-- `Binasc::setBytesOff`, which calls `setBytes(false)`. -/
def setBytesOff (b : Options) : Options := setBytes b 0

/-- `Binasc::setMidiOn`, which calls `setMidi(true)`. -/
def setMidiOn (b : Options) : Options := setMidi b 1

/-- `Binasc::setMidiOff`, which calls `setMidi(false)`. -/
def setMidiOff (b : Options) : Options := setMidi b 0

/-- A call of one of the setters of `Binasc`, with its argument. -/
inductive SetterCall where
  | lineLength (length : Int)
  | lineBytes (length : Int)
  | comments (state : Int)
  | commentsOn
  | commentsOff
  | bytes (state : Int)
  | bytesOn
  | bytesOff
  | midi (state : Int)
  | midiOn
  | midiOff
deriving DecidableEq, Repr

/-- The object after a call of a setter. -/
def SetterCall.run (b : Options) : SetterCall → Options
  | SetterCall.lineLength n => (setLineLength b n).2
  | SetterCall.lineBytes n => (setLineBytes b n).2
  | SetterCall.comments s => setComments b s
  | SetterCall.commentsOn => setCommentsOn b
  | SetterCall.commentsOff => setCommentsOff b
  | SetterCall.bytes s => setBytes b s
  | SetterCall.bytesOn => setBytesOn b
  | SetterCall.bytesOff => setBytesOff b
  | SetterCall.midi s => setMidi b s
  | SetterCall.midiOn => setMidiOn b
  | SetterCall.midiOff => setMidiOff b

/-- The object reached from the constructor by a sequence of setter calls. -/
def reached (calls : List SetterCall) : Options :=
  calls.foldl SetterCall.run Options.default

/-! ## The byte counter -/

/-- The counter `trackbytes` agrees with the stream: when no read has failed, the
stream is as just opened on what is left of `input`, and `trackbytes` has grown from
`tb0` by the number of bytes of `input` that are no longer there. -/
def Counted (input : List Nat) (tb0 : Int) (s : IStream) (tb : Int) : Prop :=
  s.failbit = false →
    ∃ consumed, input = consumed ++ s.buf ∧ s = IStream.open s.buf ∧
      tb = tb0 + (consumed.length : Nat)

/-! ## Tracks as the decoder reads them

Every sequence of bytes that `readMidiEvent` reads as one event without a failed
read, whatever the event is: the delta time is any variable-length value, the length
of a system exclusive or meta event is any variable-length value, and a status byte
`F0`..`F6`, `F8`..`FE` or a running status without a command is followed by the one
byte that `readMidiEvent` reads after it. -/

/-- What `readMidiEvent` reads after the delta time and the status byte of an event:
two bytes, one byte, the bytes of a length and as many bytes as it reads after it for
the status `F7`, or a type, the bytes of a length and the bytes read after it for the
status `FF`. -/
inductive Message where
  | two (d1 d2 : Nat)
  | one (d1 : Nat)
  | sysex (length bytes : List Nat)
  | metaEvent (type : Nat) (length bytes : List Nat)
deriving DecidableEq, Repr

/-- An event as `readMidiEvent` reads it: the bytes of the delta time, the status
byte unless the event uses running status, and what follows. -/
structure RawEvent where
  delta : List Nat
  status : Option Nat
  body : Message
deriving DecidableEq, Repr

/-- A track chunk as `outputStyleMidi` reads it: the 32-bit pattern of the four bytes
of its declared size, and its events. -/
structure RawTrack where
  size : Nat
  events : List RawEvent
deriving DecidableEq, Repr

/-- The bytes of what follows the status byte. -/
def Message.bytes : Message → List Nat
  | Message.two d1 d2 => [d1, d2]
  | Message.one d1 => [d1]
  | Message.sysex l bs => l ++ bs
  | Message.metaEvent ty l bs => ty :: (l ++ bs)

/-- The bytes of an event. -/
def RawEvent.bytes (e : RawEvent) : List Nat :=
  e.delta ++ (e.status.toList ++ e.body.bytes)

/-- The command in force for an event, given the command before it. -/
def RawEvent.command (command : Nat) (e : RawEvent) : Nat := e.status.getD command

/-- Whether `readMidiEvent` returns 0 for the event, which ends the track: the
end-of-track meta event, or an event under the command `FE`. -/
def RawEvent.isEnd (command : Nat) (e : RawEvent) : Bool :=
  decide (e.command command = 0xfe) ||
    (match e.body with
     | Message.metaEvent ty _ _ => decide (ty = 0x2f)
     | _ => false)

/-- The bytes of the events of a track. -/
def rawEventsBytes (events : List RawEvent) : List Nat := (events.map RawEvent.bytes).flatten

/-- The bytes of a track chunk. -/
def RawTrack.bytes (t : RawTrack) : List Nat :=
  str "MTrk" ++ ((lowBytes 4 t.size).reverse ++ rawEventsBytes t.events)

/-- The bytes that `readMidiEvent` reads under the command in force; `running` tells
that the event has no status byte, so that its first byte is below `0x80`.  Two bytes
are read under the commands `8x`, `9x`, `Ax`, `Bx` and `Ex`; a length and the bytes
that it counts under `F7`; a type, a length and the bytes of `metaBytesRead` under
`FF`; one byte under every other command. -/
def Message.read (running : Bool) (command : Nat) : Message → Prop
  | Message.two d1 d2 =>
    twoDataBytes command ∧ d1 < 256 ∧ d2 < 256 ∧ (running = true → d1 < 0x80)
  | Message.one d1 =>
    ¬ twoDataBytes command ∧ command ≠ 0xf7 ∧ command ≠ 0xff ∧ d1 < 256 ∧
    (running = true → d1 < 0x80)
  | Message.sysex l bs =>
    command = 0xf7 ∧ isVlv l ∧ bs.length = (bitsToInt (vlvValue l)).toNat ∧
    (∀ b ∈ bs, b < 256) ∧ (running = true → l.length = 1)
  | Message.metaEvent ty l bs =>
    command = 0xff ∧ ty < 256 ∧ isVlv l ∧
    bs.length = metaBytesRead ty (bitsToInt (vlvValue l)) ∧ (∀ b ∈ bs, b < 256) ∧
    (running = true → ty < 0x80)

/-- The events that `readMidiEvent` reads under the command before them. -/
def RawEvent.read (command : Nat) (e : RawEvent) : Prop :=
  isVlv e.delta ∧ (∀ s ∈ e.status, 0x80 ≤ s ∧ s < 256) ∧
  e.body.read e.status.isNone (e.command command)

/-- The lists of events that the loop over the events of a track reads: every event
is read under the command before it, and `readMidiEvent` returns 0 for the last one
and for no other. -/
def rawEventsRead : Nat → List RawEvent → Prop
  | _, [] => False
  | command, [e] => e.read command ∧ e.isEnd command = true
  | command, e :: e1 :: es =>
    e.read command ∧ e.isEnd command = false ∧ rawEventsRead (e.command command) (e1 :: es)

/-- The number of bytes of the length of a system exclusive or meta event. -/
def Message.lengthBytes : Message → Nat
  | Message.sysex l _ => l.length
  | Message.metaEvent _ l _ => l.length
  | _ => 0

/-- The tracks that `outputStyleMidi` reads with the given fuel: the declared size is
any four bytes, the events are read up to the first one for which `readMidiEvent`
returns 0, and the fuel covers the number of events and the bytes of every
variable-length value. -/
def RawTrack.read (fuel : Nat) (t : RawTrack) : Prop :=
  t.size < 2 ^ 32 ∧ rawEventsRead 0 t.events ∧ t.events.length ≤ fuel ∧
  ∀ e ∈ t.events, e.delta.length < fuel ∧ e.body.lengthBytes < fuel

/-- The text of the bytes of a meta event, the tempo event included. -/
def metaTextRead (F : FloatOps) (ty : Nat) (bs : List Nat) : List Nat :=
  if ty = 0x51 then
    str " t" ++ F.showTempo
      (((bs.getD 0 0 * 256 + bs.getD 1 0) * 256 + bs.getD 2 0 : Nat) : Int)
  else metaText ty bs

/-- The text that `readMidiEvent` writes for what follows the status byte. -/
def Message.text (F : FloatOps) (command : Nat) : Message → List Nat
  | Message.two d1 d2 => dataItem d1 ++ dataItem d2
  | Message.one d1 =>
    if command &&& 0xf0 = 0xC0 ∨ command &&& 0xf0 = 0xD0 then dataItem d1 else []
  | Message.sysex l bs =>
    str " v" ++ showInt (bitsToInt (vlvValue l)) ++ (bs.map hexItem).flatten
  | Message.metaEvent ty l bs =>
    str " " ++ showHex ty ++ str " v" ++ showInt (bitsToInt (vlvValue l)) ++
      metaTextRead F ty bs

/-- The comment that `readMidiEvent` writes for an event. -/
def Message.comment (command : Nat) : Message → List Nat
  | Message.two d1 d2 =>
    if command &&& 0xf0 = 0x80 then str "note-off " ++ keyToPitchName (charToInt d1)
    else if command &&& 0xf0 = 0x90 then
      (if charToInt d2 = 0 then str "note-off " ++ keyToPitchName (charToInt d1)
       else str "note-on " ++ keyToPitchName (charToInt d1))
    else if command &&& 0xf0 = 0xA0 then str "after-touch"
    else if command &&& 0xf0 = 0xB0 then str "controller"
    else str "pitch-bend"
  | Message.one _ =>
    if command &&& 0xf0 = 0xC0 then str "patch-change"
    else if command &&& 0xf0 = 0xD0 then str "channel pressure"
    else []
  | Message.sysex _ _ => []
  | Message.metaEvent ty _ _ => metaComment ty

/-- The text that `readMidiEvent` writes for an event: nothing under the command
`FE`, otherwise the delta time, the status byte and what follows. -/
def RawEvent.text (F : FloatOps) (commentsQ : Bool) (command : Nat) (e : RawEvent) :
    List Nat :=
  if e.command command = 0xfe then []
  else
    str "v" ++ showInt (bitsToInt (vlvValue e.delta)) ++ str "\t" ++
      (match e.status with
       | none => str "   "
       | some s => showHex s) ++
      e.body.text F (e.command command) ++
      (if commentsQ then str "\t; " ++ e.body.comment (e.command command) else [])

/-- The text of the events of a track, a newline after each. -/
def rawEventsText (F : FloatOps) (commentsQ : Bool) : Nat → List RawEvent → List Nat
  | _, [] => []
  | command, e :: es =>
    e.text F commentsQ command ++ str "\n" ++
      rawEventsText F commentsQ (e.command command) es

/-- The line `; TRACK SIZE ERROR, ACTUAL SIZE: n` that follows the events of a track
when the number `n` of their bytes is not the declared size. -/
def sizeErrorText (hexMode : Bool) (t : RawTrack) : List Nat :=
  if ((rawEventsBytes t.events).length : Int) ≠ bitsToInt t.size then
    str "; TRACK SIZE ERROR, ACTUAL SIZE: " ++
      showBase hexMode ((rawEventsBytes t.events).length : Int) ++ str "\n"
  else []

/-- The text of track number `i`: the heading, the marker, the declared size, the
events and the line of the size error. -/
def RawTrack.text (F : FloatOps) (hexMode commentsQ : Bool) (i : Nat) (t : RawTrack) :
    List Nat :=
  str "\n;;; TRACK " ++ showBase hexMode (i : Int) ++
    str " ----------------------------------" ++ str "\n" ++
    str "\"MTrk\"" ++ (if commentsQ then str "\t\t\t; MIDI track chunk marker" else []) ++
    str "\n" ++
    str "4'" ++ showBase hexMode (bitsToInt t.size) ++
    (if commentsQ then str "\t\t\t; bytes to follow in track chunk" else []) ++ str "\n" ++
    rawEventsText F commentsQ 0 t.events ++ sizeErrorText hexMode t

/-- The text of the tracks from number `i` on. -/
def rawTracksText (F : FloatOps) (hexMode commentsQ : Bool) : Nat → List RawTrack → List Nat
  | _, [] => []
  | i, t :: ts => t.text F hexMode commentsQ i ++ rawTracksText F hexMode commentsQ (i + 1) ts

/-- The number of bytes that `outputStyleMidi` reads between the division and the
first track, for the 32-bit pattern `hs` of the declared length of the header. -/
def extraCount (hs : Nat) : Nat := (toInt32 (bitsToInt hs - 6)).toNat

/-- The text of the header: the marker, the declared length, the format, the number of
tracks, the division, and the line of the bytes beyond the first six. -/
def rawHeaderText (commentsQ : Bool) (hs fmt n d1 d2 : Nat) (extra : List Nat) : List Nat :=
  str "\"MThd\"" ++ (if commentsQ then str "\t\t\t; MIDI header chunk marker" else []) ++
    str "\n" ++
    str "4'" ++ showInt (bitsToInt hs) ++
    (if commentsQ then str "\t\t\t; bytes to follow in header chunk" else []) ++ str "\n" ++
    str "2'" ++ showNat fmt ++
    (if commentsQ then
      str "\t\t\t; file format: Type-" ++ showNat fmt ++ str " (" ++
        (if fmt = 0 then str "single track"
         else if fmt = 1 then str "multitrack"
         else if fmt = 2 then str "multisegment"
         else str "unknown") ++ str ")"
     else []) ++ str "\n" ++
    str "2'" ++ showNat n ++
    (if commentsQ then str "\t\t\t; number of tracks" else []) ++ str "\n" ++
    (if 0x80 ≤ d1 then
      str "1'-" ++ showNat (0xff - d1 + 1) ++
        (if commentsQ then str "\t\t\t; SMPTE frames/second" else []) ++ str "\n" ++
        str "1'" ++ showNat d2 ++
        (if commentsQ then str "\t\t\t; subframes per frame" else []) ++ str "\n"
     else
      str "2'" ++ showNat (d1 * 256 + d2) ++
        (if commentsQ then str "\t\t\t; ticks per quarter note" else []) ++ str "\n") ++
    (if extra = [] then []
     else (extra.map headerItem).flatten ++ str "\t\t\t; unknown header bytes" ++ str "\n")

/-- The bytes of a file: the header, the bytes of the header beyond the first six and
the tracks. -/
def rawFileBytes (hs fmt n d1 d2 : Nat) (extra : List Nat) (tracks : List RawTrack) :
    List Nat :=
  headerBytes hs fmt n d1 d2 ++ (extra ++ (tracks.map RawTrack.bytes).flatten)

/-- A track made of the end-of-track event alone, as the decoder reads it. -/
def rawEndTrack : RawTrack := ⟨4, [⟨[0], some 0xff, Message.metaEvent 0x2f [0] []⟩]⟩

/-- A track for the examples that `MidiFile.ok` leaves out: a note with a delta time
written on two bytes, a second note under running status, a tempo event, a text that
holds a newline, the status `F8` with the byte read after it, a system exclusive
continuation and the end of the track; the declared size is not that of the events. -/
def rawExampleTrack : RawTrack :=
  ⟨7, [⟨[0x80, 0], some 0x90, Message.two 60 100⟩,
    ⟨[10], none, Message.two 60 0⟩,
    ⟨[0], some 0xff, Message.metaEvent 0x51 [3] [0x07, 0xA1, 0x20]⟩,
    ⟨[0], some 0xff, Message.metaEvent 0x01 [3] [97, 10, 98]⟩,
    ⟨[0], some 0xf8, Message.one 0x90⟩,
    ⟨[0], some 0xf7, Message.sysex [2] [0x0a, 0xb0]⟩,
    ⟨[0], some 0xff, Message.metaEvent 0x2f [0] []⟩]⟩

/-- A file whose only track holds a system exclusive event as the standard writes it,
`F0`, the length 2 and the bytes `43 F7`, before the end-of-track event. -/
def standardSysexFile : List Nat :=
  headerBytes 6 0 1 0 96 ++
    [77, 84, 114, 107, 0, 0, 0, 9, 0, 0xf0, 2, 0x43, 0xf7, 0, 0xff, 0x2f, 0]

/-- A file with a header of declared length seven whose track declares four bytes and
holds twelve. -/
def hexErrorFile : List Nat :=
  headerBytes 7 0 1 0 96 ++ [0] ++
    [77, 84, 114, 107, 0, 0, 0, 4, 0, 0x90, 60, 100, 0, 0x80, 60, 0, 0, 0xff, 0x2f, 0]

/-! ## Conversions to `int` in the words of a line -/

/-- The conversions to `int` of the tempo and pitch-bend words of a line are defined:
every such word that its emitter accepts holds, after its first character, a decimal
literal for which the model of double precision gives the value converted a place in
`int`.  For the other words (`t0`, for which `60.0 * 1000000.0 / 0.0` is infinite, or
`t-`) the conversion is undefined in C++. -/
def conversionsDefined (line : List Nat) : Prop :=
  ∀ t ∈ tokens line,
    (t.1 = Kind.tempo →
      (processMidiTempoWord FloatOps.zero [] t.2).1 = 0 ∨
        (tempoIeee (t.2.drop 1)).isSome = true) ∧
    (t.1 = Kind.pitchBend →
      (processMidiPitchBendWord FloatOps.zero [] t.2).1 = 0 ∨
        (bendIeee (t.2.drop 1)).isSome = true)

instance (line : List Nat) : Decidable (conversionsDefined line) := by
  unfold conversionsDefined
  infer_instance

/-! # Theorems -/

/-! ## Bit operations, decimal text and variable-length values -/

theorem or128 (b : Nat) (h : b < 128) : b ||| 128 = b + 128 := by
  have := Nat.mul_add_lt_is_or (i := 7) h 1
  simp at this
  rw [Nat.or_comm, ← this]; omega
theorem and7f (x : Nat) : 0x7f &&& x = x % 128 := by
  rw [Nat.and_comm]; exact Nat.and_pow_two_sub_one_eq_mod x 7
theorem shr_and7f (n k : Nat) : (n >>> k) &&& 0x7f = n / 2 ^ k % 128 := by
  rw [Nat.shiftRight_eq_div_pow, Nat.and_comm, and7f]

theorem vlvMark_shape (g0 g1 g2 g3 : Nat) (h0 : g0 < 128) (h1 : g1 < 128) (h2 : g2 < 128)
    (h3 : g3 < 128) :
    (vlvMark false [g0, g1, g2, g3]).filter (fun b => decide (b ≥ 0x80)) =
      ([g0, g1, g2, g3].dropWhile (fun g => decide (g = 0))).map (fun g => g + 128) := by
  by_cases e0 : g0 = 0 <;> by_cases e1 : g1 = 0 <;> by_cases e2 : g2 = 0 <;>
    by_cases e3 : g3 = 0 <;>
    simp [vlvMark, e0, e1, e2, e3, or128, h0, h1, h2, h3, List.filter, List.dropWhile]

theorem vlvBytes_eq_vlvShape (n : Nat) : vlvBytes n = vlvShape n := by
  unfold vlvBytes vlvShape vlvGroups
  simp only [shr_and7f]
  rw [vlvMark_shape _ _ _ _ (Nat.mod_lt _ (by norm_num)) (Nat.mod_lt _ (by norm_num))
    (Nat.mod_lt _ (by norm_num)) (Nat.mod_lt _ (by norm_num))]
  simp

theorem shl7_or (o g : Nat) (hg : g < 128) :
    ((o <<< 7) % 4294967296) ||| g = (o * 128) % 4294967296 + g := by
  show ((o <<< 7) % 2 ^ 32) ||| g = (o * 128) % 2 ^ 32 + g
  have h1 : (o <<< 7) % 2 ^ 32 = 2 ^ 7 * (o % 2 ^ 25) := by
    rw [Nat.shiftLeft_eq, Nat.mul_comm o, show (2:Nat) ^ 32 = 2 ^ 7 * 2 ^ 25 by norm_num,
      Nat.mul_mod_mul_left]
  have h2 : (o * 128) % 2 ^ 32 = 2 ^ 7 * (o % 2 ^ 25) := by
    rw [Nat.mul_comm o, show (128:Nat) = 2 ^ 7 by norm_num,
      show (2:Nat) ^ 32 = 2 ^ 7 * 2 ^ 25 by norm_num, Nat.mul_mod_mul_left]
  rw [h1, h2]
  exact (Nat.mul_add_lt_is_or (i := 7) hg _).symm

theorem bitsToInt_of_lt (n : Nat) (h : n < 2 ^ 31) : bitsToInt n = (n : Int) := by
  unfold bitsToInt toInt32
  omega

theorem getVLV_shape (g0 g1 g2 g3 g4 : Nat) (h0 : g0 < 8) (h1 : g1 < 128) (h2 : g2 < 128)
    (h3 : g3 < 128) (h4 : g4 < 128) (rest : List Nat) (tb : Int) (k : Nat) :
    getVLV (k + 5) (IStream.open
      ((([g0, g1, g2, g3].dropWhile (fun g => decide (g = 0))).map (fun g => g + 128) ++ [g4])
        ++ rest)) tb =
    Run.ret (((g0 * 2 ^ 28 + g1 * 2 ^ 21 + g2 * 2 ^ 14 + g3 * 2 ^ 7 + g4 : Nat) : Int),
      IStream.open rest,
      tb + ((([g0, g1, g2, g3].dropWhile (fun g => decide (g = 0))).map
        (fun g => g + 128) ++ [g4]).length : Nat)) := by
  have a0 : (g0 + 128) % 128 = g0 := by omega
  have a1 : (g1 + 128) % 128 = g1 := by omega
  have a2 : (g2 + 128) % 128 = g2 := by omega
  have a3 : (g3 + 128) % 128 = g3 := by omega
  have a4 : g4 % 128 = g4 := by omega
  have n4 : ¬ (128 ≤ g4) := by omega
  by_cases e0 : g0 = 0 <;> by_cases e1 : g1 = 0 <;> by_cases e2 : g2 = 0 <;>
    by_cases e3 : g3 = 0 <;>
    simp [getVLV, getVLVLoop, IStream.read1, IStream.open, IStream.good, e0, e1, e2, e3,
      List.dropWhile, and7f, a0, a1, a2, a3, a4, n4, shl7_or, h1, h2, h3, h4] <;>
    (simp only [Nat.shiftLeft_eq, bitsToInt, toInt32]; omega)

theorem decimalDigits_eq (fuel : Nat) : ∀ n acc, n < fuel →
    decimalDigits fuel n acc = decimalDigits (n + 1) n [] ++ acc := by
  induction fuel using Nat.strong_induction_on with
  | _ fuel ih =>
    intro n acc hn
    cases fuel with
    | zero => omega
    | succ f =>
      by_cases h10 : n < 10
      · simp [decimalDigits, h10]
      · have hd : n / 10 < n := by omega
        have e1 : decimalDigits (f + 1) n acc =
            decimalDigits f (n / 10) ((48 + n % 10) :: acc) := by
          simp [decimalDigits, h10]
        have e2 : decimalDigits (n + 1) n [] = decimalDigits n (n / 10) [48 + n % 10] := by
          simp [decimalDigits, h10]
        rw [e1, e2, ih f (by omega) (n / 10) _ (by omega), ih n (by omega) (n / 10) _ hd]
        simp

theorem showNat_small (n : Nat) (h : n < 10) : showNat n = [48 + n] := by
  simp [showNat, decimalDigits, h]

theorem showNat_step (n : Nat) (h : 10 ≤ n) : showNat n = showNat (n / 10) ++ [48 + n % 10] := by
  have h10 : ¬ n < 10 := by omega
  have e2 : decimalDigits (n + 1) n [] = decimalDigits n (n / 10) [48 + n % 10] := by
    simp [decimalDigits, h10]
  rw [showNat, e2, decimalDigits_eq n (n / 10) _ (by omega)]
  rfl

theorem showNat_digits (n : Nat) : ∀ c ∈ showNat n, isdigit c = true := by
  induction n using Nat.strong_induction_on with
  | _ n ih =>
    by_cases h : n < 10
    · rw [showNat_small n h]
      intro c hc
      simp at hc
      subst hc
      simp [isdigit]; omega
    · rw [showNat_step n (by omega)]
      intro c hc
      rcases List.mem_append.1 hc with hc | hc
      · exact ih (n / 10) (by omega) c hc
      · simp at hc
        subst hc
        simp [isdigit]; omega

theorem showNat_ne_nil (n : Nat) : showNat n ≠ [] := by
  by_cases h : n < 10
  · rw [showNat_small n h]; simp
  · rw [showNat_step n (by omega)]; simp

theorem digitsValue_append (l : List Nat) (hl : ∀ c ∈ l, isdigit c = true) :
    ∀ (a : Nat) (r : List Nat), digitsValue a (l ++ r) = digitsValue (digitsValue a l) r := by
  induction l with
  | nil => intro a r; simp [digitsValue]
  | cons c cs ih =>
    intro a r
    have hc : isdigit c = true := hl c (by simp)
    simp only [List.cons_append, digitsValue, hc, if_true]
    exact ih (fun d hd => hl d (by simp [hd])) _ r

theorem digitsValue_showNat (n : Nat) : digitsValue 0 (showNat n) = n := by
  induction n using Nat.strong_induction_on with
  | _ n ih =>
    by_cases h : n < 10
    · rw [showNat_small n h]
      have : isdigit (48 + n) = true := by simp [isdigit]; omega
      simp [digitsValue, this]
    · rw [showNat_step n (by omega), digitsValue_append _ (showNat_digits _), ih (n / 10) (by omega)]
      have : isdigit (48 + n % 10) = true := by simp [isdigit]; omega
      simp [digitsValue, this]
      omega

theorem digitsValue_showNat_append (n : Nat) (r : List Nat) :
    digitsValue 0 (showNat n ++ r) = digitsValue n r := by
  rw [digitsValue_append _ (showNat_digits n), digitsValue_showNat]

theorem showNat_head (n : Nat) : ∃ c cs, showNat n = c :: cs ∧ isdigit c = true := by
  cases h : showNat n with
  | nil => exact absurd h (showNat_ne_nil n)
  | cons c cs => exact ⟨c, cs, rfl, showNat_digits n c (by simp [h])⟩

theorem strtol10_digits (c : Nat) (cs : List Nat) (hc : isdigit c = true) :
    strtol10 (c :: cs) = min (2 ^ 63 - 1) (digitsValue 0 (c :: cs) : Int) := by
  have h1 : isspace c = false := by
    simp [isdigit] at hc; simp [isspace]; omega
  have h45 : c ≠ 45 := by simp [isdigit] at hc; omega
  have h43 : c ≠ 43 := by simp [isdigit] at hc; omega
  unfold strtol10
  simp only [List.dropWhile, h1]
  split
  · rename_i heq; simp at heq; omega
  · rename_i heq; simp at heq; omega
  · rfl

theorem atoi_showNat_append (n : Nat) (r : List Nat) (hn : n < 2 ^ 31)
    (hr : r.head?.all (fun c => !isdigit c) = true) :
    atoi (showNat n ++ r) = (n : Int) := by
  obtain ⟨c, cs, hcs, hc⟩ := showNat_head n
  have e : showNat n ++ r = c :: (cs ++ r) := by rw [hcs]; rfl
  rw [atoi, e, strtol10_digits c _ hc, ← e, digitsValue_showNat_append]
  have : digitsValue n r = n := by
    cases r with
    | nil => simp [digitsValue]
    | cons d ds => simp at hr; simp [digitsValue, hr]
  rw [this]
  unfold toInt32
  omega

theorem vlvShape_eq (n : Nat) :
    vlvShape n = ([n / 2 ^ 28 % 128, n / 2 ^ 21 % 128, n / 2 ^ 14 % 128, n / 2 ^ 7 % 128].dropWhile
      (fun g => decide (g = 0))).map (fun g => g + 128) ++ [n % 128] := by
  simp [vlvShape, vlvGroups]

theorem processVlvWord_showNat (v : Nat) (hv : v < 2 ^ 31) (out : List Nat) :
    processVlvWord out (118 :: showNat v) = (1, out ++ vlvShape v) := by
  obtain ⟨c, cs, hcs, hc⟩ := showNat_head v
  have ha : atoi (showNat v) = (v : Int) := by
    have := atoi_showNat_append v [] hv (by simp)
    simpa using this
  have hu : toULong (v : Int) = v := by unfold toULong; omega
  rw [hcs] at ha ⊢
  simp [processVlvWord, hc, ha, hu, vlvBytes_eq_vlvShape]

theorem getVLV_vlvShape (v : Nat) (hv : v < 2 ^ 31) (rest : List Nat) (tb : Int) (fuel : Nat)
    (hf : 5 ≤ fuel) :
    getVLV fuel (IStream.open (vlvShape v ++ rest)) tb =
      Run.ret ((v : Int), IStream.open rest, tb + ((vlvShape v).length : Nat)) := by
  obtain ⟨k, rfl⟩ := Nat.exists_eq_add_of_le hf
  rw [Nat.add_comm 5 k, vlvShape_eq]
  have h := getVLV_shape (v / 2 ^ 28 % 128) (v / 2 ^ 21 % 128) (v / 2 ^ 14 % 128)
    (v / 2 ^ 7 % 128) (v % 128) (by omega) (by omega) (by omega) (by omega) (by omega) rest tb k
  rw [h]
  have e : v / 2 ^ 28 % 128 * 2 ^ 28 + v / 2 ^ 21 % 128 * 2 ^ 21 + v / 2 ^ 14 % 128 * 2 ^ 14 +
      v / 2 ^ 7 % 128 * 2 ^ 7 + v % 128 = v := by omega
  rw [e]

theorem getVLVLoop_range : ∀ (fuel : Nat) (s : IStream) (tb : Int) (o ch : Nat)
    (r : Int × IStream × Int), getVLVLoop fuel s tb o ch = Run.ret r →
    -(2 ^ 31) ≤ r.1 ∧ r.1 < 2 ^ 31 := by
  intro fuel
  induction fuel with
  | zero => intro s tb o ch r h; simp [getVLVLoop] at h
  | succ f ih =>
    intro s tb o ch r h
    simp only [getVLVLoop] at h
    split at h
    · exact ih _ _ _ _ r h
    · simp only [Run.ret.injEq] at h
      subst h
      simp only [bitsToInt, toInt32]
      omega

theorem getVLV_range (fuel : Nat) (s : IStream) (tb : Int) (r : Int × IStream × Int)
    (h : getVLV fuel s tb = Run.ret r) : -(2 ^ 31) ≤ r.1 ∧ r.1 < 2 ^ 31 := by
  unfold getVLV at h
  split at h
  · simp at h
  · exact getVLVLoop_range _ _ _ _ _ r h

/-- C4 as amended (VLV invertibility).  For every `v` below 2^31, `processVlvWord`
accepts the word `v` followed by the decimal digits of `v`, and `getVLV` applied to
the bytes written returns `v`, having read exactly those bytes and added their number
to `trackbytes`. -/
theorem getVLV_processVlvWord (v : Nat) (hv : v < 2 ^ 31) (out rest : List Nat) (tb : Int)
    (fuel : Nat) (hf : 5 ≤ fuel) :
    ∃ bytes, processVlvWord out (118 :: showNat v) = (1, out ++ bytes) ∧
      getVLV fuel (IStream.open (bytes ++ rest)) tb =
        Run.ret ((v : Int), IStream.open rest, tb + (bytes.length : Nat)) :=
  ⟨vlvShape v, processVlvWord_showNat v hv out, getVLV_vlvShape v hv rest tb fuel hf⟩

/-- Witness for C4 as amended, at `v = 300`. -/
theorem getVLV_processVlvWord_witness :
    ∃ bytes, processVlvWord [] (118 :: showNat 300) = (1, [] ++ bytes) ∧
      getVLV 5 (IStream.open (bytes ++ [])) 0 =
        Run.ret (((300 : Nat) : Int), IStream.open [], (0 : Int) + (bytes.length : Nat)) :=
  getVLV_processVlvWord 300 (by norm_num) [] [] 0 5 (le_refl 5)

/-- Counterexample to C4 as stated, at `v = 2^31`: the word `v2147483648` is written
as F8 80 80 80 00, on which `getVLV` returns -2147483648; and `getVLV` never returns
2147483648, whatever the fuel. -/
theorem getVLV_processVlvWord_counterexample :
    processVlvWord [] (118 :: showNat 2147483648) = (1, [248, 128, 128, 128, 0]) ∧
    getVLV 5 (IStream.open [248, 128, 128, 128, 0]) 0 =
      Run.ret (-2147483648, IStream.open [], 5) ∧
    ¬ ∃ fuel r, getVLV fuel (IStream.open [248, 128, 128, 128, 0]) 0 = Run.ret r ∧
      r.1 = 2147483648 := by
  refine ⟨by decide, by decide, ?_⟩
  rintro ⟨fuel, r, h, hr⟩
  have := getVLV_range fuel _ _ r h
  omega

/-! ## Binary words -/

theorem binaryValueFrom_concat (a : Nat) (l : List Nat) (c : Nat) :
    binaryValueFrom a (l ++ [c]) = 2 * binaryValueFrom a l + (c - 48) := by
  simp [binaryValueFrom, List.foldl_append]

theorem binaryBits_concat (a : Nat) (l : List Nat) (c : Nat) :
    binaryBits a (l ++ [c]) = ((binaryBits a l <<< 1) % 256) ||| (c - 48) := by
  simp [binaryBits, List.foldl_append]

theorem shl1_or (x d : Nat) (hx : x < 128) (hd : d < 2) :
    ((x <<< 1) % 256) ||| d = 2 * x + d := by
  have h1 : (x <<< 1) % 256 = 2 ^ 1 * x := by
    rw [Nat.shiftLeft_eq]; omega
  rw [h1, ← Nat.mul_add_lt_is_or (i := 1) (by omega) x]

theorem binaryBits_eq (a : Nat) (l : List Nat) (hl : ∀ c ∈ l, isBinaryDigit c) :
    binaryValueFrom a l < 256 → binaryBits a l = binaryValueFrom a l := by
  induction l using List.reverseRecOn with
  | nil => intro _; simp [binaryBits, binaryValueFrom]
  | append_singleton l c ih =>
    intro h
    rw [binaryValueFrom_concat] at h
    have hc : isBinaryDigit c := hl c (by simp)
    have hd : c - 48 < 2 := by rcases hc with rfl | rfl <;> decide
    rw [binaryBits_concat, ih (fun d hd => hl d (by simp [hd])) (by omega),
      binaryValueFrom_concat]
    exact shl1_or _ _ (by omega) hd

theorem binaryValueFrom_eq (a : Nat) (l : List Nat) :
    binaryValueFrom a l = a * 2 ^ l.length + binaryValue l := by
  induction l using List.reverseRecOn with
  | nil => simp [binaryValue, binaryValueFrom]
  | append_singleton l c ih =>
    simp only [binaryValue] at ih ⊢
    rw [binaryValueFrom_concat, binaryValueFrom_concat, ih]
    simp only [List.length_append, List.length_singleton, pow_succ]
    ring

theorem binaryValue_lt (l : List Nat) (hl : ∀ c ∈ l, isBinaryDigit c) :
    binaryValue l < 2 ^ l.length := by
  induction l using List.reverseRecOn with
  | nil => simp [binaryValue, binaryValueFrom]
  | append_singleton l c ih =>
    have hc : isBinaryDigit c := hl c (by simp)
    have hd : c - 48 < 2 := by rcases hc with rfl | rfl <;> decide
    have := ih (fun d hd => hl d (by simp [hd]))
    rw [binaryValue, binaryValueFrom_concat]
    simp only [List.length_append, List.length_singleton, pow_succ]
    unfold binaryValue at this
    omega

theorem binaryScan_digits (l : List Nat) (hl : ∀ c ∈ l, isBinaryDigit c) :
    ∀ (i ci : Int), binaryScan l i ci = some ci := by
  induction l with
  | nil => intro i ci; rfl
  | cons c cs ih =>
    intro i ci
    have hc : isBinaryDigit c := hl c (by simp)
    have h44 : c ≠ 44 := by rcases hc with rfl | rfl <;> decide
    have hb : (decide (c = 49) || decide (c = 48)) = true := by
      rcases hc with rfl | rfl <;> decide
    simp only [binaryScan, h44, if_false, hb, Bool.not_true]
    exact ih (fun d hd => hl d (by simp [hd])) _ _

theorem binaryScan_comma (l r : List Nat) (hl : ∀ c ∈ l, isBinaryDigit c) :
    ∀ (i : Int), binaryScan (l ++ 44 :: r) i (-1) = binaryScan r (i + l.length + 1) (i + l.length) := by
  induction l with
  | nil => intro i; simp [binaryScan]
  | cons c cs ih =>
    intro i
    have hc : isBinaryDigit c := hl c (by simp)
    have h44 : c ≠ 44 := by rcases hc with rfl | rfl <;> decide
    have hb : (decide (c = 49) || decide (c = 48)) = true := by
      rcases hc with rfl | rfl <;> decide
    rw [List.cons_append, binaryScan]
    simp only [h44, if_false, hb, Bool.not_true, Bool.false_eq_true]
    rw [ih (fun d hd => hl d (by simp [hd]))]
    simp only [List.length_cons, Nat.cast_add, Nat.cast_one]
    congr 1 <;> ring

theorem two_pow_le_256 (n : Nat) (h : n ≤ 8) : 2 ^ n ≤ 256 := by
  calc 2 ^ n ≤ 2 ^ 8 := Nat.pow_le_pow_right (by norm_num) h
    _ = 256 := by norm_num

theorem processBinaryWord_plain (out l : List Nat) (hl : ∀ c ∈ l, isBinaryDigit c)
    (h1 : 1 ≤ l.length) (h8 : l.length ≤ 8) :
    processBinaryWord out l = (1, out ++ [binaryValue l]) := by
  have hv := binaryValue_lt l hl
  have hb : binaryBits 0 l = binaryValue l :=
    binaryBits_eq 0 l hl (lt_of_lt_of_le hv (two_pow_le_256 _ h8))
  unfold processBinaryWord
  rw [binaryScan_digits l hl]
  have e1 : ¬ ((-1 : Int) = (l.length : Int) - 1) := by omega
  have e2 : ¬ ((-1 : Int) = -1 ∧ (l.length : Int) > 8) := by omega
  simp only [e1, e2, if_false, hb]
  simp
  exact h8

theorem processBinaryWord_comma (out l r : List Nat) (hl : ∀ c ∈ l, isBinaryDigit c)
    (hr : ∀ c ∈ r, isBinaryDigit c) (hl1 : 1 ≤ l.length) (hl4 : l.length ≤ 4)
    (hr1 : 1 ≤ r.length) (hr4 : r.length ≤ 4) :
    processBinaryWord out (l ++ 44 :: r) = (1, out ++ [16 * binaryValue l + binaryValue r]) := by
  have hvl := binaryValue_lt l hl
  have hvr := binaryValue_lt r hr
  have pl : 2 ^ l.length ≤ 16 :=
    calc 2 ^ l.length ≤ 2 ^ 4 := Nat.pow_le_pow_right (by norm_num) hl4
      _ = 16 := by norm_num
  have pr : 2 ^ r.length ≤ 16 :=
    calc 2 ^ r.length ≤ 2 ^ 4 := Nat.pow_le_pow_right (by norm_num) hr4
      _ = 16 := by norm_num
  have hbl : binaryBits 0 l = binaryValue l := binaryBits_eq 0 l hl (by unfold binaryValue at hvl; omega)
  have hpow : 2 ^ (4 - r.length) * 2 ^ r.length = 16 := by
    rw [← pow_add, Nat.sub_add_cancel hr4]; norm_num
  have hsh : (binaryValue l <<< (4 - r.length)) % 256 = binaryValue l * 2 ^ (4 - r.length) := by
    rw [Nat.shiftLeft_eq]
    apply Nat.mod_eq_of_lt
    have : 2 ^ (4 - r.length) ≤ 16 :=
      calc 2 ^ (4 - r.length) ≤ 2 ^ 4 := Nat.pow_le_pow_right (by norm_num) (by omega)
        _ = 16 := by norm_num
    calc binaryValue l * 2 ^ (4 - r.length) < 16 * 16 := by
          apply Nat.mul_lt_mul_of_lt_of_le (by omega) this (by norm_num)
      _ = 256 := by norm_num
  have hfin : binaryValueFrom (binaryValue l * 2 ^ (4 - r.length)) r =
      16 * binaryValue l + binaryValue r := by
    rw [binaryValueFrom_eq, Nat.mul_assoc, hpow]; ring
  have hbr : binaryBits (binaryValue l * 2 ^ (4 - r.length)) r =
      16 * binaryValue l + binaryValue r := by
    rw [binaryBits_eq _ r hr (by rw [hfin]; omega), hfin]
  unfold processBinaryWord
  rw [binaryScan_comma l r hl, binaryScan_digits r hr]
  have c1 : ¬ ((0 : Int) + (l.length : Int) = 0) := by omega
  have c2 : ¬ ((0 : Int) + (l.length : Int) = ((l ++ 44 :: r).length : Int) - 1) := by
    simp only [List.length_append, List.length_cons, Nat.cast_add, Nat.cast_one]; omega
  have c3 : ((0 : Int) + (l.length : Int)) ≠ -1 := by omega
  have c4 : ¬ ((0 : Int) + (l.length : Int) > 4) := by omega
  have c5 : ((l ++ 44 :: r).length : Int) - (0 + (l.length : Int)) - 1 = (r.length : Int) := by
    simp only [List.length_append, List.length_cons, Nat.cast_add, Nat.cast_one]; omega
  have c6 : ¬ ((r.length : Int) > 4) := by omega
  have t1 : ((0 : Int) + (l.length : Int)).toNat = l.length := by omega
  have t2 : ((0 : Int) + (l.length : Int) + 1).toNat = l.length + 1 := by omega
  have t3 : (4 - (r.length : Int)).toNat = 4 - r.length := by omega
  have d1 : List.drop (l.length + 1) (l ++ 44 :: r) = r := by
    rw [List.drop_append]
    simp
  simp only [c1, c2, c3, c4, c5, c6, t1, t2, t3, if_false, if_true, ne_eq, not_false_eq_true,
    false_and, List.take_left', d1, Int.toNat_ofNat, List.take_length, hbl, hsh, hbr,
    not_true_eq_false]

/-- C8 (binary-token packing).  On a word of 1 to 8 binary digits `processBinaryWord`
writes the one byte whose value is the digits read in base 2; on a word `l,r` with
`l` and `r` each of 1 to 4 binary digits it writes the one byte `16 * value l + value r`.
The words `1010`, `1010,1100` and `1,1` give 0x0A, 0xAC and 0x11. -/
theorem processBinaryWord_packing (out l r : List Nat) (hl : ∀ c ∈ l, isBinaryDigit c)
    (hr : ∀ c ∈ r, isBinaryDigit c) (hl1 : 1 ≤ l.length) :
    (l.length ≤ 8 → processBinaryWord out l = (1, out ++ [binaryValue l])) ∧
    (l.length ≤ 4 → 1 ≤ r.length → r.length ≤ 4 →
      processBinaryWord out (l ++ 44 :: r) = (1, out ++ [16 * binaryValue l + binaryValue r])) ∧
    processBinaryWord out [49, 48, 49, 48] = (1, out ++ [0x0A]) ∧
    processBinaryWord out [49, 48, 49, 48, 44, 49, 49, 48, 48] = (1, out ++ [0xAC]) ∧
    processBinaryWord out [49, 44, 49] = (1, out ++ [0x11]) := by
  refine ⟨fun h8 => processBinaryWord_plain out l hl hl1 h8,
    fun h4 r1 r4 => processBinaryWord_comma out l r hl hr hl1 h4 r1 r4, ?_, ?_, ?_⟩
  · exact processBinaryWord_plain out [49, 48, 49, 48] (by decide) (by decide) (by decide)
  · exact processBinaryWord_comma out [49, 48, 49, 48] [49, 49, 48, 48] (by decide) (by decide)
      (by decide) (by decide) (by decide) (by decide)
  · exact processBinaryWord_comma out [49] [49] (by decide) (by decide)
      (by decide) (by decide) (by decide) (by decide)

theorem binary_split (w : List Nat) :
    (∀ c ∈ w, isBinaryDigit c) ∨
    ∃ l c r, w = l ++ c :: r ∧ (∀ d ∈ l, isBinaryDigit d) ∧ ¬ isBinaryDigit c := by
  induction w with
  | nil => left; simp
  | cons a w ih =>
    by_cases ha : isBinaryDigit a
    · rcases ih with h | ⟨l, c, r, hw, hl, hc⟩
      · left
        intro c hc
        rcases List.mem_cons.1 hc with rfl | h'
        · exact ha
        · exact h c h'
      · right
        refine ⟨a :: l, c, r, by rw [hw]; rfl, ?_, hc⟩
        intro d hd
        rcases List.mem_cons.1 hd with rfl | h'
        · exact ha
        · exact hl d h'
    · right
      exact ⟨[], a, w, rfl, by simp, ha⟩

theorem binaryScan_invalid (l r : List Nat) (c : Nat) (hl : ∀ d ∈ l, isBinaryDigit d)
    (hc : ¬ isBinaryDigit c) (h44 : c ≠ 44) :
    ∀ (i ci : Int), binaryScan (l ++ c :: r) i ci = none := by
  induction l with
  | nil =>
    intro i ci
    have hb : (decide (c = 49) || decide (c = 48)) = false := by
      unfold isBinaryDigit at hc
      simp only [Bool.or_eq_false_iff, decide_eq_false_iff_not]
      exact ⟨fun h => hc (Or.inr h), fun h => hc (Or.inl h)⟩
    simp [binaryScan, h44, hb]
  | cons a as ih =>
    intro i ci
    have ha : isBinaryDigit a := hl a (by simp)
    have a44 : a ≠ 44 := by rcases ha with rfl | rfl <;> decide
    have hb : (decide (a = 49) || decide (a = 48)) = true := by
      rcases ha with rfl | rfl <;> decide
    rw [List.cons_append, binaryScan]
    simp only [a44, if_false, hb, Bool.not_true, Bool.false_eq_true]
    exact ih (fun d hd => hl d (by simp [hd])) _ _

theorem binaryScan_second (l r : List Nat) (c : Nat) (hl : ∀ d ∈ l, isBinaryDigit d)
    (hc : ¬ isBinaryDigit c) :
    ∀ (i ci : Int), ci ≠ -1 → binaryScan (l ++ c :: r) i ci = none := by
  intro i ci hci
  by_cases h44 : c = 44
  · subst h44
    clear hc
    induction l generalizing i with
    | nil => simp [binaryScan, hci]
    | cons a as ih =>
      have ha : isBinaryDigit a := hl a (by simp)
      have a44 : a ≠ 44 := by rcases ha with rfl | rfl <;> decide
      have hb : (decide (a = 49) || decide (a = 48)) = true := by
        rcases ha with rfl | rfl <;> decide
      rw [List.cons_append, binaryScan]
      simp only [a44, if_false, hb, Bool.not_true, Bool.false_eq_true]
      exact ih (fun d hd => hl d (by simp [hd])) _
  · exact binaryScan_invalid l r c hl hc h44 i ci

theorem not_mem_44 (l : List Nat) (hl : ∀ d ∈ l, isBinaryDigit d) : 44 ∉ l := by
  intro h
  rcases hl 44 h with h | h <;> simp at h

theorem processBinaryWord_status_zero (out w : List Nat) :
    ((processBinaryWord out w).1 = 0 → (processBinaryWord out w).2 = out) ∧
    ((processBinaryWord out w).1 = 0 ∨ (processBinaryWord out w).1 = 1) := by
  unfold processBinaryWord
  dsimp only
  split
  · simp
  · repeat' split
    all_goals simp

theorem comma_unique (l r l' r' : List Nat) (hl : (44 : Nat) ∉ l) (hr : (44 : Nat) ∉ r)
    (h : l' ++ 44 :: r' = l ++ 44 :: r) : l'.length = l.length ∧ r'.length = r.length := by
  rcases List.append_eq_append_iff.1 h with ⟨a, h1, h2⟩ | ⟨a, h1, h2⟩
  · cases a with
    | nil =>
      simp at h1 h2
      subst h1
      simp [h2]
    | cons x xs =>
      simp at h2
      exfalso
      apply hl
      rw [h1, ← h2.1]
      simp
  · cases a with
    | nil =>
      simp at h1 h2
      subst h1
      simp [h2]
    | cons x xs =>
      simp at h2
      exfalso
      apply hr
      rw [h2.2]
      simp [← h2.1]

theorem processBinaryWord_comma_status (out l r : List Nat) (hl : ∀ c ∈ l, isBinaryDigit c)
    (hr : ∀ c ∈ r, isBinaryDigit c) :
    (processBinaryWord out (l ++ 44 :: r)).1 = 0 ↔
      (l.length = 0 ∨ r.length = 0 ∨ l.length > 4 ∨ r.length > 4) := by
  unfold processBinaryWord
  rw [binaryScan_comma l r hl, binaryScan_digits r hr]
  have c3 : ((0 : Int) + (l.length : Int)) ≠ -1 := by omega
  have c5 : ((l ++ 44 :: r).length : Int) - (0 + (l.length : Int)) - 1 = (r.length : Int) := by
    simp only [List.length_append, List.length_cons, Nat.cast_add, Nat.cast_one]; omega
  have c2 : ((0 : Int) + (l.length : Int) = ((l ++ 44 :: r).length : Int) - 1) ↔ r.length = 0 := by
    simp only [List.length_append, List.length_cons, Nat.cast_add, Nat.cast_one]; omega
  simp only [c3, c5, ne_eq, not_false_eq_true, if_true, false_and, if_false]
  split_ifs with h1 h2 h3 h4
  · exact ⟨fun _ => by omega, fun _ => rfl⟩
  · rw [c2] at h2; exact ⟨fun _ => by omega, fun _ => rfl⟩
  · exact ⟨fun _ => by omega, fun _ => rfl⟩
  · exact ⟨fun _ => by omega, fun _ => rfl⟩
  · rw [c2] at h2
    constructor
    · intro h; simp at h
    · intro h; exfalso; omega

theorem count44_zero (l : List Nat) (hl : ∀ d ∈ l, isBinaryDigit d) : l.count 44 = 0 :=
  List.count_eq_zero.2 (not_mem_44 l hl)

/-- C9 (binary-token rejection).  For a non-empty word, `processBinaryWord` returns 0
exactly when the word has a character other than `0`, `1` and the comma, or more than
one comma, or a comma in first or last place, or no comma and more than 8 digits, or a
comma with more than 4 digits on a side; it then writes nothing, and otherwise it
returns 1. -/
theorem processBinaryWord_rejects (out w : List Nat) (hw : w ≠ []) :
    ((processBinaryWord out w).1 = 0 ↔ binaryRejected w) ∧
    ((processBinaryWord out w).1 = 0 → (processBinaryWord out w).2 = out) ∧
    ((processBinaryWord out w).1 = 0 ∨ (processBinaryWord out w).1 = 1) := by
  refine ⟨?_, processBinaryWord_status_zero out w⟩
  rcases binary_split w with hall | ⟨l, c, r, rfl, hl, hc⟩
  · -- digits only
    have hlen : (w.length : Int) ≠ 0 := by
      have := List.length_pos.2 hw
      omega
    have hst : (processBinaryWord out w).1 = 0 ↔ w.length > 8 := by
      unfold processBinaryWord
      rw [binaryScan_digits w hall]
      have e1 : ¬ ((-1 : Int) = (w.length : Int) - 1) := by omega
      simp only [e1, if_false]
      by_cases h8 : w.length > 8
      · have : ((-1 : Int) = -1 ∧ (w.length : Int) > 8) := ⟨rfl, by omega⟩
        simp [this, h8]
      · have : ¬ ((-1 : Int) = -1 ∧ (w.length : Int) > 8) := by omega
        simp [this, h8]
    rw [hst]
    have n44 := not_mem_44 w hall
    constructor
    · intro h8
      exact Or.inr (Or.inr (Or.inr (Or.inl ⟨count44_zero w hall, h8⟩)))
    · rintro (⟨c, hc, h48, h49, _⟩ | h | h | h | ⟨l, r, rfl, _⟩)
      · rcases hall c hc with h | h
        · exact absurd h h48
        · exact absurd h h49
      · rw [count44_zero w hall] at h; omega
      · rcases h with h | h
        · exact absurd (List.mem_of_mem_head? h) n44
        · exact absurd (List.mem_of_mem_getLast? h) n44
      · exact h.2
      · exact absurd (by simp) n44
  · by_cases h44 : c = 44
    · subst h44
      rcases binary_split r with hr | ⟨l2, c2, r2, rfl, hl2, hc2⟩
      · -- exactly one comma
        rw [processBinaryWord_comma_status out l r hl hr]
        have nl := not_mem_44 l hl
        have nr := not_mem_44 r hr
        have hcount : (l ++ 44 :: r).count 44 = 1 := by
          rw [List.count_append, List.count_cons_self, count44_zero l hl, count44_zero r hr]
        constructor
        · rintro (h | h | h | h)
          · have : l = [] := List.length_eq_zero.1 h
            subst this
            exact Or.inr (Or.inr (Or.inl (Or.inl rfl)))
          · have : r = [] := List.length_eq_zero.1 h
            subst this
            exact Or.inr (Or.inr (Or.inl (Or.inr (by simp))))
          · exact Or.inr (Or.inr (Or.inr (Or.inr ⟨l, r, rfl, Or.inl h⟩)))
          · exact Or.inr (Or.inr (Or.inr (Or.inr ⟨l, r, rfl, Or.inr h⟩)))
        · rintro (⟨c, hc, h48, h49, h44⟩ | h | h | h | ⟨l', r', he, h⟩)
          · exfalso
            rcases List.mem_append.1 hc with h | h
            · rcases hl c h with h | h
              · exact h48 h
              · exact h49 h
            · rcases List.mem_cons.1 h with h | h
              · exact h44 h
              · rcases hr c h with h | h
                · exact h48 h
                · exact h49 h
          · omega
          · rcases h with h | h
            · cases l with
              | nil => left; rfl
              | cons a as =>
                exfalso
                simp at h
                exact nl (by simp [h])
            · cases hr0 : r with
              | nil => right; left; rfl
              | cons b bs =>
                exfalso
                subst hr0
                rw [List.getLast?_append_of_ne_nil _ (by simp),
                  List.getLast?_cons_cons] at h
                exact nr (List.mem_of_mem_getLast? h)
          · omega
          · have := comma_unique l r l' r' nl nr he.symm
            omega
      · -- a second offending character after the comma
        have hz : (processBinaryWord out (l ++ 44 :: (l2 ++ c2 :: r2))).1 = 0 := by
          unfold processBinaryWord
          rw [binaryScan_comma l _ hl, binaryScan_second l2 r2 c2 hl2 hc2 _ _ (by omega)]
        refine ⟨fun _ => ?_, fun _ => hz⟩
        by_cases h2 : c2 = 44
        · subst h2
          right; left
          rw [List.count_append, List.count_cons_self, List.count_append, List.count_cons_self]
          omega
        · left
          refine ⟨c2, by simp, fun h => hc2 (Or.inl h), fun h => hc2 (Or.inr h), h2⟩
    · have hz : (processBinaryWord out (l ++ c :: r)).1 = 0 := by
        unfold processBinaryWord
        rw [binaryScan_invalid l r c hl hc h44]
      refine ⟨fun _ => ?_, fun _ => hz⟩
      left
      exact ⟨c, by simp, fun h => hc (Or.inl h), fun h => hc (Or.inr h), h44⟩

/-- Witness for C9: the non-empty word `1,` is rejected. -/
theorem processBinaryWord_rejects_witness :
    ([49, 44] : List Nat) ≠ [] ∧ ((processBinaryWord [] [49, 44]).1 = 0 ↔ binaryRejected [49, 44]) :=
  ⟨by decide, (processBinaryWord_rejects [] [49, 44] (by decide)).1⟩

/-- Witness for C8: the words `1010` and `1010,1100`. -/
theorem processBinaryWord_packing_witness :
    processBinaryWord [] [49, 48, 49, 48] = (1, [] ++ [binaryValue [49, 48, 49, 48]]) ∧
    processBinaryWord [] ([49, 48, 49, 48] ++ 44 :: [49, 49, 48, 48]) =
      (1, [] ++ [16 * binaryValue [49, 48, 49, 48] + binaryValue [49, 49, 48, 48]]) :=
  ⟨(processBinaryWord_packing [] [49, 48, 49, 48] [49, 49, 48, 48] (by decide) (by decide)
      (by decide)).1 (by decide),
   (processBinaryWord_packing [] [49, 48, 49, 48] [49, 49, 48, 48] (by decide) (by decide)
      (by decide)).2.1 (by decide) (by decide) (by decide)⟩

/-! ## Decimal words -/

theorem isdigit_cases (c : Nat) (h : isdigit c = true) :
    c = 48 ∨ c = 49 ∨ c = 50 ∨ c = 51 ∨ c = 52 ∨ c = 53 ∨ c = 54 ∨ c = 55 ∨ c = 56 ∨ c = 57 := by
  simp [isdigit] at h
  omega

theorem decimalScan_digits (word : List Nat) (ds : List Nat) (hds : ∀ c ∈ ds, isdigit c = true) :
    ∀ (i : Nat) (s : DecimalScan), s.quoteIndex ≠ -1 → decimalScan word ds i s = some s := by
  induction ds with
  | nil => intro i s _; rfl
  | cons c cs ih =>
    intro i s hq
    have hc := isdigit_cases c (hds c (by simp))
    have ih' := ih (fun d hd => hds d (by simp [hd])) (i + 1) s hq
    rcases hc with rfl | rfl | rfl | rfl | rfl | rfl | rfl | rfl | rfl | rfl <;>
      simp [decimalScan, hq, ih']

theorem atoi_digits (ds : List Nat) (hne : ds ≠ []) (hds : ∀ c ∈ ds, isdigit c = true)
    (hn : digitsValue 0 ds < 2 ^ 31) : atoi ds = (digitsValue 0 ds : Int) := by
  cases ds with
  | nil => exact absurd rfl hne
  | cons c cs =>
    rw [atoi, strtol10_digits c cs (hds c (by simp))]
    unfold toInt32
    omega

theorem atoi_minus_digits (ds : List Nat) (hn : digitsValue 0 ds ≤ 2 ^ 31) :
    atoi (45 :: ds) = -(digitsValue 0 ds : Int) := by
  have h : strtol10 (45 :: ds) = max (-(2 ^ 63)) (-(digitsValue 0 ds : Int)) := by
    unfold strtol10
    have : isspace 45 = false := by decide
    simp only [List.dropWhile, this]
  rw [atoi, h]
  unfold toInt32
  omega

theorem processDecimalWord_unsigned (F : FloatOps) (out ds : List Nat) (hne : ds ≠ [])
    (hds : ∀ c ∈ ds, isdigit c = true) (hn : digitsValue 0 ds < 2 ^ 31) :
    processDecimalWord F out (39 :: ds) =
      if digitsValue 0 ds > 255 then (0, out) else (1, out ++ [digitsValue 0 ds]) := by
  have hlen : 0 < ds.length := List.length_pos.2 hne
  have hscan : decimalScan (39 :: ds) (39 :: ds) 0 ⟨-1, -1, -1, -1, -1⟩ =
      some ⟨-1, 0, -1, -1, -1⟩ := by
    simp only [decimalScan, if_true, ne_eq, not_true_eq_false, if_false]
    exact decimalScan_digits _ ds hds _ _ (by simp)
  have hu : toULong (digitsValue 0 ds : Int) = digitsValue 0 ds := by unfold toULong; omega
  unfold processDecimalWord
  rw [hscan]
  have e1 : ¬ ((0 : Int) = ((39 :: ds).length : Int) - 1) := by
    simp only [List.length_cons, Nat.cast_add, Nat.cast_one]; omega
  simp only [e1, if_false]
  simp [atoi_digits ds hne hds hn, hu]
  by_cases h : 255 < digitsValue 0 ds
  · simp [h]
  · simp only [h, if_false]
    rw [Nat.mod_eq_of_lt (by omega)]

theorem processDecimalWord_signed (F : FloatOps) (out ds : List Nat)
    (hds : ∀ c ∈ ds, isdigit c = true) (hn : digitsValue 0 ds ≤ 2 ^ 31) :
    processDecimalWord F out (39 :: 45 :: ds) =
      if digitsValue 0 ds > 128 then (0, out) else (1, out ++ [(256 - digitsValue 0 ds) % 256]) := by
  have hscan : decimalScan (39 :: 45 :: ds) (39 :: 45 :: ds) 0 ⟨-1, -1, -1, -1, -1⟩ =
      some ⟨-1, 0, 1, -1, -1⟩ := by
    simp only [decimalScan, if_true, ne_eq, not_true_eq_false, if_false]
    simp
    exact decimalScan_digits _ ds hds _ _ (by simp)
  unfold processDecimalWord
  rw [hscan]
  have e1 : ¬ ((0 : Int) = ((39 :: 45 :: ds).length : Int) - 1) := by
    simp only [List.length_cons, Nat.cast_add, Nat.cast_one]; omega
  simp only [e1, if_false]
  simp [atoi_minus_digits ds hn]
  by_cases h : 128 < digitsValue 0 ds
  · simp [h]
  · have h2 : ¬ (127 < -(digitsValue 0 ds : Int)) := by omega
    have h3 : toByte (-(digitsValue 0 ds : Int)) = (256 - digitsValue 0 ds) % 256 := by
      unfold toByte; omega
    simp only [h, h2, or_self, if_false, h3]

/-- C10 as amended (decimal range enforcement without byte-count).  For a token made
of a quote and decimal digits of value `n < 2^31`, `processDecimalWord` writes the
single byte `n` when `n ≤ 255` and returns 0 when `n > 255`; for a token made of a
quote, a minus sign and decimal digits of value `n ≤ 2^31` it writes the single byte
`(256 - n) mod 256`, the two's complement of `-n`, when `-n ≥ -128` and returns 0 when
`-n < -128`; nothing is written when it returns 0.  The token with digits 200 gives
0xC8 and the one with -200 fails. -/
theorem processDecimalWord_range (F : FloatOps) (out ds : List Nat) (hne : ds ≠ [])
    (hds : ∀ c ∈ ds, isdigit c = true) (hn : digitsValue 0 ds ≤ 2 ^ 31) :
    (digitsValue 0 ds ≤ 255 →
      processDecimalWord F out (39 :: ds) = (1, out ++ [digitsValue 0 ds])) ∧
    (255 < digitsValue 0 ds → digitsValue 0 ds < 2 ^ 31 →
      processDecimalWord F out (39 :: ds) = (0, out)) ∧
    (digitsValue 0 ds ≤ 128 →
      processDecimalWord F out (39 :: 45 :: ds) = (1, out ++ [(256 - digitsValue 0 ds) % 256])) ∧
    (128 < digitsValue 0 ds → processDecimalWord F out (39 :: 45 :: ds) = (0, out)) ∧
    processDecimalWord F out [39, 50, 48, 48] = (1, out ++ [0xC8]) ∧
    processDecimalWord F out [39, 45, 50, 48, 48] = (0, out) := by
  refine ⟨fun h => ?_, fun h h2 => ?_, fun h => ?_, fun h => ?_, ?_, ?_⟩
  · rw [processDecimalWord_unsigned F out ds hne hds (by omega), if_neg (by omega)]
  · rw [processDecimalWord_unsigned F out ds hne hds h2, if_pos h]
  · rw [processDecimalWord_signed F out ds hds hn, if_neg (by omega)]
  · rw [processDecimalWord_signed F out ds hds hn, if_pos h]
  · exact processDecimalWord_unsigned F out [50, 48, 48] (by decide) (by decide) (by decide)
  · exact processDecimalWord_signed F out [50, 48, 48] (by decide) (by decide)

/-- Witness for C10 as amended: the digits `200`. -/
theorem processDecimalWord_range_witness :
    processDecimalWord FloatOps.zero [] (39 :: [50, 48, 48]) =
      (1, [] ++ [digitsValue 0 [50, 48, 48]]) ∧
    processDecimalWord FloatOps.zero [] (39 :: 45 :: [50, 48, 48]) = (0, []) :=
  ⟨(processDecimalWord_range FloatOps.zero [] [50, 48, 48] (by decide) (by decide)
      (by decide)).1 (by decide),
   (processDecimalWord_range FloatOps.zero [] [50, 48, 48] (by decide) (by decide)
      (by decide)).2.2.2.1 (by decide)⟩

/-- Counterexample to C10 as stated: the unsigned token with the digits 4294967296,
a value above 255, is accepted and written as the byte 0x00; and the token with a
minus sign and the same digits, a value below -128, is accepted as well. -/
theorem processDecimalWord_range_counterexample :
    digitsValue 0 [52, 50, 57, 52, 57, 54, 55, 50, 57, 54] = 4294967296 ∧
    processDecimalWord FloatOps.zero [] [39, 52, 50, 57, 52, 57, 54, 55, 50, 57, 54] = (1, [0]) ∧
    processDecimalWord FloatOps.zero [] [39, 45, 52, 50, 57, 52, 57, 54, 55, 50, 57, 54] =
      (1, [0]) := by
  refine ⟨by decide, by decide, by decide⟩

/-! ## The line processor -/

theorem processHexWord_append (out word : List Nat) :
    processHexWord out word = ((processHexWord [] word).1, out ++ (processHexWord [] word).2) := by
  unfold processHexWord
  split_ifs <;> simp

theorem processAsciiWord_append (out word : List Nat) :
    processAsciiWord out word =
      ((processAsciiWord [] word).1, out ++ (processAsciiWord [] word).2) := by
  unfold processAsciiWord
  split_ifs <;> simp

theorem processVlvWord_append (out word : List Nat) :
    processVlvWord out word = ((processVlvWord [] word).1, out ++ (processVlvWord [] word).2) := by
  unfold processVlvWord
  split_ifs <;> simp

theorem processMidiTempoWord_append (F : FloatOps) (out word : List Nat) :
    processMidiTempoWord F out word =
      ((processMidiTempoWord F [] word).1, out ++ (processMidiTempoWord F [] word).2) := by
  unfold processMidiTempoWord
  dsimp only
  split_ifs <;> simp

theorem processMidiPitchBendWord_append (F : FloatOps) (out word : List Nat) :
    processMidiPitchBendWord F out word =
      ((processMidiPitchBendWord F [] word).1, out ++ (processMidiPitchBendWord F [] word).2) := by
  unfold processMidiPitchBendWord
  dsimp only
  split_ifs <;> simp

theorem processBinaryWord_append (out word : List Nat) :
    processBinaryWord out word =
      ((processBinaryWord [] word).1, out ++ (processBinaryWord [] word).2) := by
  unfold processBinaryWord
  dsimp only
  generalize binaryScan word 0 (-1) = o
  cases o with
  | none => simp
  | some ci =>
    dsimp only
    apply Prod.ext
    · simp only [apply_ite Prod.fst]
    · simp only [apply_ite Prod.snd, apply_ite (HAppend.hAppend out), List.append_nil,
        List.nil_append]

theorem processDecimalWord_append (F : FloatOps) (out word : List Nat) :
    processDecimalWord F out word =
      ((processDecimalWord F [] word).1, out ++ (processDecimalWord F [] word).2) := by
  unfold processDecimalWord
  dsimp only
  generalize decimalScan word word 0 ⟨-1, -1, -1, -1, -1⟩ = o
  cases o with
  | none => simp
  | some s =>
    dsimp only
    apply Prod.ext
    · simp only [apply_ite Prod.fst]
    · simp only [apply_ite Prod.snd, apply_ite (HAppend.hAppend out), List.append_nil,
        List.nil_append, writeBigEndian, writeLittleEndian]

theorem emit_append (F : FloatOps) (k : Kind) (out word : List Nat) :
    emit F k out word = ((emit F k [] word).1, out ++ (emit F k [] word).2) := by
  cases k
  · exact processAsciiWord_append out word
  · simp [emit, processStringWord]
  · exact processVlvWord_append out word
  · exact processMidiPitchBendWord_append F out word
  · exact processMidiTempoWord_append F out word
  · exact processDecimalWord_append F out word
  · exact processBinaryWord_append out word
  · exact processHexWord_append out word

theorem ite_zero_nil {c : Prop} [Decidable c] {a b : Nat × List Nat}
    (ha : a.1 = 0 → a.2 = []) (hb : b.1 = 0 → b.2 = []) :
    (if c then a else b).1 = 0 → (if c then a else b).2 = [] := by
  split_ifs
  · exact ha
  · exact hb

theorem emit_zero (F : FloatOps) (k : Kind) (word : List Nat) :
    (emit F k [] word).1 = 0 → (emit F k [] word).2 = [] := by
  cases k
  · simp only [emit]; unfold processAsciiWord; split_ifs <;> simp
  · simp [emit, processStringWord]
  · simp only [emit]; unfold processVlvWord; split_ifs <;> simp
  · simp only [emit]; unfold processMidiPitchBendWord; dsimp only; split_ifs <;> simp
  · simp only [emit]; unfold processMidiTempoWord; dsimp only; split_ifs <;> simp
  · simp only [emit]; unfold processDecimalWord; dsimp only
    generalize decimalScan word word 0 ⟨-1, -1, -1, -1, -1⟩ = o
    cases o with
    | none => simp
    | some s =>
      dsimp only
      repeat' apply ite_zero_nil
      all_goals simp
  · simp only [emit]; unfold processBinaryWord; dsimp only
    generalize binaryScan word 0 (-1) = o
    cases o with
    | none => simp
    | some ci =>
      dsimp only
      repeat' apply ite_zero_nil
      all_goals simp
  · simp only [emit]; unfold processHexWord; split_ifs <;> simp
theorem processLineLoop_tokens (F : FloatOps) : ∀ (fuel : Nat) (rest out : List Nat)
    (r : Nat × List Nat), processLineLoop F fuel rest out = Run.ret r →
    (r.1 = 0 → ∃ pre t post, tokensLoop fuel rest = pre ++ t :: post ∧
      (∀ s ∈ pre, tokenStatus F s ≠ 0) ∧ tokenStatus F t = 0 ∧
      r.2 = out ++ (pre.map (tokenBytes F)).flatten) ∧
    (r.1 ≠ 0 → r.1 = 1 ∧ (∀ s ∈ tokensLoop fuel rest, tokenStatus F s ≠ 0) ∧
      r.2 = out ++ ((tokensLoop fuel rest).map (tokenBytes F)).flatten) := by
  intro fuel
  induction fuel with
  | zero => intro rest out r h; simp [processLineLoop] at h
  | succ f ih =>
    intro rest out r h
    cases rest with
    | nil =>
      simp only [processLineLoop, Run.ret.injEq] at h
      subst h
      simp [tokensLoop]
    | cons c cs =>
      simp only [processLineLoop] at h
      by_cases hc : c = 59 ∨ c = 35 ∨ c = 47
      · simp only [hc, if_true, Run.ret.injEq] at h
        subst h
        simp [tokensLoop, hc]
      · simp only [hc, if_false] at h
        by_cases hw : c = 32 ∨ c = 10 ∨ c = 9
        · simp only [hw, if_true] at h
          have := ih cs out r h
          simpa [tokensLoop, hc, hw] using this
        · simp only [hw, if_false] at h
          have htl : tokensLoop (f + 1) (c :: cs) =
              ((classify (c :: cs)).1, (classify (c :: cs)).2.1) ::
                tokensLoop f (classify (c :: cs)).2.2 := by
            simp [tokensLoop, hc, hw]
          generalize classify (c :: cs) = t at h htl
          have he := emit_append F t.1 out t.2.1
          by_cases hz : (emit F t.1 [] t.2.1).1 = 0
          · have hz' : (emit F t.1 out t.2.1).1 = 0 := by rw [he]; exact hz
            simp only [hz', if_true, Run.ret.injEq] at h
            subst h
            refine ⟨fun _ => ⟨[], (t.1, t.2.1), tokensLoop f t.2.2, by simpa using htl, by simp,
              hz, ?_⟩, fun hne => absurd rfl hne⟩
            rw [he, emit_zero F t.1 t.2.1 hz]
            simp
          · have hz' : ¬ (emit F t.1 out t.2.1).1 = 0 := by rw [he]; exact hz
            simp only [hz', if_false] at h
            have := ih t.2.2 (emit F t.1 out t.2.1).2 r h
            have hout : (emit F t.1 out t.2.1).2 = out ++ tokenBytes F (t.1, t.2.1) := by
              rw [he]; rfl
            rw [hout] at this
            rw [htl]
            constructor
            · intro h0
              obtain ⟨pre, tk, post, h1, h2, h3, h4⟩ := this.1 h0
              refine ⟨(t.1, t.2.1) :: pre, tk, post, by rw [h1]; rfl, ?_, h3, ?_⟩
              · intro s hs
                rcases List.mem_cons.1 hs with rfl | hs
                · exact hz
                · exact h2 s hs
              · rw [h4]; simp
            · intro h1
              obtain ⟨g1, g2, g3⟩ := this.2 h1
              refine ⟨g1, ?_, ?_⟩
              · intro s hs
                rcases List.mem_cons.1 hs with rfl | hs
                · exact hz
                · exact g2 s hs
              · rw [g3]; simp
theorem getWordLoop_length (escape : Bool) (terminators : List Nat) :
    ∀ (fuel : Nat) (l : List Nat) (ecount : Nat) (word : List Nat),
    (getWordLoop escape terminators fuel l ecount word).2.length ≤ l.length ∧
    (l ≠ [] → fuel ≠ 0 →
      (getWordLoop escape terminators fuel l ecount word).2.length < l.length) := by
  intro fuel
  induction fuel with
  | zero => intro l ecount word; simp [getWordLoop]
  | succ f ih =>
    intro l ecount word
    cases l with
    | nil => simp [getWordLoop]
    | cons c cs =>
      have key : (getWordLoop escape terminators (f + 1) (c :: cs) ecount word).2.length <
          (c :: cs).length := by
        simp only [getWordLoop]
        by_cases hit : (escape && decide (c = 34)) = true
        · simp only [hit, if_true, Bool.true_and]
          by_cases h2 : decide (ecount + 1 ≥ 2) = true
          · simp only [h2, if_true, List.length_cons]; omega
          · simp only [h2, Bool.false_eq_true, if_false]
            cases cs with
            | nil => dsimp only; split_ifs <;> simp
            | cons d ds =>
              dsimp only
              split_ifs with h3 h4
              · have := (ih (ds.drop 1) (ecount + 1) (word ++ [34])).1
                simp only [List.length_drop, List.length_cons] at this ⊢
                omega
              · have := (ih ds (ecount + 1) (word ++ [d])).1
                simp only [List.length_cons] at this ⊢
                omega
              · simp only [List.length_cons]; omega
        · simp only [hit, Bool.false_eq_true, if_false, Bool.false_and]
          split_ifs with h3 h4
          · have := (ih (cs.drop 1) ecount (word ++ [34])).1
            simp only [List.length_drop, List.length_cons] at this ⊢
            omega
          · have := (ih cs ecount (word ++ [c])).1
            simp only [List.length_cons] at this ⊢
            omega
          · simp
      exact ⟨Nat.le_of_lt key, fun _ _ => key⟩

theorem getWord_length_lt (input terminators : List Nat) (h : input ≠ []) :
    (getWord input terminators).2.length < input.length :=
  (getWordLoop_length _ terminators _ input 0 []).2 h (by omega)

theorem classify_length_lt (input : List Nat) (h : input ≠ []) :
    (classify input).2.2.length < input.length := by
  unfold classify
  dsimp only
  split_ifs <;> exact getWord_length_lt input _ h

theorem processLineLoop_returns (F : FloatOps) : ∀ (fuel : Nat) (rest out : List Nat),
    rest.length < fuel → ∃ r, processLineLoop F fuel rest out = Run.ret r := by
  intro fuel
  induction fuel with
  | zero => intro rest out h; omega
  | succ f ih =>
    intro rest out h
    cases rest with
    | nil => exact ⟨(1, out), rfl⟩
    | cons c cs =>
      simp only [processLineLoop]
      split_ifs with h1 h2 h3
      · exact ⟨_, rfl⟩
      · exact ih cs out (by simpa using h)
      · exact ⟨_, rfl⟩
      · apply ih
        have := classify_length_lt (c :: cs) (by simp)
        omega

theorem processLine_returns (F : FloatOps) (out input : List Nat) :
    ∃ r, processLine F out input = Run.ret r :=
  processLineLoop_returns F _ input out (by omega)

/-- C6 (no partial token output, short-circuit).  Every emitter that returns 0 leaves
the output as it was.  When `processLine` returns 0 on a line, the tokens of the line
are `pre ++ t :: post` where every token of `pre` is emitted with a non-zero status,
the emitter of `t` returns 0, and the output is what it was before the line followed
by the bytes of the tokens of `pre`: nothing for `t` and nothing for the tokens of
`post`. -/
theorem processLine_short_circuit (F : FloatOps) (out line : List Nat) (r : Nat × List Nat)
    (h : processLine F out line = Run.ret r) (h0 : r.1 = 0) :
    (∀ k o word, (emit F k o word).1 = 0 → (emit F k o word).2 = o) ∧
    ∃ pre t post, tokens line = pre ++ t :: post ∧
      (∀ s ∈ pre, tokenStatus F s ≠ 0) ∧ tokenStatus F t = 0 ∧ tokenBytes F t = [] ∧
      r.2 = out ++ (pre.map (tokenBytes F)).flatten := by
  constructor
  · intro k o word hz
    rw [emit_append F k o word] at hz ⊢
    simp only at hz ⊢
    rw [emit_zero F k word hz]
    simp
  · obtain ⟨pre, t, post, h1, h2, h3, h4⟩ := (processLineLoop_tokens F _ line out r h).1 h0
    exact ⟨pre, t, post, h1, h2, h3, emit_zero F t.1 t.2 h3, h4⟩

/-- Witness for C6: on the line `ff zz 00` the word `zz` fails; the byte of `ff` is
written and nothing else. -/
theorem processLine_short_circuit_witness :
    processLine FloatOps.zero [] [102, 102, 32, 122, 122, 32, 48, 48] = Run.ret (0, [255]) ∧
    ∃ pre t post, tokens [102, 102, 32, 122, 122, 32, 48, 48] = pre ++ t :: post ∧
      (∀ s ∈ pre, tokenStatus FloatOps.zero s ≠ 0) ∧ tokenStatus FloatOps.zero t = 0 ∧
      tokenBytes FloatOps.zero t = [] ∧
      (0, [255]).2 = [] ++ (pre.map (tokenBytes FloatOps.zero)).flatten :=
  ⟨by decide, (processLine_short_circuit FloatOps.zero []
    [102, 102, 32, 122, 122, 32, 48, 48] (0, [255]) (by decide) rfl).2⟩

/-- C5, the code at the failing input: on the text `zz` followed by a newline the
word `zz` makes `processLine` return 0, and `writeToBinary` returns 1. -/
theorem writeToBinary_ignores_status :
    processLine FloatOps.zero [] [122, 122] = Run.ret (0, []) ∧
    writeToBinary FloatOps.zero 2 [] [122, 122, 10] = Run.ret (1, []) := by
  constructor <;> decide

/-! ## Plain byte dumps and their round trip -/

theorem processLineLoop_shift (F : FloatOps) : ∀ (fuel : Nat) (rest out1 out2 : List Nat)
    (r : Nat × List Nat), processLineLoop F fuel rest out1 = Run.ret r →
    processLineLoop F fuel rest (out2 ++ out1) = Run.ret (r.1, out2 ++ r.2) := by
  intro fuel
  induction fuel with
  | zero => intro rest out1 out2 r h; simp [processLineLoop] at h
  | succ f ih =>
    intro rest out1 out2 r h
    cases rest with
    | nil =>
      simp only [processLineLoop, Run.ret.injEq] at h ⊢
      subst h; rfl
    | cons c cs =>
      simp only [processLineLoop] at h ⊢
      split_ifs at h ⊢ with h1 h2 h3 h4 h5
      · simp only [Run.ret.injEq] at h ⊢; subst h; rfl
      · exact ih cs out1 out2 r h
      · simp only [Run.ret.injEq] at h ⊢
        subst h
        rw [emit_append F _ (out2 ++ out1), emit_append F _ out1]
        simp
      · exfalso
        rw [emit_append] at h3
        rw [emit_append] at h4
        exact h4 h3
      · exfalso
        rw [emit_append] at h3
        rw [emit_append] at h5
        exact h3 h5
      · have := ih _ _ out2 r h
        rw [emit_append F _ (out2 ++ out1)]
        rw [emit_append F _ out1] at this
        simpa using this

theorem processLine_eq (F : FloatOps) (out line : List Nat) :
    ∃ s, processLine F out line = Run.ret (s, out ++ processLineBytes F line) := by
  obtain ⟨r, hr⟩ := processLine_returns F [] line
  refine ⟨r.1, ?_⟩
  have := processLineLoop_shift F _ line [] out r hr
  simp only [List.append_nil] at this
  simp only [processLineBytes, hr]
  exact this

theorem getlineLoop_line (l rest : List Nat) (hl : (10 : Nat) ∉ l) :
    ∀ (room : Nat) (acc : List Nat), l.length ≤ room →
    getlineLoop room (l ++ 10 :: rest) acc = (acc ++ l, rest, false, false) := by
  induction l with
  | nil =>
    intro room acc _
    cases room <;> simp [getlineLoop]
  | cons c cs ih =>
    intro room acc h
    have hc : c ≠ 10 := fun e => hl (by simp [e])
    have hcs : (10 : Nat) ∉ cs := fun e => hl (by simp [e])
    cases room with
    | zero => simp at h
    | succ k =>
      rw [List.cons_append, getlineLoop]
      simp only [hc, if_false]
      rw [ih hcs k _ (by simpa using h)]
      simp

theorem getlineLoop_last (l : List Nat) (hl : (10 : Nat) ∉ l) :
    ∀ (room : Nat) (acc : List Nat), l.length ≤ room →
    getlineLoop room l acc = (acc ++ l, [], true, (acc ++ l).isEmpty) := by
  induction l with
  | nil =>
    intro room acc _
    cases room <;> simp [getlineLoop]
  | cons c cs ih =>
    intro room acc h
    have hc : c ≠ 10 := fun e => hl (by simp [e])
    have hcs : (10 : Nat) ∉ cs := fun e => hl (by simp [e])
    cases room with
    | zero => simp at h
    | succ k =>
      simp only [getlineLoop, hc, if_false]
      rw [ih hcs k _ (by simpa using h)]
      simp

theorem getlineLoop_long (l rest : List Nat) (hl : (10 : Nat) ∉ l) :
    ∀ (room : Nat) (acc : List Nat), room < l.length →
    ∃ line left, getlineLoop room (l ++ rest) acc = (line, left, false, true) := by
  induction l with
  | nil => intro room acc h; simp at h
  | cons c cs ih =>
    intro room acc h
    have hc : c ≠ 10 := fun e => hl (by simp [e])
    have hcs : (10 : Nat) ∉ cs := fun e => hl (by simp [e])
    cases room with
    | zero => exact ⟨acc, c :: (cs ++ rest), by simp [getlineLoop, hc]⟩
    | succ k =>
      rw [List.cons_append, getlineLoop]
      simp only [hc, if_false]
      exact ih hcs k _ (by simpa using h)

theorem takeWhile_ne_zero (l : List Nat) (hl : (0 : Nat) ∉ l) :
    l.takeWhile (fun c => decide (c ≠ 0)) = l := by
  rw [List.takeWhile_eq_self_iff]
  intro x hx
  simp only [decide_eq_true_eq]
  exact fun e => hl (e ▸ hx)

theorem getline_line (l rest : List Nat) (h10 : (10 : Nat) ∉ l) (h0 : (0 : Nat) ∉ l)
    (hlen : l.length ≤ 1023) :
    getline (IStream.open (l ++ 10 :: rest)) = (l, IStream.open rest) := by
  simp only [getline, IStream.open, IStream.good, Bool.not_false, Bool.and_self, if_true]
  rw [getlineLoop_line l rest h10 1023 [] hlen]
  have h0' : ∀ x ∈ l, ¬ x = 0 := fun x hx e => h0 (e ▸ hx)
  simpa using h0' 

theorem writeToBinary_lines (F : FloatOps) (tail : List Nat) (ht : (10 : Nat) ∉ tail)
    (htl : tail.length ≤ 1023) :
    ∀ (lines : List (List Nat)) (out : List Nat) (fuel : Nat),
    (∀ l ∈ lines, (10 : Nat) ∉ l ∧ (0 : Nat) ∉ l ∧ l.length ≤ 1023) → lines.length < fuel →
    writeToBinary F fuel out (unlines lines ++ tail) =
      Run.ret (1, out ++ (lines.map (processLineBytes F)).flatten) := by
  intro lines
  induction lines with
  | nil =>
    intro out fuel _ hf
    obtain ⟨k, rfl⟩ : ∃ k, fuel = k + 1 := ⟨fuel - 1, by omega⟩
    simp only [writeToBinary, unlines, List.map_nil, List.flatten_nil, List.nil_append, getline,
      IStream.open, IStream.good, Bool.not_false, Bool.and_self, if_true]
    rw [getlineLoop_last tail ht 1023 [] htl]
    simp [writeToBinaryLoop]
  | cons l ls ih =>
    intro out fuel hl hf
    obtain ⟨k, rfl⟩ : ∃ k, fuel = k + 1 := ⟨fuel - 1, by omega⟩
    obtain ⟨h10, h0, hlen⟩ := hl l (by simp)
    have e : unlines (l :: ls) ++ tail = l ++ 10 :: (unlines ls ++ tail) := by
      simp [unlines]
    obtain ⟨s, hs⟩ := processLine_eq F out l
    have := ih (out ++ processLineBytes F l) k (fun x hx => hl x (by simp [hx]))
      (by simpa using hf)
    simp only [writeToBinary] at this ⊢
    rw [e, getline_line l _ h10 h0 hlen]
    simp only [writeToBinaryLoop, IStream.open, Bool.false_eq_true, if_false, hs]
    rw [IStream.open] at this
    rw [this]
    simp

theorem writeToBinaryLoop_spin (F : FloatOps) : ∀ (fuel : Nat) (s : IStream)
    (line out : List Nat), s.eofbit = false → s.failbit = true →
    writeToBinaryLoop F fuel s line out = Run.spin := by
  intro fuel
  induction fuel with
  | zero => intro s line out _ _; rfl
  | succ f ih =>
    intro s line out he hf
    obtain ⟨r, hr⟩ := processLine_returns F out line
    have hg : getline s = ([], { s with failbit := true }) := by
      simp [getline, IStream.good, he, hf]
    simp only [writeToBinaryLoop, he, Bool.false_eq_true, if_false, hr, hg]
    exact ih _ _ _ rfl rfl

theorem writeToBinary_long_line (F : FloatOps) (l rest out : List Nat) (fuel : Nat)
    (hl : (10 : Nat) ∉ l) (hlen : 1023 < l.length) :
    writeToBinary F fuel out (l ++ rest) = Run.spin := by
  obtain ⟨line, left, h⟩ := getlineLoop_long l rest hl 1023 [] hlen
  simp only [writeToBinary, getline, IStream.open, IStream.good, Bool.not_false, Bool.and_self,
    if_true, h]
  exact writeToBinaryLoop_spin F fuel _ _ _ rfl rfl

theorem hexDigitChar_cases (d : Nat) (h : d < 16) :
    (48 ≤ hexDigitChar d ∧ hexDigitChar d ≤ 57 ∧ hexDigitChar d = 48 + d) ∨
    (97 ≤ hexDigitChar d ∧ hexDigitChar d ≤ 102 ∧ hexDigitChar d = 87 + d) := by
  unfold hexDigitChar
  split_ifs <;> omega

theorem hexDigitValue_hexDigitChar (d : Nat) (h : d < 16) :
    isxdigit (hexDigitChar d) = true ∧ hexDigitValue (hexDigitChar d) = d := by
  rcases hexDigitChar_cases d h with ⟨h1, h2, h3⟩ | ⟨h1, h2, h3⟩
  · have hd : isdigit (hexDigitChar d) = true := by simp [isdigit, h1, h2]
    refine ⟨by simp [isxdigit, hd], ?_⟩
    simp only [hexDigitValue, hd, if_true]
    omega
  · have hd : isdigit (hexDigitChar d) = false := by
      simp only [isdigit, Bool.and_eq_false_iff, decide_eq_false_iff_not]
      omega
    have hx : (decide (97 ≤ hexDigitChar d) && decide (hexDigitChar d ≤ 102)) = true := by
      simp [h1, h2]
    refine ⟨by simp [isxdigit, hx], ?_⟩
    simp only [hexDigitValue, hd, hx, if_true, Bool.false_eq_true, if_false]
    omega

theorem hexByteText_eq (ch : Nat) (h : ch < 256) :
    hexByteText ch = [hexDigitChar (ch / 16), hexDigitChar (ch % 16), 32] := by
  unfold hexByteText showHex
  by_cases h16 : ch < 16
  · have e1 : ch / 16 = 0 := by omega
    have e2 : ch % 16 = ch := by omega
    simp [hexDigits, h16, e1, e2, hexDigitChar]
  · have e1 : ch / 16 < 16 := by omega
    have he : hexDigits (ch + 1) ch [] = hexDigits ch (ch / 16) [hexDigitChar (ch % 16)] := by
      simp [hexDigits, h16]
    obtain ⟨k, hk⟩ : ∃ k, ch = k + 1 := ⟨ch - 1, by omega⟩
    rw [he]
    conv_lhs => rw [hk]
    simp only [hexDigits, ← hk, e1, if_true, h16, if_false]
    simp

theorem processHexWord_pair (out : List Nat) (hi lo : Nat) (hh : hi < 16) (hl : lo < 16) :
    processHexWord out [hexDigitChar hi, hexDigitChar lo] = (1, out ++ [hi * 16 + lo]) := by
  obtain ⟨x1, v1⟩ := hexDigitValue_hexDigitChar hi hh
  obtain ⟨x2, v2⟩ := hexDigitValue_hexDigitChar lo hl
  have : (hi * 16 + lo) % 256 = hi * 16 + lo := by omega
  simp [processHexWord, x1, x2, strtol16, v1, v2, this]

theorem getWord_pair (a b : Nat) (rest : List Nat) (ha : a ≠ 32 ∧ a ≠ 10 ∧ a ≠ 9)
    (hb : b ≠ 32 ∧ b ≠ 10 ∧ b ≠ 9) :
    getWord (a :: b :: 32 :: rest) [32, 10, 9] = ([a, b], rest) := by
  obtain ⟨a1, a2, a3⟩ := ha
  obtain ⟨b1, b2, b3⟩ := hb
  simp [getWord, getWordLoop, a1, a2, a3, b1, b2, b3]

theorem classify_hex_pair (hi lo : Nat) (rest : List Nat) (hh : hi < 16) (hl : lo < 16) :
    classify (hexDigitChar hi :: hexDigitChar lo :: 32 :: rest) =
      (Kind.hex, [hexDigitChar hi, hexDigitChar lo], rest) := by
  have c1 := hexDigitChar_cases hi hh
  have c2 := hexDigitChar_cases lo hl
  have g := getWord_pair (hexDigitChar hi) (hexDigitChar lo) rest (by omega) (by omega)
  have n1 : hexDigitChar hi ≠ 43 ∧ hexDigitChar hi ≠ 34 ∧ hexDigitChar hi ≠ 118 ∧
      hexDigitChar hi ≠ 112 ∧ hexDigitChar hi ≠ 116 ∧ hexDigitChar hi ≠ 39 ∧
      hexDigitChar hi ≠ 44 := by omega
  have n2 : hexDigitChar lo ≠ 39 ∧ hexDigitChar lo ≠ 44 := by omega
  obtain ⟨m1, m2, m3, m4, m5, m6, m7⟩ := n1
  obtain ⟨m8, m9⟩ := n2
  simp [classify, g, m1, m2, m3, m4, m5, m6.symm, m7.symm, m8.symm, m9.symm]

theorem processLineLoop_hexByte (F : FloatOps) (fuel : Nat) (ch : Nat) (hch : ch < 256)
    (tail out : List Nat) :
    processLineLoop F (fuel + 1) (hexByteText ch ++ tail) out =
      processLineLoop F fuel tail (out ++ [ch]) := by
  have hh : ch / 16 < 16 := by omega
  have hl : ch % 16 < 16 := by omega
  have c1 := hexDigitChar_cases (ch / 16) hh
  rw [hexByteText_eq ch hch]
  simp only [List.cons_append, List.nil_append]
  rw [processLineLoop]
  have n1 : ¬ (hexDigitChar (ch / 16) = 59 ∨ hexDigitChar (ch / 16) = 35 ∨
      hexDigitChar (ch / 16) = 47) := by omega
  have n2 : ¬ (hexDigitChar (ch / 16) = 32 ∨ hexDigitChar (ch / 16) = 10 ∨
      hexDigitChar (ch / 16) = 9) := by omega
  simp only [n1, n2, if_false]
  rw [classify_hex_pair _ _ tail hh hl]
  simp only [emit, processHexWord_pair out _ _ hh hl]
  have : ch / 16 * 16 + ch % 16 = ch := by omega
  simp [this]

theorem processLineLoop_hexLine (F : FloatOps) : ∀ (c : List Nat), (∀ x ∈ c, x < 256) →
    ∀ (fuel : Nat) (tail out : List Nat),
    processLineLoop F (fuel + c.length) (hexLine c ++ tail) out =
      processLineLoop F fuel tail (out ++ c) := by
  intro c
  induction c with
  | nil => intro _ fuel tail out; simp [hexLine]
  | cons x xs ih =>
    intro hc fuel tail out
    have e : hexLine (x :: xs) ++ tail = hexByteText x ++ (hexLine xs ++ tail) := by
      simp [hexLine]
    rw [e, List.length_cons, ← Nat.add_assoc,
      processLineLoop_hexByte F _ x (hc x (by simp)),
      ih (fun y hy => hc y (by simp [hy]))]
    simp

theorem hexLine_length (c : List Nat) (hc : ∀ x ∈ c, x < 256) :
    (hexLine c).length = 3 * c.length := by
  induction c with
  | nil => rfl
  | cons x xs ih =>
    have e : hexLine (x :: xs) = hexByteText x ++ hexLine xs := by simp [hexLine]
    rw [e, List.length_append, ih (fun y hy => hc y (by simp [hy])),
      hexByteText_eq x (hc x (by simp))]
    simp only [List.length_cons, List.length_nil]
    omega

theorem hexLine_chars (c : List Nat) (hc : ∀ x ∈ c, x < 256) :
    ∀ y ∈ hexLine c, y ≠ 10 ∧ y ≠ 0 := by
  induction c with
  | nil => intro y hy; simp [hexLine] at hy
  | cons x xs ih =>
    intro y hy
    have e : hexLine (x :: xs) = hexByteText x ++ hexLine xs := by simp [hexLine]
    rw [e, hexByteText_eq x (hc x (by simp))] at hy
    have c1 := hexDigitChar_cases (x / 16) (by have := hc x (by simp); omega)
    have c2 := hexDigitChar_cases (x % 16) (by omega)
    simp only [List.cons_append, List.nil_append, List.mem_cons] at hy
    rcases hy with rfl | rfl | rfl | hy
    · omega
    · omega
    · omega
    · exact ih (fun z hz => hc z (by simp [hz])) y hy

theorem processLineBytes_hexLine (F : FloatOps) (c : List Nat) (hc : ∀ x ∈ c, x < 256) :
    processLineBytes F (hexLine c) = c := by
  have h := processLineLoop_hexLine F c hc (2 * c.length + 1) [] []
  have e : 2 * c.length + 1 + c.length = (hexLine c).length + 1 := by
    rw [hexLine_length c hc]; omega
  rw [e] at h
  simp only [List.append_nil, List.nil_append] at h
  simp [processLineBytes, processLine, h, processLineLoop]

theorem processLineBytes_space_hexLine (F : FloatOps) (c : List Nat) (hc : ∀ x ∈ c, x < 256) :
    processLineBytes F (32 :: hexLine c) = c := by
  have h := processLineLoop_hexLine F c hc (2 * c.length + 1) [] []
  have e : 2 * c.length + 1 + c.length = (hexLine c).length + 1 := by
    rw [hexLine_length c hc]; omega
  rw [e] at h
  simp only [List.append_nil, List.nil_append] at h
  simp [processLineBytes, processLine, h, processLineLoop]

theorem outputStyleBinaryLoop_part (m : Int) : ∀ (c rest : List Nat) (cb : Int) (out : List Nat),
    cb + (c.length : Int) < m →
    outputStyleBinaryLoop m (c ++ rest) cb out =
      outputStyleBinaryLoop m rest (cb + (c.length : Int)) (out ++ hexLine c) := by
  intro c
  induction c with
  | nil => intro rest cb out _; simp [hexLine]
  | cons x xs ih =>
    intro rest cb out h
    simp only [List.length_cons, Nat.cast_add, Nat.cast_one] at h
    have h1 : ¬ (cb + 1 ≥ m) := by omega
    rw [List.cons_append, outputStyleBinaryLoop]
    simp only [h1, if_false]
    rw [ih rest (cb + 1) _ (by omega)]
    simp only [List.length_cons, Nat.cast_add, Nat.cast_one, hexLine, List.map_cons,
      List.flatten_cons, List.append_assoc]
    congr 1
    omega

theorem outputStyleBinaryLoop_full (m : Int) : ∀ (c rest : List Nat) (cb : Int) (out : List Nat),
    c ≠ [] → cb + (c.length : Int) = m →
    outputStyleBinaryLoop m (c ++ rest) cb out =
      outputStyleBinaryLoop m rest 0 (out ++ hexLine c ++ [10]) := by
  intro c
  induction c with
  | nil => intro rest cb out h; exact absurd rfl h
  | cons x xs ih =>
    intro rest cb out _ h
    simp only [List.length_cons, Nat.cast_add, Nat.cast_one] at h
    rw [List.cons_append, outputStyleBinaryLoop]
    cases xs with
    | nil =>
      have h1 : cb + 1 ≥ m := by simp at h; omega
      simp [h1, hexLine]
    | cons y ys =>
      have h1 : ¬ (cb + 1 ≥ m) := by
        simp only [List.length_cons, Nat.cast_add, Nat.cast_one] at h; omega
      simp only [h1, if_false]
      rw [ih rest (cb + 1) _ (by simp) (by omega)]
      simp [hexLine]

theorem outputStyleBinary_chunks (m : Int) (hm : 1 ≤ m) : ∀ (n : Nat) (b : List Nat),
    b.length ≤ n → ∀ (out : List Nat), ∃ chunks : List (List Nat),
    b = chunks.flatten ∧
    (∀ c ∈ chunks, 1 ≤ c.length ∧ (c.length : Int) ≤ m ∧ c.length ≤ b.length) ∧
    chunks.length ≤ b.length ∧
    (let r := outputStyleBinaryLoop m b 0 out
     (if r.2 ≠ 0 then r.1 ++ [10] else r.1) = out ++ unlines (chunks.map hexLine)) := by
  intro n
  induction n with
  | zero =>
    intro b hb out
    have : b = [] := List.length_eq_zero.1 (by omega)
    subst this
    exact ⟨[], by simp, by simp, by simp, by simp [outputStyleBinaryLoop, unlines]⟩
  | succ k ih =>
    intro b hb out
    by_cases hnil : b = []
    · subst hnil
      exact ⟨[], by simp, by simp, by simp, by simp [outputStyleBinaryLoop, unlines]⟩
    have hpos : 0 < b.length := List.length_pos.2 hnil
    by_cases hlt : (b.length : Int) < m
    · -- a single partial group
      refine ⟨[b], by simp, ?_, by simp; omega, ?_⟩
      · intro c hc
        simp only [List.mem_singleton] at hc
        subst hc
        exact ⟨hpos, by omega, le_refl _⟩
      · have := outputStyleBinaryLoop_part m b [] 0 out (by omega)
        simp only [List.append_nil] at this
        rw [this]
        simp only [outputStyleBinaryLoop]
        have hne : ((0 : Int) + (b.length : Int)) ≠ 0 := by omega
        simp [hne, unlines, hnil]
    · -- a full group, then the rest
      have hmn : m.toNat ≤ b.length := by omega
      have hmpos : 0 < m.toNat := by omega
      have hc : (b.take m.toNat).length = m.toNat := by
        rw [List.length_take]; omega
      have hr : (b.drop m.toNat).length ≤ k := by
        rw [List.length_drop]; omega
      have hcne : b.take m.toNat ≠ [] := by
        intro e; rw [e] at hc; simp at hc; omega
      obtain ⟨chunks, h1, h2, h3, h4⟩ := ih (b.drop m.toNat) hr
        (out ++ hexLine (b.take m.toNat) ++ [10])
      refine ⟨b.take m.toNat :: chunks, ?_, ?_, ?_, ?_⟩
      · rw [List.flatten_cons, ← h1, List.take_append_drop]
      · intro c hc'
        rcases List.mem_cons.1 hc' with rfl | hc'
        · exact ⟨by omega, by omega, by omega⟩
        · obtain ⟨g1, g2, g3⟩ := h2 c hc'
          refine ⟨g1, g2, ?_⟩
          rw [List.length_drop] at g3
          omega
      · rw [List.length_drop] at h3
        simp only [List.length_cons]
        omega
      · have e := outputStyleBinaryLoop_full m (b.take m.toNat) (b.drop m.toNat) 0 out hcne
          (by omega)
        rw [List.take_append_drop] at e
        simp only at h4 ⊢
        rw [e, h4]
        simp [unlines]

theorem outputStyleBinary_eq (m : Int) (hm : 1 ≤ m) (b out : List Nat) (hb : b ≠ []) :
    ∃ chunks : List (List Nat),
    b = chunks.flatten ∧
    (∀ c ∈ chunks, 1 ≤ c.length ∧ (c.length : Int) ≤ m ∧ c.length ≤ b.length) ∧
    chunks.length ≤ b.length ∧
    outputStyleBinary m out b = (1, out ++ unlines (chunks.map hexLine)) := by
  obtain ⟨chunks, h1, h2, h3, h4⟩ := outputStyleBinary_chunks m hm b.length b (le_refl _) out
  refine ⟨chunks, h1, h2, h3, ?_⟩
  cases b with
  | nil => exact absurd rfl hb
  | cons x xs =>
    simp only [outputStyleBinary]
    simp only at h4
    split_ifs with h
    · rw [if_pos h] at h4; rw [h4]
    · rw [if_neg h] at h4; rw [h4]

theorem map_processLineBytes_hexLine (F : FloatOps) (chunks : List (List Nat))
    (h : ∀ c ∈ chunks, ∀ x ∈ c, x < 256) :
    ((chunks.map hexLine).map (processLineBytes F)).flatten = chunks.flatten := by
  induction chunks with
  | nil => rfl
  | cons c cs ih =>
    simp only [List.map_cons, List.flatten_cons]
    rw [processLineBytes_hexLine F c (h c (by simp)), ih (fun d hd => h d (by simp [hd]))]

/-- C2 as amended (hex-only round trip).  For every non-empty byte sequence `b` and
every `maxLineBytes ≥ 1`, when `maxLineBytes ≤ 341` or `b` has at most 341 bytes,
`outputStyleBinary` returns 1 and `writeToBinary` applied to the text it wrote returns
and writes exactly `b`. -/
theorem writeToBinary_outputStyleBinary (F : FloatOps) (b : List Nat) (maxLineBytes : Int)
    (fuel : Nat) (hb : b ≠ []) (hbyte : ∀ x ∈ b, x < 256) (hm : 1 ≤ maxLineBytes)
    (hsmall : maxLineBytes ≤ 341 ∨ b.length ≤ 341) (hfuel : b.length < fuel) :
    ∃ text, outputStyleBinary maxLineBytes [] b = (1, text) ∧
      writeToBinary F fuel [] text = Run.ret (1, b) := by
  obtain ⟨chunks, h1, h2, h3, h4⟩ := outputStyleBinary_eq maxLineBytes hm b [] hb
  refine ⟨_, h4, ?_⟩
  have hbytes : ∀ c ∈ chunks, ∀ x ∈ c, x < 256 := by
    intro c hc x hx
    apply hbyte
    rw [h1]
    exact List.mem_flatten.2 ⟨c, hc, hx⟩
  have hlines : ∀ l ∈ chunks.map hexLine, (10 : Nat) ∉ l ∧ (0 : Nat) ∉ l ∧ l.length ≤ 1023 := by
    intro l hl
    obtain ⟨c, hc, rfl⟩ := List.mem_map.1 hl
    have hch := hexLine_chars c (hbytes c hc)
    refine ⟨fun h => (hch 10 h).1 rfl, fun h => (hch 0 h).2 rfl, ?_⟩
    rw [hexLine_length c (hbytes c hc)]
    obtain ⟨g1, g2, g3⟩ := h2 c hc
    omega
  have := writeToBinary_lines F [] (by simp) (by simp) (chunks.map hexLine) [] fuel hlines
    (by simp; omega)
  simp only [List.append_nil, List.nil_append] at this ⊢
  rw [this, map_processLineBytes_hexLine F chunks hbytes, ← h1]

theorem storeChar_append (l r : List Nat) (x a : Nat) (h : l.length < 256) :
    storeChar (l ++ x :: r) l.length a = some (l ++ a :: r) := by
  simp [storeChar, h]

theorem commentLine_concat (pre : List Nat) (ch : Nat) :
    commentLine (pre ++ [ch]) = commentLine pre ++ [32, if isprint ch then ch else 32, 32] := by
  simp [commentLine]

theorem commentLine_length (pre : List Nat) : (commentLine pre).length = 1 + 3 * pre.length := by
  induction pre using List.reverseRecOn with
  | nil => rfl
  | append_singleton l c ih =>
    rw [commentLine_concat, List.length_append, ih]
    simp only [List.length_append, List.length_cons, List.length_nil]
    omega

theorem commentLine_chars (pre : List Nat) : ∀ y ∈ commentLine pre, y ≠ 0 ∧ y ≠ 10 := by
  induction pre using List.reverseRecOn with
  | nil => intro y hy; simp [commentLine] at hy; subst hy; decide
  | append_singleton l c ih =>
    intro y hy
    rw [commentLine_concat] at hy
    rcases List.mem_append.1 hy with h | h
    · exact ih y h
    · simp only [List.mem_cons, List.mem_singleton, List.not_mem_nil, or_false] at h
      rcases h with rfl | rfl | rfl
      · omega
      · by_cases hp : isprint c = true
        · simp only [hp, if_true]
          simp [isprint] at hp
          omega
        · rw [if_neg hp]; exact ⟨by decide, by decide⟩
      · omega

theorem hexLine_concat (pre : List Nat) (ch : Nat) :
    hexLine (pre ++ [ch]) = hexLine pre ++ hexByteText ch := by
  simp [hexLine]

theorem list_four (r : List Nat) (h : 4 ≤ r.length) :
    ∃ r1 r2 r3 r4 r', r = r1 :: r2 :: r3 :: r4 :: r' := by
  match r, h with
  | r1 :: r2 :: r3 :: r4 :: r', _ => exact ⟨r1, r2, r3, r4, r', rfl⟩

theorem outputStyleBothStep_begin (m : Int) (st : BothState) (ch : Nat) (hi : st.index = 0)
    (hc : st.currentByte = 0) (hl : st.asciiLine.length = 256) :
    ∃ st1, BothInv st1 st.out [] ∧
      outputStyleBothStep m st ch = outputStyleBothStep m st1 ch := by
  refine ⟨{ st with asciiLine := st.asciiLine.set 0 59, index := 1, out := st.out ++ [32] },
    ⟨by simp [hexLine], by simp, by simpa using hc, by simpa using hl, ?_⟩, ?_⟩
  · cases h : st.asciiLine with
    | nil => rw [h] at hl; simp at hl
    | cons x xs => exact ⟨xs, by simp [commentLine]⟩
  · simp [outputStyleBothStep, hi, storeChar]

theorem outputStyleBothStep_inside (m : Int) (st : BothState) (out0 pre : List Nat) (ch : Nat)
    (hinv : BothInv st out0 pre) (h84 : pre.length + 1 ≤ 84) :
    (((pre.length : Int) + 1 < m) → ∃ st1, outputStyleBothStep m st ch = some st1 ∧
      BothInv st1 out0 (pre ++ [ch])) ∧
    (((pre.length : Int) + 1 ≥ m) → ∃ st1, outputStyleBothStep m st ch = some st1 ∧
      st1.index = 0 ∧ st1.currentByte = 0 ∧ st1.asciiLine.length = 256 ∧
      st1.out = out0 ++ unlines (bothLines (pre ++ [ch]))) := by
  obtain ⟨ho, hi, hc, hl, r, hr⟩ := hinv
  have hcl := commentLine_length pre
  have hrl : 4 ≤ r.length := by
    have := congrArg List.length hr
    rw [hl, List.length_append, hcl] at this
    omega
  obtain ⟨r1, r2, r3, r4, r', rfl⟩ := list_four r hrl
  have hi0 : st.index ≠ 0 := by omega
  have s1 : storeChar st.asciiLine st.index 32 =
      some (commentLine pre ++ 32 :: r2 :: r3 :: r4 :: r') := by
    rw [hr, hi, ← hcl]; exact storeChar_append _ _ _ _ (by omega)
  have s2 : storeChar (commentLine pre ++ 32 :: r2 :: r3 :: r4 :: r') (st.index + 1)
      (if isprint ch then ch else 32) =
      some (commentLine pre ++ 32 :: (if isprint ch then ch else 32) :: r3 :: r4 :: r') := by
    have := storeChar_append (commentLine pre ++ [32]) (r3 :: r4 :: r') r2
      (if isprint ch then ch else 32) (by simp; omega)
    simp only [List.append_assoc, List.singleton_append, List.length_append,
      List.length_singleton] at this ⊢
    rw [hi, ← hcl]; exact this
  have s3 : storeChar (commentLine pre ++ 32 :: (if isprint ch then ch else 32) :: r3 :: r4 :: r')
      (st.index + 2) 32 =
      some (commentLine (pre ++ [ch]) ++ r4 :: r') := by
    have := storeChar_append (commentLine pre ++ [32, if isprint ch then ch else 32])
      (r4 :: r') r3 32 (by simp; omega)
    simp only [List.append_assoc, List.singleton_append, List.length_append,
      List.length_singleton, List.cons_append, List.nil_append, List.length_cons,
      List.length_nil] at this ⊢
    rw [commentLine_concat, hi, ← hcl]
    simp only [List.append_assoc, List.cons_append, List.nil_append]
    exact this
  have s4 : storeChar (commentLine (pre ++ [ch]) ++ r4 :: r') (st.index + 3) 0 =
      some (commentLine (pre ++ [ch]) ++ 0 :: r') := by
    have := storeChar_append (commentLine (pre ++ [ch])) r' r4 0
      (by rw [commentLine_length]; simp; omega)
    rw [commentLine_length] at this
    simp only [List.length_append, List.length_singleton] at this
    rw [hi]
    have e : 1 + 3 * pre.length + 3 = 1 + 3 * (pre.length + 1) := by omega
    rw [e]; exact this
  have hlen' : (commentLine (pre ++ [ch]) ++ r4 :: r').length = 256 := by
    have := congrArg List.length hr
    rw [hl] at this
    simp only [List.length_append, List.length_cons, commentLine_length,
      List.length_nil] at this ⊢
    omega
  constructor
  · intro hlt
    have hge : ¬ (st.currentByte + 1 ≥ m) := by omega
    refine ⟨⟨st.out ++ hexByteText ch, commentLine (pre ++ [ch]) ++ r4 :: r',
      st.currentByte + 1, st.index + 3⟩, ?_, ?_⟩
    · simp [outputStyleBothStep, hi0, s1, s2, s3, hge]
    · refine ⟨?_, ?_, ?_, hlen', ⟨r4 :: r', rfl⟩⟩
      · simp [ho, hexLine_concat]
      · simp [hi]; omega
      · simp [hc]
  · intro hge'
    have hge : st.currentByte + 1 ≥ m := by omega
    have hcs : cString (commentLine (pre ++ [ch]) ++ 0 :: r') = commentLine (pre ++ [ch]) := by
      unfold cString
      rw [List.takeWhile_append_of_pos]
      · simp
      · intro a ha
        simpa using (commentLine_chars _ a ha).1
    refine ⟨⟨st.out ++ hexByteText ch ++ [10] ++
      cString (commentLine (pre ++ [ch]) ++ 0 :: r') ++ [10, 10],
      commentLine (pre ++ [ch]) ++ 0 :: r', 0, 0⟩, ?_, rfl, rfl, ?_, ?_⟩
    · simp [outputStyleBothStep, hi0, s1, s2, s3, s4, hge]
    · simpa using hlen'
    · simp [hcs, ho, unlines, bothLines, hexLine_concat]

theorem outputStyleBothLoop_part (m : Int) : ∀ (c rest : List Nat) (st : BothState)
    (out0 pre : List Nat), BothInv st out0 pre → pre.length + c.length ≤ 84 →
    ((pre.length : Int) + (c.length : Int) < m) →
    ∃ st1, outputStyleBothLoop m (c ++ rest) st = outputStyleBothLoop m rest st1 ∧
      BothInv st1 out0 (pre ++ c) := by
  intro c
  induction c with
  | nil => intro rest st out0 pre hinv _ _; exact ⟨st, rfl, by simpa using hinv⟩
  | cons x xs ih =>
    intro rest st out0 pre hinv h84 hlt
    simp only [List.length_cons, Nat.cast_add, Nat.cast_one] at h84 hlt
    obtain ⟨st1, hs, hinv1⟩ := (outputStyleBothStep_inside m st out0 pre x hinv (by omega)).1
      (by omega)
    obtain ⟨st2, hl, hinv2⟩ := ih rest st1 out0 (pre ++ [x]) hinv1
      (by simp only [List.length_append, List.length_singleton]; omega)
      (by simp only [List.length_append, List.length_singleton, Nat.cast_add, Nat.cast_one]; omega)
    refine ⟨st2, ?_, by simpa using hinv2⟩
    rw [List.cons_append, outputStyleBothLoop, hs]
    exact hl

theorem outputStyleBothLoop_full (m : Int) : ∀ (c rest : List Nat) (st : BothState)
    (out0 pre : List Nat), BothInv st out0 pre → c ≠ [] → pre.length + c.length ≤ 84 →
    ((pre.length : Int) + (c.length : Int) = m) →
    ∃ st1, outputStyleBothLoop m (c ++ rest) st = outputStyleBothLoop m rest st1 ∧
      st1.index = 0 ∧ st1.currentByte = 0 ∧ st1.asciiLine.length = 256 ∧
      st1.out = out0 ++ unlines (bothLines (pre ++ c)) := by
  intro c
  induction c with
  | nil => intro rest st out0 pre _ h; exact absurd rfl h
  | cons x xs ih =>
    intro rest st out0 pre hinv _ h84 heq
    simp only [List.length_cons, Nat.cast_add, Nat.cast_one] at h84 heq
    cases xs with
    | nil =>
      simp only [List.length_nil, Nat.cast_zero] at heq
      obtain ⟨st1, hs, g1, g2, g3, g4⟩ :=
        (outputStyleBothStep_inside m st out0 pre x hinv (by omega)).2 (by omega)
      refine ⟨st1, ?_, g1, g2, g3, g4⟩
      rw [List.cons_append, outputStyleBothLoop, hs]
      rfl
    | cons y ys =>
      simp only [List.length_cons, Nat.cast_add, Nat.cast_one] at h84 heq
      obtain ⟨st1, hs, hinv1⟩ := (outputStyleBothStep_inside m st out0 pre x hinv (by omega)).1
        (by omega)
      obtain ⟨st2, hl, g1, g2, g3, g4⟩ := ih rest st1 out0 (pre ++ [x]) hinv1 (by simp)
        (by simp only [List.length_append, List.length_singleton, List.length_cons,
              List.length_nil]; omega)
        (by simp only [List.length_append, List.length_singleton, List.length_cons,
              List.length_nil, Nat.cast_add, Nat.cast_one, Nat.cast_zero]; omega)
      refine ⟨st2, ?_, g1, g2, g3, by simpa using g4⟩
      rw [List.cons_append, outputStyleBothLoop, hs]
      exact hl

theorem outputStyleBothLoop_begin (m : Int) (x : Nat) (xs : List Nat) (st : BothState)
    (hi : st.index = 0) (hc : st.currentByte = 0) (hl : st.asciiLine.length = 256) :
    ∃ st1, BothInv st1 st.out [] ∧
      outputStyleBothLoop m (x :: xs) st = outputStyleBothLoop m (x :: xs) st1 := by
  obtain ⟨st1, hinv, hs⟩ := outputStyleBothStep_begin m st x hi hc hl
  exact ⟨st1, hinv, by simp only [outputStyleBothLoop, hs]⟩

/-- The end of `outputStyleBoth`, after its loop. -/
theorem outputStyleBoth_unfold (m : Int) (out input : List Nat) :
    outputStyleBoth m out input =
      match outputStyleBothLoop m input ⟨out, List.replicate 256 0, 0, 0⟩ with
      | none => Run.undef
      | some st =>
        if st.currentByte ≠ 0 then
          match storeChar st.asciiLine st.index 0 with
          | none => Run.undef
          | some a => Run.ret (1, st.out ++ [10] ++ cString a ++ [10] ++ [10])
        else Run.ret (1, st.out) := rfl

theorem outputStyleBoth_chunks (m : Int) (hm : 1 ≤ m) : ∀ (n : Nat) (b : List Nat),
    b.length ≤ n → (m ≤ 84 ∨ b.length ≤ 84) → ∀ (st : BothState), st.index = 0 →
    st.currentByte = 0 → st.asciiLine.length = 256 → ∃ chunks : List (List Nat),
    b = chunks.flatten ∧
    (∀ c ∈ chunks, 1 ≤ c.length ∧ c.length ≤ 84) ∧
    chunks.length ≤ b.length ∧
    (match outputStyleBothLoop m b st with
      | none => Run.undef
      | some st1 =>
        if st1.currentByte ≠ 0 then
          match storeChar st1.asciiLine st1.index 0 with
          | none => Run.undef
          | some a => Run.ret (1, st1.out ++ [10] ++ cString a ++ [10] ++ [10])
        else Run.ret (1, st1.out)) =
      Run.ret (1, st.out ++ unlines (chunks.map bothLines).flatten) := by
  intro n
  induction n with
  | zero =>
    intro b hb _ st hi hc hl
    have : b = [] := List.length_eq_zero.1 (by omega)
    subst this
    exact ⟨[], by simp, by simp, by simp, by simp [outputStyleBothLoop, unlines, hc]⟩
  | succ k ih =>
    intro b hb h84 st hi hc hl
    cases hb0 : b with
    | nil => exact ⟨[], by simp, by simp, by simp, by simp [outputStyleBothLoop, unlines, hc]⟩
    | cons x xs =>
      have hpos : 0 < b.length := by rw [hb0]; simp
      obtain ⟨st0, hinv0, hbeg⟩ := outputStyleBothLoop_begin m x xs st hi hc hl
      rw [← hb0] at hbeg ⊢
      by_cases hlt : (b.length : Int) < m
      · -- a single partial group
        have hb84 : b.length ≤ 84 := by omega
        obtain ⟨st1, hl1, ho, hix, hcb, hlen, r, hr⟩ :=
          outputStyleBothLoop_part m b [] st0 st.out [] hinv0 (by simpa using hb84)
            (by simpa using hlt)
        simp only [List.append_nil, List.nil_append, outputStyleBothLoop] at hl1 ho hix hcb hr
        refine ⟨[b], by simp, ?_, by simp; omega, ?_⟩
        · intro c hc'
          simp only [List.mem_singleton] at hc'
          subst hc'
          exact ⟨hpos, hb84⟩
        · rw [hbeg, hl1]
          have hne : st1.currentByte ≠ 0 := by omega
          have hcl := commentLine_length b
          have hrl : 1 ≤ r.length := by
            have := congrArg List.length hr
            rw [hlen, List.length_append, hcl] at this
            omega
          obtain ⟨r1, r', rfl⟩ : ∃ r1 r', r = r1 :: r' := by
            cases r with
            | nil => simp at hrl
            | cons a as => exact ⟨a, as, rfl⟩
          have hst : storeChar st1.asciiLine st1.index 0 = some (commentLine b ++ 0 :: r') := by
            rw [hr, hix, ← hcl]
            exact storeChar_append _ _ _ _ (by omega)
          have hcs : cString (commentLine b ++ 0 :: r') = commentLine b := by
            unfold cString
            rw [List.takeWhile_append_of_pos]
            · simp
            · intro a ha
              simpa using (commentLine_chars _ a ha).1
          simp only [hne, ne_eq, not_false_eq_true, if_true, hst, hcs, ho]
          simp [unlines, bothLines]
      · -- a full group, then the rest
        have hm84 : m ≤ 84 := by omega
        have hmn : m.toNat ≤ b.length := by omega
        have hmpos : 0 < m.toNat := by omega
        have hcl : (b.take m.toNat).length = m.toNat := by
          rw [List.length_take]; omega
        have hr : (b.drop m.toNat).length ≤ k := by
          rw [List.length_drop]; omega
        have hcne : b.take m.toNat ≠ [] := by
          intro e; rw [e] at hcl; simp at hcl; omega
        obtain ⟨st1, hl1, g1, g2, g3, g4⟩ := outputStyleBothLoop_full m (b.take m.toNat)
          (b.drop m.toNat) st0 st.out [] hinv0 hcne (by simp only [List.length_nil]; omega)
          (by simp only [List.length_nil]; omega)
        rw [List.take_append_drop] at hl1
        simp only [List.nil_append] at g4
        obtain ⟨chunks, h1, h2, h3, h4⟩ := ih (b.drop m.toNat) hr
          (Or.inl hm84) st1 g1 g2 g3
        refine ⟨b.take m.toNat :: chunks, ?_, ?_, ?_, ?_⟩
        · rw [List.flatten_cons, ← h1, List.take_append_drop]
        · intro c hc'
          rcases List.mem_cons.1 hc' with rfl | hc'
          · exact ⟨by omega, by omega⟩
          · exact h2 c hc'
        · rw [List.length_drop] at h3
          simp only [List.length_cons]
          omega
        · rw [hbeg, hl1, h4, g4]
          simp [unlines]

theorem processLineBytes_commentLine (F : FloatOps) (c : List Nat) :
    processLineBytes F (commentLine c) = [] := by
  simp [processLineBytes, processLine, commentLine, processLineLoop]

theorem processLineBytes_nil (F : FloatOps) : processLineBytes F [] = [] := by
  simp [processLineBytes, processLine, processLineLoop]

theorem map_processLineBytes_bothLines (F : FloatOps) (chunks : List (List Nat))
    (h : ∀ c ∈ chunks, ∀ x ∈ c, x < 256) :
    (((chunks.map bothLines).flatten).map (processLineBytes F)).flatten = chunks.flatten := by
  induction chunks with
  | nil => rfl
  | cons c cs ih =>
    simp only [List.map_cons, List.flatten_cons, List.map_append, List.flatten_append]
    rw [ih (fun d hd => h d (by simp [hd]))]
    simp [bothLines, processLineBytes_space_hexLine F c (h c (by simp)),
      processLineBytes_commentLine, processLineBytes_nil]

/-- C1 as amended (hex+comment round trip).  For every byte sequence `b` and every
`maxLineBytes ≥ 1`, when `maxLineBytes ≤ 84` or `b` has at most 84 bytes,
`outputStyleBoth` returns 1 and `writeToBinary` applied to the text it wrote returns
and writes exactly `b`. -/
theorem writeToBinary_outputStyleBoth (F : FloatOps) (b : List Nat) (maxLineBytes : Int)
    (fuel : Nat) (hbyte : ∀ x ∈ b, x < 256) (hm : 1 ≤ maxLineBytes)
    (hsmall : maxLineBytes ≤ 84 ∨ b.length ≤ 84) (hfuel : 3 * b.length < fuel) :
    ∃ text, outputStyleBoth maxLineBytes [] b = Run.ret (1, text) ∧
      writeToBinary F fuel [] text = Run.ret (1, b) := by
  obtain ⟨chunks, h1, h2, h3, h4⟩ := outputStyleBoth_chunks maxLineBytes hm b.length b
    (le_refl _) hsmall ⟨[], List.replicate 256 0, 0, 0⟩ rfl rfl (List.length_replicate _ _)
  rw [← outputStyleBoth_unfold] at h4
  refine ⟨_, h4, ?_⟩
  have hbytes : ∀ c ∈ chunks, ∀ x ∈ c, x < 256 := by
    intro c hc x hx
    apply hbyte
    rw [h1]
    exact List.mem_flatten.2 ⟨c, hc, hx⟩
  have hlines : ∀ l ∈ (chunks.map bothLines).flatten,
      (10 : Nat) ∉ l ∧ (0 : Nat) ∉ l ∧ l.length ≤ 1023 := by
    intro l hl
    obtain ⟨ls, hls, hl'⟩ := List.mem_flatten.1 hl
    obtain ⟨c, hc, rfl⟩ := List.mem_map.1 hls
    obtain ⟨g1, g2⟩ := h2 c hc
    simp only [bothLines, List.mem_cons, List.mem_singleton, List.not_mem_nil, or_false] at hl'
    rcases hl' with rfl | rfl | rfl
    · have hch := hexLine_chars c (hbytes c hc)
      refine ⟨?_, ?_, ?_⟩
      · intro h
        rcases List.mem_cons.1 h with h | h
        · simp at h
        · exact (hch 10 h).1 rfl
      · intro h
        rcases List.mem_cons.1 h with h | h
        · simp at h
        · exact (hch 0 h).2 rfl
      · rw [List.length_cons, hexLine_length c (hbytes c hc)]
        omega
    · have hch := commentLine_chars c
      refine ⟨fun h => (hch 10 h).2 rfl, fun h => (hch 0 h).1 rfl, ?_⟩
      rw [commentLine_length]
      omega
    · simp
  have hcount : ((chunks.map bothLines).flatten).length < fuel := by
    have : ((chunks.map bothLines).flatten).length = 3 * chunks.length := by
      clear h1 h2 h3 h4 hbytes hlines
      induction chunks with
      | nil => rfl
      | cons c cs ih =>
        simp only [List.map_cons, List.flatten_cons, List.length_append, ih, List.length_cons]
        simp [bothLines]
        omega
    omega
  have := writeToBinary_lines F [] (by simp) (by simp) (chunks.map bothLines).flatten [] fuel
    hlines hcount
  simp only [List.append_nil, List.nil_append] at this ⊢
  rw [this, map_processLineBytes_bothLines F chunks hbytes, ← h1]

/-- Witness for C1 as amended: three bytes, two to a line. -/
theorem writeToBinary_outputStyleBoth_witness :
    ∃ text, outputStyleBoth 2 [] [0, 255, 65] = Run.ret (1, text) ∧
      writeToBinary FloatOps.zero 10 [] text = Run.ret (1, [0, 255, 65]) :=
  writeToBinary_outputStyleBoth FloatOps.zero [0, 255, 65] 2 10 (by decide) (by decide)
    (by decide) (by decide)

/-- Counterexample to C1 as stated, at `maxLineBytes = 85` and 85 zero bytes: after
the 85th byte `index` is 256 and `asciiLine[index] = 0` stores outside the 256 bytes of
`asciiLine`, so that no text is produced. -/
theorem writeToBinary_outputStyleBoth_counterexample :
    outputStyleBoth 85 [] (List.replicate 85 0) = Run.undef ∧
    ¬ ∃ text, outputStyleBoth 85 [] (List.replicate 85 0) = Run.ret (1, text) ∧
      ∃ fuel, writeToBinary FloatOps.zero fuel [] text = Run.ret (1, List.replicate 85 0) := by
  have h : outputStyleBoth 85 [] (List.replicate 85 0) = Run.undef := by decide
  refine ⟨h, ?_⟩
  rintro ⟨text, ht, _⟩
  rw [h] at ht
  cases ht

/-- Witness for C2 as amended: three bytes, two to a line. -/
theorem writeToBinary_outputStyleBinary_witness :
    ∃ text, outputStyleBinary 2 [] [0, 255, 65] = (1, text) ∧
      writeToBinary FloatOps.zero 4 [] text = Run.ret (1, [0, 255, 65]) :=
  writeToBinary_outputStyleBinary FloatOps.zero [0, 255, 65] 2 4 (by decide) (by decide)
    (by decide) (by decide) (by decide)

/-- Counterexample to C2 as stated, at `maxLineBytes = 342` and 342 zero bytes: the
text is one line of 1026 characters, more than `getline` stores in the 1024 bytes of
`inputLine`; `failbit` is set, `eof()` never becomes true and `writeToBinary` does not
return. -/
theorem writeToBinary_outputStyleBinary_counterexample :
    outputStyleBinary 342 [] (List.replicate 342 0) =
      (1, hexLine (List.replicate 342 0) ++ [10]) ∧
    (hexLine (List.replicate 342 0)).length = 1026 ∧
    ¬ ∃ fuel r, writeToBinary FloatOps.zero fuel []
      (hexLine (List.replicate 342 0) ++ [10]) = Run.ret r := by
  have hb : ∀ x ∈ List.replicate 342 0, x < 256 := by
    intro x hx
    rw [List.eq_of_mem_replicate hx]
    decide
  have hlen : (hexLine (List.replicate 342 0)).length = 1026 := by
    rw [hexLine_length _ hb, List.length_replicate]
  refine ⟨?_, hlen, ?_⟩
  · have hne : List.replicate 342 0 ≠ [] := by
      intro h
      have := congrArg List.length h
      rw [List.length_replicate] at this
      cases this
    have e := outputStyleBinaryLoop_full 342 (List.replicate 342 0) [] 0 [] hne
      (by rw [List.length_replicate]; rfl)
    generalize hexLine (List.replicate 342 0) = t at e ⊢
    rw [List.append_nil, List.nil_append] at e
    have hcons : List.replicate 342 0 = 0 :: List.replicate 341 0 := rfl
    rw [hcons] at e ⊢
    unfold outputStyleBinary
    dsimp only
    rw [e]
    rfl
  · rintro ⟨fuel, r, h⟩
    have hch := hexLine_chars _ hb
    rw [writeToBinary_long_line FloatOps.zero _ [10] [] fuel (fun h10 => (hch 10 h10).1 rfl)
      (by omega)] at h
    cases h

/-! ## The line processor, word by word -/

theorem processLineLoop_eq_processLine (F : FloatOps) : ∀ (fuel : Nat) (rest out : List Nat),
    rest.length < fuel → processLineLoop F fuel rest out = processLine F out rest := by
  intro fuel
  induction fuel using Nat.strong_induction_on with
  | _ fuel ih =>
    intro rest out h
    cases fuel with
    | zero => omega
    | succ f =>
      cases rest with
      | nil => rfl
      | cons c cs =>
        simp only [processLine, List.length_cons, processLineLoop]
        have hcs : cs.length < f := by simpa using h
        split_ifs with h1 h2 h3
        · rfl
        · rw [ih f (by omega) cs out hcs, ih (cs.length + 1) (by omega) cs out (by omega)]
        · rfl
        · have hl := classify_length_lt (c :: cs) (by simp)
          simp only [List.length_cons] at hl
          rw [ih f (by omega) _ _ (by omega), ih (cs.length + 1) (by omega) _ _ (by omega)]

theorem processLine_nil (F : FloatOps) (out : List Nat) :
    processLine F out [] = Run.ret (1, out) := rfl

theorem processLine_comment (F : FloatOps) (out : List Nat) (c : Nat) (cs : List Nat)
    (h : c = 59 ∨ c = 35 ∨ c = 47) : processLine F out (c :: cs) = Run.ret (1, out) := by
  simp [processLine, processLineLoop, h]

theorem processLine_space (F : FloatOps) (out : List Nat) (c : Nat) (cs : List Nat)
    (h : c = 32 ∨ c = 10 ∨ c = 9) : processLine F out (c :: cs) = processLine F out cs := by
  have hc : ¬ (c = 59 ∨ c = 35 ∨ c = 47) := by omega
  simp only [processLine, List.length_cons, processLineLoop, hc, h, if_true, if_false]

theorem processLine_word (F : FloatOps) (out : List Nat) (c : Nat) (cs : List Nat)
    (hc : ¬ (c = 59 ∨ c = 35 ∨ c = 47)) (hw : ¬ (c = 32 ∨ c = 10 ∨ c = 9))
    (k : Kind) (word rest bytes : List Nat) (hcl : classify (c :: cs) = (k, word, rest))
    (hem : emit F k out word = (1, out ++ bytes)) :
    processLine F out (c :: cs) = processLine F (out ++ bytes) rest := by
  have hl := classify_length_lt (c :: cs) (by simp)
  rw [hcl] at hl
  simp only [List.length_cons] at hl
  simp only [processLine, List.length_cons, processLineLoop, hc, hw, if_false, hcl, hem]
  exact processLineLoop_eq_processLine F _ rest _ (by omega)

theorem processLineBytes_of (F : FloatOps) (line bytes : List Nat) (s : Nat)
    (h : processLine F [] line = Run.ret (s, bytes)) : processLineBytes F line = bytes := by
  simp [processLineBytes, h]

theorem getWordLoop_plain (terminators : List Nat) :
    ∀ (w tail : List Nat) (fuel ecount : Nat) (acc : List Nat),
    (∀ x ∈ w, terminators.contains x = false) →
    (tail = [] ∨ ∃ t ts, tail = t :: ts ∧ terminators.contains t = true) →
    w.length < fuel →
    getWordLoop false terminators fuel (w ++ tail) ecount acc = (acc ++ w, tail.drop 1) := by
  intro w
  induction w with
  | nil =>
    intro tail fuel ecount acc _ ht hf
    obtain ⟨f, rfl⟩ : ∃ f, fuel = f + 1 := ⟨fuel - 1, by omega⟩
    rcases ht with rfl | ⟨t, ts, rfl, ht⟩
    · simp [getWordLoop]
    · rw [List.nil_append, getWordLoop]
      simp only [Bool.false_and, Bool.false_eq_true, if_false, ht, Bool.not_true,
        List.append_nil, List.drop_succ_cons, List.drop_zero]
  | cons x xs ih =>
    intro tail fuel ecount acc hw ht hf
    obtain ⟨f, rfl⟩ : ∃ f, fuel = f + 1 := ⟨fuel - 1, by omega⟩
    have hx : terminators.contains x = false := hw x (by simp)
    rw [List.cons_append, getWordLoop]
    simp only [Bool.false_and, Bool.false_eq_true, if_false, hx, Bool.not_false, if_true]
    rw [ih tail f ecount (acc ++ [x]) (fun y hy => hw y (by simp [hy])) ht
      (by simpa using hf)]
    simp

theorem getWord_plain (w tail : List Nat) (hw : ∀ x ∈ w, x ≠ 32 ∧ x ≠ 10 ∧ x ≠ 9)
    (ht : tail = [] ∨ ∃ t ts, tail = t :: ts ∧ (t = 32 ∨ t = 10 ∨ t = 9)) :
    getWord (w ++ tail) [32, 10, 9] = (w, tail.drop 1) := by
  have h := getWordLoop_plain [32, 10, 9] w tail ((w ++ tail).length + 1) 0 []
    (fun x hx => by
      obtain ⟨a, b, c⟩ := hw x hx
      simp [a, b, c])
    (by
      rcases ht with h | ⟨t, ts, h1, h2⟩
      · exact Or.inl h
      · refine Or.inr ⟨t, ts, h1, ?_⟩
        rcases h2 with rfl | rfl | rfl <;> decide)
    (by simp; omega)
  simpa [getWord] using h

/-! ## The MIDI decoder on the files kept -/

theorem read1_open (b : Nat) (rest : List Nat) (ch : Option Nat) :
    (IStream.open (b :: rest)).read1 ch = (some b, IStream.open rest) := rfl

theorem putback_open (b : Nat) (rest : List Nat) :
    (IStream.open rest).putback b = IStream.open (b :: rest) := rfl

theorem readBytes_open (item : Nat → List Nat) : ∀ (bs rest : List Nat) (tb : Int) (ch : Nat)
    (output : List Nat),
    readBytes item bs.length (IStream.open (bs ++ rest)) tb ch output =
      (IStream.open rest, tb + (bs.length : Nat), bs.getLast?.getD ch,
        output ++ (bs.map item).flatten) := by
  intro bs
  induction bs with
  | nil => intro rest tb ch output; simp [readBytes]
  | cons b bs ih =>
    intro rest tb ch output
    rw [List.length_cons, List.cons_append, readBytes]
    simp only [read1_open, Option.getD_some]
    rw [ih]
    refine Prod.ext ?_ (Prod.ext ?_ (Prod.ext ?_ ?_))
    · rfl
    · simp only [List.length_cons, Nat.cast_add, Nat.cast_one]; omega
    · cases bs with
      | nil => rfl
      | cons c cs =>
        rw [List.getLast?_cons_cons]
        cases h : (c :: cs).getLast? with
        | none => simp at h
        | some x => rfl
    · simp

theorem shl8_or (o g : Nat) (hg : g < 256) :
    ((o <<< 8) % 2 ^ 32) ||| g = (o * 256) % 2 ^ 32 + g := by
  have h1 : (o <<< 8) % 2 ^ 32 = 2 ^ 8 * (o % 2 ^ 24) := by
    rw [Nat.shiftLeft_eq, Nat.mul_comm o, show (2:Nat) ^ 32 = 2 ^ 8 * 2 ^ 24 by norm_num,
      Nat.mul_mod_mul_left]
  have h2 : (o * 256) % 2 ^ 32 = 2 ^ 8 * (o % 2 ^ 24) := by
    rw [Nat.mul_comm o, show (256:Nat) = 2 ^ 8 by norm_num,
      show (2:Nat) ^ 32 = 2 ^ 8 * 2 ^ 24 by norm_num, Nat.mul_mod_mul_left]
  rw [h1, h2]
  exact (Nat.mul_add_lt_is_or (i := 8) hg _).symm

theorem readBigEndian_two (v : Nat) (hv : v < 65536) (rest : List Nat) (ch : Nat) :
    readBigEndian 2 (IStream.open ((lowBytes 2 v).reverse ++ rest)) ch 0 =
      (v, v % 256, IStream.open rest) := by
  have e : (lowBytes 2 v).reverse ++ rest = (v / 256 % 256) :: (v % 256) :: rest := by
    simp [lowBytes]
  rw [e]
  simp only [readBigEndian, read1_open, Option.getD_some]
  rw [shl8_or _ _ (Nat.mod_lt _ (by norm_num)), shl8_or _ _ (Nat.mod_lt _ (by norm_num))]
  refine Prod.ext ?_ rfl
  show ((0 * 256) % 2 ^ 32 + v / 256 % 256) * 256 % 2 ^ 32 + v % 256 = v
  omega

theorem readBigEndian_four (v : Nat) (hv : v < 2 ^ 32) (rest : List Nat) (ch : Nat) :
    readBigEndian 4 (IStream.open ((lowBytes 4 v).reverse ++ rest)) ch 0 =
      (v, v % 256, IStream.open rest) := by
  have e : (lowBytes 4 v).reverse ++ rest =
      (v / 256 / 256 / 256 % 256) :: (v / 256 / 256 % 256) :: (v / 256 % 256) :: (v % 256) ::
        rest := by
    simp [lowBytes]
  rw [e]
  simp only [readBigEndian, read1_open, Option.getD_some]
  rw [shl8_or _ _ (Nat.mod_lt _ (by norm_num)), shl8_or _ _ (Nat.mod_lt _ (by norm_num)),
    shl8_or _ _ (Nat.mod_lt _ (by norm_num)), shl8_or _ _ (Nat.mod_lt _ (by norm_num))]
  refine Prod.ext ?_ rfl
  show (((0 * 256 % 2 ^ 32 + v / 256 / 256 / 256 % 256) * 256 % 2 ^ 32 + v / 256 / 256 % 256) *
    256 % 2 ^ 32 + v / 256 % 256) * 256 % 2 ^ 32 + v % 256 = v
  omega
theorem showInt_natCast (n : Nat) : showInt (n : Int) = showNat n := by
  simp [showInt]

theorem list_length_one (bs : List Nat) (h : bs.length = 1) : ∃ a, bs = [a] := by
  match bs, h with
  | [a], _ => exact ⟨a, rfl⟩

theorem list_length_two (bs : List Nat) (h : bs.length = 2) : ∃ a b, bs = [a, b] := by
  match bs, h with
  | [a, b], _ => exact ⟨a, b, rfl⟩

theorem flatten_map_singleton (bs : List Nat) : (bs.map (fun c => [c])).flatten = bs := by
  induction bs with
  | nil => rfl
  | cons b bs ih => simp [ih]

theorem readMetaPayload_open (F : FloatOps) (ty : Nat) (bs rest : List Nat) (tb : Int)
    (ch : Nat) (output : List Nat) (hok : metaOk ty bs) (hb : ∀ b ∈ bs, b < 256) :
    readMetaPayload F ty (bs.length : Nat) (IStream.open (bs ++ rest)) tb ch output =
      (IStream.open rest, tb + (bs.length : Nat), output ++ metaText ty bs) := by
  unfold metaOk at hok
  unfold readMetaPayload metaText
  by_cases h0 : ty = 0x00
  · rw [if_pos h0] at hok
    obtain ⟨a, b, rfl⟩ := list_length_two bs hok
    have ha : a < 256 := hb a (by simp)
    have hb' : b < 256 := hb b (by simp)
    simp only [h0, if_true, List.cons_append, List.nil_append, read1_open, Option.getD_some]
    rw [shl8_or a b hb', Nat.mod_eq_of_lt (by omega), bitsToInt_of_lt _ (by omega),
      showInt_natCast]
    simp
  · rw [if_neg h0] at hok
    simp only [h0, if_false]
    by_cases h1 : ty = 0x20 ∨ ty = 0x21
    · rw [if_pos h1] at hok
      have e : (1 : Nat) = bs.length := hok.symm
      have h1' : ty = 0x20 ∨ ty = 0x21 ∨ ty = 0x54 ∨ ty = 0x58 ∨ ty = 0x59 := by omega
      rw [if_pos h1, if_pos h1']
      rw [e, readBytes_open]
    · rw [if_neg h1] at hok
      rw [if_neg h1]
      by_cases h2 : ty = 0x51
      · rw [if_pos h2] at hok
        exact absurd hok id
      · rw [if_neg h2] at hok
        rw [if_neg h2]
        by_cases h3 : ty = 0x54
        · rw [if_pos h3] at hok
          have e : (5 : Nat) = bs.length := hok.symm
          have h' : ty = 0x20 ∨ ty = 0x21 ∨ ty = 0x54 ∨ ty = 0x58 ∨ ty = 0x59 := by omega
          rw [if_pos h3, if_pos h', e, readBytes_open]
        · rw [if_neg h3] at hok
          rw [if_neg h3]
          by_cases h4 : ty = 0x58
          · rw [if_pos h4] at hok
            have e : (4 : Nat) = bs.length := hok.symm
            have h' : ty = 0x20 ∨ ty = 0x21 ∨ ty = 0x54 ∨ ty = 0x58 ∨ ty = 0x59 := by omega
            rw [if_pos h4, if_pos h', e, readBytes_open]
          · rw [if_neg h4] at hok
            rw [if_neg h4]
            by_cases h5 : ty = 0x59
            · rw [if_pos h5] at hok
              have e : (2 : Nat) = bs.length := hok.symm
              have h' : ty = 0x20 ∨ ty = 0x21 ∨ ty = 0x54 ∨ ty = 0x58 ∨ ty = 0x59 := by omega
              rw [if_pos h5, if_pos h', e, readBytes_open]
            · rw [if_neg h5]
              have h' : ¬ (ty = 0x20 ∨ ty = 0x21 ∨ ty = 0x54 ∨ ty = 0x58 ∨ ty = 0x59) := by
                omega
              rw [if_neg h']
              have e : ((bs.length : Nat) : Int).toNat = bs.length := Int.toNat_ofNat _
              by_cases h6 : 0x01 ≤ ty ∧ ty ≤ 0x09
              · rw [if_pos h6, if_pos h6, e, readBytes_open]
                simp [List.append_assoc, flatten_map_singleton]
              · rw [if_neg h6, if_neg h6, e, readBytes_open]
                rfl
theorem vlvShape_small (n : Nat) (h : n < 128) : vlvShape n = [n] := by
  rw [vlvShape_eq]
  have e1 : n / 2 ^ 28 % 128 = 0 := by omega
  have e2 : n / 2 ^ 21 % 128 = 0 := by omega
  have e3 : n / 2 ^ 14 % 128 = 0 := by omega
  have e4 : n / 2 ^ 7 % 128 = 0 := by omega
  have e5 : n % 128 = n := by omega
  rw [e1, e2, e3, e4, e5]
  rfl

theorem vlvShape_cons (n : Nat) : ∃ h t, vlvShape n = h :: t := by
  cases e : vlvShape n with
  | nil =>
    rw [vlvShape_eq] at e
    simp at e
  | cons h t => exact ⟨h, t, rfl⟩

theorem readMidiEvent_event (F : FloatOps) (c : Bool) (fuel : Nat) (hf : 5 ≤ fuel)
    (out rest : List Nat) (tb : Int) (command : Nat) (e : Event) (he : e.ok command) :
    readMidiEvent F c fuel out (IStream.open (e.bytes ++ rest)) tb command =
      Run.ret (if e.isEnd then 0 else 1,
        ⟨out ++ e.text c command, IStream.open rest, tb + (e.bytes.length : Nat),
          e.command command⟩) := by
  have k1 : (247 &&& 240 : Nat) = 240 := by decide
  have k2 : (255 &&& 240 : Nat) = 240 := by decide
  obtain ⟨delta, status, body⟩ := e
  obtain ⟨hd, hs, hb⟩ := he
  simp only [Event.bytes, List.append_assoc]
  unfold readMidiEvent
  rw [getVLV_vlvShape delta hd _ tb fuel hf]
  simp only [showInt_natCast]
  cases status with
  | none =>
    cases body with
    | two d1 d2 =>
      obtain ⟨hhi, h1, h2, hr⟩ := hb
      have hr' : d1 < 0x80 := hr rfl
      simp only [Event.command, Option.getD_none] at hhi
      simp only [Option.toList, Payload.bytes, List.nil_append, List.cons_append, read1_open,
        hr', if_true, Option.getD_some, Event.isEnd, Event.text, Event.command,
        Option.getD_none, Payload.text, Payload.comment, dataItem]
      rcases hhi with h | h | h | h | h <;> simp [h] <;> omega
    | one d1 =>
      obtain ⟨hhi, h1, hr⟩ := hb
      have hr' : d1 < 0x80 := hr rfl
      simp only [Event.command, Option.getD_none] at hhi
      simp only [Option.toList, Payload.bytes, List.nil_append, List.cons_append, read1_open,
        hr', if_true, Option.getD_some, Event.isEnd, Event.text, Event.command,
        Option.getD_none, Payload.text, Payload.comment, dataItem]
      rcases hhi with h | h <;> simp [h] <;> omega
    | sysex bs =>
      obtain ⟨hc, hl, hbs, hr⟩ := hb
      have hr' : bs.length < 0x80 := hr rfl
      simp only [Event.command, Option.getD_none] at hc
      subst hc
      have hv := vlvShape_small bs.length (by omega)
      have hg := getVLV_vlvShape bs.length hl (bs ++ rest) (tb + ((vlvShape delta).length : Nat))
        fuel hf
      rw [hv] at hg
      simp only [List.cons_append, List.nil_append, List.length_cons, List.length_nil] at hg
      simp only [Option.toList, Payload.bytes, List.nil_append, List.cons_append, read1_open,
        hr', if_true, Option.getD_some, Event.isEnd, Event.text, Event.command,
        Option.getD_none, Payload.text, Payload.comment, hv, k1, putback_open,
        add_sub_cancel_right, hg]
      simp only [showInt_natCast, Int.toNat_ofNat, readBytes_open]
      simp
      omega
    | metaEvent ty bs =>
      obtain ⟨hc, hty, hl, hbs, hm, hr⟩ := hb
      have hr' : ty < 0x80 := hr rfl
      simp only [Event.command, Option.getD_none] at hc
      subst hc
      simp only [Option.toList, Payload.bytes, List.nil_append, List.cons_append, read1_open,
        hr', if_true, Option.getD_some, Event.isEnd, Event.text, Event.command,
        Option.getD_none, Payload.text, Payload.comment, k2, List.append_assoc,
        getVLV_vlvShape bs.length hl _ _ fuel hf]
      simp only [showInt_natCast, readMetaPayload_open F ty bs rest _ _ _ hm hbs]
      simp
      omega
  | some s =>
    obtain ⟨hs1, hs2⟩ := hs s rfl
    have hns : ¬ s < 0x80 := by omega
    cases body with
    | two d1 d2 =>
      obtain ⟨hhi, h1, h2, hr⟩ := hb
      simp only [Event.command, Option.getD_some] at hhi
      simp only [Option.toList, Payload.bytes, List.nil_append, List.cons_append, read1_open,
        hns, if_false, Option.getD_some, Event.isEnd, Event.text, Event.command,
        Payload.text, Payload.comment, dataItem, List.singleton_append]
      rcases hhi with h | h | h | h | h <;> simp [h] <;> omega
    | one d1 =>
      obtain ⟨hhi, h1, hr⟩ := hb
      simp only [Event.command, Option.getD_some] at hhi
      simp only [Option.toList, Payload.bytes, List.nil_append, List.cons_append, read1_open,
        hns, if_false, Option.getD_some, Event.isEnd, Event.text, Event.command,
        Payload.text, Payload.comment, dataItem, List.singleton_append]
      rcases hhi with h | h <;> simp [h] <;> omega
    | sysex bs =>
      obtain ⟨hc, hl, hbs, hr⟩ := hb
      simp only [Event.command, Option.getD_some] at hc
      subst hc
      obtain ⟨h, t, hv⟩ := vlvShape_cons bs.length
      have hg := getVLV_vlvShape bs.length hl (bs ++ rest)
        (tb + ((vlvShape delta).length : Nat) + 1) fuel hf
      rw [hv] at hg
      simp only [List.cons_append] at hg
      simp only [Option.toList, Payload.bytes, List.nil_append, List.cons_append, read1_open,
        hns, if_false, Option.getD_some, Event.isEnd, Event.text, Event.command,
        Payload.text, Payload.comment, hv, k1, putback_open, List.singleton_append,
        add_sub_cancel_right, hg, List.append_assoc]
      simp only [showInt_natCast, Int.toNat_ofNat, readBytes_open]
      simp
      omega
    | metaEvent ty bs =>
      obtain ⟨hc, hty, hl, hbs, hm, hr⟩ := hb
      simp only [Event.command, Option.getD_some] at hc
      subst hc
      simp only [Option.toList, Payload.bytes, List.nil_append, List.cons_append, read1_open,
        hns, if_false, Option.getD_some, Event.isEnd, Event.text, Event.command,
        Payload.text, Payload.comment, k2, List.singleton_append, List.append_assoc,
        getVLV_vlvShape bs.length hl _ _ fuel hf]
      simp only [showInt_natCast, readMetaPayload_open F ty bs rest _ _ _ hm hbs]
      simp
      omega
theorem unlines_cons (l : List Nat) (ls : List (List Nat)) :
    unlines (l :: ls) = l ++ 10 :: unlines ls := by
  simp [unlines]

theorem unlines_append (xs ys : List (List Nat)) :
    unlines (xs ++ ys) = unlines xs ++ unlines ys := by
  simp [unlines]

theorem readTrackEvents_events (F : FloatOps) (c : Bool) (fuel : Nat) (hf : 5 ≤ fuel)
    (rest : List Nat) : ∀ (events : List Event) (n : Nat) (tempout : List Nat) (tb : Int)
    (command : Nat), eventsOk command events → events.length ≤ n →
    ∃ st, readTrackEvents F c fuel n tempout (IStream.open (eventsBytes events ++ rest)) tb
        command = Run.ret st ∧
      st.out ++ [10] = tempout ++ unlines (eventsLines c command events) ∧
      st.infile = IStream.open rest ∧
      st.trackbytes = tb + ((eventsBytes events).length : Nat) := by
  intro events
  induction events with
  | nil => intro n tempout tb command h; exact absurd h id
  | cons e es ih =>
    intro n tempout tb command hok hn
    obtain ⟨k, rfl⟩ : ∃ k, n = k + 1 := ⟨n - 1, by simp at hn; omega⟩
    have eb : eventsBytes (e :: es) ++ rest = e.bytes ++ (eventsBytes es ++ rest) := by
      simp [eventsBytes]
    rw [eb, readTrackEvents]
    cases es with
    | nil =>
      obtain ⟨h1, h2⟩ := hok
      rw [readMidiEvent_event F c fuel hf _ _ _ _ e h1]
      simp only [h2, if_true, ne_eq, not_true_eq_false, if_false]
      refine ⟨_, rfl, ?_, ?_, ?_⟩
      · simp [eventsLines, unlines]
      · simp [eventsBytes]
      · simp [eventsBytes]
    | cons e1 es1 =>
      obtain ⟨h1, h2, h3⟩ := hok
      rw [readMidiEvent_event F c fuel hf _ _ _ _ e h1]
      simp only [h2, Bool.false_eq_true, if_false, ne_eq, one_ne_zero, not_false_eq_true,
        if_true]
      obtain ⟨st, s1, s2, s3, s4⟩ := ih k (tempout ++ e.text c command ++ str "\n")
        (tb + (e.bytes.length : Nat)) (e.command command) h3 (by simpa using hn)
      refine ⟨st, s1, ?_, s3, ?_⟩
      · rw [s2]
        simp only [eventsLines, unlines_cons]
        simp [str]
      · rw [s4]
        simp only [eventsBytes, List.map_cons, List.flatten_cons, List.length_append,
          Nat.cast_add]
        omega

theorem str_MTrk : str "MTrk" = [77, 84, 114, 107] := rfl

theorem str_MThd : str "MThd" = [77, 84, 104, 100] := rfl

theorem str_newline : str "\n" = [10] := rfl

theorem str_track : str "\n;;; TRACK " = 10 :: str ";;; TRACK " := rfl

theorem readTracks_tracks (F : FloatOps) (c : Bool) (fuel : Nat) (hf : 5 ≤ fuel)
    (rest : List Nat) : ∀ (ts : List Track) (i : Nat) (tempout : List Nat) (ch : Nat),
    (∀ t ∈ ts, t.ok ∧ t.events.length ≤ fuel) →
    readTracks F c false fuel ts.length (i : Int) tempout
        (IStream.open ((ts.map Track.bytes).flatten ++ rest)) ch =
      Run.ret (some (tempout ++ unlines (tracksLines c i ts))) := by
  intro ts
  induction ts with
  | nil => intro i tempout ch _; simp [readTracks, tracksLines, unlines]
  | cons t ts ih =>
    intro i tempout ch h
    obtain ⟨⟨hsize, hev⟩, hlen⟩ := h t (by simp)
    have eb : ((t :: ts).map Track.bytes).flatten ++ rest =
        77 :: 84 :: 114 :: 107 :: ((lowBytes 4 t.size).reverse ++
          (eventsBytes t.events ++ ((ts.map Track.bytes).flatten ++ rest))) := by
      simp [Track.bytes, str_MTrk]
    rw [eb, List.length_cons, readTracks]
    simp only [read1_open, Option.getD_some, ne_eq, not_true_eq_false, if_false,
      readBigEndian_four t.size (by omega), bitsToInt_of_lt t.size hsize, showBase,
      Bool.false_eq_true, showInt_natCast]
    obtain ⟨st, s1, s2, s3, s4⟩ := readTrackEvents_events F c fuel hf
      ((ts.map Track.bytes).flatten ++ rest) t.events fuel
      (tempout ++ str "\n;;; TRACK " ++ showNat i ++ str " ----------------------------------" ++
        str "\n" ++ str "\"MTrk\"" ++
        (if c = true then str "\t\t\t; MIDI track chunk marker" else []) ++ str "\n" ++
        str "4'" ++ showNat t.size ++
        (if c = true then str "\t\t\t; bytes to follow in track chunk" else []) ++ str "\n")
      0 0 hev hlen
    rw [s1]
    simp only [s3, s4, str_newline, s2]
    have hi : ((i : Nat) : Int) + 1 = ((i + 1 : Nat) : Int) := by simp
    have hcmp : ((0 : Int) + ((eventsBytes t.events).length : Nat) ≠ (t.size : Int)) ↔
        (eventsBytes t.events).length ≠ t.size := by
      simp
    rw [hi]
    by_cases hs : (eventsBytes t.events).length = t.size
    · have hs' : ¬ ((0 : Int) + ((eventsBytes t.events).length : Nat) ≠ (t.size : Int)) := by
        rw [hcmp]; simpa using hs
      rw [if_neg hs', ih (i + 1) _ _ (fun t ht => h t (by simp [ht]))]
      simp [tracksLines, Track.lines, hs, unlines_append, unlines_cons, str_track, unlines]
    · have hs' : (0 : Int) + ((eventsBytes t.events).length : Nat) ≠ (t.size : Int) := by
        rw [hcmp]; exact hs
      rw [if_pos hs', ih (i + 1) _ _ (fun t ht => h t (by simp [ht]))]
      simp [tracksLines, Track.lines, hs, unlines_append, unlines_cons, str_track, unlines,
        showInt_natCast]

theorem and_128 (b : Nat) (hb : b < 256) : (b &&& 0x80 ≠ 0) ↔ 0x80 ≤ b := by
  have e : b &&& 128 = (b / 128 % 2) * 128 := by
    have := Nat.and_two_pow b 7
    rw [Nat.testBit_to_div_mod] at this
    simp only [show (2:Nat) ^ 7 = 128 by norm_num] at this
    rw [this]
    by_cases h : b / 128 % 2 = 1 <;> simp [h]
    omega
  show b &&& 128 ≠ 0 ↔ 128 ≤ b
  rw [e]
  omega

theorem outputStyleMidiTracks_file (F : FloatOps) (c : Bool) (fuel : Nat)
    (out tempout : List Nat) (m : MidiFile) (hm : m.ok) (hf : 5 ≤ fuel)
    (hev : ∀ t ∈ m.tracks, t.events.length ≤ fuel) (ch : Nat) :
    outputStyleMidiTracks F c fuel out tempout (m.headerSize : Nat) (m.tracks.length : Nat)
        (IStream.open (m.division1 :: m.division2 :: (m.tracks.map Track.bytes).flatten)) ch =
      Run.ret (1, out ++ (tempout ++ unlines
        ((if 0x80 ≤ m.division1 then
          [str "1'-" ++ showNat (0xff - m.division1 + 1) ++
              (if c then str "\t\t\t; SMPTE frames/second" else []),
            str "1'" ++ showNat m.division2 ++
              (if c then str "\t\t\t; subframes per frame" else [])]
         else
          [str "2'" ++ showNat (m.division1 * 256 + m.division2) ++
              (if c then str "\t\t\t; ticks per quarter note" else [])]) ++
          tracksLines c 0 m.tracks))) := by
  obtain ⟨h1, h2, h3, h4, h5, h6⟩ := hm
  have hx : toInt32 ((m.headerSize : Int) - 6) = (m.headerSize : Int) - 6 := by
    unfold toInt32; omega
  have hx0 : ((m.headerSize : Int) - 6).toNat = 0 := by omega
  have hx1 : ¬ ((m.headerSize : Int) - 6 > 0) := by omega
  have hd : (((((0 <<< 8) % 2 ^ 32 ||| m.division1) <<< 8) % 2 ^ 32) ||| m.division2) =
      m.division1 * 256 + m.division2 := by
    rw [shl8_or _ _ h5, shl8_or _ _ h4]
    omega
  have ht := readTracks_tracks F c fuel hf [] m.tracks 0
  simp only [List.append_nil, Nat.cast_zero] at ht
  unfold outputStyleMidiTracks
  simp only [read1_open, hx, hx0, hx1, readBytes, decide_False, if_false, Int.toNat_ofNat,
    ht _ _ (fun t ht' => ⟨h6 t ht', hev t ht'⟩), hd, and_128 m.division1 h4,
    bitsToInt_of_lt (m.division1 * 256 + m.division2) (by omega), showInt_natCast]
  by_cases hdv : 0x80 ≤ m.division1
  · simp [hdv, unlines_append, unlines_cons, unlines, str_newline]
  · simp [hdv, unlines_append, unlines_cons, unlines, str_newline]

theorem outputStyleMidiHeader_file (F : FloatOps) (c : Bool) (fuel : Nat) (out : List Nat)
    (m : MidiFile) (hm : m.ok) (hf : 5 ≤ fuel) (hev : ∀ t ∈ m.tracks, t.events.length ≤ fuel)
    (ch : Nat) :
    outputStyleMidiHeader F c fuel out (IStream.open ((lowBytes 4 m.headerSize).reverse ++
      ((lowBytes 2 m.format).reverse ++ ((lowBytes 2 m.tracks.length).reverse ++
        (m.division1 :: m.division2 :: (m.tracks.map Track.bytes).flatten))))) ch =
      Run.ret (1, out ++ unlines (m.lines c)) := by
  have hm' := hm
  obtain ⟨h1, h2, h3, h4, h5, h6⟩ := hm
  unfold outputStyleMidiHeader
  simp only [readBigEndian_four m.headerSize (by omega), readBigEndian_two m.format h2,
    readBigEndian_two m.tracks.length h3, bitsToInt_of_lt m.headerSize (by omega),
    bitsToInt_of_lt m.format (by omega), bitsToInt_of_lt m.tracks.length (by omega),
    showInt_natCast, outputStyleMidiTracks_file F c fuel out _ m hm' hf hev]
  have e2 : ((m.format : Int) = 2) = (m.format = 2) := by
    apply propext
    constructor <;> intro h <;> omega
  simp [MidiFile.lines, MidiFile.headerLines, unlines_append, unlines_cons, unlines,
    str_newline, e2]

theorem outputStyleMidi_file (F : FloatOps) (c : Bool) (fuel : Nat) (out : List Nat)
    (m : MidiFile) (hm : m.ok) (hf : 5 ≤ fuel) (hev : ∀ t ∈ m.tracks, t.events.length ≤ fuel) :
    outputStyleMidi F c fuel out m.bytes = Run.ret (1, out ++ unlines (m.lines c)) := by
  have eb : m.bytes = 77 :: 84 :: 104 :: 100 :: ((lowBytes 4 m.headerSize).reverse ++
      ((lowBytes 2 m.format).reverse ++ ((lowBytes 2 m.tracks.length).reverse ++
        (m.division1 :: m.division2 :: (m.tracks.map Track.bytes).flatten)))) := by
    simp [MidiFile.bytes, str_MThd]
  rw [eb]
  unfold outputStyleMidi
  simp only [read1_open, Option.getD_some, ne_eq, not_true_eq_false, if_false,
    outputStyleMidiHeader_file F c fuel out m hm hf hev]
  rfl

/-! ## The encoder on the words that the MIDI decoder writes -/

theorem wordEnd_nil : wordEnd [] := Or.inl rfl

theorem wordEnd_cons (t : Nat) (ts : List Nat) (h : t = 32 ∨ t = 10 ∨ t = 9) :
    wordEnd (t :: ts) := Or.inr ⟨t, ts, rfl, h⟩

theorem processLine_wordEnd (F : FloatOps) (out tail : List Nat) (h : wordEnd tail) :
    processLine F out (tail.drop 1) = processLine F out tail := by
  rcases h with rfl | ⟨t, ts, rfl, ht⟩
  · rfl
  · rw [processLine_space F out t ts ht]
    rfl

theorem lineEnd_nil (F : FloatOps) : lineEnd F [] := ⟨wordEnd_nil, fun _ => rfl⟩

theorem lineEnd_space (F : FloatOps) (t : Nat) (ts : List Nat) (h : t = 32 ∨ t = 10 ∨ t = 9)
    (hts : ∀ out, processLine F out ts = Run.ret (1, out)) : lineEnd F (t :: ts) :=
  ⟨wordEnd_cons t ts h, fun out => by rw [processLine_space F out t ts h, hts]⟩

theorem lineEnd_comment1 (F : FloatOps) (x : List Nat) : lineEnd F (str "\t; " ++ x) :=
  lineEnd_space F 9 _ (by decide) (fun out => processLine_comment F out 59 _ (by decide))

theorem lineEnd_comment3 (F : FloatOps) (x : List Nat) : lineEnd F (9 :: 9 :: 9 :: 59 :: x) :=
  lineEnd_space F 9 _ (by decide) (fun out => by
    rw [processLine_space F out 9 _ (by decide), processLine_space F out 9 _ (by decide),
      processLine_comment F out 59 _ (by decide)])

theorem getD_append_left (w tail : List Nat) (hne : w ≠ []) :
    (w ++ tail).getD 0 0 = w.getD 0 0 := by
  cases w with
  | nil => exact absurd rfl hne
  | cons a w => rfl

theorem classify_word (w tail : List Nat) (hw : ∀ x ∈ w, x ≠ 32 ∧ x ≠ 10 ∧ x ≠ 9)
    (hne : w ≠ []) (h34 : w.getD 0 0 ≠ 34) (ht : wordEnd tail) :
    classify (w ++ tail) = ((classify w).1, w, tail.drop 1) := by
  have g1 := getWord_plain w tail hw ht
  have g2 := getWord_plain w [] hw (Or.inl rfl)
  rw [List.append_nil] at g2
  unfold classify
  simp only [getD_append_left w tail hne, g1, g2, h34, if_false]
  split_ifs <;> rfl

theorem processLine_token (F : FloatOps) (out w tail bytes : List Nat)
    (hw : ∀ x ∈ w, x ≠ 32 ∧ x ≠ 10 ∧ x ≠ 9 ∧ x ≠ 59 ∧ x ≠ 35 ∧ x ≠ 47 ∧ x ≠ 34)
    (hne : w ≠ []) (ht : wordEnd tail)
    (hem : emit F (classify w).1 out w = (1, out ++ bytes)) :
    processLine F out (w ++ tail) = processLine F (out ++ bytes) tail := by
  cases w with
  | nil => exact absurd rfl hne
  | cons a w =>
    have ha := hw a (by simp)
    have hcl := classify_word (a :: w) tail (fun x hx => ⟨(hw x hx).1, (hw x hx).2.1,
      (hw x hx).2.2.1⟩) hne (by simp [ha.2.2.2.2.2.2]) ht
    rw [List.cons_append] at hcl ⊢
    rw [processLine_word F out a (w ++ tail) (by omega) (by omega) _ _ _ bytes hcl hem,
      processLine_wordEnd F _ tail ht]

theorem getWordLoop_quoted (tail : List Nat) : ∀ (s : List Nat) (fuel : Nat) (acc : List Nat),
    (34 : Nat) ∉ s → s.getLast? ≠ some 92 → s.length < fuel →
    getWordLoop true [34] fuel (s ++ 34 :: tail) 1 acc = (acc ++ s, tail) := by
  intro s
  induction s with
  | nil =>
    intro fuel acc _ _ hf
    obtain ⟨f, rfl⟩ : ∃ f, fuel = f + 1 := ⟨fuel - 1, by omega⟩
    simp [getWordLoop]
  | cons x xs ih =>
    intro fuel acc h34 hl hf
    obtain ⟨f, rfl⟩ : ∃ f, fuel = f + 1 := ⟨fuel - 1, by omega⟩
    have hx : x ≠ 34 := fun e => h34 (by simp [e])
    have hxs : (34 : Nat) ∉ xs := fun e => h34 (by simp [e])
    have hesc : ¬ (x = 92 ∧ (xs ++ 34 :: tail).head? = some 34) := by
      rintro ⟨e1, e2⟩
      cases xs with
      | nil => exact hl (by simp [e1])
      | cons y ys =>
        simp at e2
        exact hxs (by simp [e2])
    have hl' : xs.getLast? ≠ some 92 := by
      cases xs with
      | nil => simp
      | cons y ys => rwa [List.getLast?_cons_cons] at hl
    rw [List.cons_append, getWordLoop]
    simp only [Bool.true_and, decide_eq_true_eq, hx, if_false, Bool.false_and,
      Bool.false_eq_true]
    have hc : ([34] : List Nat).contains x = false := by simp [hx]
    have hesc' : (decide (x = 92) && decide ((xs ++ 34 :: tail).head? = some 34)) = false := by
      by_cases e1 : x = 92
      · have e2 : ¬ (xs ++ 34 :: tail).head? = some 34 := fun e => hesc ⟨e1, e⟩
        rw [decide_eq_false e2, Bool.and_false]
      · rw [decide_eq_false e1, Bool.false_and]
    simp only [hesc', hc, Bool.not_false, if_true, Bool.false_eq_true, if_false]
    rw [ih f (acc ++ [x]) hxs hl' (by simpa using hf)]
    simp

theorem getWord_quoted (s tail : List Nat) (h34 : (34 : Nat) ∉ s) (hl : s.getLast? ≠ some 92) :
    getWord (34 :: (s ++ 34 :: tail)) [34] = (s, tail) := by
  have hc : ([34] : List Nat).contains 34 = true := by decide
  rw [getWord, hc, List.length_cons, getWordLoop]
  simp only [Bool.true_and, decide_True, if_true, Nat.zero_add, ge_iff_le,
    Nat.not_ofNat_le_one, decide_False, Bool.and_false, Bool.false_eq_true, if_false]
  cases s with
  | nil => simp
  | cons x xs =>
    have hx : x ≠ 34 := fun e => h34 (by simp [e])
    have hxs : (34 : Nat) ∉ xs := fun e => h34 (by simp [e])
    have hl' : xs.getLast? ≠ some 92 := by
      cases xs with
      | nil => simp
      | cons y ys => rwa [List.getLast?_cons_cons] at hl
    have hesc : (decide (x = 92) && decide ((xs ++ 34 :: tail).head? = some 34)) = false := by
      by_cases e1 : x = 92
      · have e2 : ¬ (xs ++ 34 :: tail).head? = some 34 := by
          intro e
          cases xs with
          | nil => exact hl (by simp [e1])
          | cons y ys =>
            simp at e
            exact hxs (by simp [e])
        rw [decide_eq_false e2, Bool.and_false]
      · rw [decide_eq_false e1, Bool.false_and]
    have hcx : ([34] : List Nat).contains x = false := by simp [hx]
    simp only [List.cons_append, hesc, hcx, Bool.not_false, if_true, Bool.false_eq_true,
      if_false, List.nil_append]
    rw [getWordLoop_quoted tail xs _ [x] hxs hl' (by simp; omega)]
    rfl

theorem processLine_string (F : FloatOps) (out s tail : List Nat) (h34 : (34 : Nat) ∉ s)
    (hl : s.getLast? ≠ some 92) :
    processLine F out (34 :: (s ++ 34 :: tail)) = processLine F (out ++ s) tail := by
  have hcl : classify (34 :: (s ++ 34 :: tail)) = (Kind.string, s, tail) := by
    simp only [classify, List.getD_cons_zero, getWord_quoted s tail h34 hl]
    simp
  exact processLine_word F out 34 _ (by decide) (by decide) _ _ _ s hcl rfl

theorem digit_plain (x : Nat) (h : isdigit x = true) :
    x ≠ 32 ∧ x ≠ 10 ∧ x ≠ 9 ∧ x ≠ 59 ∧ x ≠ 35 ∧ x ≠ 47 ∧ x ≠ 34 := by
  have := isdigit_cases x h
  omega

theorem hexDigitChar_plain (d : Nat) (h : d < 16) :
    hexDigitChar d ≠ 32 ∧ hexDigitChar d ≠ 10 ∧ hexDigitChar d ≠ 9 ∧ hexDigitChar d ≠ 59 ∧
      hexDigitChar d ≠ 35 ∧ hexDigitChar d ≠ 47 ∧ hexDigitChar d ≠ 34 := by
  have := hexDigitChar_cases d h
  omega

theorem classify_kind (w : List Nat) (hw : ∀ x ∈ w, x ≠ 32 ∧ x ≠ 10 ∧ x ≠ 9)
    (h : w.getD 0 0 ≠ 43 ∧ w.getD 0 0 ≠ 34 ∧ w.getD 0 0 ≠ 118 ∧ w.getD 0 0 ≠ 112 ∧
      w.getD 0 0 ≠ 116) :
    (classify w).1 =
      if w.contains 39 then Kind.decimal
      else if w.contains 44 || decide (w.length > 2) then Kind.binary else Kind.hex := by
  have g := getWord_plain w [] hw (Or.inl rfl)
  rw [List.append_nil] at g
  obtain ⟨h1, h2, h3, h4, h5⟩ := h
  simp only [classify, h1, h2, h3, h4, h5, if_false, g]
  split_ifs <;> rfl

theorem processLine_vlv (F : FloatOps) (out tail : List Nat) (n : Nat) (hn : n < 2 ^ 31)
    (ht : wordEnd tail) :
    processLine F out (118 :: showNat n ++ tail) = processLine F (out ++ vlvShape n) tail := by
  refine processLine_token F out (118 :: showNat n) tail _ ?_ (by simp) ht ?_
  · intro x hx
    rcases List.mem_cons.1 hx with rfl | hx
    · decide
    · exact digit_plain x (showNat_digits n x hx)
  · have hk : (classify (118 :: showNat n)).1 = Kind.vlv := by simp [classify]
    rw [hk]
    exact processVlvWord_showNat n hn out

theorem showHex_small (b : Nat) (h : b < 16) : showHex b = [hexDigitChar b] := by
  simp [showHex, hexDigits, h]

theorem showHex_two (b : Nat) (h1 : 16 ≤ b) (h2 : b < 256) :
    showHex b = [hexDigitChar (b / 16), hexDigitChar (b % 16)] := by
  have h := hexByteText_eq b h2
  have hn : ¬ b < 16 := by omega
  simp only [hexByteText, hn, if_false, List.nil_append] at h
  have h' := congrArg List.dropLast h
  simpa using h'

theorem processHexWord_single (out : List Nat) (d : Nat) (h : d < 16) :
    processHexWord out [hexDigitChar d] = (1, out ++ [d]) := by
  obtain ⟨x1, v1⟩ := hexDigitValue_hexDigitChar d h
  have : d % 256 = d := by omega
  simp [processHexWord, x1, strtol16, v1, this]

theorem classify_hex (w : List Nat) (hlen : w.length ≤ 2)
    (hw : ∀ x ∈ w, ∃ d, d < 16 ∧ x = hexDigitChar d) : (classify w).1 = Kind.hex := by
  have hc : ∀ x ∈ w, (48 ≤ x ∧ x ≤ 57) ∨ (97 ≤ x ∧ x ≤ 102) := by
    intro x hx
    obtain ⟨d, hd, rfl⟩ := hw x hx
    have := hexDigitChar_cases d hd
    omega
  have h0 : w.getD 0 0 = 0 ∨ (48 ≤ w.getD 0 0 ∧ w.getD 0 0 ≤ 57) ∨
      (97 ≤ w.getD 0 0 ∧ w.getD 0 0 ≤ 102) := by
    cases w with
    | nil => exact Or.inl rfl
    | cons a w => exact Or.inr (hc a (by simp))
  rw [classify_kind w (fun x hx => by have := hc x hx; omega) (by omega)]
  have n39 : w.contains 39 = false := by
    rw [Bool.eq_false_iff]
    intro h
    have := hc 39 (by simpa using h)
    omega
  have n44 : w.contains 44 = false := by
    rw [Bool.eq_false_iff]
    intro h
    have := hc 44 (by simpa using h)
    omega
  have nl : ¬ w.length > 2 := by omega
  simp only [n39, n44, Bool.false_eq_true, if_false, Bool.false_or, decide_eq_true_eq, nl]

theorem processLine_hex (F : FloatOps) (out tail : List Nat) (b : Nat) (hb : b < 256)
    (ht : wordEnd tail) :
    processLine F out (showHex b ++ tail) = processLine F (out ++ [b]) tail := by
  by_cases h : b < 16
  · rw [showHex_small b h]
    refine processLine_token F out _ tail _ ?_ (by simp) ht ?_
    · intro x hx
      simp only [List.mem_singleton] at hx
      subst hx
      exact hexDigitChar_plain b h
    · rw [classify_hex _ (by simp) (fun x hx => ⟨b, h, by simpa using hx⟩)]
      exact processHexWord_single out b h
  · rw [showHex_two b (by omega) hb]
    have h1 : b / 16 < 16 := by omega
    have h2 : b % 16 < 16 := by omega
    refine processLine_token F out _ tail _ ?_ (by simp) ht ?_
    · intro x hx
      simp only [List.mem_cons, List.mem_singleton, List.not_mem_nil, or_false] at hx
      rcases hx with rfl | rfl
      · exact hexDigitChar_plain _ h1
      · exact hexDigitChar_plain _ h2
    · rw [classify_hex _ (by simp) (fun x hx => by
        simp only [List.mem_cons, List.mem_singleton, List.not_mem_nil, or_false] at hx
        rcases hx with rfl | rfl
        · exact ⟨_, h1, rfl⟩
        · exact ⟨_, h2, rfl⟩)]
      have := processHexWord_pair out (b / 16) (b % 16) h1 h2
      have e : b / 16 * 16 + b % 16 = b := by omega
      rw [e] at this
      exact this

theorem processLine_hex0 (F : FloatOps) (out tail : List Nat) (b : Nat) (hb : b < 16)
    (ht : wordEnd tail) :
    processLine F out (48 :: showHex b ++ tail) = processLine F (out ++ [b]) tail := by
  rw [showHex_small b hb]
  have e48 : (48 : Nat) = hexDigitChar 0 := rfl
  refine processLine_token F out _ tail _ ?_ (by simp) ht ?_
  · intro x hx
    simp only [List.mem_cons, List.mem_singleton, List.not_mem_nil, or_false] at hx
    rcases hx with rfl | rfl
    · decide
    · exact hexDigitChar_plain _ hb
  · rw [classify_hex _ (by simp) (fun x hx => by
      simp only [List.mem_cons, List.mem_singleton, List.not_mem_nil, or_false] at hx
      rcases hx with rfl | rfl
      · exact ⟨0, by decide, rfl⟩
      · exact ⟨_, hb, rfl⟩)]
    have := processHexWord_pair out 0 b (by decide) hb
    simpa [e48] using this

theorem decimal_plain (w : List Nat) (h : ∀ x ∈ w, isdigit x = true ∨ x = 39 ∨ x = 45) :
    ∀ x ∈ w, x ≠ 32 ∧ x ≠ 10 ∧ x ≠ 9 ∧ x ≠ 59 ∧ x ≠ 35 ∧ x ≠ 47 ∧ x ≠ 34 := by
  intro x hx
  rcases h x hx with h | h | h
  · exact digit_plain x h
  · omega
  · omega

theorem classify_decimal (w : List Nat) (h : ∀ x ∈ w, isdigit x = true ∨ x = 39 ∨ x = 45)
    (hq : (39 : Nat) ∈ w) (h0 : isdigit (w.getD 0 0) = true ∨ w.getD 0 0 = 39) :
    (classify w).1 = Kind.decimal := by
  have hp := decimal_plain w h
  have hh : w.getD 0 0 ≠ 43 ∧ w.getD 0 0 ≠ 34 ∧ w.getD 0 0 ≠ 118 ∧ w.getD 0 0 ≠ 112 ∧
      w.getD 0 0 ≠ 116 := by
    rcases h0 with h0 | h0
    · have := isdigit_cases _ h0
      omega
    · omega
  rw [classify_kind w (fun x hx => ⟨(hp x hx).1, (hp x hx).2.1, (hp x hx).2.2.1⟩) hh]
  have : w.contains 39 = true := by simpa using hq
  rw [this]
  rfl

theorem processLine_decimal (F : FloatOps) (out w tail bytes : List Nat)
    (h : ∀ x ∈ w, isdigit x = true ∨ x = 39 ∨ x = 45) (hq : (39 : Nat) ∈ w)
    (h0 : isdigit (w.getD 0 0) = true ∨ w.getD 0 0 = 39) (ht : wordEnd tail)
    (hem : processDecimalWord F out w = (1, out ++ bytes)) :
    processLine F out (w ++ tail) = processLine F (out ++ bytes) tail := by
  refine processLine_token F out w tail bytes (decimal_plain w h) ?_ ht ?_
  · intro e
    rw [e] at hq
    exact absurd hq (by simp)
  · rw [classify_decimal w h hq h0]
    exact hem

theorem processLine_byte (F : FloatOps) (out tail : List Nat) (b : Nat) (hb : b < 256)
    (ht : wordEnd tail) :
    processLine F out (39 :: showNat b ++ tail) = processLine F (out ++ [b]) tail := by
  refine processLine_decimal F out (39 :: showNat b) tail [b] ?_ (by simp) (Or.inr rfl) ht ?_
  · intro x hx
    rcases List.mem_cons.1 hx with rfl | hx
    · exact Or.inr (Or.inl rfl)
    · exact Or.inl (showNat_digits b x hx)
  · rw [processDecimalWord_unsigned F out (showNat b) (showNat_ne_nil b) (showNat_digits b)
      (by rw [digitsValue_showNat]; omega), digitsValue_showNat]
    have : ¬ b > 255 := by omega
    rw [if_neg this]

theorem processLine_char (F : FloatOps) (out tail : List Nat) (b : Nat) (hb : b < 256)
    (ht : wordEnd tail) :
    processLine F out (39 :: showInt (charToInt b) ++ tail) =
      processLine F (out ++ [b]) tail := by
  by_cases h : b < 128
  · have e : showInt (charToInt b) = showNat b := by
      simp [charToInt, h, showInt_natCast]
    rw [e]
    exact processLine_byte F out tail b hb ht
  · have e : showInt (charToInt b) = 45 :: showNat (256 - b) := by
      have e1 : charToInt b = -((256 - b : Nat) : Int) := by
        simp only [charToInt, h, if_false]
        omega
      have e2 : (-((256 - b : Nat) : Int)) < 0 := by omega
      rw [e1, showInt, if_pos e2]
      simp
    rw [e]
    refine processLine_decimal F out (39 :: 45 :: showNat (256 - b)) tail [b] ?_ (by simp)
      (Or.inr rfl) ht ?_
    · intro x hx
      rcases List.mem_cons.1 hx with rfl | hx
      · exact Or.inr (Or.inl rfl)
      · rcases List.mem_cons.1 hx with rfl | hx
        · exact Or.inr (Or.inr rfl)
        · exact Or.inl (showNat_digits _ x hx)
    · rw [processDecimalWord_signed F out (showNat (256 - b)) (showNat_digits _)
        (by rw [digitsValue_showNat]; omega), digitsValue_showNat]
      have h1 : ¬ 256 - b > 128 := by omega
      have h2 : (256 - (256 - b)) % 256 = b := by omega
      rw [if_neg h1, h2]

theorem processDecimalWord_sized (F : FloatOps) (out ds : List Nat) (d : Nat)
    (hd : d = 49 ∨ d = 50 ∨ d = 52) (hne : ds ≠ [])
    (hds : ∀ c ∈ ds, isdigit c = true) (hn : digitsValue 0 ds < 2 ^ 31) :
    processDecimalWord F out (d :: 39 :: ds) =
      if d = 49 then (1, out ++ [digitsValue 0 ds % 256])
      else (1, out ++ (lowBytes (d - 48) (digitsValue 0 ds)).reverse) := by
  have hlen : 0 < ds.length := List.length_pos.2 hne
  have hscan : decimalScan (d :: 39 :: ds) (d :: 39 :: ds) 0 ⟨-1, -1, -1, -1, -1⟩ =
      some ⟨(d : Int) - 48, 1, -1, -1, -1⟩ := by
    rcases hd with rfl | rfl | rfl <;>
    · simp only [decimalScan]
      simp
      exact decimalScan_digits _ ds hds _ _ (by simp)
  have hu : toULong (digitsValue 0 ds : Int) = digitsValue 0 ds := by unfold toULong; omega
  unfold processDecimalWord
  rw [hscan]
  have e1 : ¬ ((1 : Int) = ((d :: 39 :: ds).length : Int) - 1) := by
    simp only [List.length_cons, Nat.cast_add, Nat.cast_one]; omega
  have e2 : (d :: 39 :: ds).drop ((1 : Int) + 1).toNat = ds := rfl
  simp only [e1, if_false, e2, atoi_digits ds hne hds hn, hu, writeBigEndian]
  rcases hd with rfl | rfl | rfl <;> simp

theorem processDecimalWord_one_signed (F : FloatOps) (out ds : List Nat)
    (hds : ∀ c ∈ ds, isdigit c = true) (hn : digitsValue 0 ds ≤ 2 ^ 31) :
    processDecimalWord F out (49 :: 39 :: 45 :: ds) =
      (1, out ++ [toByte (-(digitsValue 0 ds : Int))]) := by
  have hscan : decimalScan (49 :: 39 :: 45 :: ds) (49 :: 39 :: 45 :: ds) 0
      ⟨-1, -1, -1, -1, -1⟩ = some ⟨1, 1, 2, -1, -1⟩ := by
    simp only [decimalScan]
    simp
    exact decimalScan_digits _ ds hds _ _ (by simp)
  unfold processDecimalWord
  rw [hscan]
  have e1 : ¬ ((1 : Int) = ((49 :: 39 :: 45 :: ds).length : Int) - 1) := by
    simp only [List.length_cons, Nat.cast_add, Nat.cast_one]; omega
  have e2 : (49 :: 39 :: 45 :: ds).drop ((1 : Int) + 1).toNat = 45 :: ds := rfl
  simp only [e1, if_false, e2, atoi_minus_digits ds hn]
  simp

theorem sized_chars (d : Nat) (hd : d = 49 ∨ d = 50 ∨ d = 52) (n : Nat) :
    ∀ x ∈ d :: 39 :: showNat n, isdigit x = true ∨ x = 39 ∨ x = 45 := by
  intro x hx
  rcases List.mem_cons.1 hx with rfl | hx
  · left
    rcases hd with rfl | rfl | rfl <;> decide
  · rcases List.mem_cons.1 hx with rfl | hx
    · exact Or.inr (Or.inl rfl)
    · exact Or.inl (showNat_digits n x hx)

theorem processLine_two (F : FloatOps) (out tail : List Nat) (n : Nat) (hn : n < 2 ^ 31)
    (ht : wordEnd tail) :
    processLine F out (str "2'" ++ showNat n ++ tail) =
      processLine F (out ++ (lowBytes 2 n).reverse) tail := by
  refine processLine_decimal F out (50 :: 39 :: showNat n) tail _
    (sized_chars 50 (by decide) n) (by simp) (Or.inl rfl) ht ?_
  rw [processDecimalWord_sized F out (showNat n) 50 (by decide) (showNat_ne_nil n)
    (showNat_digits n) (by rw [digitsValue_showNat]; exact hn), digitsValue_showNat]
  rfl

theorem processLine_four (F : FloatOps) (out tail : List Nat) (n : Nat) (hn : n < 2 ^ 31)
    (ht : wordEnd tail) :
    processLine F out (str "4'" ++ showNat n ++ tail) =
      processLine F (out ++ (lowBytes 4 n).reverse) tail := by
  refine processLine_decimal F out (52 :: 39 :: showNat n) tail _
    (sized_chars 52 (by decide) n) (by simp) (Or.inl rfl) ht ?_
  rw [processDecimalWord_sized F out (showNat n) 52 (by decide) (showNat_ne_nil n)
    (showNat_digits n) (by rw [digitsValue_showNat]; exact hn), digitsValue_showNat]
  rfl

theorem processLine_one (F : FloatOps) (out tail : List Nat) (n : Nat) (hn : n < 256)
    (ht : wordEnd tail) :
    processLine F out (str "1'" ++ showNat n ++ tail) = processLine F (out ++ [n]) tail := by
  refine processLine_decimal F out (49 :: 39 :: showNat n) tail _
    (sized_chars 49 (by decide) n) (by simp) (Or.inl rfl) ht ?_
  rw [processDecimalWord_sized F out (showNat n) 49 (by decide) (showNat_ne_nil n)
    (showNat_digits n) (by rw [digitsValue_showNat]; omega), digitsValue_showNat]
  rw [if_pos rfl, Nat.mod_eq_of_lt hn]

theorem processLine_one_signed (F : FloatOps) (out tail : List Nat) (b : Nat)
    (h1 : 128 ≤ b) (h2 : b < 256) (ht : wordEnd tail) :
    processLine F out (str "1'-" ++ showNat (0xff - b + 1) ++ tail) =
      processLine F (out ++ [b]) tail := by
  refine processLine_decimal F out (49 :: 39 :: 45 :: showNat (0xff - b + 1)) tail _ ?_
    (by simp) (Or.inl rfl) ht ?_
  · intro x hx
    rcases List.mem_cons.1 hx with rfl | hx
    · exact Or.inl (by decide)
    · rcases List.mem_cons.1 hx with rfl | hx
      · exact Or.inr (Or.inl rfl)
      · rcases List.mem_cons.1 hx with rfl | hx
        · exact Or.inr (Or.inr rfl)
        · exact Or.inl (showNat_digits _ x hx)
  · rw [processDecimalWord_one_signed F out _ (showNat_digits _)
      (by rw [digitsValue_showNat]; omega), digitsValue_showNat]
    have : toByte (-((0xff - b + 1 : Nat) : Int)) = b := by
      unfold toByte
      omega
    rw [this]

theorem processLine_items (F : FloatOps) (item : Nat → List Nat)
    (hitem : ∀ b, b < 256 → ∀ out tail, wordEnd tail →
      processLine F out (item b ++ tail) = processLine F (out ++ [b]) tail)
    (hhead : ∀ b, wordEnd (item b)) (hne : ∀ b, item b ≠ []) :
    ∀ (bs : List Nat), (∀ b ∈ bs, b < 256) → ∀ (out tail : List Nat), wordEnd tail →
      wordEnd ((bs.map item).flatten ++ tail) ∧
      processLine F out ((bs.map item).flatten ++ tail) = processLine F (out ++ bs) tail := by
  intro bs
  induction bs with
  | nil => intro _ out tail ht; simpa using ht
  | cons b bs ih =>
    intro hb out tail ht
    obtain ⟨i1, i2⟩ := ih (fun x hx => hb x (by simp [hx])) (out ++ [b]) tail ht
    simp only [List.map_cons, List.flatten_cons, List.append_assoc]
    constructor
    · rcases hhead b with h | ⟨t, ts, h, h'⟩
      · exact absurd h (hne b)
      · rw [h]
        exact wordEnd_cons t _ h'
    · rw [hitem b (hb b (by simp)) out _ i1, i2]
      simp

theorem hexItem_eq (b : Nat) :
    hexItem b = 32 :: ((if b < 0x10 then [48] else []) ++ showHex b) := by
  unfold hexItem
  split_ifs <;> rfl

theorem metaItem_eq (b : Nat) : metaItem b = hexItem b := by
  rw [hexItem_eq]
  unfold metaItem
  split_ifs <;> rfl

theorem processLine_hexItem (F : FloatOps) (b : Nat) (hb : b < 256) (out tail : List Nat)
    (ht : wordEnd tail) :
    processLine F out (hexItem b ++ tail) = processLine F (out ++ [b]) tail := by
  rw [hexItem_eq, List.cons_append, processLine_space F out 32 _ (by decide)]
  by_cases h : b < 0x10
  · rw [if_pos h]
    exact processLine_hex0 F out tail b h ht
  · rw [if_neg h, List.nil_append]
    exact processLine_hex F out tail b hb ht

theorem processLine_decItem (F : FloatOps) (b : Nat) (hb : b < 256) (out tail : List Nat)
    (ht : wordEnd tail) :
    processLine F out (decItem b ++ tail) = processLine F (out ++ [b]) tail := by
  have e : decItem b ++ tail = 32 :: (39 :: showNat b ++ tail) := rfl
  rw [e, processLine_space F out 32 _ (by decide)]
  exact processLine_byte F out tail b hb ht

theorem processLine_dataItem (F : FloatOps) (b : Nat) (hb : b < 256) (out tail : List Nat)
    (ht : wordEnd tail) :
    processLine F out (dataItem b ++ tail) = processLine F (out ++ [b]) tail := by
  have e : dataItem b ++ tail = 32 :: (39 :: showInt (charToInt b) ++ tail) := rfl
  rw [e, processLine_space F out 32 _ (by decide)]
  exact processLine_char F out tail b hb ht

theorem wordEnd_hexItem (b : Nat) : wordEnd (hexItem b) := by
  rw [hexItem_eq]
  exact wordEnd_cons 32 _ (by decide)

theorem processLine_metaText (F : FloatOps) (ty : Nat) (bs : List Nat) (hm : metaOk ty bs)
    (hb : ∀ b ∈ bs, b < 256) (out tail : List Nat) (ht : wordEnd tail) :
    wordEnd (metaText ty bs ++ tail) ∧
      processLine F out (metaText ty bs ++ tail) = processLine F (out ++ bs) tail := by
  have hdec := processLine_items F decItem (processLine_decItem F)
    (fun b => wordEnd_cons 32 _ (by decide)) (fun b => by simp [decItem, str]) bs hb out tail ht
  have hhex := processLine_items F metaItem
    (fun b hb' out tail ht => by rw [metaItem_eq]; exact processLine_hexItem F b hb' out tail ht)
    (fun b => by rw [metaItem_eq]; exact wordEnd_hexItem b)
    (fun b => by rw [metaItem_eq, hexItem_eq]; simp) bs hb out tail ht
  unfold metaOk at hm
  unfold metaText
  by_cases h0 : ty = 0x00
  · rw [if_pos h0] at hm
    obtain ⟨a, b, rfl⟩ := list_length_two bs hm
    have ha : a < 256 := hb a (by simp)
    have hb' : b < 256 := hb b (by simp)
    rw [if_pos h0]
    have e : str " 2'" ++ showNat ([a, b].getD 0 0 * 256 + [a, b].getD 1 0) ++ tail =
        32 :: (str "2'" ++ showNat (a * 256 + b) ++ tail) := rfl
    rw [e, processLine_space F out 32 _ (by decide),
      processLine_two F out tail _ (by omega) ht]
    refine ⟨wordEnd_cons 32 _ (by decide), ?_⟩
    have e2 : (lowBytes 2 (a * 256 + b)).reverse = [a, b] := by
      simp only [lowBytes, List.reverse_cons, List.reverse_nil, List.nil_append,
        List.singleton_append]
      have x1 : (a * 256 + b) / 256 % 256 = a := by omega
      have x2 : (a * 256 + b) % 256 = b := by omega
      rw [x1, x2]
    rw [e2]
  · rw [if_neg h0] at hm
    rw [if_neg h0]
    by_cases h1 : ty = 0x20 ∨ ty = 0x21 ∨ ty = 0x54 ∨ ty = 0x58 ∨ ty = 0x59
    · rw [if_pos h1]
      exact hdec
    · rw [if_neg h1]
      have n1 : ¬ (ty = 0x20 ∨ ty = 0x21) := by omega
      have n2 : ¬ ty = 0x54 := by omega
      have n3 : ¬ ty = 0x58 := by omega
      have n4 : ¬ ty = 0x59 := by omega
      rw [if_neg n1] at hm
      by_cases h2 : ty = 0x51
      · rw [if_pos h2] at hm
        exact absurd hm id
      · rw [if_neg h2, if_neg n2, if_neg n3, if_neg n4] at hm
        by_cases h3 : 0x01 ≤ ty ∧ ty ≤ 0x09
        · rw [if_pos h3] at hm
          rw [if_pos h3]
          obtain ⟨q0, q10, q34, q92⟩ := hm
          have e : str " \"" ++ bs ++ str "\"" ++ tail = 32 :: 34 :: (bs ++ 34 :: tail) := by
            simp [str]
          rw [e, processLine_space F out 32 _ (by decide), processLine_string F out bs tail q34 q92]
          exact ⟨wordEnd_cons 32 _ (by decide), rfl⟩
        · rw [if_neg h3]
          exact hhex

theorem processLine_payload (F : FloatOps) (running : Bool) (command : Nat) (p : Payload)
    (hp : p.ok running command) (out tail : List Nat) (ht : wordEnd tail) :
    wordEnd (p.text ++ tail) ∧
      processLine F out (p.text ++ tail) = processLine F (out ++ p.bytes) tail := by
  have wd : ∀ b r, wordEnd (dataItem b ++ r) := fun b r => wordEnd_cons 32 _ (by decide)
  cases p with
  | two d1 d2 =>
    obtain ⟨_, h1, h2, _⟩ := hp
    simp only [Payload.text, Payload.bytes, List.append_assoc]
    refine ⟨wd _ _, ?_⟩
    rw [processLine_dataItem F d1 h1 out _ (wd _ _), processLine_dataItem F d2 h2 _ _ ht]
    simp
  | one d1 =>
    obtain ⟨_, h1, _⟩ := hp
    simp only [Payload.text, Payload.bytes]
    exact ⟨wd _ _, processLine_dataItem F d1 h1 out _ ht⟩
  | sysex bs =>
    obtain ⟨_, hl, hb, _⟩ := hp
    obtain ⟨i1, i2⟩ := processLine_items F hexItem (processLine_hexItem F) wordEnd_hexItem
      (fun b => by rw [hexItem_eq]; simp) bs hb (out ++ vlvShape bs.length) tail ht
    have e : (Payload.sysex bs).text ++ tail =
        32 :: (118 :: showNat bs.length ++ ((bs.map hexItem).flatten ++ tail)) := by
      simp [Payload.text, str]
    rw [e, processLine_space F out 32 _ (by decide), processLine_vlv F out _ _ hl i1, i2]
    refine ⟨wordEnd_cons 32 _ (by decide), ?_⟩
    simp [Payload.bytes]
  | metaEvent ty bs =>
    obtain ⟨_, hty, hl, hb, hm, _⟩ := hp
    obtain ⟨i1, i2⟩ := processLine_metaText F ty bs hm hb (out ++ [ty] ++ vlvShape bs.length)
      tail ht
    have e : (Payload.metaEvent ty bs).text ++ tail =
        32 :: (showHex ty ++ (32 :: (118 :: showNat bs.length ++ (metaText ty bs ++ tail)))) := by
      simp [Payload.text, str]
    rw [e, processLine_space F out 32 _ (by decide),
      processLine_hex F out _ ty hty (wordEnd_cons 32 _ (by decide)),
      processLine_space F _ 32 _ (by decide), processLine_vlv F _ _ _ hl i1, i2]
    refine ⟨wordEnd_cons 32 _ (by decide), ?_⟩
    simp [Payload.bytes]

theorem processLine_event (F : FloatOps) (c : Bool) (command : Nat) (e : Event)
    (he : e.ok command) (out : List Nat) :
    processLine F out (e.text c command) = Run.ret (1, out ++ e.bytes) := by
  obtain ⟨delta, status, body⟩ := e
  obtain ⟨hd, hs, hb⟩ := he
  have hend : lineEnd F (if c = true then str "\t; " ++ body.comment (Event.command command
      ⟨delta, status, body⟩) else []) := by
    cases c
    · exact lineEnd_nil F
    · exact lineEnd_comment1 F _
  obtain ⟨p1, p2⟩ := processLine_payload F _ _ body hb
    (out ++ vlvShape delta ++ status.toList) _ hend.1
  cases status with
  | none =>
    have e : Event.text c command ⟨delta, none, body⟩ =
        118 :: showNat delta ++ (9 :: 32 :: 32 :: 32 :: (body.text ++
          (if c = true then str "\t; " ++ body.comment (Event.command command
            ⟨delta, none, body⟩) else []))) := by
      simp [Event.text, str]
    rw [e, processLine_vlv F out _ delta hd (wordEnd_cons 9 _ (by decide)),
      processLine_space F _ 9 _ (by decide), processLine_space F _ 32 _ (by decide),
      processLine_space F _ 32 _ (by decide), processLine_space F _ 32 _ (by decide)]
    simp only [Option.toList, List.append_nil] at p2
    rw [p2, hend.2]
    simp [Event.bytes]
  | some s =>
    obtain ⟨s1, s2⟩ := hs s rfl
    have e : Event.text c command ⟨delta, some s, body⟩ =
        118 :: showNat delta ++ (9 :: (showHex s ++ (body.text ++
          (if c = true then str "\t; " ++ body.comment (Event.command command
            ⟨delta, some s, body⟩) else [])))) := by
      simp [Event.text, str]
    rw [e, processLine_vlv F out _ delta hd (wordEnd_cons 9 _ (by decide)),
      processLine_space F _ 9 _ (by decide), processLine_hex F _ _ s s2 p1]
    simp only [Option.toList] at p2
    rw [p2, hend.2]
    simp [Event.bytes]

theorem lineEnd_ite3 (F : FloatOps) (c : Bool) (s : List Nat)
    (hs : ∃ x, s = 9 :: 9 :: 9 :: 59 :: x) : lineEnd F (if c = true then s else []) := by
  obtain ⟨x, rfl⟩ := hs
  cases c
  · exact lineEnd_nil F
  · exact lineEnd_comment3 F x

theorem processLineBytes_comment (F : FloatOps) (l : List Nat) (h : l.head? = some 59) :
    processLineBytes F l = [] := by
  cases l with
  | nil => simp at h
  | cons a l =>
    simp only [List.head?_cons, Option.some.injEq] at h
    subst h
    exact processLineBytes_of F _ _ 1 (processLine_comment F [] 59 l (by decide))

theorem eventsLines_bytes (F : FloatOps) (c : Bool) : ∀ (events : List Event) (command : Nat),
    eventsOk command events →
    ((eventsLines c command events).map (processLineBytes F)).flatten = eventsBytes events := by
  intro events
  induction events with
  | nil => intro _ _; rfl
  | cons e es ih =>
    intro command hok
    have he : e.ok command := by
      cases es with
      | nil => exact hok.1
      | cons e1 es1 => exact hok.1
    have h1 : processLineBytes F (e.text c command) = e.bytes :=
      processLineBytes_of F _ _ 1 (by simpa using processLine_event F c command e he [])
    have h2 : ((eventsLines c (e.command command) es).map (processLineBytes F)).flatten =
        eventsBytes es := by
      cases es with
      | nil => rfl
      | cons e1 es1 => exact ih _ hok.2.2
    simp only [eventsLines, List.map_cons, List.flatten_cons, h1, h2, eventsBytes]

theorem trackLines_bytes (F : FloatOps) (c : Bool) (i : Nat) (t : Track) (ht : t.ok) :
    ((t.lines c i).map (processLineBytes F)).flatten = t.bytes := by
  obtain ⟨hsize, hev⟩ := ht
  have l1 : processLineBytes F [] = [] := processLineBytes_nil F
  have l2 : processLineBytes F (str ";;; TRACK " ++ showNat i ++
      str " ----------------------------------") = [] :=
    processLineBytes_comment F _ rfl
  have l3 : processLineBytes F (str "\"MTrk\"" ++
      (if c = true then str "\t\t\t; MIDI track chunk marker" else [])) = str "MTrk" := by
    have hend := lineEnd_ite3 F c (str "\t\t\t; MIDI track chunk marker") ⟨_, rfl⟩
    have e : str "\"MTrk\"" ++ (if c = true then str "\t\t\t; MIDI track chunk marker" else []) =
        34 :: (str "MTrk" ++ 34 :: (if c = true then str "\t\t\t; MIDI track chunk marker"
          else [])) := rfl
    rw [e]
    refine processLineBytes_of F _ _ 1 ?_
    rw [processLine_string F [] (str "MTrk") _ (by decide) (by decide), hend.2]
    rfl
  have l4 : processLineBytes F (str "4'" ++ showNat t.size ++
      (if c = true then str "\t\t\t; bytes to follow in track chunk" else [])) =
      (lowBytes 4 t.size).reverse := by
    have hend := lineEnd_ite3 F c (str "\t\t\t; bytes to follow in track chunk") ⟨_, rfl⟩
    refine processLineBytes_of F _ _ 1 ?_
    rw [processLine_four F [] _ t.size hsize hend.1, hend.2]
    rfl
  have l5 : ((if (eventsBytes t.events).length ≠ t.size then
      [str "; TRACK SIZE ERROR, ACTUAL SIZE: " ++ showNat (eventsBytes t.events).length]
      else []).map (processLineBytes F)).flatten = [] := by
    split_ifs
    · simp only [List.map_cons, List.map_nil, List.flatten_cons, List.flatten_nil,
        List.append_nil]
      exact processLineBytes_comment F _ rfl
    · simp only [List.map_nil, List.flatten_nil]
  simp only [Track.lines, List.map_append, List.flatten_append, List.map_cons, List.map_nil,
    List.flatten_cons, List.flatten_nil, l1, l2, l3, l4, l5, eventsLines_bytes F c _ _ hev,
    Track.bytes, List.nil_append, List.append_nil]
  simp only [List.append_assoc]

theorem tracksLines_bytes (F : FloatOps) (c : Bool) : ∀ (ts : List Track) (i : Nat),
    (∀ t ∈ ts, t.ok) →
    ((tracksLines c i ts).map (processLineBytes F)).flatten = (ts.map Track.bytes).flatten := by
  intro ts
  induction ts with
  | nil => intro _ _; rfl
  | cons t ts ih =>
    intro i h
    simp only [tracksLines, List.map_append, List.flatten_append, List.map_cons,
      List.flatten_cons, trackLines_bytes F c i t (h t (by simp)),
      ih (i + 1) (fun t ht => h t (by simp [ht]))]

theorem fileLines_bytes (F : FloatOps) (c : Bool) (m : MidiFile) (hm : m.ok) :
    ((m.lines c).map (processLineBytes F)).flatten = m.bytes := by
  obtain ⟨h1, h2, h3, h4, h5, h6⟩ := hm
  have l1 : processLineBytes F (str "\"MThd\"" ++
      (if c = true then str "\t\t\t; MIDI header chunk marker" else [])) = str "MThd" := by
    have hend := lineEnd_ite3 F c (str "\t\t\t; MIDI header chunk marker") ⟨_, rfl⟩
    have e : str "\"MThd\"" ++ (if c = true then str "\t\t\t; MIDI header chunk marker"
        else []) = 34 :: (str "MThd" ++ 34 :: (if c = true then
          str "\t\t\t; MIDI header chunk marker" else [])) := rfl
    rw [e]
    refine processLineBytes_of F _ _ 1 ?_
    rw [processLine_string F [] (str "MThd") _ (by decide) (by decide), hend.2]
    rfl
  have l2 : processLineBytes F (str "4'" ++ showNat m.headerSize ++
      (if c = true then str "\t\t\t; bytes to follow in header chunk" else [])) =
      (lowBytes 4 m.headerSize).reverse := by
    have hend := lineEnd_ite3 F c (str "\t\t\t; bytes to follow in header chunk") ⟨_, rfl⟩
    refine processLineBytes_of F _ _ 1 ?_
    rw [processLine_four F [] _ m.headerSize (by omega) hend.1, hend.2]
    rfl
  have l3 : processLineBytes F (str "2'" ++ showNat m.format ++
      (if c = true then
        str "\t\t\t; file format: Type-" ++ showNat m.format ++ str " (" ++
          (if m.format = 0 then str "single track"
           else if m.format = 1 then str "multitrack"
           else if m.format = 2 then str "multisegment"
           else str "unknown") ++ str ")"
       else [])) = (lowBytes 2 m.format).reverse := by
    have hend := lineEnd_ite3 F c (str "\t\t\t; file format: Type-" ++ showNat m.format ++
      str " (" ++ (if m.format = 0 then str "single track"
           else if m.format = 1 then str "multitrack"
           else if m.format = 2 then str "multisegment"
           else str "unknown") ++ str ")") ⟨_, rfl⟩
    refine processLineBytes_of F _ _ 1 ?_
    rw [processLine_two F [] _ m.format (by omega) hend.1, hend.2]
    rfl
  have l4 : processLineBytes F (str "2'" ++ showNat m.tracks.length ++
      (if c = true then str "\t\t\t; number of tracks" else [])) =
      (lowBytes 2 m.tracks.length).reverse := by
    have hend := lineEnd_ite3 F c (str "\t\t\t; number of tracks") ⟨_, rfl⟩
    refine processLineBytes_of F _ _ 1 ?_
    rw [processLine_two F [] _ m.tracks.length (by omega) hend.1, hend.2]
    rfl
  have l5 : 0x80 ≤ m.division1 → processLineBytes F (str "1'-" ++
      showNat (0xff - m.division1 + 1) ++
      (if c = true then str "\t\t\t; SMPTE frames/second" else [])) = [m.division1] := by
    intro hd
    have hend := lineEnd_ite3 F c (str "\t\t\t; SMPTE frames/second") ⟨_, rfl⟩
    refine processLineBytes_of F _ _ 1 ?_
    rw [processLine_one_signed F [] _ m.division1 hd h4 hend.1, hend.2]
    rfl
  have l6 : processLineBytes F (str "1'" ++ showNat m.division2 ++
      (if c = true then str "\t\t\t; subframes per frame" else [])) = [m.division2] := by
    have hend := lineEnd_ite3 F c (str "\t\t\t; subframes per frame") ⟨_, rfl⟩
    refine processLineBytes_of F _ _ 1 ?_
    rw [processLine_one F [] _ m.division2 h5 hend.1, hend.2]
    rfl
  have l7 : ¬ 0x80 ≤ m.division1 → processLineBytes F (str "2'" ++
      showNat (m.division1 * 256 + m.division2) ++
      (if c = true then str "\t\t\t; ticks per quarter note" else [])) =
      [m.division1, m.division2] := by
    intro hd
    have hend := lineEnd_ite3 F c (str "\t\t\t; ticks per quarter note") ⟨_, rfl⟩
    refine processLineBytes_of F _ _ 1 ?_
    rw [processLine_two F [] _ _ (by omega) hend.1, hend.2]
    have x1 : (m.division1 * 256 + m.division2) / 256 % 256 = m.division1 := by omega
    have x2 : (m.division1 * 256 + m.division2) % 256 = m.division2 := by omega
    simp [lowBytes, x1, x2]
  simp only [MidiFile.lines, MidiFile.headerLines, List.map_append, List.flatten_append,
    List.map_cons, List.map_nil, List.flatten_cons, List.flatten_nil, l1, l2, l3, l4,
    tracksLines_bytes F c m.tracks 0 h6, MidiFile.bytes, List.append_nil]
  by_cases hd : 0x80 ≤ m.division1
  · simp only [if_pos hd, List.map_cons, List.map_nil, List.flatten_cons, List.flatten_nil,
      l5 hd, l6, List.append_nil]
    simp only [List.append_assoc, List.singleton_append, List.cons_append, List.nil_append]
  · simp only [if_neg hd, List.map_cons, List.map_nil, List.flatten_cons, List.flatten_nil,
      l7 hd, List.append_nil]
    simp only [List.append_assoc, List.singleton_append, List.cons_append, List.nil_append]

theorem lineText_nil : lineText [] := fun _ h => absurd h (List.not_mem_nil _)

theorem lineText_append (a b : List Nat) (ha : lineText a) (hb : lineText b) :
    lineText (a ++ b) := by
  intro x hx
  rcases List.mem_append.1 hx with h | h
  · exact ha x h
  · exact hb x h

theorem lineText_ite (c : Prop) [Decidable c] (a b : List Nat) (ha : lineText a)
    (hb : lineText b) : lineText (if c then a else b) := by
  split_ifs
  · exact ha
  · exact hb

theorem lineText_flatten (ls : List (List Nat)) (h : ∀ l ∈ ls, lineText l) :
    lineText ls.flatten := by
  intro x hx
  obtain ⟨l, hl, hxl⟩ := List.mem_flatten.1 hx
  exact h l hl x hxl

theorem lineText_showNat (n : Nat) : lineText (showNat n) := by
  intro x hx
  have := isdigit_cases x (showNat_digits n x hx)
  omega

theorem lineText_showInt (z : Int) : lineText (showInt z) := by
  unfold showInt
  split_ifs
  · intro x hx
    rcases List.mem_cons.1 hx with rfl | hx
    · decide
    · exact lineText_showNat _ x hx
  · exact lineText_showNat _

theorem lineText_showHex (b : Nat) (hb : b < 256) : lineText (showHex b) := by
  have hc : ∀ d, d < 16 → hexDigitChar d ≠ 10 ∧ hexDigitChar d ≠ 0 := by
    intro d hd
    have := hexDigitChar_cases d hd
    omega
  by_cases h : b < 16
  · rw [showHex_small b h]
    intro x hx
    simp only [List.mem_singleton] at hx
    subst hx
    exact hc b h
  · rw [showHex_two b (by omega) hb]
    intro x hx
    simp only [List.mem_cons, List.mem_singleton, List.not_mem_nil, or_false] at hx
    rcases hx with rfl | rfl
    · exact hc _ (by omega)
    · exact hc _ (by omega)

theorem lineText_keyToPitchName (key : Int) : lineText (keyToPitchName key) := by
  unfold keyToPitchName
  refine lineText_append _ _ ?_ (lineText_showInt _)
  repeat' apply lineText_ite
  all_goals first | exact lineText_nil | (unfold lineText; decide)

theorem lineText_metaComment (ty : Nat) : lineText (metaComment ty) := by
  unfold metaComment
  repeat' apply lineText_ite
  all_goals (unfold lineText; decide)

theorem lineText_dataItem (b : Nat) : lineText (dataItem b) :=
  lineText_append _ _ (by unfold lineText; decide) (lineText_showInt _)

theorem lineText_decItem (b : Nat) : lineText (decItem b) :=
  lineText_append _ _ (by unfold lineText; decide) (lineText_showNat _)

theorem lineText_hexItem (b : Nat) (hb : b < 256) : lineText (hexItem b) := by
  unfold hexItem
  refine lineText_append _ _ ?_ (lineText_showHex b hb)
  split_ifs <;> (unfold lineText; decide)

theorem lineText_items (item : Nat → List Nat) (bs : List Nat)
    (h : ∀ b ∈ bs, lineText (item b)) : lineText ((bs.map item).flatten) := by
  apply lineText_flatten
  intro l hl
  obtain ⟨b, hb, rfl⟩ := List.mem_map.1 hl
  exact h b hb

theorem lineText_metaText (ty : Nat) (bs : List Nat) (hm : metaOk ty bs)
    (hb : ∀ b ∈ bs, b < 256) : lineText (metaText ty bs) := by
  unfold metaText
  split_ifs with h0 h1 h2
  · exact lineText_append _ _ (by unfold lineText; decide) (lineText_showNat _)
  · exact lineText_items _ _ (fun b _ => lineText_decItem b)
  · have n1 : ¬ (ty = 0x20 ∨ ty = 0x21) := by omega
    have n2 : ¬ ty = 0x51 := by omega
    have n3 : ¬ ty = 0x54 := by omega
    have n4 : ¬ ty = 0x58 := by omega
    have n5 : ¬ ty = 0x59 := by omega
    unfold metaOk at hm
    rw [if_neg h0, if_neg n1, if_neg n2, if_neg n3, if_neg n4, if_neg n5, if_pos h2] at hm
    obtain ⟨q0, q10, _, _⟩ := hm
    refine lineText_append _ _ (lineText_append _ _ (by unfold lineText; decide) ?_)
      (by unfold lineText; decide)
    intro x hx
    exact ⟨fun e => q10 (e ▸ hx), fun e => q0 (e ▸ hx)⟩
  · refine lineText_items _ _ (fun b hb' => ?_)
    rw [metaItem_eq]
    exact lineText_hexItem b (hb b hb')

theorem lineText_payload (running : Bool) (command : Nat) (p : Payload)
    (hp : p.ok running command) : lineText p.text ∧ lineText (p.comment command) := by
  cases p with
  | two d1 d2 =>
    refine ⟨lineText_append _ _ (lineText_dataItem _) (lineText_dataItem _), ?_⟩
    simp only [Payload.comment]
    split_ifs <;>
      first
      | exact lineText_append _ _ (by unfold lineText; decide) (lineText_keyToPitchName _)
      | (unfold lineText; decide)
  | one d1 =>
    refine ⟨lineText_dataItem _, ?_⟩
    simp only [Payload.comment]
    split_ifs <;> (unfold lineText; decide)
  | sysex bs =>
    obtain ⟨_, _, hb, _⟩ := hp
    exact ⟨lineText_append _ _ (lineText_append _ _ (by unfold lineText; decide)
      (lineText_showNat _)) (lineText_items _ _ (fun b hb' => lineText_hexItem b (hb b hb'))),
      lineText_nil⟩
  | metaEvent ty bs =>
    obtain ⟨_, hty, _, hb, hm, _⟩ := hp
    exact ⟨lineText_append _ _ (lineText_append _ _ (lineText_append _ _ (lineText_append _ _
      (by unfold lineText; decide) (lineText_showHex ty hty)) (by unfold lineText; decide))
      (lineText_showNat _)) (lineText_metaText ty bs hm hb), lineText_metaComment ty⟩

theorem lineText_event (c : Bool) (command : Nat) (e : Event) (he : e.ok command) :
    lineText (e.text c command) := by
  obtain ⟨delta, status, body⟩ := e
  obtain ⟨hd, hs, hb⟩ := he
  obtain ⟨p1, p2⟩ := lineText_payload _ _ body hb
  have key : ∀ st : List Nat, lineText st → lineText (str "v" ++ showNat delta ++ str "\t" ++
      st ++ body.text ++ (if c = true then str "\t; " ++ body.comment (Event.command command
        ⟨delta, status, body⟩) else [])) := fun st hst =>
    lineText_append _ _ (lineText_append _ _ (lineText_append _ _ (lineText_append _ _
      (lineText_append _ _ (by unfold lineText; decide) (lineText_showNat _))
      (by unfold lineText; decide)) hst) p1)
      (lineText_ite _ _ _ (lineText_append _ _ (by unfold lineText; decide) p2) lineText_nil)
  cases status with
  | none => exact key (str "   ") (by unfold lineText; decide)
  | some s => exact key (showHex s) (lineText_showHex s (hs s rfl).2)

theorem lineText_eventsLines (c : Bool) : ∀ (events : List Event) (command : Nat),
    eventsOk command events → ∀ l ∈ eventsLines c command events, lineText l := by
  intro events
  induction events with
  | nil => intro _ _ l hl; simp [eventsLines] at hl
  | cons e es ih =>
    intro command hok l hl
    have he : e.ok command := by
      cases es with
      | nil => exact hok.1
      | cons e1 es1 => exact hok.1
    simp only [eventsLines, List.mem_cons] at hl
    rcases hl with rfl | hl
    · exact lineText_event c command e he
    · cases es with
      | nil => simp [eventsLines] at hl
      | cons e1 es1 => exact ih _ hok.2.2 l hl

theorem lineText_trackLines (c : Bool) (i : Nat) (t : Track) (ht : t.ok) :
    ∀ l ∈ t.lines c i, lineText l := by
  intro l hl
  simp only [Track.lines, List.mem_append, List.mem_cons, List.mem_singleton,
    List.not_mem_nil, or_false] at hl
  rcases hl with (((rfl | rfl | rfl | rfl) | hl) | hl)
  · exact lineText_nil
  · exact lineText_append _ _ (lineText_append _ _ (by unfold lineText; decide)
      (lineText_showNat _)) (by unfold lineText; decide)
  · exact lineText_append _ _ (by unfold lineText; decide)
      (lineText_ite _ _ _ (by unfold lineText; decide) lineText_nil)
  · exact lineText_append _ _ (lineText_append _ _ (by unfold lineText; decide)
      (lineText_showNat _)) (lineText_ite _ _ _ (by unfold lineText; decide) lineText_nil)
  · exact lineText_eventsLines c _ _ ht.2 l hl
  · split_ifs at hl
    · simp only [List.mem_singleton] at hl
      subst hl
      exact lineText_append _ _ (by unfold lineText; decide) (lineText_showNat _)
    · simp at hl

theorem lineText_tracksLines (c : Bool) : ∀ (ts : List Track) (i : Nat), (∀ t ∈ ts, t.ok) →
    ∀ l ∈ tracksLines c i ts, lineText l := by
  intro ts
  induction ts with
  | nil => intro _ _ l hl; simp [tracksLines] at hl
  | cons t ts ih =>
    intro i h l hl
    simp only [tracksLines, List.mem_append] at hl
    rcases hl with hl | hl
    · exact lineText_trackLines c i t (h t (by simp)) l hl
    · exact ih (i + 1) (fun t ht => h t (by simp [ht])) l hl

theorem lineText_fileLines (c : Bool) (m : MidiFile) (hm : m.ok) :
    ∀ l ∈ m.lines c, lineText l := by
  intro l hl
  have lit : ∀ (s : List Nat) (n : Nat) (t : List Nat), lineText s → lineText t →
      lineText (s ++ showNat n ++ (if c = true then t else [])) := fun s n t hs ht' =>
    lineText_append _ _ (lineText_append _ _ hs (lineText_showNat _))
      (lineText_ite _ _ _ ht' lineText_nil)
  simp only [MidiFile.lines, MidiFile.headerLines, List.mem_append, List.mem_cons,
    List.mem_singleton, List.not_mem_nil, or_false] at hl
  rcases hl with ((rfl | rfl | rfl | rfl) | hl) | hl
  · exact lineText_append _ _ (by unfold lineText; decide)
      (lineText_ite _ _ _ (by unfold lineText; decide) lineText_nil)
  · exact lit _ _ _ (by unfold lineText; decide) (by unfold lineText; decide)
  · refine lit _ _ _ (by unfold lineText; decide) ?_
    refine lineText_append _ _ (lineText_append _ _ (lineText_append _ _ (lineText_append _ _
      (by unfold lineText; decide) (lineText_showNat _)) (by unfold lineText; decide)) ?_)
      (by unfold lineText; decide)
    repeat' apply lineText_ite
    all_goals (unfold lineText; decide)
  · exact lit _ _ _ (by unfold lineText; decide) (by unfold lineText; decide)
  · by_cases hd : 0x80 ≤ m.division1
    · rw [if_pos hd] at hl
      simp only [List.mem_cons, List.mem_singleton, List.not_mem_nil, or_false] at hl
      rcases hl with rfl | rfl
      · exact lit _ _ _ (by unfold lineText; decide) (by unfold lineText; decide)
      · exact lit _ _ _ (by unfold lineText; decide) (by unfold lineText; decide)
    · rw [if_neg hd] at hl
      simp only [List.mem_singleton] at hl
      subst hl
      exact lit _ _ _ (by unfold lineText; decide) (by unfold lineText; decide)
  · exact lineText_tracksLines c m.tracks 0 hm.2.2.2.2.2 l hl

/-! ## C3: the MIDI round trip -/

theorem writeToBinaryLoop_mono (F : FloatOps) (k : Nat) : ∀ (fuel : Nat) (s : IStream)
    (line out : List Nat) (r : Nat × List Nat),
    writeToBinaryLoop F fuel s line out = Run.ret r →
    writeToBinaryLoop F (fuel + k) s line out = Run.ret r := by
  intro fuel
  induction fuel with
  | zero => intro s line out r h; simp [writeToBinaryLoop] at h
  | succ f ih =>
    intro s line out r h
    rw [Nat.add_right_comm]
    rw [writeToBinaryLoop] at h ⊢
    by_cases he : s.eofbit = true
    · rw [if_pos he] at h ⊢
      exact h
    · rw [if_neg he] at h ⊢
      cases hp : processLine F out line with
      | ret p =>
        rw [hp] at h
        exact ih _ _ _ _ h
      | undef => rw [hp] at h; cases h
      | spin => rw [hp] at h; cases h

theorem writeToBinary_unique (F : FloatOps) (text : List Nat) (n1 n2 : Nat)
    (r1 r2 : Nat × List Nat) (h1 : writeToBinary F n1 [] text = Run.ret r1)
    (h2 : writeToBinary F n2 [] text = Run.ret r2) : r1 = r2 := by
  unfold writeToBinary at h1 h2
  have a := writeToBinaryLoop_mono F n2 n1 _ _ _ _ h1
  have b := writeToBinaryLoop_mono F n1 n2 _ _ _ _ h2
  rw [Nat.add_comm] at b
  rw [a] at b
  exact Run.ret.inj b

theorem eventsLines_length (c : Bool) : ∀ (events : List Event) (command : Nat),
    (eventsLines c command events).length = events.length := by
  intro events
  induction events with
  | nil => intro _; rfl
  | cons e es ih => intro command; simp [eventsLines, ih]

theorem tracksLines_length (c : Bool) : ∀ (ts : List Track) (i : Nat),
    ∀ t ∈ ts, t.events.length ≤ (tracksLines c i ts).length := by
  intro ts
  induction ts with
  | nil => intro _ t ht; simp at ht
  | cons t ts ih =>
    intro i u hu
    simp only [tracksLines, List.length_append]
    rcases List.mem_cons.1 hu with rfl | hu
    · simp only [Track.lines, List.length_append, eventsLines_length]
      omega
    · have := ih (i + 1) u hu
      omega

theorem fileLines_length (c : Bool) (m : MidiFile) :
    5 ≤ (m.lines c).length ∧ ∀ t ∈ m.tracks, t.events.length ≤ (m.lines c).length := by
  have h5 : 5 ≤ (m.headerLines c).length := by
    unfold MidiFile.headerLines
    split_ifs <;> simp
  constructor
  · simp only [MidiFile.lines, List.length_append]
    omega
  · intro t ht
    have := tracksLines_length c m.tracks 0 t ht
    simp only [MidiFile.lines, List.length_append]
    omega

theorem writeToBinary_fileLines (F : FloatOps) (c : Bool) (m : MidiFile) (fuel : Nat)
    (hm : m.ok) (hlen : ∀ l ∈ m.lines c, l.length ≤ 1023) (hfuel : (m.lines c).length < fuel) :
    writeToBinary F fuel [] (unlines (m.lines c)) = Run.ret (1, m.bytes) := by
  have h := writeToBinary_lines F [] (by simp) (by simp) (m.lines c) [] fuel
    (fun l hl => ⟨fun h => (lineText_fileLines c m hm l hl 10 h).1 rfl,
      fun h => (lineText_fileLines c m hm l hl 0 h).2 rfl, hlen l hl⟩) hfuel
  rw [List.append_nil, List.nil_append, fileLines_bytes F c m hm] at h
  exact h

/-- C3, amended.  MIDI-structural round trip on the files kept by `MidiFile.ok`: a
header of declared length at most six and tracks whose events have a canonical delta
time below 2^31, a status byte or a running status with one of the voice commands
`0x80`..`0xE0`, `0xF7` or `0xFF`, no tempo meta event, the standard length in the meta
events of fixed layout, a text without null, newline, double quote or final backslash
in the meta events `0x01`..`0x09`, the end-of-track event last and nowhere else, and
nothing after the last track.  With comments on or off, `outputStyleMidi` returns 1
and, when no line of its text is longer than 1023 characters, `writeToBinary` turns
the text back into the bytes of the file. -/
theorem writeToBinary_outputStyleMidi (F : FloatOps) (commentsQ : Bool) (m : MidiFile)
    (fuel : Nat) (hm : m.ok) (hlen : ∀ l ∈ m.lines commentsQ, l.length ≤ 1023)
    (hfuel : (m.lines commentsQ).length < fuel) :
    ∃ text, outputStyleMidi F commentsQ fuel [] m.bytes = Run.ret (1, text) ∧
      writeToBinary F fuel [] text = Run.ret (1, m.bytes) := by
  obtain ⟨h5, hev⟩ := fileLines_length commentsQ m
  refine ⟨unlines (m.lines commentsQ), ?_, writeToBinary_fileLines F commentsQ m fuel hm hlen hfuel⟩
  have h := outputStyleMidi_file F commentsQ fuel [] m hm (by omega)
    (fun t ht => by have := hev t ht; omega)
  rw [List.nil_append] at h
  exact h

theorem exampleFile_ok : exampleFile.ok := by
  simp [exampleFile, MidiFile.ok, Track.ok, eventsOk, Event.ok, Payload.ok, metaOk, quotable,
    Event.isEnd, Event.command]
  decide

/-- Witness for C3 as amended: the example file, with comments. -/
theorem writeToBinary_outputStyleMidi_witness :
    exampleFile.ok ∧ (∀ l ∈ exampleFile.lines true, l.length ≤ 1023) ∧
    (exampleFile.lines true).length < 20 ∧
    ∃ text, outputStyleMidi FloatOps.zero true 20 [] exampleFile.bytes = Run.ret (1, text) ∧
      writeToBinary FloatOps.zero 20 [] text = Run.ret (1, exampleFile.bytes) :=
  ⟨exampleFile_ok, by decide, by decide,
    writeToBinary_outputStyleMidi FloatOps.zero true exampleFile 20 exampleFile_ok (by decide)
      (by decide)⟩

theorem writeToBinary_differs (F : FloatOps) (text input out : List Nat) (s n : Nat)
    (h : writeToBinary F n [] text = Run.ret (s, out)) (hne : out ≠ input) :
    ¬ ∃ fuel, writeToBinary F fuel [] text = Run.ret (1, input) := by
  rintro ⟨fuel, hf⟩
  have := writeToBinary_unique F text n fuel _ _ h hf
  exact hne (congrArg Prod.snd this)

set_option maxRecDepth 100000 in
/-- Counterexample to C3 as stated.  For each of six files `outputStyleMidi` returns 1
with the text shown, and `writeToBinary` does not turn that text back into the file: a
byte after the last declared track is not read; a delta time written on more bytes
than needed comes back on one byte; the byte after the status `f0` is read and not
printed; a double quote in a text is printed without a backslash; the status `fe`
ends the track without a word of text; after unknown header bytes the track size is
printed in hexadecimal. -/
theorem writeToBinary_outputStyleMidi_counterexample :
    (outputStyleMidi FloatOps.zero false 5 [] trailingByteFile = Run.ret (1, trailingByteText) ∧
      ¬ ∃ fuel, writeToBinary FloatOps.zero fuel [] trailingByteText =
        Run.ret (1, trailingByteFile)) ∧
    (outputStyleMidi FloatOps.zero false 5 [] longDeltaFile = Run.ret (1, longDeltaText) ∧
      ¬ ∃ fuel, writeToBinary FloatOps.zero fuel [] longDeltaText =
        Run.ret (1, longDeltaFile)) ∧
    (outputStyleMidi FloatOps.zero false 5 [] sysexFile = Run.ret (1, sysexText) ∧
      ¬ ∃ fuel, writeToBinary FloatOps.zero fuel [] sysexText = Run.ret (1, sysexFile)) ∧
    (outputStyleMidi FloatOps.zero false 5 [] quoteFile = Run.ret (1, quoteText) ∧
      ¬ ∃ fuel, writeToBinary FloatOps.zero fuel [] quoteText = Run.ret (1, quoteFile)) ∧
    (outputStyleMidi FloatOps.zero false 5 [] activeSensingFile =
        Run.ret (1, activeSensingText) ∧
      ¬ ∃ fuel, writeToBinary FloatOps.zero fuel [] activeSensingText =
        Run.ret (1, activeSensingFile)) ∧
    (outputStyleMidi FloatOps.zero false 5 [] longHeaderFile = Run.ret (1, longHeaderText) ∧
      ¬ ∃ fuel, writeToBinary FloatOps.zero fuel [] longHeaderText =
        Run.ret (1, longHeaderFile)) := by
  refine ⟨⟨by decide, ?_⟩, ⟨by decide, ?_⟩, ⟨by decide, ?_⟩, ⟨by decide, ?_⟩, ⟨by decide, ?_⟩,
    ⟨by decide, ?_⟩⟩
  · exact writeToBinary_differs _ _ _ (trailingByteFile.take 14) 1 20 (by decide) (by decide)
  · exact writeToBinary_differs _ _ _
      [77, 84, 104, 100, 0, 0, 0, 6, 0, 0, 0, 1, 0, 96, 77, 84, 114, 107, 0, 0, 0, 5, 0, 255, 47,
        0] 1 20 (by decide) (by decide)
  · exact writeToBinary_differs _ _ _
      [77, 84, 104, 100, 0, 0, 0, 6, 0, 0, 0, 1, 0, 96, 77, 84, 114, 107, 0, 0, 0, 7, 0, 240, 0,
        255, 47, 0] 1 20 (by decide) (by decide)
  · exact writeToBinary_differs _ _ _
      [77, 84, 104, 100, 0, 0, 0, 6, 0, 0, 0, 1, 0, 96, 77, 84, 114, 107, 0, 0, 0, 9, 0, 255, 1,
        1, 0, 0, 255, 47, 0] 1 20 (by decide) (by decide)
  · exact writeToBinary_differs _ _ _
      [77, 84, 104, 100, 0, 0, 0, 6, 0, 0, 0, 1, 0, 96, 77, 84, 114, 107, 0, 0, 0, 3] 1 20
      (by decide) (by decide)
  · exact writeToBinary_differs _ _ _
      [77, 84, 104, 100, 0, 0, 0, 7, 0, 0, 0, 1, 0, 96, 0, 77, 84, 114, 107, 0, 255, 47, 0] 1 20
      (by decide) (by decide)

/-! ## C13: hexadecimal words -/

theorem isxdigit_iff (c : Nat) : isxdigit c = true ↔ isHexChar c := by
  simp only [isxdigit, isdigit, isHexChar, Bool.or_eq_true, Bool.and_eq_true, decide_eq_true_eq]
  tauto

theorem hexDigitValue_eq (c : Nat) (h : isHexChar c) : hexDigitValue c = hexCharValue c := by
  unfold isHexChar at h
  simp only [hexDigitValue, isdigit, hexCharValue, Bool.and_eq_true, decide_eq_true_eq]
  split_ifs <;> omega

/-- C13.  Hex token: a word of one or two hexadecimal digits, in either case, makes
`processHexWord` return 1 and write one byte, the word read in base 16; a word of
length 1 or 2 with a character that is not a hexadecimal digit, and a word longer than
2, make it return 0 and write nothing. -/
theorem processHexWord_spec (out word : List Nat) :
    ((word.length = 1 ∨ word.length = 2) → (∀ c ∈ word, isHexChar c) →
      processHexWord out word = (1, out ++ [base16Value word]) ∧ base16Value word < 256) ∧
    ((((word.length = 1 ∨ word.length = 2) ∧ ∃ c ∈ word, ¬ isHexChar c) ∨ word.length > 2) →
      processHexWord out word = (0, out)) := by
  constructor
  · intro hlen hhex
    rcases hlen with h1 | h2
    · obtain ⟨a, rfl⟩ := list_length_one word h1
      have ha : isHexChar a := hhex a (by simp)
      have hx : isxdigit a = true := (isxdigit_iff a).2 ha
      have hv : hexCharValue a < 16 := by
        unfold isHexChar at ha
        unfold hexCharValue
        split_ifs <;> omega
      have e : base16Value [a] = hexCharValue a := by simp [base16Value]
      rw [e]
      refine ⟨?_, by omega⟩
      simp only [processHexWord, List.length_singleton, List.getD_cons_zero, hx, strtol16,
        hexDigitValue_eq a ha]
      simp
      omega
    · obtain ⟨a, b, rfl⟩ := list_length_two word h2
      have ha : isHexChar a := hhex a (by simp)
      have hb : isHexChar b := hhex b (by simp)
      have hxa : isxdigit a = true := (isxdigit_iff a).2 ha
      have hxb : isxdigit b = true := (isxdigit_iff b).2 hb
      have hva : hexCharValue a < 16 := by
        unfold isHexChar at ha
        unfold hexCharValue
        split_ifs <;> omega
      have hvb : hexCharValue b < 16 := by
        unfold isHexChar at hb
        unfold hexCharValue
        split_ifs <;> omega
      have e : base16Value [a, b] = 16 * hexCharValue a + hexCharValue b := by
        simp [base16Value]
      rw [e]
      refine ⟨?_, by omega⟩
      simp only [processHexWord, List.length_cons, List.length_nil, List.getD_cons_zero,
        List.getD_cons_succ, hxa, hxb, strtol16, hexDigitValue_eq a ha, hexDigitValue_eq b hb]
      simp
      omega
  · rintro (⟨hlen, c, hc, hn⟩ | hlen)
    · have hx : isxdigit c = false := by
        rw [Bool.eq_false_iff]
        exact fun h => hn ((isxdigit_iff c).1 h)
      rcases hlen with h1 | h2
      · obtain ⟨a, rfl⟩ := list_length_one word h1
        simp only [List.mem_singleton] at hc
        subst hc
        simp [processHexWord, hx]
      · obtain ⟨a, b, rfl⟩ := list_length_two word h2
        simp only [List.mem_cons, List.mem_singleton, List.not_mem_nil, or_false] at hc
        rcases hc with rfl | rfl
        · simp [processHexWord, hx]
        · simp [processHexWord, hx]
    · simp [processHexWord, hlen]

/-- Witness for C13: `fF` is the byte 255 and `g` is refused. -/
theorem processHexWord_spec_witness :
    processHexWord [] [102, 70] = (1, [255]) ∧ processHexWord [] [103] = (0, []) :=
  ⟨((processHexWord_spec [] [102, 70]).1 (by decide) (by decide)).1,
    (processHexWord_spec [] [103]).2 (Or.inl ⟨by decide, 103, by decide, by decide⟩)⟩

/-! ## C11: decimal words with a byte count -/

theorem digitsValue_eq_foldl (ds : List Nat) (hds : ∀ c ∈ ds, isdigit c = true) :
    ∀ a, digitsValue a ds = ds.foldl (fun a c => 10 * a + (c - 48)) a := by
  induction ds with
  | nil => intro a; rfl
  | cons c cs ih =>
    intro a
    have hc : isdigit c = true := hds c (by simp)
    simp only [digitsValue, hc, if_true, List.foldl_cons]
    rw [ih (fun d hd => hds d (by simp [hd])), Nat.mul_comm]

theorem digitsValue_eq_decimalValue (ds : List Nat) (hds : ∀ c ∈ ds, isdigit c = true) :
    digitsValue 0 ds = decimalValue ds := digitsValue_eq_foldl ds hds 0

theorem atoi_digits_long (ds : List Nat) (hne : ds ≠ []) (hds : ∀ c ∈ ds, isdigit c = true)
    (hn : digitsValue 0 ds < 2 ^ 63) : atoi ds = toInt32 (digitsValue 0 ds : Int) := by
  cases ds with
  | nil => exact absurd rfl hne
  | cons c cs =>
    rw [atoi, strtol10_digits c cs (hds c (by simp))]
    congr 1
    omega

theorem atoi_minus_digits_long (ds : List Nat) (hn : digitsValue 0 ds ≤ 2 ^ 63) :
    atoi (45 :: ds) = toInt32 (-(digitsValue 0 ds : Int)) := by
  have h : strtol10 (45 :: ds) = max (-(2 ^ 63)) (-(digitsValue 0 ds : Int)) := by
    unfold strtol10
    have : isspace 45 = false := by decide
    simp only [List.dropWhile, this]
  rw [atoi, h]
  congr 1
  omega

theorem decimalScan_append (word : List Nat) : ∀ (a b : List Nat) (i : Nat) (s : DecimalScan),
    decimalScan word (a ++ b) i s =
      (decimalScan word a i s).bind (fun s1 => decimalScan word b (i + a.length) s1) := by
  intro a
  induction a with
  | nil => intro b i s; rfl
  | cons c cs ih =>
    intro b i s
    have e : i + (c :: cs).length = i + 1 + cs.length := by
      rw [List.length_cons]; omega
    rw [List.cons_append, e]
    simp only [decimalScan]
    split_ifs <;> first | rfl | exact ih _ _ _

theorem sizedWord_prefix_scan (word : List Nat) (k : Nat) (marker : List Nat)
    (markerFirst : Bool) (hk : k = 2 ∨ k = 3 ∨ k = 4)
    (hm : marker = [] ∨ marker = [117] ∨ marker = [85]) :
    ∃ e : Int, decimalScan word (if markerFirst then marker ++ [48 + k] else (48 + k) :: marker)
        0 ⟨-1, -1, -1, -1, -1⟩ = some ⟨k, -1, -1, -1, e⟩ ∧ (e = -1 ↔ marker = []) := by
  rcases hk with rfl | rfl | rfl <;> rcases hm with rfl | rfl | rfl <;> cases markerFirst <;>
    simp [decimalScan]

theorem decimalScan_quote (word : List Nat) (i : Nat) (s : DecimalScan)
    (h : s.quoteIndex = -1) :
    decimalScan word [39] i s = some { s with quoteIndex := i } := by
  simp [decimalScan, h]

theorem decimalScan_minus (word : List Nat) (i : Nat) (s : DecimalScan)
    (h : s.signIndex = -1) (hq : word.getD i 0 = 39) :
    decimalScan word [45] (i + 1) s = some { s with signIndex := (i + 1 : Nat) } := by
  have e45 : ¬ ((45 : Nat) = 39) := by decide
  simp only [decimalScan, e45, if_false, h, ne_eq, not_true_eq_false, Nat.add_sub_cancel, hq,
    Nat.add_eq_zero, one_ne_zero, and_false, or_self, if_true]

theorem base256_two (x : Nat) : base256 2 x = [x / 256 % 256, x % 256] := by
  simp [base256, List.range_succ]

theorem base256_three (x : Nat) : base256 3 x = [x / 65536 % 256, x / 256 % 256, x % 256] := by
  simp [base256, List.range_succ]

theorem base256_four (x : Nat) :
    base256 4 x = [x / 16777216 % 256, x / 65536 % 256, x / 256 % 256, x % 256] := by
  simp [base256, List.range_succ]

theorem lowBytes_two (z : Int) :
    lowBytes 2 (toULong (toInt32 z)) = (base256 2 (z % 256 ^ 2).toNat).reverse := by
  rw [base256_two]
  simp only [lowBytes, toULong, toInt32, List.reverse_cons, List.reverse_nil, List.nil_append,
    List.singleton_append]
  have e1 : (((z + 2 ^ 31) % 2 ^ 32 - 2 ^ 31) % 2 ^ 64).toNat % 256 = (z % 256 ^ 2).toNat % 256 := by
    omega
  have e2 : (((z + 2 ^ 31) % 2 ^ 32 - 2 ^ 31) % 2 ^ 64).toNat / 256 % 256 =
      (z % 256 ^ 2).toNat / 256 % 256 := by
    omega
  rw [e1, e2]

theorem lowBytes_four (z : Int) :
    lowBytes 4 (toULong (toInt32 z)) = (base256 4 (z % 256 ^ 4).toNat).reverse := by
  rw [base256_four]
  simp only [lowBytes, toULong, toInt32, List.reverse_cons, List.reverse_nil, List.nil_append,
    List.singleton_append, List.cons_append]
  have e1 : (((z + 2 ^ 31) % 2 ^ 32 - 2 ^ 31) % 2 ^ 64).toNat % 256 = (z % 256 ^ 4).toNat % 256 := by
    omega
  have e2 : (((z + 2 ^ 31) % 2 ^ 32 - 2 ^ 31) % 2 ^ 64).toNat / 256 % 256 =
      (z % 256 ^ 4).toNat / 256 % 256 := by
    omega
  have e3 : (((z + 2 ^ 31) % 2 ^ 32 - 2 ^ 31) % 2 ^ 64).toNat / 256 / 256 % 256 =
      (z % 256 ^ 4).toNat / 65536 % 256 := by
    omega
  have e4 : (((z + 2 ^ 31) % 2 ^ 32 - 2 ^ 31) % 2 ^ 64).toNat / 256 / 256 / 256 % 256 =
      (z % 256 ^ 4).toNat / 16777216 % 256 := by
    omega
  rw [e1, e2, e3, e4]

theorem mask_byte (x : Nat) (i : Nat) : (x &&& (0xff <<< i)) >>> i = x / 2 ^ i % 256 := by
  apply Nat.eq_of_testBit_eq
  intro j
  rw [show (256 : Nat) = 2 ^ 8 by norm_num, show (0xff : Nat) = 2 ^ 8 - 1 by norm_num,
    Nat.testBit_mod_two_pow, ← Nat.shiftRight_eq_div_pow, Nat.testBit_shiftRight,
    Nat.testBit_shiftRight, Nat.testBit_and, Nat.testBit_shiftLeft,
    Nat.testBit_two_pow_sub_one]
  simp [Bool.and_comm]

theorem three_bytes (z : Int) :
    [((toULong (toInt32 z) &&& 0x00ff0000) >>> 16) % 256,
      ((toULong (toInt32 z) &&& 0x0000ff00) >>> 8) % 256,
      (toULong (toInt32 z) &&& 0x000000ff) % 256] = base256 3 (z % 256 ^ 3).toNat := by
  have m1 := mask_byte (toULong (toInt32 z)) 16
  have m2 := mask_byte (toULong (toInt32 z)) 8
  have m3 := Nat.and_pow_two_sub_one_eq_mod (toULong (toInt32 z)) 8
  simp only [show (0xff <<< 16 : Nat) = 0x00ff0000 by decide,
    show (0xff <<< 8 : Nat) = 0x0000ff00 by decide] at m1 m2
  simp only [show (2 ^ 8 - 1 : Nat) = 0x000000ff by decide] at m3
  rw [m1, m2, m3, base256_three]
  simp only [toULong, toInt32]
  have e1 : (((z + 2 ^ 31) % 2 ^ 32 - 2 ^ 31) % 2 ^ 64).toNat % 2 ^ 8 % 256 =
      (z % 256 ^ 3).toNat % 256 := by
    omega
  have e2 : (((z + 2 ^ 31) % 2 ^ 32 - 2 ^ 31) % 2 ^ 64).toNat / 2 ^ 8 % 256 % 256 =
      (z % 256 ^ 3).toNat / 256 % 256 := by
    omega
  have e3 : (((z + 2 ^ 31) % 2 ^ 32 - 2 ^ 31) % 2 ^ 64).toNat / 2 ^ 16 % 256 % 256 =
      (z % 256 ^ 3).toNat / 65536 % 256 := by
    omega
  rw [e1, e2, e3]

theorem sizedWord_scan_aux (word : List Nat) (k : Nat) (marker : List Nat)
    (markerFirst negative : Bool)
    (ds : List Nat) (hk : k = 2 ∨ k = 3 ∨ k = 4)
    (hm : marker = [] ∨ marker = [117] ∨ marker = [85])
    (hds : ∀ c ∈ ds, isdigit c = true) (hq : word.getD (marker.length + 1) 0 = 39) :
    ∃ e : Int, decimalScan word
        ((if markerFirst then marker ++ [48 + k] else (48 + k) :: marker) ++
          ([39] ++ ((if negative then [45] else []) ++ ds))) 0 ⟨-1, -1, -1, -1, -1⟩ =
      some ⟨k, (marker.length + 1 : Nat), if negative then ((marker.length + 2 : Nat) : Int) else -1,
        -1, e⟩ ∧ (e = -1 ↔ marker = []) := by
  obtain ⟨e, he, hem⟩ := sizedWord_prefix_scan word k marker markerFirst hk hm
  refine ⟨e, ?_, hem⟩
  have hlen : (if markerFirst then marker ++ [48 + k] else (48 + k) :: marker).length =
      marker.length + 1 := by
    cases markerFirst <;> simp
  rw [decimalScan_append, he, Option.bind, decimalScan_append,
    decimalScan_quote _ _ _ rfl, Option.bind, hlen]
  cases negative with
  | false =>
    simp only [Bool.false_eq_true, if_false, List.nil_append]
    rw [decimalScan_digits _ ds hds _ _ (by simp; omega)]
    simp
  | true =>
    simp only [if_true]
    have hq' : word.getD (0 + (marker.length + 1)) 0 = 39 := by simpa using hq
    rw [decimalScan_append, show (0 + (marker.length + 1) + [39].length) =
        (0 + (marker.length + 1)) + 1 from rfl,
      decimalScan_minus _ _ _ rfl hq', Option.bind,
      decimalScan_digits _ ds hds _ _ (by simp; omega)]
    simp
    omega

theorem sizedWord_scan (k : Nat) (marker : List Nat) (markerFirst negative : Bool)
    (ds : List Nat) (hk : k = 2 ∨ k = 3 ∨ k = 4)
    (hm : marker = [] ∨ marker = [117] ∨ marker = [85])
    (hds : ∀ c ∈ ds, isdigit c = true) :
    ∃ e : Int, decimalScan (sizedWord k marker markerFirst negative ds)
        (sizedWord k marker markerFirst negative ds) 0 ⟨-1, -1, -1, -1, -1⟩ =
      some ⟨k, (marker.length + 1 : Nat), if negative then ((marker.length + 2 : Nat) : Int) else -1,
        -1, e⟩ ∧ (e = -1 ↔ marker = []) := by
  have hlen : (if markerFirst then marker ++ [48 + k] else (48 + k) :: marker).length =
      marker.length + 1 := by
    cases markerFirst <;> simp
  have hq : (sizedWord k marker markerFirst negative ds).getD (marker.length + 1) 0 = 39 := by
    unfold sizedWord
    rw [List.getD_eq_getElem?_getD, List.getElem?_append_right (by rw [hlen]), hlen]
    simp
  exact sizedWord_scan_aux _ k marker markerFirst negative ds hk hm hds hq

/-- C11, amended.  Multi-byte decimal integers: for a decimal word with a byte count `k`
of 2, 3 or 4, digits of value `n` and the value `v = n` or, with a minus sign (not for
`k = 3`), `v = -n`, where `v` lies in the range of `long`, `processDecimalWord` returns 1
and writes `k` bytes, the base-256 digits of `v mod 256^k`, most significant first, and
in the reverse order when the word has a marker `u` or `U` before the quote. -/
theorem processDecimalWord_multibyte (F : FloatOps) (out ds marker : List Nat) (k : Nat)
    (markerFirst negative : Bool) (hk : k = 2 ∨ k = 3 ∨ k = 4)
    (hm : marker = [] ∨ marker = [117] ∨ marker = [85]) (hs : k = 3 → negative = false)
    (hne : ds ≠ []) (hds : ∀ c ∈ ds, isdigit c = true)
    (hv : if negative then decimalValue ds ≤ 2 ^ 63 else decimalValue ds < 2 ^ 63) :
    processDecimalWord F out (sizedWord k marker markerFirst negative ds) =
      (1, out ++
        (if marker = [] then
          base256 k ((if negative then -(decimalValue ds : Int) else decimalValue ds) % 256 ^ k).toNat
         else
          (base256 k ((if negative then -(decimalValue ds : Int) else decimalValue ds) %
            256 ^ k).toNat).reverse)) := by
  obtain ⟨e, hscan, hem⟩ := sizedWord_scan k marker markerFirst negative ds hk hm hds
  have hdv := digitsValue_eq_decimalValue ds hds
  have hlenw : (sizedWord k marker markerFirst negative ds).length =
      marker.length + 2 + (if negative then 1 else 0) + ds.length := by
    unfold sizedWord
    cases markerFirst <;> cases negative <;> simp <;> omega
  have hdl : 0 < ds.length := List.length_pos.2 hne
  have hdrop : (sizedWord k marker markerFirst negative ds).drop (marker.length + 2) =
      (if negative then [45] else []) ++ ds := by
    unfold sizedWord
    have hlen : (if markerFirst then marker ++ [48 + k] else (48 + k) :: marker).length =
        marker.length + 1 := by
      cases markerFirst <;> simp
    rw [List.drop_append_eq_append_drop, hlen, List.drop_of_length_le (by rw [hlen]; omega)]
    simp
  have hatoi : atoi ((if negative then [45] else []) ++ ds) =
      toInt32 (if negative then -(decimalValue ds : Int) else decimalValue ds) := by
    cases negative with
    | false =>
      simp only [Bool.false_eq_true, if_false, List.nil_append] at hv ⊢
      rw [atoi_digits_long ds hne hds (by rw [hdv]; exact hv), hdv]
    | true =>
      simp only [if_true, List.singleton_append] at hv ⊢
      rw [atoi_minus_digits_long ds (by rw [hdv]; exact hv), hdv]
  unfold processDecimalWord
  rw [hscan]
  have q1 : ¬ (((marker.length + 1 : Nat) : Int) = -1) := by omega
  have q2 : ¬ (((marker.length + 1 : Nat) : Int) =
      ((sizedWord k marker markerFirst negative ds).length : Int) - 1) := by
    rw [hlenw]; push_cast; split_ifs <;> omega
  have q3 : (((marker.length + 1 : Nat) : Int) + 1).toNat = marker.length + 2 := by omega
  simp only [q1, q2, if_false, q3, hdrop, hatoi, ne_eq, not_true_eq_false, false_and]
  generalize (if negative then -(decimalValue ds : Int) else (decimalValue ds : Int)) = z
  rcases hk with rfl | rfl | rfl
  · simp only [Nat.cast_ofNat, show ¬ ((2 : Int) = 8) by decide, and_false, if_false,
      show ¬ ((2 : Int) = -1) by decide, show ¬ ((2 : Int) = 1) by decide, if_true,
      writeBigEndian, writeLittleEndian, hem, lowBytes_two, List.reverse_reverse]
    split_ifs <;> rfl
  · have hneg : negative = false := hs rfl
    subst hneg
    simp only [Nat.cast_ofNat, show ¬ ((3 : Int) = 8) by decide, and_false, if_false,
      show ¬ ((3 : Int) = -1) by decide, show ¬ ((3 : Int) = 1) by decide,
      show ¬ ((3 : Int) = 2) by decide, if_true, hem, Bool.false_eq_true, ne_eq,
      not_true_eq_false]
    have h3 := three_bytes z
    rw [base256_three] at h3 ⊢
    simp only [List.cons.injEq, and_true] at h3
    obtain ⟨b1, b2, b3⟩ := h3
    rw [b1, b2, b3]
    split_ifs <;> simp
  · simp only [Nat.cast_ofNat, show ¬ ((4 : Int) = 8) by decide, and_false, if_false,
      show ¬ ((4 : Int) = -1) by decide, show ¬ ((4 : Int) = 1) by decide,
      show ¬ ((4 : Int) = 2) by decide, show ¬ ((4 : Int) = 3) by decide, if_true,
      writeBigEndian, writeLittleEndian, hem, lowBytes_four, List.reverse_reverse]
    split_ifs <;> rfl

/-- Witness for C11 as amended: `2'1000` makes the two bytes `03 e8`. -/
theorem processDecimalWord_multibyte_witness :
    processDecimalWord FloatOps.zero [] (str "2'1000") = (1, [0x03, 0xE8]) :=
  processDecimalWord_multibyte FloatOps.zero [] (str "1000") [] 2 false false (Or.inl rfl)
    (Or.inl rfl) (by decide) (by decide) (by decide) (by decide)

/-- Counterexample to C11 as stated: the value 2^63 is above the range of `long`;
`strtol` gives 2^63 - 1, `atoi` gives -1 and `2'9223372036854775808` makes the bytes
`ff ff`, where the base-256 digits of 2^63 mod 256^2 are `00 00`. -/
theorem processDecimalWord_multibyte_counterexample :
    decimalValue (str "9223372036854775808") = 2 ^ 63 ∧
    processDecimalWord FloatOps.zero [] (str "2'9223372036854775808") = (1, [0xff, 0xff]) ∧
    base256 2 (((2 : Int) ^ 63) % 256 ^ 2).toNat = [0x00, 0x00] := by
  refine ⟨by decide, by decide, by decide⟩

/-! ## C12: the words that processDecimalWord refuses -/

theorem decimalScan_split (word : List Nat) (a : List Nat) (c : Nat) (b : List Nat) (i : Nat)
    (s s' : DecimalScan) (h : decimalScan word (a ++ c :: b) i s = some s') :
    ∃ s1 s2, decimalScan word a i s = some s1 ∧
      decimalScan word [c] (i + a.length) s1 = some s2 ∧
      decimalScan word b (i + a.length + 1) s2 = some s' := by
  rw [decimalScan_append] at h
  cases h1 : decimalScan word a i s with
  | none => rw [h1] at h; cases h
  | some s1 =>
    rw [h1, Option.bind] at h
    have e : c :: b = [c] ++ b := rfl
    rw [e, decimalScan_append] at h
    cases h2 : decimalScan word [c] (i + a.length) s1 with
    | none => rw [h2] at h; cases h
    | some s2 =>
      rw [h2, Option.bind] at h
      exact ⟨s1, s2, rfl, h2, h⟩

theorem decimalScan_step (word : List Nat) (c i : Nat) (s s2 : DecimalScan)
    (h : decimalScan word [c] i s = some s2) :
    (c = 39 → s.quoteIndex = -1 ∧ s2 = { s with quoteIndex := i }) ∧
    (c = 45 → s.signIndex = -1 ∧ i ≠ 0 ∧ word.getD (i - 1) 0 = 39 ∧
      s2 = { s with signIndex := i }) ∧
    (c = 46 → s.quoteIndex ≠ -1 ∧ s.periodIndex = -1 ∧ s2 = { s with periodIndex := i }) ∧
    (isEndianMark c → s.quoteIndex = -1 ∧ s.endianIndex = -1 ∧
      s2 = { s with endianIndex := i }) ∧
    (isCountDigit c → (s.quoteIndex = -1 → s.byteCount = -1 ∧
      s2 = { s with byteCount := (c : Int) - 48 }) ∧ (s.quoteIndex ≠ -1 → s2 = s)) ∧
    (c = 48 ∨ c = 53 ∨ c = 54 ∨ c = 55 ∨ c = 57 → s.quoteIndex ≠ -1 ∧ s2 = s) ∧
    (isdigit c = true ∨ c = 39 ∨ c = 45 ∨ c = 46 ∨ isEndianMark c) := by
  unfold isEndianMark isCountDigit
  simp only [decimalScan] at h
  split_ifs at h <;> simp only [Option.some.injEq, reduceCtorEq] at h <;>
    (subst h; simp_all [isdigit] <;> omega)

theorem scanKeeps_refl (s : DecimalScan) : scanKeeps [] s s := by
  unfold scanKeeps
  simp

theorem scanKeeps_trans (a b : List Nat) (s s1 s' : DecimalScan) (h1 : scanKeeps a s s1)
    (h2 : scanKeeps b s1 s') : scanKeeps (a ++ b) s s' := by
  unfold scanKeeps at *
  obtain ⟨a1, a2, a3, a4, a5, a6, a7, a8, a9, a10⟩ := h1
  obtain ⟨b1, b2, b3, b4, b5, b6, b7, b8, b9, b10⟩ := h2
  simp only [List.mem_append]
  refine ⟨fun h => b1 (a1 h), fun h => b2 (a2 h), fun h => b3 (a3 h), fun h => b4 (a4 h),
    ?_, ?_, ?_, ?_, ?_, ?_⟩
  · intro h
    have e := a5 h
    rw [b5 (by rw [e]; exact h), e]
  · rintro (h | h)
    · exact b1 (a6 h)
    · exact b6 h
  · rintro (h | h)
    · exact b2 (a7 h)
    · exact b7 h
  · rintro (h | h)
    · exact b3 (a8 h)
    · exact b8 h
  · intro h hn
    exact b9 (a9 h (fun e => hn (Or.inl e))) (fun e => hn (Or.inr e))
  · intro h hn
    exact b10 (a10 h (fun e => hn (Or.inl e))) (fun e => hn (Or.inr e))

theorem scanKeeps_step (word : List Nat) (c i : Nat) (s s2 : DecimalScan)
    (h : decimalScan word [c] i s = some s2) : scanKeeps [c] s s2 := by
  obtain ⟨t1, t2, t3, t4, t5, t6, t7⟩ := decimalScan_step word c i s s2 h
  have hi : (i : Int) ≠ -1 := by omega
  unfold scanKeeps
  simp only [List.mem_singleton]
  rcases t7 with t | t | t | t | t
  · have hd := isdigit_cases c t
    have n1 : ¬ (39 = c) := by omega
    have n2 : ¬ (45 = c) := by omega
    have n3 : ¬ (46 = c) := by omega
    by_cases hc : isCountDigit c
    · obtain ⟨u1, u2⟩ := t5 hc
      by_cases hq : s.quoteIndex = -1
      · obtain ⟨v1, v2⟩ := u1 hq
        subst v2
        simp [n1, n2, n3, v1]
      · have v := u2 hq
        subst v
        simp [n1, n2, n3]
    · have hc' : c = 48 ∨ c = 53 ∨ c = 54 ∨ c = 55 ∨ c = 57 := by
        unfold isCountDigit at hc; omega
      obtain ⟨_, v⟩ := t6 hc'
      subst v
      simp [n1, n2, n3]
  · obtain ⟨v1, v2⟩ := t1 t
    subst v2
    subst t
    simp [hi]
  · obtain ⟨v1, _, _, v2⟩ := t2 t
    subst v2
    subst t
    simp [hi]
  · obtain ⟨_, v1, v2⟩ := t3 t
    subst v2
    subst t
    simp [hi]
  · obtain ⟨_, v1, v2⟩ := t4 t
    subst v2
    unfold isEndianMark at t
    have n1 : ¬ (39 = c) := by omega
    have n2 : ¬ (45 = c) := by omega
    have n3 : ¬ (46 = c) := by omega
    simp [n1, n2, n3, hi]

theorem decimalScan_keeps (word : List Nat) : ∀ (a : List Nat) (i : Nat) (s s' : DecimalScan),
    decimalScan word a i s = some s' → scanKeeps a s s' := by
  intro a
  induction a with
  | nil =>
    intro i s s' h
    simp only [decimalScan, Option.some.injEq] at h
    subst h
    exact scanKeeps_refl s
  | cons c cs ih =>
    intro i s s' h
    obtain ⟨s1, s2, h1, h2, h3⟩ := decimalScan_split word [] c cs i s s' h
    simp only [decimalScan, Option.some.injEq] at h1
    subst h1
    exact scanKeeps_trans [c] cs _ _ _ (scanKeeps_step word c _ _ _ h2) (ih _ _ _ h3)

theorem processDecimalWord_zero (F : FloatOps) (out word : List Nat)
    (h : ∀ s, decimalScan word word 0 ⟨-1, -1, -1, -1, -1⟩ = some s →
      s.quoteIndex = -1 ∨ s.quoteIndex = (word.length : Int) - 1 ∨
      (s.periodIndex = -1 ∧ s.byteCount = 8) ∨
      (s.periodIndex ≠ -1 ∧ (s.byteCount = 1 ∨ s.byteCount = 2 ∨ s.byteCount = 3)) ∨
      (s.signIndex ≠ -1 ∧ s.byteCount = 3)) :
    processDecimalWord F out word = (0, out) := by
  unfold processDecimalWord
  cases hs : decimalScan word word 0 ⟨-1, -1, -1, -1, -1⟩ with
  | none => rfl
  | some s =>
    simp only
    rcases h s hs with h1 | h1 | ⟨h1, h2⟩ | ⟨h1, h2⟩ | ⟨h1, h2⟩
    · rw [if_pos h1]
    · by_cases h0 : s.quoteIndex = -1
      · rw [if_pos h0]
      · rw [if_neg h0, if_pos h1]
    · by_cases h0 : s.quoteIndex = -1
      · rw [if_pos h0]
      · rw [if_neg h0]
        by_cases h3 : s.quoteIndex = (word.length : Int) - 1
        · rw [if_pos h3]
        · rw [if_neg h3, if_pos ⟨h1, h2⟩]
    · by_cases h0 : s.quoteIndex = -1
      · rw [if_pos h0]
      · rw [if_neg h0]
        by_cases h3 : s.quoteIndex = (word.length : Int) - 1
        · rw [if_pos h3]
        · rw [if_neg h3]
          have h4 : ¬ (s.periodIndex = -1 ∧ s.byteCount = 8) := fun e => h1 e.1
          have h5 : ¬ s.byteCount = -1 := by omega
          have h6 : ¬ s.byteCount = 4 := by omega
          have h7 : ¬ s.byteCount = 8 := by omega
          rw [if_neg h4]
          simp only [h5, and_false, if_false, h1, ne_eq, not_false_eq_true, if_true, h6, h7]
    · by_cases h0 : s.quoteIndex = -1
      · rw [if_pos h0]
      · rw [if_neg h0]
        by_cases h3 : s.quoteIndex = (word.length : Int) - 1
        · rw [if_pos h3]
        · rw [if_neg h3]
          have h4 : ¬ (s.periodIndex = -1 ∧ s.byteCount = 8) := by
            rintro ⟨_, e⟩
            rw [e] at h2
            omega
          rw [if_neg h4]
          by_cases hp : s.periodIndex = -1
          · simp [hp, h1, h2]
          · simp [hp, h2]

theorem decimalScan_twice (word a b c : List Nat) (x y : Nat) (s : DecimalScan)
    (h : decimalScan word (a ++ x :: (b ++ y :: c)) 0 ⟨-1, -1, -1, -1, -1⟩ = some s) :
    ∃ (i j : Nat) (s1 s2 t1 t2 : DecimalScan), scanKeeps a ⟨-1, -1, -1, -1, -1⟩ s1 ∧
      decimalScan word [x] i s1 = some s2 ∧ scanKeeps b s2 t1 ∧
      decimalScan word [y] j t1 = some t2 := by
  obtain ⟨s1, s2, h1, h2, h3⟩ := decimalScan_split word a x _ 0 _ s h
  obtain ⟨t1, t2, h4, h5, _⟩ := decimalScan_split word b y c _ _ s h3
  exact ⟨_, _, s1, s2, t1, t2, decimalScan_keeps word a _ _ _ h1, h2,
    decimalScan_keeps word b _ _ _ h4, h5⟩

theorem decimalScan_once (word a b : List Nat) (x : Nat) (s : DecimalScan)
    (h : decimalScan word (a ++ x :: b) 0 ⟨-1, -1, -1, -1, -1⟩ = some s) :
    ∃ (s1 s2 : DecimalScan), scanKeeps a ⟨-1, -1, -1, -1, -1⟩ s1 ∧
      decimalScan word [x] a.length s1 = some s2 ∧ scanKeeps b s2 s := by
  obtain ⟨s1, s2, h1, h2, h3⟩ := decimalScan_split word a x _ 0 _ s h
  rw [Nat.zero_add] at h2
  exact ⟨s1, s2, decimalScan_keeps word a _ _ _ h1, h2, decimalScan_keeps word b _ _ _ h3⟩

theorem decimalScan_count (word a b : List Nat) (d : Nat) (s : DecimalScan)
    (h : decimalScan word (a ++ d :: b) 0 ⟨-1, -1, -1, -1, -1⟩ = some s)
    (hd : isCountDigit d) (ha : (39 : Nat) ∉ a) : s.byteCount = (d : Int) - 48 := by
  obtain ⟨s1, s2, k1, h2, k2⟩ := decimalScan_once word a b d s h
  have q1 : s1.quoteIndex = -1 := k1.2.2.2.2.2.2.2.2.1 rfl ha
  obtain ⟨_, e⟩ := ((decimalScan_step word d _ _ _ h2).2.2.2.2.1 hd).1 q1
  have e2 : s2.byteCount = (d : Int) - 48 := by rw [e]
  have e3 : s2.byteCount ≠ -1 := by
    unfold isCountDigit at hd
    omega
  rw [k2.2.2.2.2.1 e3, e2]

theorem getD_append_last (a b : List Nat) (x : Nat) (hne : a ≠ []) :
    some ((a ++ x :: b).getD (a.length - 1) 0) = a.getLast? := by
  rw [List.getD_eq_getElem?_getD, List.getElem?_append_left (by
    have := List.length_pos.2 hne
    omega), List.getLast?_eq_getElem?]
  have hl : a.length - 1 < a.length := by
    have := List.length_pos.2 hne
    omega
  rw [List.getElem?_eq_getElem hl]
  rfl

/-- C12.  Decimal-token validation: `processDecimalWord` returns 0 and writes nothing
for every word that the specification refuses (`decimalRefused`). -/
theorem processDecimalWord_refused (F : FloatOps) (out word : List Nat)
    (h : decimalRefused word) : processDecimalWord F out word = (0, out) := by
  apply processDecimalWord_zero
  intro s hs
  have hk := decimalScan_keeps word word 0 _ s hs
  rcases h with h | ⟨a, b, c, rfl⟩ | ⟨a, b, c, rfl⟩ | ⟨a, b, rfl, hl⟩ | ⟨a, b, rfl, ha⟩ |
    ⟨a, b, c, rfl⟩ | ⟨a, b, u, rfl, hu, ha⟩ | ⟨a, b, c, u1, u2, rfl, hu1, hu2⟩ |
    ⟨a, b, c, d1, d2, rfl, hd1, hd2, ha, hb⟩ | ⟨a, b, d, rfl, hd, ha⟩ | ⟨c, hc, hn⟩ |
    ⟨a, rfl⟩ | ⟨⟨a, b, rfl, ha⟩, hp⟩ | ⟨⟨a, b, d, rfl, hd, ha⟩, hp⟩ | ⟨⟨a, b, rfl, ha⟩, hm⟩
  · -- no quote
    exact Or.inl (hk.2.2.2.2.2.2.2.2.1 rfl h)
  · -- a second quote
    exfalso
    obtain ⟨i, j, s1, s2, t1, t2, _, h2, k2, h4⟩ := decimalScan_twice _ a b c 39 39 s hs
    obtain ⟨_, e⟩ := (decimalScan_step _ 39 _ _ _ h2).1 rfl
    have q : s2.quoteIndex ≠ -1 := by rw [e]; simp
    exact k2.1 q ((decimalScan_step _ 39 _ _ _ h4).1 rfl).1
  · -- a second minus sign
    exfalso
    obtain ⟨i, j, s1, s2, t1, t2, _, h2, k2, h4⟩ := decimalScan_twice _ a b c 45 45 s hs
    obtain ⟨_, _, _, e⟩ := (decimalScan_step _ 45 _ _ _ h2).2.1 rfl
    have q : s2.signIndex ≠ -1 := by rw [e]; simp
    exact k2.2.1 q ((decimalScan_step _ 45 _ _ _ h4).2.1 rfl).1
  · -- a minus sign not right after the quote
    exfalso
    obtain ⟨s1, s2, _, h2, _⟩ := decimalScan_once _ a b 45 s hs
    obtain ⟨_, e1, e2, _⟩ := (decimalScan_step _ 45 _ _ _ h2).2.1 rfl
    have hne : a ≠ [] := fun e => e1 (by rw [e]; rfl)
    have := getD_append_last a b 45 hne
    rw [e2] at this
    exact hl this.symm
  · -- a period before the quote
    exfalso
    obtain ⟨s1, s2, k1, h2, _⟩ := decimalScan_once _ a b 46 s hs
    exact ((decimalScan_step _ 46 _ _ _ h2).2.2.1 rfl).1 (k1.2.2.2.2.2.2.2.2.1 rfl ha)
  · -- a second period
    exfalso
    obtain ⟨i, j, s1, s2, t1, t2, _, h2, k2, h4⟩ := decimalScan_twice _ a b c 46 46 s hs
    obtain ⟨_, _, e⟩ := (decimalScan_step _ 46 _ _ _ h2).2.2.1 rfl
    have q : s2.periodIndex ≠ -1 := by rw [e]; simp
    exact k2.2.2.1 q ((decimalScan_step _ 46 _ _ _ h4).2.2.1 rfl).2.1
  · -- the endian marker after the quote
    exfalso
    obtain ⟨s1, s2, k1, h2, _⟩ := decimalScan_once _ a b u s hs
    exact k1.2.2.2.2.2.1 ha ((decimalScan_step _ u _ _ _ h2).2.2.2.1 hu).1
  · -- a second endian marker
    exfalso
    obtain ⟨i, j, s1, s2, t1, t2, _, h2, k2, h4⟩ := decimalScan_twice _ a b c u1 u2 s hs
    obtain ⟨_, _, e⟩ := (decimalScan_step _ u1 _ _ _ h2).2.2.2.1 hu1
    have q : s2.endianIndex ≠ -1 := by rw [e]; simp
    exact k2.2.2.2.1 q ((decimalScan_step _ u2 _ _ _ h4).2.2.2.1 hu2).2.1
  · -- two byte-count digits before the quote
    exfalso
    obtain ⟨i, j, s1, s2, t1, t2, k1, h2, k2, h4⟩ := decimalScan_twice _ a b c d1 d2 s hs
    have q1 : s1.quoteIndex = -1 := k1.2.2.2.2.2.2.2.2.1 rfl ha
    obtain ⟨_, e⟩ := ((decimalScan_step _ d1 _ _ _ h2).2.2.2.2.1 hd1).1 q1
    have q2 : s2.quoteIndex = -1 := by rw [e]; exact q1
    have e3 : s2.byteCount ≠ -1 := by
      rw [e]
      unfold isCountDigit at hd1
      simp
      omega
    have q3 : t1.quoteIndex = -1 := k2.2.2.2.2.2.2.2.2.1 q2 hb
    have e4 := (((decimalScan_step _ d2 _ _ _ h4).2.2.2.2.1 hd2).1 q3).1
    rw [k2.2.2.2.2.1 e3] at e4
    exact e3 e4
  · -- one of the digits 0, 5, 6, 7, 9 before the quote
    exfalso
    obtain ⟨s1, s2, k1, h2, _⟩ := decimalScan_once _ a b d s hs
    exact ((decimalScan_step _ d _ _ _ h2).2.2.2.2.2.1 hd).1 (k1.2.2.2.2.2.2.2.2.1 rfl ha)
  · -- a character that is not allowed
    exfalso
    obtain ⟨a, b, rfl⟩ := List.append_of_mem hc
    obtain ⟨s1, s2, _, h2, _⟩ := decimalScan_once _ a b c s hs
    exact hn (decimalScan_step _ c _ _ _ h2).2.2.2.2.2.2
  · -- nothing after the quote
    right; left
    obtain ⟨s1, s2, _, h2, _⟩ := decimalScan_once _ a [] 39 s hs
    obtain ⟨s1', s2', h1', h2', h3'⟩ := decimalScan_split _ a 39 [] 0 _ s hs
    simp only [decimalScan, Option.some.injEq] at h3'
    subst h3'
    obtain ⟨_, e⟩ := (decimalScan_step _ 39 _ _ _ h2').1 rfl
    rw [e]
    simp
  · -- the byte count 8 without a period
    right; right; left
    exact ⟨hk.2.2.2.2.2.2.2.2.2 rfl hp,
      decimalScan_count _ a b 56 s hs (by unfold isCountDigit; simp) ha⟩
  · -- a period with a byte count of 1, 2 or 3
    right; right; right; left
    have e := decimalScan_count _ a b d s hs (by unfold isCountDigit; omega) ha
    refine ⟨hk.2.2.2.2.2.2.2.1 hp, ?_⟩
    rw [e]
    omega
  · -- a minus sign with the byte count 3
    right; right; right; right
    exact ⟨hk.2.2.2.2.2.2.1 hm,
      decimalScan_count _ a b 51 s hs (by unfold isCountDigit; simp) ha⟩

/-- Witness for C12: the word `2'` has nothing after the quote. -/
theorem processDecimalWord_refused_witness :
    decimalRefused (str "2'") ∧ processDecimalWord FloatOps.zero [] (str "2'") = (0, []) :=
  have h : decimalRefused (str "2'") :=
    Or.inr (Or.inr (Or.inr (Or.inr (Or.inr (Or.inr (Or.inr (Or.inr (Or.inr (Or.inr (Or.inr
      (Or.inl ⟨[50], rfl⟩)))))))))))
  ⟨h, processDecimalWord_refused FloatOps.zero [] (str "2'") h⟩

/-! ## C14: quoted strings -/

theorem getLast?_tail_ne (x : Nat) (xs : List Nat) (h : (x :: xs).getLast? ≠ some 92) :
    xs.getLast? ≠ some 92 := by
  cases xs with
  | nil => simp
  | cons y ys => rwa [List.getLast?_cons_cons] at h

theorem escapeQuotes_head (x : Nat) (xs tail : List Nat)
    (h : (x :: xs).getLast? ≠ some 92) :
    (decide (x = 92) && decide ((escapeQuotes xs ++ 34 :: tail).head? = some 34)) = false := by
  by_cases e1 : x = 92
  · have e2 : ¬ (escapeQuotes xs ++ 34 :: tail).head? = some 34 := by
      cases xs with
      | nil => exact fun _ => h (by simp [e1])
      | cons y ys =>
        by_cases hy : y = 34
        · simp [escapeQuotes, hy]
        · simp [escapeQuotes, hy]
    rw [decide_eq_false e2, Bool.and_false]
  · rw [decide_eq_false e1, Bool.false_and]

theorem getWordLoop_escaped (tail : List Nat) : ∀ (s : List Nat) (fuel : Nat) (acc : List Nat),
    s.getLast? ≠ some 92 → (escapeQuotes s).length < fuel →
    getWordLoop true [34] fuel (escapeQuotes s ++ 34 :: tail) 1 acc = (acc ++ s, tail) := by
  intro s
  induction s with
  | nil =>
    intro fuel acc _ hf
    obtain ⟨f, rfl⟩ : ∃ f, fuel = f + 1 := ⟨fuel - 1, by omega⟩
    simp [escapeQuotes, getWordLoop]
  | cons x xs ih =>
    intro fuel acc hl hf
    obtain ⟨f, rfl⟩ : ∃ f, fuel = f + 1 := ⟨fuel - 1, by omega⟩
    have hl' := getLast?_tail_ne x xs hl
    by_cases hx : x = 34
    · subst hx
      have hf' : (escapeQuotes xs).length < f := by
        simp [escapeQuotes] at hf
        omega
      have e : escapeQuotes (34 :: xs) ++ 34 :: tail =
          92 :: 34 :: (escapeQuotes xs ++ 34 :: tail) := by
        simp [escapeQuotes]
      rw [e, getWordLoop]
      simp only [Bool.true_and, show ¬ ((92 : Nat) = 34) by decide, decide_False,
        Bool.false_eq_true, if_false, Bool.false_and, List.head?_cons, decide_True,
        Bool.and_self, if_true, List.drop_succ_cons, List.drop_zero]
      rw [ih f (acc ++ [34]) hl' hf']
      simp
    · have hf' : (escapeQuotes xs).length < f := by
        simp [escapeQuotes, hx] at hf
        omega
      have e : escapeQuotes (x :: xs) ++ 34 :: tail = x :: (escapeQuotes xs ++ 34 :: tail) := by
        simp [escapeQuotes, hx]
      have hc : ([34] : List Nat).contains x = false := by simp [hx]
      rw [e, getWordLoop]
      simp only [Bool.true_and, decide_eq_true_eq, hx, if_false, Bool.false_and,
        Bool.false_eq_true, escapeQuotes_head x xs tail hl, hc, Bool.not_false, if_true]
      rw [ih f (acc ++ [x]) hl' hf']
      simp

theorem getWord_escaped (s tail : List Nat) (hl : s.getLast? ≠ some 92) :
    getWord (34 :: (escapeQuotes s ++ 34 :: tail)) [34] = (s, tail) := by
  have hc : ([34] : List Nat).contains 34 = true := by decide
  rw [getWord, hc, List.length_cons, getWordLoop]
  simp only [Bool.true_and, decide_True, if_true, Nat.zero_add, ge_iff_le,
    Nat.not_ofNat_le_one, decide_False, Bool.and_false, Bool.false_eq_true, if_false]
  cases s with
  | nil => simp [escapeQuotes]
  | cons x xs =>
    have hl' := getLast?_tail_ne x xs hl
    by_cases hx : x = 34
    · subst hx
      have e : escapeQuotes (34 :: xs) ++ 34 :: tail =
          92 :: 34 :: (escapeQuotes xs ++ 34 :: tail) := by
        simp [escapeQuotes]
      rw [e]
      simp only [show ¬ ((92 : Nat) = 34) by decide, decide_False,
        Bool.false_eq_true, if_false, Bool.false_and, List.head?_cons, decide_True,
        Bool.and_self, if_true, List.drop_succ_cons, List.drop_zero, List.nil_append]
      rw [getWordLoop_escaped tail xs _ [34] hl' (by simp; omega)]
      rfl
    · have e : escapeQuotes (x :: xs) ++ 34 :: tail = x :: (escapeQuotes xs ++ 34 :: tail) := by
        simp [escapeQuotes, hx]
      have hcx : ([34] : List Nat).contains x = false := by simp [hx]
      rw [e]
      simp only [escapeQuotes_head x xs tail hl, hcx, Bool.not_false, if_true,
        Bool.false_eq_true, if_false, List.nil_append]
      rw [getWordLoop_escaped tail xs _ [x] hl' (by simp; omega)]
      rfl

theorem processLine_escaped (F : FloatOps) (out s tail : List Nat)
    (hl : s.getLast? ≠ some 92) :
    processLine F out (34 :: (escapeQuotes s ++ 34 :: tail)) = processLine F (out ++ s) tail := by
  have hcl : classify (34 :: (escapeQuotes s ++ 34 :: tail)) = (Kind.string, s, tail) := by
    simp only [classify, List.getD_cons_zero, getWord_escaped s tail hl]
    simp
  exact processLine_word F out 34 _ (by decide) (by decide) _ _ _ s hcl rfl

/-- C14.  Quoted string: for a text `s` that does not end with a backslash,
`processLine` on a double quote, `s` with a backslash put before each of its double
quotes, and a closing double quote returns 1 and writes the bytes of `s`; with more
text after the closing quote, the scan goes on from there. -/
theorem processLine_quoted (F : FloatOps) (out s : List Nat) (hl : s.getLast? ≠ some 92) :
    processLine F out (34 :: (escapeQuotes s ++ [34])) = Run.ret (1, out ++ s) ∧
    ∀ tail, processLine F out (34 :: (escapeQuotes s ++ 34 :: tail)) =
      processLine F (out ++ s) tail :=
  ⟨by rw [processLine_escaped F out s [] hl]; rfl, fun tail => processLine_escaped F out s tail hl⟩

/-- Witness for C14: the text `a"b`, written `"a\"b"`, and the empty text. -/
theorem processLine_quoted_witness :
    processLine FloatOps.zero [] (str "\"a\\\"b\"") = Run.ret (1, str "a\"b") ∧
    processLine FloatOps.zero [] (str "\"\"") = Run.ret (1, []) :=
  ⟨(processLine_quoted FloatOps.zero [] (str "a\"b") (by decide)).1,
    (processLine_quoted FloatOps.zero [] [] (by decide)).1⟩

/-! ## C15: comments -/

theorem processLine_step (F : FloatOps) (out : List Nat) (c : Nat) (cs : List Nat)
    (hc : ¬ (c = 59 ∨ c = 35 ∨ c = 47)) (hw : ¬ (c = 32 ∨ c = 10 ∨ c = 9))
    (k : Kind) (word rest : List Nat) (hcl : classify (c :: cs) = (k, word, rest)) :
    processLine F out (c :: cs) =
      if (emit F k out word).1 = 0 then Run.ret (0, (emit F k out word).2)
      else processLine F (emit F k out word).2 rest := by
  have hl := classify_length_lt (c :: cs) (by simp)
  rw [hcl] at hl
  simp only [List.length_cons] at hl
  simp only [processLine, List.length_cons, processLineLoop, hc, hw, if_false, hcl]
  split_ifs
  · rfl
  · exact processLineLoop_eq_processLine F _ rest _ (by omega)

theorem processLine_plain_word (F : FloatOps) (out w : List Nat) (c : Nat) (p : List Nat)
    (hne : w ≠ []) (hw : ∀ x ∈ w, x ≠ 32 ∧ x ≠ 10 ∧ x ≠ 9)
    (hh : w.getD 0 0 ≠ 34 ∧ w.getD 0 0 ≠ 59 ∧ w.getD 0 0 ≠ 35 ∧ w.getD 0 0 ≠ 47)
    (hc : c = 32 ∨ c = 10 ∨ c = 9) :
    processLine F out (w ++ c :: p) =
      if (emit F (classify w).1 out w).1 = 0 then Run.ret (0, (emit F (classify w).1 out w).2)
      else processLine F (emit F (classify w).1 out w).2 p := by
  have hcl := classify_word w (c :: p) hw hne hh.1 (wordEnd_cons c p hc)
  cases w with
  | nil => exact absurd rfl hne
  | cons a w =>
    have ha := hw a (by simp)
    simp only [List.getD_cons_zero] at hh
    rw [List.cons_append] at hcl ⊢
    rw [processLine_step F out a _ (by omega) (by omega) _ _ _ hcl]
    rfl

/-- C15, amended.  Comment truncation: when the first `k` characters of a line are a
text after which `processLine` looks for the start of a word (`WordBoundary`) and the
character at `k` is `;`, `#` or `/`, `processLine` returns on the line what it returns
on its first `k` characters: the same status and the same bytes. -/
theorem processLine_comment_truncation (F : FloatOps) (pre : List Nat) (c : Nat)
    (rest : List Nat) (hpre : WordBoundary pre) (hc : c = 59 ∨ c = 35 ∨ c = 47) :
    ∀ out, processLine F out (pre ++ c :: rest) = processLine F out pre := by
  induction hpre with
  | nil =>
    intro out
    rw [List.nil_append, processLine_comment F out c rest hc]
    rfl
  | space d p hd _ ih =>
    intro out
    rw [List.cons_append, processLine_space F out d _ hd, processLine_space F out d _ hd]
    exact ih out
  | word w d p hne hw hh hd _ ih =>
    intro out
    rw [List.append_assoc, List.cons_append,
      processLine_plain_word F out w d (p ++ c :: rest) hne hw hh hd,
      processLine_plain_word F out w d p hne hw hh hd]
    split_ifs
    · rfl
    · exact ih _
  | quoted s p hl _ ih =>
    intro out
    have e : 34 :: (escapeQuotes s ++ 34 :: p) ++ c :: rest =
        34 :: (escapeQuotes s ++ 34 :: (p ++ c :: rest)) := by simp
    rw [e, processLine_escaped F out s _ hl, processLine_escaped F out s _ hl]
    exact ih _
  | comment d r hd =>
    intro out
    rw [List.cons_append, processLine_comment F out d _ hd, processLine_comment F out d _ hd]

/-- Witness for C15 as amended: in `ff ;x` the comment starts after a complete word. -/
theorem processLine_comment_truncation_witness :
    WordBoundary (str "ff ") ∧
    processLine FloatOps.zero [] (str "ff ;x") = processLine FloatOps.zero [] (str "ff ") :=
  have h : WordBoundary (str "ff ") :=
    WordBoundary.word (str "ff") 32 [] (by decide) (by decide) (by decide) (Or.inl rfl)
      WordBoundary.nil
  ⟨h, processLine_comment_truncation FloatOps.zero (str "ff ") 59 (str "x") h (Or.inl rfl) []⟩

/-- Counterexample to C15 as stated: in `ff;` the character at position 2 is `;` and
no quoted string is open, but the word read is `ff;`, which is refused, while the
first two characters `ff` make the byte 255. -/
theorem processLine_comment_truncation_counterexample :
    (str "ff;").getD 2 0 = 59 ∧ (str "ff;").take 2 = str "ff" ∧
    processLine FloatOps.zero [] (str "ff;") = Run.ret (0, []) ∧
    processLine FloatOps.zero [] (str "ff") = Run.ret (1, [255]) := by
  refine ⟨by decide, by decide, by decide, by decide⟩

/-! ## Chunk markers that do not match -/

theorem readTracks_bad_tag (F : FloatOps) (c h : Bool) (fuel k : Nat) (i : Int)
    (tempout : List Nat) (s : IStream) (ch : Nat)
    (hs : ¬ ([77, 84, 114, 107] <+: s.buf)) :
    readTracks F c h fuel (k + 1) i tempout s ch = Run.ret none := by
  obtain ⟨buf, e, f⟩ := s
  simp only at hs
  unfold readTracks
  cases e <;> cases f
  · -- the stream is good
    match buf, hs with
    | [], _ =>
      by_cases h1 : ch = 77 <;> simp [IStream.read1, IStream.good, h1]
    | [a], _ =>
      by_cases h1 : a = 77 <;> simp [IStream.read1, IStream.good, h1]
    | [a, b], _ =>
      by_cases h1 : a = 77 <;> by_cases h2 : b = 84 <;>
        simp [IStream.read1, IStream.good, h1, h2]
    | [a, b, d], _ =>
      by_cases h1 : a = 77 <;> by_cases h2 : b = 84 <;> by_cases h3 : d = 114 <;>
        simp [IStream.read1, IStream.good, h1, h2, h3]
    | a :: b :: d :: g :: rest, hs =>
      by_cases h1 : a = 77 <;> by_cases h2 : b = 84 <;> by_cases h3 : d = 114 <;>
        by_cases h4 : g = 107 <;>
        simp_all [IStream.read1, IStream.good]
  all_goals
    by_cases h1 : ch = 77 <;> simp [IStream.read1, IStream.good, h1]

theorem outputStyleMidi_header (F : FloatOps) (c : Bool) (fuel : Nat) (out : List Nat)
    (hs fmt n d1 d2 : Nat) (body : List Nat) (h1 : hs < 2 ^ 31) (h2 : fmt < 65536)
    (h3 : n < 65536) :
    ∃ tempout ch, outputStyleMidi F c fuel out (headerBytes hs fmt n d1 d2 ++ body) =
      outputStyleMidiTracks F c fuel out tempout (hs : Nat) (n : Nat)
        (IStream.open (d1 :: d2 :: body)) ch := by
  have eb : headerBytes hs fmt n d1 d2 ++ body =
      77 :: 84 :: 104 :: 100 :: ((lowBytes 4 hs).reverse ++
      ((lowBytes 2 fmt).reverse ++ ((lowBytes 2 n).reverse ++ (d1 :: d2 :: body)))) := by
    simp [headerBytes, str_MThd]
  rw [eb]
  unfold outputStyleMidi
  simp only [read1_open, Option.getD_some, ne_eq, not_true_eq_false, if_false]
  unfold outputStyleMidiHeader
  simp only [readBigEndian_four hs (by omega), readBigEndian_two fmt h2,
    readBigEndian_two n h3, bitsToInt_of_lt hs (by omega),
    bitsToInt_of_lt fmt (by omega), bitsToInt_of_lt n (by omega)]
  exact ⟨_, _, rfl⟩

theorem readBytes_split (item : Nat → List Nat) (m : Nat) : ∀ (bs rest : List Nat) (tb : Int)
    (ch : Nat) (output : List Nat),
    ∃ tb1 ch1 output1,
      readBytes item (bs.length + m) (IStream.open (bs ++ rest)) tb ch output =
        readBytes item m (IStream.open rest) tb1 ch1 output1 := by
  intro bs
  induction bs with
  | nil => intro rest tb ch output; exact ⟨tb, ch, output, by simp⟩
  | cons b bs ih =>
    intro rest tb ch output
    have el : (b :: bs).length + m = (bs.length + m) + 1 := by
      simp only [List.length_cons]; omega
    rw [el, List.cons_append, readBytes]
    simp only [read1_open, Option.getD_some]
    exact ih _ _ _ _

theorem readBytes_empty (item : Nat → List Nat) : ∀ (n : Nat) (s : IStream) (tb : Int)
    (ch : Nat) (output : List Nat), s.buf = [] →
    (readBytes item n s tb ch output).1.buf = [] := by
  intro n
  induction n with
  | zero => intro s tb ch output h; simpa [readBytes] using h
  | succ n ih =>
    intro s tb ch output h
    rw [readBytes]
    apply ih
    obtain ⟨buf, e, f⟩ := s
    simp only at h
    subst h
    cases e <;> cases f <;> rfl

theorem outputStyleMidi_bad_header (F : FloatOps) (c : Bool) (fuel : Nat)
    (out input : List Nat) (hne : input ≠ []) (hp : ¬ ([77, 84, 104, 100] <+: input)) :
    outputStyleMidi F c fuel out input = Run.ret (0, out) := by
  unfold outputStyleMidi
  match input, hne, hp with
  | [a], _, _ =>
    by_cases h1 : a = 77 <;> simp [IStream.read1, IStream.good, IStream.open, h1]
  | [a, b], _, _ =>
    by_cases h1 : a = 77 <;> by_cases h2 : b = 84 <;>
      simp [IStream.read1, IStream.good, IStream.open, h1, h2]
  | [a, b, d], _, _ =>
    by_cases h1 : a = 77 <;> by_cases h2 : b = 84 <;> by_cases h3 : d = 104 <;>
      simp [IStream.read1, IStream.good, IStream.open, h1, h2, h3]
  | a :: b :: d :: g :: rest, _, hp =>
    by_cases h1 : a = 77 <;> by_cases h2 : b = 84 <;> by_cases h3 : d = 104 <;>
      by_cases h4 : g = 100 <;>
      simp_all [IStream.read1, IStream.good, IStream.open]

/-! ## C19: the status byte fe -/

/-- C19, the behaviour of the code.  The only event of the track of
`activeSensingFile` has the status byte `fe`: `readMidiEvent` returns 0 for it, the
loop over the events takes that for the end of the track, and `readFromBinary` in
MIDI mode returns 1 with the text of the header and of the track, without a word for
the event. -/
theorem readFromBinaryMidi_active_sensing (F : FloatOps) (fuel : Nat) (h : 2 ≤ fuel) :
    activeSensingFile.drop 22 = [0, 0xfe, 0] ∧
    readFromBinaryMidi F false fuel [] activeSensingFile =
      Run.ret (1, activeSensingText) := by
  obtain ⟨k, rfl⟩ : ∃ k, fuel = k + 2 := ⟨fuel - 2, by omega⟩
  exact ⟨rfl, rfl⟩

/-- Witness for the behaviour of the code at C19, with fuel 5. -/
theorem readFromBinaryMidi_active_sensing_witness :
    activeSensingFile.drop 22 = [0, 0xfe, 0] ∧
    readFromBinaryMidi FloatOps.zero false 5 [] activeSensingFile =
      Run.ret (1, activeSensingText) :=
  readFromBinaryMidi_active_sensing FloatOps.zero 5 (by decide)

/-! ## Inputs that end early -/

theorem outputStyleMidiTracks_short_header (F : FloatOps) (c : Bool) (fuel : Nat)
    (out tempout : List Nat) (hs n d1 d2 : Nat) (extra : List Nat) (ch : Nat)
    (h1 : hs < 2 ^ 31) (he : extra.length < hs - 6) (hn : 0 < n) :
    outputStyleMidiTracks F c fuel out tempout (hs : Nat) (n : Nat)
      (IStream.open (d1 :: d2 :: extra)) ch = Run.ret (0, out) := by
  have hx : toInt32 ((hs : Int) - 6) = (hs : Int) - 6 := by
    unfold toInt32; omega
  obtain ⟨m, hm⟩ : ∃ m, ((hs : Int) - 6).toNat = extra.length + m :=
    ⟨hs - 6 - extra.length, by omega⟩
  obtain ⟨k, rfl⟩ : ∃ k, n = k + 1 := ⟨n - 1, by omega⟩
  unfold outputStyleMidiTracks
  simp only [read1_open, hx, hm, Int.toNat_ofNat]
  generalize hT : (if d1 &&& 0x80 ≠ 0 then
        tempout ++ str "1'-" ++ showNat (0xff - d1 + 1) ++
          (if c = true then str "\t\t\t; SMPTE frames/second" else []) ++ str "\n" ++
          str "1'" ++ showNat d2 ++
          (if c = true then str "\t\t\t; subframes per frame" else []) ++ str "\n"
      else
        tempout ++ str "2'" ++
          showInt (bitsToInt (((((0 <<< 8) % 2 ^ 32 ||| d1) <<< 8) % 2 ^ 32) ||| d2)) ++
          (if c = true then str "\t\t\t; ticks per quarter note" else []) ++ str "\n") = T
  obtain ⟨tb1, ch1, o1, e⟩ := readBytes_split
    (fun c => (if c < 0x10 then str "0" else []) ++ showHex c) m extra [] 0 ch T
  rw [List.append_nil] at e
  rw [e]
  have hb := readBytes_empty (fun c => (if c < 0x10 then str "0" else []) ++ showHex c) m
    (IStream.open []) tb1 ch1 o1 rfl
  rw [readTracks_bad_tag F c _ fuel k 0 _ _ _ (by rw [hb]; decide)]

theorem outputStyleMidi_short_header (F : FloatOps) (c : Bool) (fuel : Nat)
    (out : List Nat) (hs fmt n d1 d2 : Nat) (extra : List Nat)
    (h1 : hs < 2 ^ 31) (h2 : fmt < 65536) (h3 : n < 65536)
    (he : extra.length < hs - 6) (hn : 0 < n) :
    outputStyleMidi F c fuel out (headerBytes hs fmt n d1 d2 ++ extra) = Run.ret (0, out) := by
  obtain ⟨tempout, ch, e⟩ := outputStyleMidi_header F c fuel out hs fmt n d1 d2 extra h1 h2 h3
  rw [e]
  exact outputStyleMidiTracks_short_header F c fuel out tempout hs n d1 d2 extra ch h1 he hn

theorem prefix_MTrk (tail : List Nat) (h1 : tail <+: [77, 84, 114, 107])
    (h2 : tail ≠ [77, 84, 114, 107]) : ¬ ([77, 84, 114, 107] <+: tail) := by
  intro h
  exact h2 (List.IsPrefix.eq_of_length_le h1 (List.IsPrefix.length_le h))

theorem getVLVLoop_spin : ∀ (fuel : Nat) (s : IStream) (tb : Int) (output ch : Nat),
    s.buf = [] → 0x80 ≤ ch → getVLVLoop fuel s tb output ch = Run.spin := by
  intro fuel
  induction fuel with
  | zero => intro s tb output ch _ _; rfl
  | succ n ih =>
    intro s tb output ch hs hc
    obtain ⟨buf, e, f⟩ := s
    simp only at hs
    subst hs
    rw [getVLVLoop]
    simp only [ge_iff_le, hc, if_true]
    cases e <;> cases f <;>
      exact ih _ _ _ _ rfl (by simpa [IStream.read1, IStream.good] using hc)

theorem readTrackEvents_spin (F : FloatOps) (c : Bool) (fuel n : Nat) (tempout : List Nat)
    (tb : Int) (command : Nat) :
    readTrackEvents F c fuel n tempout (IStream.open [0x81]) tb command = Run.spin := by
  cases n with
  | zero => rfl
  | succ n =>
    have e : readMidiEvent F c fuel tempout (IStream.open [0x81]) tb command = Run.spin := by
      unfold readMidiEvent getVLV
      simp only [read1_open]
      rw [getVLVLoop_spin _ _ _ _ _ rfl (by decide)]
    rw [readTrackEvents, e]

theorem outputStyleMidi_spin (F : FloatOps) (c : Bool) (fuel : Nat) (out : List Nat) :
    outputStyleMidi F c fuel out (truncatedEndFile.take 22 ++ [0x81]) = Run.spin := by
  obtain ⟨tempout, ch, e⟩ := outputStyleMidi_header F c fuel out 6 0 1 0 96
    [77, 84, 114, 107, 0, 0, 0, 5, 0x81] (by norm_num) (by norm_num) (by norm_num)
  have eb : truncatedEndFile.take 22 ++ [0x81] =
      headerBytes 6 0 1 0 96 ++ [77, 84, 114, 107, 0, 0, 0, 5, 0x81] := rfl
  rw [eb, e]
  unfold outputStyleMidiTracks
  simp only [read1_open]
  have hx : (toInt32 (((6 : Nat) : Int) - 6)).toNat = 0 := by decide
  have hy : ¬ (toInt32 (((6 : Nat) : Int) - 6) > 0) := by decide
  simp only [hx, hy, readBytes, if_false, decide_False, Nat.cast_one, Int.toNat_one]
  have e1 : ∀ i t s x, readTracks F c false fuel 1 i t s x =
      readTracks F c false fuel (0 + 1) i t s x := fun _ _ _ _ => rfl
  rw [e1, readTracks]
  simp only [read1_open, Option.getD_some, ne_eq, not_true_eq_false, if_false]
  have e2 : readBigEndian 4 (IStream.open [0, 0, 0, 5, 0x81]) 107 0 =
      (5, 5, IStream.open [0x81]) := rfl
  simp only [e2, readTrackEvents_spin]

/-! ## Double precision: rounding -/

theorem roundEven_le (n d k : Nat) (hd : 0 < d) (h : n ≤ k * d) : roundEven n d ≤ k := by
  have hq : n / d ≤ k := by
    rw [Nat.mul_comm] at h
    exact Nat.div_le_of_le_mul h
  have hm := Nat.div_add_mod n d
  have hr := Nat.mod_lt n hd
  unfold roundEven
  rcases Nat.lt_or_ge (n / d) k with h1 | h1
  · split_ifs <;> omega
  · have e : n / d = k := by omega
    have e2 : d * (n / d) = k * d := by rw [e, Nat.mul_comm]
    have h0 : n % d = 0 := by omega
    simp [h0, hd, e]

theorem le_roundEven (n d k : Nat) (hd : 0 < d) (h : k * d ≤ n) : k ≤ roundEven n d := by
  have hq : k ≤ n / d := (Nat.le_div_iff_mul_le hd).2 h
  unfold roundEven
  split_ifs <;> omega

theorem floorLog2Loop_eq : ∀ (fuel n acc : Nat), n ≤ fuel →
    floorLog2Loop fuel n acc = acc + Nat.log2 n := by
  intro fuel
  induction fuel with
  | zero =>
    intro n acc h
    obtain rfl : n = 0 := by omega
    simp [floorLog2Loop, Nat.log2]
  | succ f ih =>
    intro n acc h
    rw [floorLog2Loop, Nat.log2]
    by_cases h2 : n < 2
    · have : ¬ n ≥ 2 := by omega
      simp [h2, this]
    · have : n ≥ 2 := by omega
      simp only [h2, this, if_true, if_false]
      rw [ih (n / 2) (acc + 1) (by omega)]
      omega

theorem floorLog2_eq (n : Nat) : floorLog2 n = Nat.log2 n := by
  rw [floorLog2, floorLog2Loop_eq n n 0 (Nat.le_refl n), Nat.zero_add]

set_option exponentiation.threshold 3000 in
theorem doubleOne_pos : 0 < doubleOne := by
  unfold doubleOne
  exact Nat.two_pow_pos _

set_option exponentiation.threshold 3000 in
theorem doubleOne_split : ∃ u : Nat, 0 < u ∧ doubleOne = 2 * u ∧ (2 : Nat) ^ 1073 = u ∧
    (2 : Nat) ^ 1074 = 2 * u ∧ (2 : Nat) ^ 1075 = 4 * u := by
  refine ⟨2 ^ 1073, Nat.two_pow_pos _, ?_, rfl, ?_, ?_⟩
  · unfold doubleOne
    exact Eq.trans (Nat.pow_succ 2 1073) (Nat.mul_comm _ _)
  · exact Eq.trans (Nat.pow_succ 2 1073) (Nat.mul_comm _ _)
  · exact (Eq.trans (Nat.pow_succ 2 1074) (congrArg (· * 2) (Nat.pow_succ 2 1073))).trans
      ((Nat.mul_assoc _ _ _).trans (Nat.mul_comm _ _))

set_option exponentiation.threshold 3000 in
theorem doubleOne_overflow (e : Nat) (h : e ≤ 2098) : 2 ^ e ≤ 2 ^ 1024 * doubleOne := by
  unfold doubleOne
  rw [← Nat.pow_add]
  exact Nat.pow_le_pow_right (by norm_num) h

set_option exponentiation.threshold 3000 in
theorem doubleOne_eq (g b : Nat) (h : 1074 = g + b) : doubleOne = 2 ^ b * 2 ^ g := by
  unfold doubleOne
  rw [h, Nat.pow_add, Nat.mul_comm]

set_option exponentiation.threshold 3000 in
theorem doubleOne_le (g : Nat) (h : 1074 ≤ g) : doubleOne ≤ 2 ^ g := by
  unfold doubleOne
  exact Nat.pow_le_pow_right (by norm_num) h

theorem toDouble_le (n d k a : Nat) (hd : 0 < d) (hk : k < 2 ^ 53) (ha : a ≤ 2045)
    (h : n * doubleOne ≤ k * 2 ^ a * d) : ∃ m, toDouble n d = some m ∧ m ≤ k * 2 ^ a := by
  have hq : n * doubleOne / d ≤ k * 2 ^ a := by
    rw [Nat.mul_comm (k * 2 ^ a)] at h
    exact Nat.div_le_of_le_mul h
  have hg : floorLog2 (n * doubleOne / d) - 52 ≤ a := by
    by_cases h0 : n * doubleOne / d = 0
    · rw [h0]
      simp [floorLog2, floorLog2Loop]
    · have : floorLog2 (n * doubleOne / d) < a + 53 := by
        rw [floorLog2_eq, Nat.log2_lt h0]
        calc n * doubleOne / d ≤ k * 2 ^ a := hq
          _ < 2 ^ 53 * 2 ^ a := Nat.mul_lt_mul_of_pos_right hk (Nat.two_pow_pos _)
          _ = 2 ^ (a + 53) := by rw [Nat.add_comm, Nat.pow_add]
      omega
  unfold toDouble
  dsimp only
  generalize floorLog2 (n * doubleOne / d) - 52 = g at hg ⊢
  obtain ⟨b, rfl⟩ : ∃ b, a = g + b := ⟨a - g, by omega⟩
  have hr : roundEven (n * doubleOne) (d * 2 ^ g) ≤ k * 2 ^ b := by
    apply roundEven_le _ _ _ (Nat.mul_pos hd (Nat.two_pow_pos _))
    calc n * doubleOne ≤ k * 2 ^ (g + b) * d := h
      _ = k * 2 ^ b * (d * 2 ^ g) := by rw [Nat.pow_add]; ring
  have hm : roundEven (n * doubleOne) (d * 2 ^ g) * 2 ^ g ≤ k * 2 ^ (g + b) := by
    calc roundEven (n * doubleOne) (d * 2 ^ g) * 2 ^ g ≤ k * 2 ^ b * 2 ^ g :=
          Nat.mul_le_mul_right _ hr
      _ = k * 2 ^ (g + b) := by rw [Nat.pow_add]; ring
  have hlt : k * 2 ^ (g + b) < 2 ^ 1024 * doubleOne := by
    calc k * 2 ^ (g + b) < 2 ^ 53 * 2 ^ (g + b) :=
          Nat.mul_lt_mul_of_pos_right hk (Nat.two_pow_pos _)
      _ = 2 ^ (53 + (g + b)) := by rw [← Nat.pow_add]
      _ ≤ 2 ^ 1024 * doubleOne := doubleOne_overflow _ (by omega)
  exact ⟨roundEven (n * doubleOne) (d * 2 ^ g) * 2 ^ g, if_pos (Nat.lt_of_le_of_lt hm hlt), hm⟩

theorem toDouble_ge_one (n d m : Nat) (hd : 0 < d) (h : d ≤ n) (hm : toDouble n d = some m) :
    doubleOne ≤ m := by
  have hq : doubleOne ≤ n * doubleOne / d := by
    rw [Nat.le_div_iff_mul_le hd]
    calc doubleOne * d ≤ doubleOne * n := Nat.mul_le_mul_left _ h
      _ = n * doubleOne := Nat.mul_comm _ _
  have hq0 : n * doubleOne / d ≠ 0 :=
    Nat.pos_iff_ne_zero.1 (Nat.lt_of_lt_of_le doubleOne_pos hq)
  have hl := Nat.log2_self_le hq0
  rw [← floorLog2_eq] at hl
  unfold toDouble at hm
  dsimp only at hm
  generalize hg : floorLog2 (n * doubleOne / d) - 52 = g at hm
  split_ifs at hm
  simp only [Option.some.injEq] at hm
  subst hm
  rcases Nat.le_total g 1074 with h1 | h1
  · obtain ⟨b, hb⟩ : ∃ b, 1074 = g + b := ⟨1074 - g, by omega⟩
    have e1 : doubleOne = 2 ^ b * 2 ^ g := doubleOne_eq g b hb
    have : 2 ^ b ≤ roundEven (n * doubleOne) (d * 2 ^ g) := by
      apply le_roundEven _ _ _ (Nat.mul_pos hd (Nat.two_pow_pos _))
      calc 2 ^ b * (d * 2 ^ g) = 2 ^ b * 2 ^ g * d := by ring
        _ = doubleOne * d := by rw [← e1]
        _ ≤ doubleOne * n := Nat.mul_le_mul_left _ h
        _ = n * doubleOne := Nat.mul_comm _ _
    calc doubleOne = 2 ^ b * 2 ^ g := e1
      _ ≤ roundEven (n * doubleOne) (d * 2 ^ g) * 2 ^ g := Nat.mul_le_mul_right _ this
  · have h2 : 2 ^ g ≤ n * doubleOne / d :=
      Nat.le_trans (Nat.pow_le_pow_right (by norm_num) (by omega)) hl
    have : 1 ≤ roundEven (n * doubleOne) (d * 2 ^ g) := by
      apply le_roundEven _ _ _ (Nat.mul_pos hd (Nat.two_pow_pos _))
      rw [Nat.le_div_iff_mul_le hd] at h2
      calc 1 * (d * 2 ^ g) = 2 ^ g * d := by ring
        _ ≤ n * doubleOne := h2
    calc doubleOne ≤ 2 ^ g := doubleOne_le g h1
      _ = 1 * 2 ^ g := (Nat.one_mul _).symm
      _ ≤ roundEven (n * doubleOne) (d * 2 ^ g) * 2 ^ g := Nat.mul_le_mul_right _ this

theorem bendDouble_range (neg : Bool) (c : Nat) (hc : c ≤ doubleOne) :
    ∃ v, doubleToInt (bendDouble neg c) = some v ∧ v ≤ 16383 := by
  obtain ⟨u, hu, e4, e3, e4', e5⟩ := doubleOne_split
  obtain ⟨sum, h1, b1⟩ := toDouble_le (if neg then doubleOne - c else doubleOne + c) doubleOne 1
    1075 doubleOne_pos (by norm_num) (by norm_num) (by
      apply Nat.mul_le_mul_right
      rw [e5]
      rw [e4] at hc ⊢
      clear e3 e4' e5
      split_ifs <;> omega)
  rw [e5] at b1
  obtain ⟨p, h2, b2⟩ := toDouble_le (16383 * sum) (2 * doubleOne) 16383 1074
    (Nat.mul_pos (by norm_num) doubleOne_pos) (by norm_num) (by norm_num) (by
      rw [e4, e4']
      clear e3 e4' e5
      have h : 16383 * sum ≤ 16383 * (4 * u) := by omega
      calc 16383 * sum * (2 * u) ≤ 16383 * (4 * u) * (2 * u) := Nat.mul_le_mul_right _ h
        _ = 16383 * (2 * u) * (2 * (2 * u)) := by ring)
  rw [e4'] at b2
  obtain ⟨r, h3, b3⟩ := toDouble_le (2 * p + doubleOne) (2 * doubleOne) 32767 1073
    (Nat.mul_pos (by norm_num) doubleOne_pos) (by norm_num) (by norm_num) (by
      rw [e4, e3]
      clear e3 e4' e5
      have h : 2 * p + 2 * u ≤ 32767 * (2 * u) := by omega
      calc (2 * p + 2 * u) * (2 * u) ≤ 32767 * (2 * u) * (2 * u) := Nat.mul_le_mul_right _ h
        _ = 32767 * u * (2 * (2 * u)) := by ring)
  rw [e3] at b3
  clear e3 e4' e5
  have hr : r / doubleOne < 16384 := by
    rw [e4, Nat.div_lt_iff_lt_mul (by omega)]
    omega
  refine ⟨r / doubleOne, ?_, by omega⟩
  unfold doubleToInt bendDouble
  rw [h1, Option.some_bind, h2, Option.some_bind, h3, Option.some_bind,
    if_pos (Nat.lt_trans hr (by norm_num))]

/-! ## Double precision: the distance of a rounding -/

theorem strtodDecimal_pos (s : List Nat) (p : Bool × Nat × Nat) (h : strtodDecimal s = some p) :
    0 < p.2.2 := by
  unfold strtodDecimal at h
  dsimp only at h
  split_ifs at h
  all_goals
    simp only [Option.some.injEq] at h
    rw [← h]
    exact Nat.pos_pow_of_pos _ (by norm_num)

theorem roundEven_near (n D : Nat) (hD : 0 < D) :
    2 * (roundEven n D * D) ≤ 2 * n + D ∧ 2 * n ≤ 2 * (roundEven n D * D) + D := by
  have hm := Nat.div_add_mod n D
  have hr := Nat.mod_lt n hD
  have e1 : (n / D + 1) * D = n / D * D + D := by ring
  have e2 : D * (n / D) = n / D * D := Nat.mul_comm _ _
  rw [e2] at hm
  unfold roundEven
  split_ifs <;> rw [show 2 * (n % D) = n % D + n % D from Nat.two_mul _] at * <;>
    constructor <;> omega

theorem toDouble_some (n d m : Nat) (hm : toDouble n d = some m) :
    m = roundEven (n * doubleOne) (d * 2 ^ (floorLog2 (n * doubleOne / d) - 52)) *
      2 ^ (floorLog2 (n * doubleOne / d) - 52) := by
  unfold toDouble at hm
  dsimp only at hm
  split_ifs at hm
  exact (Option.some.inj hm).symm

/-- The distance of a `double` to the number that it rounds, when the number is below
`2^(e+1)` multiples of `2^-1074`: at most half of `2^(e-52)`. -/
theorem toDouble_near (n d m e : Nat) (hd : 0 < d) (h : n * doubleOne < 2 ^ (e + 1) * d)
    (hm : toDouble n d = some m) :
    2 * (m * d) ≤ 2 * (n * doubleOne) + 2 ^ (e - 52) * d ∧
    2 * (n * doubleOne) ≤ 2 * (m * d) + 2 ^ (e - 52) * d := by
  have hq : n * doubleOne / d < 2 ^ (e + 1) := by
    rw [Nat.div_lt_iff_lt_mul hd]
    exact h
  have hg : floorLog2 (n * doubleOne / d) - 52 ≤ e - 52 := by
    by_cases h0 : n * doubleOne / d = 0
    · rw [h0]
      simp [floorLog2, floorLog2Loop]
    · have : floorLog2 (n * doubleOne / d) < e + 1 := by
        rw [floorLog2_eq, Nat.log2_lt h0]
        exact hq
      omega
  have hmm := toDouble_some n d m hm
  generalize floorLog2 (n * doubleOne / d) - 52 = g at hg hmm
  have hp : 2 ^ g ≤ 2 ^ (e - 52) := Nat.pow_le_pow_right (by norm_num) hg
  obtain ⟨a, b⟩ := roundEven_near (n * doubleOne) (d * 2 ^ g) (Nat.mul_pos hd (Nat.two_pow_pos _))
  have e1 : m * d = roundEven (n * doubleOne) (d * 2 ^ g) * (d * 2 ^ g) := by
    rw [hmm]
    ring
  have e2 : d * 2 ^ g ≤ 2 ^ (e - 52) * d := by
    rw [Nat.mul_comm]
    exact Nat.mul_le_mul_right _ hp
  rw [← e1] at a b
  generalize d * 2 ^ g = D at a b e2
  generalize 2 ^ (e - 52) * d = E at e2 ⊢
  constructor <;> omega

/-- The relative distance of a `double` to the number that it rounds, when the number
is at least `2^52` multiples of `2^-1074`: at most `2^-53`. -/
theorem toDouble_rel (n d m : Nat) (hd : 0 < d) (h : 2 ^ 52 * d ≤ n * doubleOne)
    (hm : toDouble n d = some m) :
    2 ^ 53 * (m * d) ≤ (2 ^ 53 + 1) * (n * doubleOne) ∧
    (2 ^ 53 - 1) * (n * doubleOne) ≤ 2 ^ 53 * (m * d) := by
  have hq : 2 ^ 52 ≤ n * doubleOne / d := (Nat.le_div_iff_mul_le hd).2 h
  have hq0 : n * doubleOne / d ≠ 0 := by
    have : 0 < 2 ^ 52 := Nat.two_pow_pos _
    omega
  have hl := Nat.log2_self_le hq0
  have hl2 : 52 ≤ Nat.log2 (n * doubleOne / d) := (Nat.le_log2 hq0).2 hq
  rw [← floorLog2_eq] at hl hl2
  have hmm := toDouble_some n d m hm
  obtain ⟨g, hg⟩ : ∃ g, floorLog2 (n * doubleOne / d) = g + 52 :=
    ⟨floorLog2 (n * doubleOne / d) - 52, by omega⟩
  rw [hg] at hl hmm
  rw [Nat.add_sub_cancel] at hmm
  have hD : 2 ^ 52 * (d * 2 ^ g) ≤ n * doubleOne := by
    rw [Nat.le_div_iff_mul_le hd] at hl
    calc 2 ^ 52 * (d * 2 ^ g) = 2 ^ (g + 52) * d := by rw [Nat.pow_add]; ring
      _ ≤ n * doubleOne := hl
  obtain ⟨a, b⟩ := roundEven_near (n * doubleOne) (d * 2 ^ g) (Nat.mul_pos hd (Nat.two_pow_pos _))
  have e1 : m * d = roundEven (n * doubleOne) (d * 2 ^ g) * (d * 2 ^ g) := by
    rw [hmm]
    ring
  rw [← e1] at a b
  generalize d * 2 ^ g = D at a b hD
  generalize n * doubleOne = N at a b hD ⊢
  generalize m * d = M at a b ⊢
  norm_num at hD ⊢
  constructor <;> omega

theorem le_toDouble (n d k a m : Nat) (hd : 0 < d) (hk : k < 2 ^ 53)
    (h : k * 2 ^ a * d ≤ n * doubleOne) (hm : toDouble n d = some m) : k * 2 ^ a ≤ m := by
  have hmm := toDouble_some n d m hm
  rcases Nat.lt_or_ge a (floorLog2 (n * doubleOne / d) - 52) with h1 | h1
  · have hq0 : n * doubleOne / d ≠ 0 := by
      intro h0
      rw [h0] at h1
      simp [floorLog2, floorLog2Loop] at h1
    have hl := Nat.log2_self_le hq0
    rw [← floorLog2_eq] at hl
    obtain ⟨g, hg⟩ : ∃ g, floorLog2 (n * doubleOne / d) = g + 52 :=
      ⟨floorLog2 (n * doubleOne / d) - 52, by omega⟩
    rw [hg] at hl hmm h1
    rw [Nat.add_sub_cancel] at hmm h1
    have hr : 2 ^ 52 ≤ roundEven (n * doubleOne) (d * 2 ^ g) := by
      apply le_roundEven _ _ _ (Nat.mul_pos hd (Nat.two_pow_pos _))
      rw [Nat.le_div_iff_mul_le hd] at hl
      calc 2 ^ 52 * (d * 2 ^ g) = 2 ^ (g + 52) * d := by rw [Nat.pow_add]; ring
        _ ≤ n * doubleOne := hl
    rw [hmm]
    calc k * 2 ^ a ≤ 2 ^ 53 * 2 ^ a := Nat.mul_le_mul_right _ (Nat.le_of_lt hk)
      _ = 2 ^ 52 * 2 ^ (a + 1) := by rw [Nat.pow_succ]; ring
      _ ≤ 2 ^ 52 * 2 ^ g := Nat.mul_le_mul_left _ (Nat.pow_le_pow_right (by norm_num) h1)
      _ ≤ roundEven (n * doubleOne) (d * 2 ^ g) * 2 ^ g := Nat.mul_le_mul_right _ hr
  · generalize floorLog2 (n * doubleOne / d) - 52 = g at h1 hmm
    obtain ⟨b, rfl⟩ : ∃ b, a = g + b := ⟨a - g, by omega⟩
    have : k * 2 ^ b ≤ roundEven (n * doubleOne) (d * 2 ^ g) := by
      apply le_roundEven _ _ _ (Nat.mul_pos hd (Nat.two_pow_pos _))
      calc k * 2 ^ b * (d * 2 ^ g) = k * 2 ^ (g + b) * d := by rw [Nat.pow_add]; ring
        _ ≤ n * doubleOne := h
    rw [hmm]
    calc k * 2 ^ (g + b) = k * 2 ^ b * 2 ^ g := by rw [Nat.pow_add]; ring
      _ ≤ roundEven (n * doubleOne) (d * 2 ^ g) * 2 ^ g := Nat.mul_le_mul_right _ this

set_option exponentiation.threshold 3000 in
theorem doubleOne_large : 2 ^ 58 ≤ doubleOne := by
  rw [doubleOne_eq 58 1016 (by norm_num), Nat.mul_comm]
  exact Nat.le_mul_of_pos_right _ (Nat.two_pow_pos _)

/-- An upper bracket of a `double` by a fraction `k / 2^j` of 1.0. -/
theorem toDouble_le_frac (n d k j : Nat) (hd : 0 < d) (hk : k < 2 ^ 53) (hj : j ≤ 1074)
    (h : n * 2 ^ j ≤ k * d) : ∃ m, toDouble n d = some m ∧ m * 2 ^ j ≤ k * doubleOne := by
  have e : doubleOne = 2 ^ j * 2 ^ (1074 - j) := doubleOne_eq (1074 - j) j (by omega)
  obtain ⟨m, h1, h2⟩ := toDouble_le n d k (1074 - j) hd hk (by omega) (by
    calc n * doubleOne = n * 2 ^ j * 2 ^ (1074 - j) := by rw [e]; ring
      _ ≤ k * d * 2 ^ (1074 - j) := Nat.mul_le_mul_right _ h
      _ = k * 2 ^ (1074 - j) * d := by ring)
  refine ⟨m, h1, ?_⟩
  calc m * 2 ^ j ≤ k * 2 ^ (1074 - j) * 2 ^ j := Nat.mul_le_mul_right _ h2
    _ = k * doubleOne := by rw [e]; ring

/-- A lower bracket of a `double` by a fraction `k / 2^j` of 1.0. -/
theorem le_toDouble_frac (n d k j m : Nat) (hd : 0 < d) (hk : k < 2 ^ 53) (hj : j ≤ 1074)
    (h : k * d ≤ n * 2 ^ j) (hm : toDouble n d = some m) : k * doubleOne ≤ m * 2 ^ j := by
  have e : doubleOne = 2 ^ j * 2 ^ (1074 - j) := doubleOne_eq (1074 - j) j (by omega)
  have h2 := le_toDouble n d k (1074 - j) m hd hk (by
    calc k * 2 ^ (1074 - j) * d = k * d * 2 ^ (1074 - j) := by ring
      _ ≤ n * 2 ^ j * 2 ^ (1074 - j) := Nat.mul_le_mul_right _ h
      _ = n * doubleOne := by rw [e]; ring) hm
  calc k * doubleOne = k * 2 ^ (1074 - j) * 2 ^ j := by rw [e]; ring
    _ ≤ m * 2 ^ j := Nat.mul_le_mul_right _ h2

set_option exponentiation.threshold 3000 in
theorem toDouble_none (n d : Nat) (hd : 0 < d) (h : toDouble n d = none) : 2 ^ 27 * d < n := by
  by_contra hc
  have h1 : n * doubleOne ≤ 1 * 2 ^ 2045 * d := by
    have e : (2 : Nat) ^ 2045 = 2 ^ 971 * doubleOne := by
      unfold doubleOne
      exact Nat.pow_add 2 971 1074
    have e7 : (2 : Nat) ^ 27 ≤ 2 ^ 971 := Nat.pow_le_pow_right (by norm_num) (by norm_num)
    rw [e]
    calc n * doubleOne ≤ 2 ^ 27 * d * doubleOne := Nat.mul_le_mul_right _ (Nat.le_of_not_lt hc)
      _ ≤ 2 ^ 971 * d * doubleOne :=
          Nat.mul_le_mul_right _ (Nat.mul_le_mul_right _ e7)
      _ = 1 * (2 ^ 971 * doubleOne) * d := by ring
  obtain ⟨m, h2, _⟩ := toDouble_le n d 1 2045 hd (by norm_num) (by norm_num) h1
  rw [h] at h2
  exact absurd h2 (by simp)

theorem roundHalfUp_eq (a b k : Nat) (h1 : 2 * (k * b) ≤ 2 * a + b)
    (h2 : 2 * a + b < 2 * (k * b) + 2 * b) : roundHalfUp a b = k := by
  unfold roundHalfUp
  apply Nat.div_eq_of_lt_le
  · calc k * (2 * b) = 2 * (k * b) := by ring
      _ ≤ 2 * a + b := h1
  · calc 2 * a + b < 2 * (k * b) + 2 * b := h2
      _ = (k + 1) * (2 * b) := by ring

theorem tempo_round (a b k : Nat) (hb : 0 < b)
    (hlo : 2 ^ 20 * k * b + b ≤ 2 ^ 20 * a + 2 ^ 19 * b)
    (hhi : 2 ^ 20 * a + b ≤ 2 ^ 20 * k * b + 2 ^ 19 * b) :
    roundHalfUp a b = k := by
  have e : 2 ^ 20 * k * b = 2 ^ 20 * (k * b) := by ring
  rw [e] at hlo hhi
  apply roundHalfUp_eq
  · generalize k * b = P at hlo hhi ⊢
    omega
  · generalize k * b = P at hlo hhi ⊢
    omega

theorem bend_round (a b k : Nat) (hb : 0 < b)
    (hlo : 2 ^ 32 * k * b + b ≤ 2 ^ 32 * a + 2 ^ 31 * b)
    (hhi : 2 ^ 32 * a + b ≤ 2 ^ 32 * k * b + 2 ^ 31 * b) :
    roundHalfUp a b = k := by
  have e : 2 ^ 32 * k * b = 2 ^ 32 * (k * b) := by ring
  rw [e] at hlo hhi
  apply roundHalfUp_eq
  · generalize k * b = P at hlo hhi ⊢
    omega
  · generalize k * b = P at hlo hhi ⊢
    omega

theorem tempo_upper (n d m u k K : Nat) (hk : k < 2 ^ 31) (hd : 0 < d)
    (hK : K + 1 = (2 * k + 1) * 2 ^ 21)
    (hE : (2 ^ 53 - 1) * (n * u) ≤ 2 ^ 53 * (m * d))
    (hhi : 2 ^ 20 * (60000000 * d) + n ≤ 2 ^ 20 * k * n + 2 ^ 19 * n) :
    60000000 * 2 ^ 22 * u ≤ K * m := by
  have h3 : (2 ^ 20 * (60000000 * d) + n) * u ≤ (2 ^ 20 * k * n + 2 ^ 19 * n) * u :=
    Nat.mul_le_mul_right _ hhi
  have hKz : (K : Int) = (2 * k + 1) * 2 ^ 21 - 1 := by
    have : ((K + 1 : Nat) : Int) = (((2 * k + 1) * 2 ^ 21 : Nat) : Int) := by rw [hK]
    push_cast at this
    linarith
  have hE2 : ((2 : Int) ^ 53 - 1) * (n * u) ≤ 2 ^ 53 * (m * d) := by
    have := Int.ofNat_le.2 hE
    rw [Nat.cast_mul, Nat.cast_mul, Nat.cast_mul, Nat.cast_mul, Nat.cast_sub (by norm_num)] at this
    exact_mod_cast this
  have h3z : ((2 : Int) ^ 20 * (60000000 * d) + n) * u ≤ (2 ^ 20 * k * n + 2 ^ 19 * n) * u := by
    exact_mod_cast h3
  have hkz : (k : Int) < 2 ^ 31 := by exact_mod_cast hk
  have hdz : (0 : Int) < d := by exact_mod_cast hd
  have key : (60000000 * 2 ^ 22 * (u : Int)) * (2 ^ 53 * d) ≤ (K * m) * (2 ^ 53 * d) := by
    have p1 : 0 ≤ (K : Int) * (2 ^ 53 * (m * d) - (2 ^ 53 - 1) * (n * u)) :=
      mul_nonneg (by exact_mod_cast Nat.zero_le K) (by linarith)
    have p2 : 0 ≤ ((2 : Int) ^ 55 - 2 ^ 53 - 2 ^ 22 * k - 2 ^ 21 + 1) * ((n : Int) * u) :=
      mul_nonneg (by norm_num; linarith)
        (mul_nonneg (by exact_mod_cast Nat.zero_le n) (by exact_mod_cast Nat.zero_le u))
    rw [hKz] at p1 ⊢
    nlinarith [p1, p2, h3z]
  have key2 := le_of_mul_le_mul_right key (by positivity)
  exact_mod_cast key2

theorem tempo_lower (n d m u k : Nat) (hk : k < 2 ^ 31) (hd : 0 < d) (hk1 : 1 ≤ k)
    (hE : 2 ^ 53 * (m * d) ≤ (2 ^ 53 + 1) * (n * u))
    (hlo : 2 ^ 20 * k * n + n ≤ 2 ^ 20 * (60000000 * d) + 2 ^ 19 * n) :
    (2 * k - 1) * m ≤ 2 * 60000000 * u := by
  have h3 : (2 ^ 20 * k * n + n) * u ≤ (2 ^ 20 * (60000000 * d) + 2 ^ 19 * n) * u :=
    Nat.mul_le_mul_right _ hlo
  have hKz : ((2 * k - 1 : Nat) : Int) = 2 * k - 1 := by
    rw [Nat.cast_sub (by omega)]
    push_cast
    rfl
  have hE2 : (2 : Int) ^ 53 * (m * d) ≤ (2 ^ 53 + 1) * (n * u) := by exact_mod_cast hE
  have h3z : ((2 : Int) ^ 20 * k * n + n) * u ≤ (2 ^ 20 * (60000000 * d) + 2 ^ 19 * n) * u := by
    exact_mod_cast h3
  have hkz : (k : Int) < 2 ^ 31 := by exact_mod_cast hk
  have hk1z : (1 : Int) ≤ k := by exact_mod_cast hk1
  have hdz : (0 : Int) < d := by exact_mod_cast hd
  have key : (((2 * k - 1 : Nat) : Int) * m) * (2 ^ 53 * d) ≤
      (2 * 60000000 * (u : Int)) * (2 ^ 53 * d) := by
    have p1 : 0 ≤ (2 * (k : Int) - 1) * ((2 ^ 53 + 1) * (n * u) - 2 ^ 53 * (m * d)) :=
      mul_nonneg (by linarith) (by linarith)
    have p2 : 0 ≤ ((2 : Int) ^ 34 - 2 * k + 1) * ((n : Int) * u) :=
      mul_nonneg (by norm_num; linarith)
        (mul_nonneg (by exact_mod_cast Nat.zero_le n) (by exact_mod_cast Nat.zero_le u))
    rw [hKz]
    nlinarith [p1, p2, h3z]
  have key2 := le_of_mul_le_mul_right key (by positivity)
  exact_mod_cast key2

set_option exponentiation.threshold 3000 in
/-- The distance of a `double` to the number that it rounds, when the number is below
`2^i`: at most `2^(i-54)`. -/
theorem toDouble_abs (n d m i : Nat) (hd : 0 < d) (h : n < 2 ^ i * d)
    (hm : toDouble n d = some m) :
    2 ^ 54 * (m * d) ≤ 2 ^ 54 * (n * doubleOne) + 2 ^ i * (doubleOne * d) ∧
    2 ^ 54 * (n * doubleOne) ≤ 2 ^ 54 * (m * d) + 2 ^ i * (doubleOne * d) := by
  have e0 : (2 : Nat) ^ (1073 + i + 1) = 2 ^ i * doubleOne := by
    unfold doubleOne
    rw [← Nat.pow_add]
    exact congrArg _ (by omega)
  have e1 : 2 ^ 53 * (2 ^ (1073 + i - 52) * d) = 2 ^ i * (doubleOne * d) := by
    have : 2 ^ 53 * 2 ^ (1073 + i - 52) = 2 ^ i * doubleOne := by
      unfold doubleOne
      rw [← Nat.pow_add, ← Nat.pow_add]
      exact congrArg _ (by omega)
    rw [← Nat.mul_assoc, this, Nat.mul_assoc]
  have h1 : n * doubleOne < 2 ^ (1073 + i + 1) * d := by
    rw [e0]
    calc n * doubleOne < 2 ^ i * d * doubleOne := Nat.mul_lt_mul_of_pos_right h doubleOne_pos
      _ = 2 ^ i * doubleOne * d := by ring
  obtain ⟨a, b⟩ := toDouble_near n d m (1073 + i) hd h1 hm
  clear e0 h1 hm h
  generalize 2 ^ (1073 + i - 52) * d = P at a b e1
  generalize 2 ^ i * (doubleOne * d) = Q at e1 ⊢
  generalize m * d = M at a b ⊢
  generalize n * doubleOne = N at a b ⊢
  constructor <;> omega

set_option exponentiation.threshold 3000 in
theorem toDouble_zero (d : Nat) (hd : 0 < d) : toDouble 0 d = some 0 := by
  have h : (0 : Nat) < 2 ^ 1024 * doubleOne := Nat.mul_pos (Nat.two_pow_pos _) doubleOne_pos
  unfold toDouble
  simp only [Nat.zero_mul, Nat.zero_div]
  have e : floorLog2 0 - 52 = 0 := by simp [floorLog2, floorLog2Loop]
  rw [e]
  have e2 : roundEven 0 (d * 2 ^ 0) = 0 := by
    unfold roundEven
    simp [hd]
  rw [e2, Nat.zero_mul, if_pos h]

theorem bend_arg (neg : Bool) (n d m u : Nat) (hn : n ≤ d) (hm : m ≤ u)
    (a : 2 ^ 54 * (m * d) ≤ 2 ^ 54 * (n * u) + 2 ^ 0 * (u * d))
    (b : 2 ^ 54 * (n * u) ≤ 2 ^ 54 * (m * d) + 2 ^ 0 * (u * d)) :
    2 ^ 54 * ((if neg = true then u - m else u + m) * d) ≤
      2 ^ 54 * ((if neg = true then d - n else d + n) * u) + u * d ∧
    2 ^ 54 * ((if neg = true then d - n else d + n) * u) ≤
      2 ^ 54 * ((if neg = true then u - m else u + m) * d) + u * d := by
  have h1 : n * u ≤ d * u := Nat.mul_le_mul_right _ hn
  have h2 : m * d ≤ u * d := Nat.mul_le_mul_right _ hm
  have e : d * u = u * d := Nat.mul_comm _ _
  cases neg
  · simp only [Bool.false_eq_true, if_false, Nat.add_mul, e]
    generalize n * u = N at a b h1 ⊢
    generalize m * d = M at a b h2 ⊢
    generalize u * d = U at *
    constructor <;> omega
  · simp only [if_true, Nat.sub_mul, e]
    rw [e] at h1
    generalize n * u = N at a b h1 ⊢
    generalize m * d = M at a b h2 ⊢
    generalize u * d = U at *
    constructor <;> omega

theorem bend_bounds (A B d s u k K : Nat) (hd : 0 < d) (hu : 0 < u) (hk : k ≤ 16383)
    (hK : K + 1 = (2 * k + 1) * 2 ^ 32)
    (a : 2 ^ 54 * (B * d) ≤ 2 ^ 54 * (A * u) + u * d)
    (b : 2 ^ 54 * (A * u) ≤ 2 ^ 54 * (B * d) + u * d)
    (a2 : 2 ^ 54 * (s * u) ≤ 2 ^ 54 * (B * u) + 2 ^ 2 * (u * u))
    (b2 : 2 ^ 54 * (B * u) ≤ 2 ^ 54 * (s * u) + 2 ^ 2 * (u * u))
    (hlo : 2 ^ 32 * k * (2 * d) + 2 * d ≤ 2 ^ 32 * (16383 * A) + 2 ^ 31 * (2 * d))
    (hhi : 2 ^ 32 * (16383 * A) + 2 * d ≤ 2 ^ 32 * k * (2 * d) + 2 ^ 31 * (2 * d)) :
    16383 * s * 2 ^ 33 ≤ K * (2 * u) ∧ (1 ≤ k → (2 * k - 1) * (2 * u) ≤ 16383 * s * 2 ^ 1) := by
  have c1 : 2 ^ 54 * s ≤ 2 ^ 54 * B + 4 * u := by
    apply Nat.le_of_mul_le_mul_right _ hu
    calc 2 ^ 54 * s * u = 2 ^ 54 * (s * u) := by ring
      _ ≤ 2 ^ 54 * (B * u) + 2 ^ 2 * (u * u) := a2
      _ = (2 ^ 54 * B + 4 * u) * u := by ring
  have c2 : 2 ^ 54 * B ≤ 2 ^ 54 * s + 4 * u := by
    apply Nat.le_of_mul_le_mul_right _ hu
    calc 2 ^ 54 * B * u = 2 ^ 54 * (B * u) := by ring
      _ ≤ 2 ^ 54 * (s * u) + 2 ^ 2 * (u * u) := b2
      _ = (2 ^ 54 * s + 4 * u) * u := by ring
  have d1 : 2 ^ 54 * (s * d) ≤ 2 ^ 54 * (B * d) + 4 * (u * d) := by
    calc 2 ^ 54 * (s * d) = 2 ^ 54 * s * d := by ring
      _ ≤ (2 ^ 54 * B + 4 * u) * d := Nat.mul_le_mul_right _ c1
      _ = 2 ^ 54 * (B * d) + 4 * (u * d) := by ring
  have d2 : 2 ^ 54 * (B * d) ≤ 2 ^ 54 * (s * d) + 4 * (u * d) := by
    calc 2 ^ 54 * (B * d) = 2 ^ 54 * B * d := by ring
      _ ≤ (2 ^ 54 * s + 4 * u) * d := Nat.mul_le_mul_right _ c2
      _ = 2 ^ 54 * (s * d) + 4 * (u * d) := by ring
  have m1 : 2 ^ 32 * (2 * (k * (u * d))) + 2 * (u * d) ≤
      2 ^ 32 * (16383 * (A * u)) + 2 ^ 31 * (2 * (u * d)) := by
    calc 2 ^ 32 * (2 * (k * (u * d))) + 2 * (u * d)
        = (2 ^ 32 * k * (2 * d) + 2 * d) * u := by ring
      _ ≤ (2 ^ 32 * (16383 * A) + 2 ^ 31 * (2 * d)) * u := Nat.mul_le_mul_right _ hlo
      _ = 2 ^ 32 * (16383 * (A * u)) + 2 ^ 31 * (2 * (u * d)) := by ring
  have m2 : 2 ^ 32 * (16383 * (A * u)) + 2 * (u * d) ≤
      2 ^ 32 * (2 * (k * (u * d))) + 2 ^ 31 * (2 * (u * d)) := by
    calc 2 ^ 32 * (16383 * (A * u)) + 2 * (u * d)
        = (2 ^ 32 * (16383 * A) + 2 * d) * u := by ring
      _ ≤ (2 ^ 32 * k * (2 * d) + 2 ^ 31 * (2 * d)) * u := Nat.mul_le_mul_right _ hhi
      _ = 2 ^ 32 * (2 * (k * (u * d))) + 2 ^ 31 * (2 * (u * d)) := by ring
  have eK : K * (u * d) + u * d = 2 ^ 33 * (k * (u * d)) + 2 ^ 32 * (u * d) := by
    calc K * (u * d) + u * d = (K + 1) * (u * d) := by ring
      _ = (2 * k + 1) * 2 ^ 32 * (u * d) := by rw [hK]
      _ = 2 ^ 33 * (k * (u * d)) + 2 ^ 32 * (u * d) := by ring
  constructor
  · have g : (16383 * s * 2 ^ 33) * d ≤ (K * (2 * u)) * d := by
      have e1 : (16383 * s * 2 ^ 33) * d = 16383 * 2 ^ 33 * (s * d) := by ring
      have e2 : (K * (2 * u)) * d = 2 * (K * (u * d)) := by ring
      rw [e1, e2]
      clear a2 b2 c1 c2 hlo hhi e1 e2 hK
      generalize K * (u * d) = KU at eK ⊢
      generalize k * (u * d) = kU at *
      generalize s * d = S at *
      generalize B * d = Bd at *
      generalize A * u = Au at *
      generalize u * d = U at *
      omega
    exact Nat.le_of_mul_le_mul_right g hd
  · intro hk1
    have g : ((2 * k - 1) * (2 * u)) * d ≤ (16383 * s * 2 ^ 1) * d := by
      have e1 : ((2 * k - 1) * (2 * u)) * d + 2 * (u * d) = 4 * (k * (u * d)) := by
        obtain ⟨j, rfl⟩ : ∃ j, k = j + 1 := ⟨k - 1, by omega⟩
        have : 2 * (j + 1) - 1 = 2 * j + 1 := by omega
        rw [this]
        ring
      have e2 : (16383 * s * 2 ^ 1) * d = 16383 * 2 * (s * d) := by ring
      rw [e2]
      clear a2 b2 c1 c2 hlo hhi e2 hK eK
      generalize (2 * k - 1) * (2 * u) * d = L at e1 ⊢
      generalize k * (u * d) = kU at *
      generalize s * d = S at *
      generalize B * d = Bd at *
      generalize A * u = Au at *
      generalize u * d = U at *
      omega
    exact Nat.le_of_mul_le_mul_right g hd

/-- The last addition of one half and the conversion to `int`: when the `double` `p`
is between `k - 1/2` and `k + 1/2 - 2^-(j+1)`, the integer part of the `double`
`p + 0.5` is `k`. -/
theorem addHalf_exact (p k K j : Nat) (hj : j + 1 ≤ 1074) (hk : (k + 1) * 2 ^ (j + 1) ≤ 2 ^ 53)
    (hK : K + 1 = (2 * k + 1) * 2 ^ j) (hp : p * 2 ^ (j + 1) ≤ K * doubleOne)
    (hl : 1 ≤ k → (2 * k - 1) * doubleOne ≤ p * 2 ^ 1) :
    ∃ r, toDouble (2 * p + doubleOne) (2 * doubleOne) = some r ∧ r / doubleOne = k := by
  have hu := doubleOne_pos
  have hT : 0 < 2 ^ (j + 1) := Nat.two_pow_pos _
  have eT : 2 ^ (j + 1) = 2 * 2 ^ j := by rw [Nat.pow_succ, Nat.mul_comm]
  have h0 : 0 < (k + 1) * 2 ^ (j + 1) := Nat.mul_pos (Nat.succ_pos _) hT
  obtain ⟨K2, hK2⟩ : ∃ K2, K2 + 1 = (k + 1) * 2 ^ (j + 1) :=
    ⟨(k + 1) * 2 ^ (j + 1) - 1, by omega⟩
  have hK253 : K2 < 2 ^ 53 := by omega
  have e8 : 2 * (K * doubleOne) + 2 ^ (j + 1) * doubleOne = 2 * (K2 * doubleOne) := by
    have : 2 * K + 2 ^ (j + 1) = 2 * K2 := by
      have e1 : (2 * k + 1) * 2 ^ j = 2 * (k * 2 ^ j) + 2 ^ j := by ring
      have e2 : (k + 1) * 2 ^ (j + 1) = 2 * (k * 2 ^ j) + 2 * 2 ^ j := by rw [eT]; ring
      rw [e1] at hK
      rw [e2] at hK2
      rw [eT]
      clear e1 e2 hK253 h0 hk hp hT eT
      generalize k * 2 ^ j = P at hK hK2
      generalize 2 ^ j = Q at hK hK2 ⊢
      omega
    calc 2 * (K * doubleOne) + 2 ^ (j + 1) * doubleOne
        = (2 * K + 2 ^ (j + 1)) * doubleOne := by ring
      _ = 2 * (K2 * doubleOne) := by rw [this]; ring
  obtain ⟨r, hr, br⟩ := toDouble_le_frac (2 * p + doubleOne) (2 * doubleOne) K2 (j + 1)
    (Nat.mul_pos (by norm_num) hu) hK253 hj (by
      have e9 : K2 * (2 * doubleOne) = 2 * (K2 * doubleOne) := by ring
      have e10 : (2 * p + doubleOne) * 2 ^ (j + 1) =
          2 * (p * 2 ^ (j + 1)) + 2 ^ (j + 1) * doubleOne := by ring
      rw [e9, e10, ← e8]
      exact Nat.add_le_add_right (Nat.mul_le_mul_left _ hp) _)
  have hru : r < (k + 1) * doubleOne := by
    have e11 : (k + 1) * doubleOne * 2 ^ (j + 1) = K2 * doubleOne + doubleOne := by
      calc (k + 1) * doubleOne * 2 ^ (j + 1) = (k + 1) * 2 ^ (j + 1) * doubleOne := by ring
        _ = (K2 + 1) * doubleOne := by rw [hK2]
        _ = K2 * doubleOne + doubleOne := by ring
    have : r * 2 ^ (j + 1) < (k + 1) * doubleOne * 2 ^ (j + 1) := by
      rw [e11]
      exact Nat.lt_of_le_of_lt br (Nat.lt_add_of_pos_right hu)
    exact Nat.lt_of_mul_lt_mul_right this
  have hrl : k * doubleOne ≤ r := by
    rcases Nat.eq_zero_or_pos k with h0 | h1
    · rw [h0, Nat.zero_mul]
      exact Nat.zero_le _
    · have lq := hl h1
      have e12 : (2 * k - 1) * doubleOne + doubleOne = 2 * (k * doubleOne) := by
        obtain ⟨i, rfl⟩ : ∃ i, k = i + 1 := ⟨k - 1, by omega⟩
        have : 2 * (i + 1) - 1 = 2 * i + 1 := by omega
        rw [this]
        ring
      have hk53 : k < 2 ^ 53 := by
        have : k + 1 ≤ (k + 1) * 2 ^ (j + 1) := Nat.le_mul_of_pos_right _ hT
        omega
      have lr := le_toDouble_frac (2 * p + doubleOne) (2 * doubleOne) k 0 r
        (Nat.mul_pos (by norm_num) hu) hk53 (by norm_num) (by
          have e13 : k * (2 * doubleOne) = 2 * (k * doubleOne) := by ring
          rw [e13, ← e12, pow_zero, Nat.mul_one]
          rw [pow_one] at lq
          have := Nat.add_le_add_right lq doubleOne
          calc (2 * k - 1) * doubleOne + doubleOne ≤ p * 2 + doubleOne := this
            _ = 2 * p + doubleOne := by ring) hr
      rw [pow_zero, Nat.mul_one] at lr
      exact lr
  exact ⟨r, hr, Nat.div_eq_of_lt_le hrl hru⟩

set_option maxRecDepth 100000 in
theorem tempoDouble_infinity : doubleToInt (tempoDouble none) = some 0 := by decide!

/-- The double computation of the tempo gives the integer nearest to `60000000 * d / n`
when this quotient is at least `2^-20` away from the middle of two integers and the
integer is below `2^31`. -/
theorem tempoDouble_exact (n d k : Nat) (hd : 0 < d) (hn : 0 < n) (hk : k < 2 ^ 31)
    (hlo : 2 ^ 20 * k * n + n ≤ 2 ^ 20 * (60000000 * d) + 2 ^ 19 * n)
    (hhi : 2 ^ 20 * (60000000 * d) + n ≤ 2 ^ 20 * k * n + 2 ^ 19 * n) :
    doubleToInt (tempoDouble (toDouble n d)) = some k := by
  cases hm : toDouble n d with
  | none =>
    have h2 := toDouble_none n d hd hm
    have hk0 : k = 0 := by
      by_contra hk0
      have h4 : 1 * n ≤ k * n := Nat.mul_le_mul_right _ (Nat.pos_of_ne_zero hk0)
      have e : 2 ^ 20 * k * n = 2 ^ 20 * (k * n) := by ring
      rw [e] at hlo
      generalize k * n = P at hlo h4
      omega
    rw [hk0]
    exact tempoDouble_infinity
  | some m =>
    have h52 : 2 ^ 52 * d ≤ n * doubleOne := by
      have e : 2 ^ 20 * k * n = 2 ^ 20 * (k * n) := by ring
      have h4 : k * n ≤ 2 ^ 31 * n := Nat.mul_le_mul_right _ (Nat.le_of_lt hk)
      have h5 : d ≤ 2 ^ 6 * n := by
        rw [e] at hhi
        generalize k * n = P at hhi h4
        omega
      calc 2 ^ 52 * d ≤ 2 ^ 52 * (2 ^ 6 * n) := Nat.mul_le_mul_left _ h5
        _ = n * 2 ^ 58 := by ring
        _ ≤ n * doubleOne := Nat.mul_le_mul_left _ doubleOne_large
    obtain ⟨E1, E2⟩ := toDouble_rel n d m hd h52 hm
    have hm0 : 0 < m := by
      rcases Nat.eq_zero_or_pos m with h | h
      · rw [h, Nat.zero_mul, Nat.mul_zero] at E2
        have : 0 < n * doubleOne := Nat.mul_pos hn doubleOne_pos
        clear E1 h52 hm
        generalize n * doubleOne = X at E2 this
        omega
      · exact h
    obtain ⟨K, hK⟩ : ∃ K, K + 1 = (2 * k + 1) * 2 ^ 21 := ⟨(2 * k + 1) * 2 ^ 21 - 1, by omega⟩
    have hK53 : K < 2 ^ 53 := by omega
    have A := tempo_upper n d m doubleOne k K hk hd hK E2 hhi
    obtain ⟨q, hq, bq⟩ := toDouble_le_frac (60000000 * doubleOne) m K 22 hm0 hK53 (by norm_num)
      (by
        calc 60000000 * doubleOne * 2 ^ 22 = 60000000 * 2 ^ 22 * doubleOne := by ring
          _ ≤ K * m := A)
    obtain ⟨r, hr, hdiv⟩ := addHalf_exact q k K 21 (by norm_num) (by omega) hK bq (fun h1 =>
      le_toDouble_frac (60000000 * doubleOne) m (2 * k - 1) 1 q hm0 (by omega) (by norm_num) (by
        calc (2 * k - 1) * m ≤ 2 * 60000000 * doubleOne :=
              tempo_lower n d m doubleOne k hk hd h1 E1 hlo
          _ = 60000000 * doubleOne * 2 ^ 1 := by ring) hq)
    have e1 : tempoDouble (some m) = (toDouble (60000000 * doubleOne) m).bind fun q =>
        toDouble (2 * q + doubleOne) (2 * doubleOne) := by
      rw [tempoDouble, if_neg (Nat.pos_iff_ne_zero.1 hm0)]
    rw [e1, hq, Option.some_bind, hr]
    unfold doubleToInt
    rw [Option.some_bind, hdiv, if_pos hk]

/-- The double computation of the pitch bend gives the integer nearest to
`16383 * A / (2 * d)`, for `A / d` the number `1 + x` or `1 - x` and `x = n / d` below
1, when this quotient is at least `2^-32` away from the middle of two integers. -/
theorem bendDouble_exact (neg : Bool) (n d k : Nat) (hd : 0 < d) (hn : n < d)
    (hlo : 2 ^ 32 * k * (2 * d) + 2 * d ≤
      2 ^ 32 * (16383 * (if neg = true then d - n else d + n)) + 2 ^ 31 * (2 * d))
    (hhi : 2 ^ 32 * (16383 * (if neg = true then d - n else d + n)) + 2 * d ≤
      2 ^ 32 * k * (2 * d) + 2 ^ 31 * (2 * d)) :
    doubleToInt (bendDouble neg (clampToOne (toDouble n d))) = some k := by
  have hu := doubleOne_pos
  have hk : k ≤ 16383 := by
    have hA : (if neg = true then d - n else d + n) ≤ 2 * d := by
      split_ifs <;> omega
    have e : 2 ^ 32 * k * (2 * d) = 2 ^ 33 * (k * d) := by ring
    rw [e] at hlo
    by_contra hc
    have : 16384 * d ≤ k * d := Nat.mul_le_mul_right _ (by omega)
    clear hhi hu
    generalize (if neg = true then d - n else d + n) = A at hlo hA
    generalize k * d = P at hlo this
    omega
  obtain ⟨m, hm, bm⟩ := toDouble_le_frac n d 1 0 hd (by norm_num) (by norm_num) (by
    rw [pow_zero, Nat.mul_one, Nat.one_mul]
    exact Nat.le_of_lt hn)
  rw [pow_zero, Nat.mul_one, Nat.one_mul] at bm
  have hc : clampToOne (toDouble n d) = m := by
    rw [hm]
    simp only [clampToOne]
    rw [if_neg (Nat.not_lt.2 bm)]
  obtain ⟨a, b⟩ := toDouble_abs n d m 0 hd (by rw [pow_zero, Nat.one_mul]; exact hn) hm
  obtain ⟨a1, b1⟩ := bend_arg neg n d m doubleOne (Nat.le_of_lt hn) bm a b
  have hB : (if neg = true then doubleOne - m else doubleOne + m) ≤ 2 * doubleOne := by
    split_ifs
    · exact Nat.le_trans (Nat.sub_le _ _) (Nat.le_mul_of_pos_left _ (by norm_num))
    · rw [Nat.two_mul]
      exact Nat.add_le_add_left bm _
  obtain ⟨s, hs, _⟩ := toDouble_le_frac (if neg = true then doubleOne - m else doubleOne + m)
    doubleOne 2 0 hu (by norm_num) (by norm_num) (by
      rw [pow_zero, Nat.mul_one]
      exact hB)
  obtain ⟨a2, b2⟩ := toDouble_abs (if neg = true then doubleOne - m else doubleOne + m)
    doubleOne s 2 hu (by
      calc (if neg = true then doubleOne - m else doubleOne + m) ≤ 2 * doubleOne := hB
        _ < 2 ^ 2 * doubleOne := Nat.mul_lt_mul_of_pos_right (by norm_num) hu) hs
  obtain ⟨K, hK⟩ : ∃ K, K + 1 = (2 * k + 1) * 2 ^ 32 := ⟨(2 * k + 1) * 2 ^ 32 - 1, by omega⟩
  have hK53 : K < 2 ^ 53 := by omega
  obtain ⟨U1, L1⟩ := bend_bounds (if neg = true then d - n else d + n)
    (if neg = true then doubleOne - m else doubleOne + m) d s doubleOne k K hd hu hk hK
    a1 b1 a2 b2 hlo hhi
  obtain ⟨p, hp, bp⟩ := toDouble_le_frac (16383 * s) (2 * doubleOne) K 33
    (Nat.mul_pos (by norm_num) hu) hK53 (by norm_num) U1
  obtain ⟨r, hr, hdiv⟩ := addHalf_exact p k K 32 (by norm_num) (by omega) hK bp (fun h1 =>
    le_toDouble_frac (16383 * s) (2 * doubleOne) (2 * k - 1) 1 p
      (Nat.mul_pos (by norm_num) hu) (by omega) (by norm_num) (L1 h1) hp)
  rw [hc]
  unfold bendDouble doubleToInt
  rw [hs, Option.some_bind, hp, Option.some_bind, hr, Option.some_bind, hdiv,
    if_pos (Nat.lt_of_le_of_lt hk (by norm_num))]

/-! ## C16: the tempo word -/

theorem tempoIeee_minus (x : List Nat) (hx : isdigit (x.getD 0 0) = true ∨ x.getD 0 0 = 46) :
    tempoIeee (45 :: x) = tempoIeee x := by
  cases x with
  | nil => simp [isdigit] at hx
  | cons a t =>
    have h45 : a ≠ 45 := by
      rintro rfl
      simp [isdigit] at hx
    have h43 : a ≠ 43 := by
      rintro rfl
      simp [isdigit] at hx
    unfold tempoIeee strtodDecimal
    simp only [List.head?_cons, Option.some.injEq, h45, h43, or_self, if_false, true_or, if_true,
      List.drop_succ_cons, List.drop_zero]
    split_ifs <;> rfl

theorem doubleToInt_lt (x : Option Nat) (v : Nat) (h : doubleToInt x = some v) : v < 2 ^ 31 := by
  unfold doubleToInt at h
  cases x with
  | none => simp at h
  | some r =>
    rw [Option.some_bind] at h
    split_ifs at h with h1
    simp only [Option.some.injEq] at h
    omega

theorem tempoIeee_lt (s : List Nat) (v : Nat) (h : tempoIeee s = some v) : v < 2 ^ 31 := by
  unfold tempoIeee at h
  cases hp : strtodDecimal s with
  | none => rw [hp] at h; simp at h
  | some p =>
    rw [hp, Option.some_bind] at h
    exact doubleToInt_lt _ v h

theorem strtodDecimal_head (s : List Nat) (h : strtodDecimal s ≠ none) :
    isdigit (s.getD 0 0) = true ∨ s.getD 0 0 = 46 ∨ s.getD 0 0 = 45 ∨ s.getD 0 0 = 43 := by
  cases s with
  | nil => exact absurd (by decide) h
  | cons a t =>
    simp only [List.getD_cons_zero]
    by_contra hc
    simp only [not_or] at hc
    obtain ⟨h1, h2, h3, h4⟩ := hc
    apply h
    unfold strtodDecimal
    simp [h1, h2, h3, h4]

theorem shift_mask (n : Nat) (i k : Nat) : (n >>> i) &&& (2 ^ k - 1) = n / 2 ^ i % 2 ^ k := by
  rw [Nat.and_pow_two_sub_one_eq_mod, Nat.shiftRight_eq_div_pow]

theorem processMidiTempoWord_bytes (F : FloatOps) (out x : List Nat)
    (hx : isdigit (x.getD 0 0) = true ∨ x.getD 0 0 = 46 ∨ x.getD 0 0 = 45 ∨ x.getD 0 0 = 43) :
    processMidiTempoWord F out (116 :: x) =
      (1, out ++ base256 3 (F.tempoInt x % 2 ^ 24).toNat) := by
  have hne : x ≠ [] := by
    rintro rfl
    simp [isdigit] at hx
  have hl : ¬ (116 :: x).length < 2 := by
    cases x with
    | nil => exact absurd rfl hne
    | cons a t => simp
  have hc : (isdigit (x.getD 0 0) || decide (x.getD 0 0 = 46) || decide (x.getD 0 0 = 45) ||
      decide (x.getD 0 0 = 43)) = true := by
    generalize x.getD 0 0 = c at hx
    rcases hx with h | h | h | h <;> simp [h]
  unfold processMidiTempoWord
  simp only [hl, if_false, List.getD_cons_succ, hc, Bool.not_true, Bool.false_eq_true,
    List.drop_succ_cons, List.drop_zero, base256_three]
  have m0 := shift_mask (F.tempoInt x % 2 ^ 32).toNat 0 8
  have m1 := shift_mask (F.tempoInt x % 2 ^ 32).toNat 8 8
  have m2 := shift_mask (F.tempoInt x % 2 ^ 32).toNat 16 8
  simp only [Nat.shiftRight_zero, pow_zero, Nat.div_one] at m0
  rw [show (0xff : Nat) = 2 ^ 8 - 1 by norm_num, m0, m1, m2]
  refine congrArg (fun l => (1, out ++ l)) ?_
  have e0 : (F.tempoInt x % 2 ^ 32).toNat % 2 ^ 8 = (F.tempoInt x % 2 ^ 24).toNat % 256 := by
    omega
  have e1 : (F.tempoInt x % 2 ^ 32).toNat / 2 ^ 8 % 2 ^ 8 =
      (F.tempoInt x % 2 ^ 24).toNat / 256 % 256 := by omega
  have e2 : (F.tempoInt x % 2 ^ 32).toNat / 2 ^ 16 % 2 ^ 8 =
      (F.tempoInt x % 2 ^ 24).toNat / 65536 % 256 := by omega
  rw [e0, e1, e2]

theorem binary64_ieee : FloatOps.binary64.ieee := by
  constructor
  · intro s v h
    show (((tempoIeee s).getD 0 : Nat) : Int) = v
    rw [h]
    rfl
  · intro s v h
    show (((bendIeee s).getD 0 : Nat) : Int) = v
    rw [h]
    rfl

theorem processMidiTempoWord_model (F : FloatOps) (hF : F.ieee) (out x : List Nat) (v : Nat)
    (hx : isdigit (x.getD 0 0) = true ∨ x.getD 0 0 = 46 ∨ x.getD 0 0 = 45 ∨ x.getD 0 0 = 43)
    (hv : tempoIeee x = some v) :
    processMidiTempoWord F out (116 :: x) = (1, out ++ base256 3 (v % 2 ^ 24)) := by
  rw [processMidiTempoWord_bytes F out x hx, hF.1 x v hv]
  have : ((v : Int) % 2 ^ 24).toNat = v % 2 ^ 24 := by omega
  rw [this]

set_option maxRecDepth 100000 in
theorem tempoIeee_example : tempoIeee (str "120.0") = some 500000 := by decide!

set_option maxRecDepth 100000 in
theorem tempoIeee_tie : tempoIeee (str "120000000.000000001") = some 1 := by decide!

set_option maxRecDepth 100000 in
theorem tempoIeee_range : tempoIeee (str "0.001") = none := by decide!

theorem tempoIeee_exact (x : List Nat) (sg : Bool) (n d k : Nat)
    (hp : strtodDecimal x = some (sg, n, d)) (hn : n ≠ 0) (hk : k < 2 ^ 31)
    (hlo : 2 ^ 20 * k * n + n ≤ 2 ^ 20 * (60000000 * d) + 2 ^ 19 * n)
    (hhi : 2 ^ 20 * (60000000 * d) + n ≤ 2 ^ 20 * k * n + 2 ^ 19 * n) :
    tempoIeee x = some k := by
  have hd := strtodDecimal_pos x _ hp
  unfold tempoIeee
  rw [hp, Option.some_bind]
  exact tempoDouble_exact n d k hd (Nat.pos_of_ne_zero hn) hk hlo hhi

/-- C16, amended.  Tempo token: let `x` be a decimal literal without a sign, of value
`n / d` that is not zero, and `k` an integer below `2^31` such that `60000000 / x` lies
between `k - 1/2 + 2^-20` and `k + 1/2 - 2^-20`.  Then `k` is `round(60000000 / x)`
(`roundHalfUp`) and, for floating point computations that agree with the model of
double precision, `processMidiTempoWord` accepts the words `t<x>` and `t-<x>` and
emits for both the same three bytes, the big-endian representation of
`round(60000000 / x)` truncated to 24 bits; `t120.0` emits `07 A1 20`. -/
theorem processMidiTempoWord_ieee (F : FloatOps) (hF : F.ieee) (out x : List Nat) (n d k : Nat)
    (hx : isdigit (x.getD 0 0) = true ∨ x.getD 0 0 = 46)
    (hp : strtodDecimal x = some (false, n, d)) (hn : n ≠ 0) (hk : k < 2 ^ 31)
    (hlo : 2 ^ 20 * k * n + n ≤ 2 ^ 20 * (60000000 * d) + 2 ^ 19 * n)
    (hhi : 2 ^ 20 * (60000000 * d) + n ≤ 2 ^ 20 * k * n + 2 ^ 19 * n) :
    roundHalfUp (60000000 * d) n = k ∧
    processMidiTempoWord F out (116 :: x) =
      (1, out ++ base256 3 (roundHalfUp (60000000 * d) n % 2 ^ 24)) ∧
    processMidiTempoWord F out (116 :: 45 :: x) =
      (1, out ++ base256 3 (roundHalfUp (60000000 * d) n % 2 ^ 24)) ∧
    (base256 3 (roundHalfUp (60000000 * d) n % 2 ^ 24)).length = 3 ∧
    processMidiTempoWord F out (str "t120.0") = (1, out ++ [0x07, 0xA1, 0x20]) := by
  have hr := tempo_round (60000000 * d) n k (Nat.pos_of_ne_zero hn) hlo hhi
  have hv := tempoIeee_exact x false n d k hp hn hk hlo hhi
  rw [hr]
  refine ⟨rfl, ?_, ?_, ?_, ?_⟩
  · exact processMidiTempoWord_model F hF out x k
      (by rcases hx with h | h; exact Or.inl h; exact Or.inr (Or.inl h)) hv
  · exact processMidiTempoWord_model F hF out (45 :: x) k (Or.inr (Or.inr (Or.inl rfl)))
      (by rw [tempoIeee_minus x hx]; exact hv)
  · rw [base256_three]
    rfl
  · exact processMidiTempoWord_model F hF out (str "120.0") 500000 (by decide)
      tempoIeee_example

/-- Witness for C16 as amended: the word `t0.7`.  The quotient `60000000 / 0.7` is
85714285.71.., its rounding is 85714286, `05 1B E5 6E` on four bytes: the three low
bytes are emitted. -/
theorem processMidiTempoWord_ieee_witness :
    roundHalfUp (60000000 * 10) 7 = 85714286 ∧
    processMidiTempoWord FloatOps.binary64 [] (str "t0.7") = (1, [0x1B, 0xE5, 0x6E]) ∧
    processMidiTempoWord FloatOps.binary64 [] (str "t-0.7") = (1, [0x1B, 0xE5, 0x6E]) :=
  have h := processMidiTempoWord_ieee FloatOps.binary64 binary64_ieee [] (str "0.7") 7 10
    85714286 (by decide) (by decide) (by decide) (by decide) (by decide) (by decide)
  ⟨h.1, h.2.1, h.2.2.1⟩

set_option maxRecDepth 100000 in
/-- Counterexample to C16 as stated.  The literal `120000000.000000001` is not zero
and `60000000 / 120000000.000000001` is below one half, so that its rounding is 0 and
the bytes of the claim are `00 00 00`; `strtod` gives the `double` 120000000, the
division gives 0.5 and the conversion of `0.5 + 0.5` gives 1: the bytes emitted are
`00 00 01`.  For the literal `0.001` the rounding of `60000000 / 0.001` is
60000000000, which `int` does not hold: the conversion has no defined value. -/
theorem processMidiTempoWord_ieee_counterexample :
    (strtodDecimal (str "120000000.000000001") = some (false, 120000000000000001, 1000000000) ∧
      roundHalfUp (60000000 * 1000000000) 120000000000000001 = 0 ∧
      ∀ F : FloatOps, F.ieee →
        processMidiTempoWord F [] (str "t120000000.000000001") = (1, [0, 0, 1])) ∧
    (strtodDecimal (str "0.001") = some (false, 1, 1000) ∧
      roundHalfUp (60000000 * 1000) 1 = 60000000000 ∧ tempoIeee (str "0.001") = none) := by
  refine ⟨⟨by decide, by decide, fun F hF => ?_⟩, by decide, by decide, tempoIeee_range⟩
  exact processMidiTempoWord_model F hF [] (str "120000000.000000001") 1 (by decide)
    tempoIeee_tie

/-! ## C17: the pitch-bend word -/

theorem processMidiPitchBendWord_bytes (F : FloatOps) (out x : List Nat)
    (hx : isdigit (x.getD 0 0) = true ∨ x.getD 0 0 = 46 ∨ x.getD 0 0 = 45 ∨ x.getD 0 0 = 43) :
    processMidiPitchBendWord F out (112 :: x) =
      (1, out ++ [(F.bendInt x % 2 ^ 32).toNat % 128, (F.bendInt x % 2 ^ 32).toNat / 128 % 128]) := by
  have hne : x ≠ [] := by
    rintro rfl
    simp [isdigit] at hx
  have hl : ¬ (112 :: x).length < 2 := by
    cases x with
    | nil => exact absurd rfl hne
    | cons a t => simp
  have hc : (isdigit (x.getD 0 0) || decide (x.getD 0 0 = 46) || decide (x.getD 0 0 = 45) ||
      decide (x.getD 0 0 = 43)) = true := by
    generalize x.getD 0 0 = c at hx
    rcases hx with h | h | h | h <;> simp [h]
  unfold processMidiPitchBendWord
  simp only [hl, if_false, List.getD_cons_succ, hc, Bool.not_true, Bool.false_eq_true,
    List.drop_succ_cons, List.drop_zero]
  have m0 := shift_mask (F.bendInt x % 2 ^ 32).toNat 0 7
  have m1 := shift_mask (F.bendInt x % 2 ^ 32).toNat 7 7
  simp only [Nat.shiftRight_zero, pow_zero, Nat.div_one] at m0
  rw [show (0x7f : Nat) = 2 ^ 7 - 1 by norm_num, m0, m1]
  rfl

theorem clampToOne_le (x : Option Nat) : clampToOne x ≤ doubleOne := by
  cases x with
  | none => exact Nat.le_refl _
  | some value =>
    simp only [clampToOne]
    split_ifs <;> omega

theorem clampToOne_one (n d : Nat) (hd : 0 < d) (h : d ≤ n) :
    clampToOne (toDouble n d) = doubleOne := by
  cases hm : toDouble n d with
  | none => rfl
  | some m =>
    have := toDouble_ge_one n d m hd h hm
    simp only [clampToOne]
    split_ifs <;> omega

set_option maxRecDepth 100000 in
theorem bendDouble_one : doubleToInt (bendDouble false doubleOne) = some 16383 := by decide!

set_option maxRecDepth 100000 in
theorem bendDouble_minus_one : doubleToInt (bendDouble true doubleOne) = some 0 := by decide!

set_option maxRecDepth 100000 in
theorem bendIeee_tiny : bendIeee (str "-0.00000000000000000001") = some 8192 := by decide!

theorem bendIeee_range (x : List Nat) (hx : strtodDecimal x ≠ none) :
    ∃ v, bendIeee x = some v ∧ v ≤ 16383 ∧
      (∀ n d, strtodDecimal x = some (false, n, d) → d ≤ n → v = 16383) ∧
      (∀ n d, strtodDecimal x = some (true, n, d) → d ≤ n → v = 0) := by
  cases hp : strtodDecimal x with
  | none => exact absurd hp hx
  | some p =>
    obtain ⟨neg, n, d⟩ := p
    have hd := strtodDecimal_pos x _ hp
    simp only at hd
    obtain ⟨v, h1, h2⟩ := bendDouble_range neg (clampToOne (toDouble n d)) (clampToOne_le _)
    have e : bendIeee x = doubleToInt (bendDouble neg (clampToOne (toDouble n d))) := by
      unfold bendIeee
      rw [hp, Option.some_bind]
    refine ⟨v, e.trans h1, h2, ?_, ?_⟩
    · intro n1 d1 h3 h4
      simp only [Option.some.injEq, Prod.mk.injEq] at h3
      obtain ⟨rfl, rfl, rfl⟩ := h3
      rw [clampToOne_one n d hd h4, bendDouble_one] at h1
      exact (Option.some.inj h1).symm
    · intro n1 d1 h3 h4
      simp only [Option.some.injEq, Prod.mk.injEq] at h3
      obtain ⟨rfl, rfl, rfl⟩ := h3
      rw [clampToOne_one n d hd h4, bendDouble_minus_one] at h1
      exact (Option.some.inj h1).symm

theorem processMidiPitchBendWord_model (F : FloatOps) (hF : F.ieee) (out x : List Nat) (v : Nat)
    (hv : bendIeee x = some v) (hr : v ≤ 16383) :
    processMidiPitchBendWord F out (112 :: x) = (1, out ++ [v % 128, v / 128]) := by
  have hx : strtodDecimal x ≠ none := by
    intro h
    unfold bendIeee at hv
    rw [h] at hv
    simp at hv
  rw [processMidiPitchBendWord_bytes F out x (strtodDecimal_head x hx), hF.2 x v hv]
  have e1 : ((v : Int) % 2 ^ 32).toNat = v := by omega
  have e2 : v / 128 % 128 = v / 128 := by omega
  rw [e1, e2]

set_option maxRecDepth 100000 in
theorem bendDouble_zero (neg : Bool) : doubleToInt (bendDouble neg 0) = some 8192 := by
  cases neg
  · decide!
  · decide!

theorem bendIeee_exact (x : List Nat) (neg : Bool) (n d : Nat)
    (hp : strtodDecimal x = some (neg, n, d))
    (hm : n = 0 ∨ ∃ k,
      2 ^ 32 * k * (2 * d) + 2 * d ≤
        2 ^ 32 * (16383 * (if neg = true then d - min n d else d + min n d)) +
          2 ^ 31 * (2 * d) ∧
      2 ^ 32 * (16383 * (if neg = true then d - min n d else d + min n d)) + 2 * d ≤
        2 ^ 32 * k * (2 * d) + 2 ^ 31 * (2 * d)) :
    bendIeee x =
      some (roundHalfUp (16383 * (if neg = true then d - min n d else d + min n d)) (2 * d)) := by
  have hd := strtodDecimal_pos x _ hp
  simp only at hd
  have h2d : 0 < 2 * d := Nat.mul_pos (by norm_num) hd
  have e : bendIeee x = doubleToInt (bendDouble neg (clampToOne (toDouble n d))) := by
    unfold bendIeee
    rw [hp, Option.some_bind]
  rw [e]
  rcases hm with h0 | ⟨k, hlo, hhi⟩
  · subst h0
    have e1 : clampToOne (toDouble 0 d) = 0 := by
      rw [toDouble_zero d hd]
      simp only [clampToOne]
      rw [if_neg (Nat.not_lt.2 (Nat.zero_le _))]
    have e2 : (if neg = true then d - min 0 d else d + min 0 d) = d := by
      rw [Nat.zero_min]
      split_ifs <;> rfl
    rw [e1, e2, bendDouble_zero]
    refine congrArg some (Eq.symm ?_)
    apply roundHalfUp_eq <;> omega
  · rcases Nat.lt_or_ge n d with hn | hn
    · rw [Nat.min_eq_left (Nat.le_of_lt hn)] at hlo hhi ⊢
      rw [bendDouble_exact neg n d k hd hn hlo hhi]
      exact congrArg some (bend_round _ _ _ h2d hlo hhi).symm
    · rw [Nat.min_eq_right hn, clampToOne_one n d hd hn]
      cases neg
      · rw [bendDouble_one]
        refine congrArg some (Eq.symm ?_)
        simp only [Bool.false_eq_true, if_false]
        apply roundHalfUp_eq <;> omega
      · rw [bendDouble_minus_one]
        refine congrArg some (Eq.symm ?_)
        simp only [if_true, Nat.sub_self]
        apply roundHalfUp_eq <;> omega

/-- C17, amended.  Pitch-bend token: for a decimal literal `x`, with or without a sign,
and floating point computations that agree with the model of double precision,
`processMidiPitchBendWord` accepts the word `p<x>` and emits exactly two bytes, the low
7 bits and then the high 7 bits of a value between 0 and 16383, both below `0x80`.
When `x` is zero, or when `(2^13 - 0.5) * (c + 1)`, with `c` the value `x` clamped to the
range -1 .. 1, lies between `k - 1/2 + 2^-32` and `k + 1/2 - 2^-32` for an integer `k`,
that value is `round((2^13 - 0.5) * (c + 1))` (`roundHalfUp`; the absolute value of `x`
is `n / d`).  Every `x` that is at least 1 gives `7F 7F` and every `x` that is at most
-1 gives `00 00`; `p-1.0` emits `00 00` and `p1.0` emits `7F 7F`. -/
theorem processMidiPitchBendWord_ieee (F : FloatOps) (hF : F.ieee) (out x : List Nat)
    (hx : strtodDecimal x ≠ none) :
    (∃ v, bendIeee x = some v ∧ v ≤ 16383 ∧
      processMidiPitchBendWord F out (112 :: x) = (1, out ++ [v % 128, v / 128]) ∧
      v % 128 < 0x80 ∧ v / 128 < 0x80) ∧
    (∀ neg n d, strtodDecimal x = some (neg, n, d) →
      (n = 0 ∨ ∃ k,
        2 ^ 32 * k * (2 * d) + 2 * d ≤
          2 ^ 32 * (16383 * (if neg = true then d - min n d else d + min n d)) +
            2 ^ 31 * (2 * d) ∧
        2 ^ 32 * (16383 * (if neg = true then d - min n d else d + min n d)) + 2 * d ≤
          2 ^ 32 * k * (2 * d) + 2 ^ 31 * (2 * d)) →
      processMidiPitchBendWord F out (112 :: x) =
        (1, out ++
          [roundHalfUp (16383 * (if neg = true then d - min n d else d + min n d)) (2 * d) % 128,
           roundHalfUp (16383 * (if neg = true then d - min n d else d + min n d)) (2 * d) / 128])) ∧
    (∀ n d, strtodDecimal x = some (false, n, d) → d ≤ n →
      processMidiPitchBendWord F out (112 :: x) = (1, out ++ [0x7F, 0x7F])) ∧
    (∀ n d, strtodDecimal x = some (true, n, d) → d ≤ n →
      processMidiPitchBendWord F out (112 :: x) = (1, out ++ [0x00, 0x00])) ∧
    processMidiPitchBendWord F out (str "p-1.0") = (1, out ++ [0x00, 0x00]) ∧
    processMidiPitchBendWord F out (str "p1.0") = (1, out ++ [0x7F, 0x7F]) := by
  obtain ⟨v, h1, h2, h3, h4⟩ := bendIeee_range x hx
  have hb := processMidiPitchBendWord_model F hF out x v h1 h2
  refine ⟨⟨v, h1, h2, hb, by omega, by omega⟩, ?_, ?_, ?_, ?_, ?_⟩
  · intro neg n d hp hm
    have he := bendIeee_exact x neg n d hp hm
    rw [h1] at he
    rw [← Option.some.inj he]
    exact hb
  · intro n d hp hd
    rw [hb, h3 n d hp hd]
  · intro n d hp hd
    rw [hb, h4 n d hp hd]
  · obtain ⟨w, w1, w2, _, w4⟩ := bendIeee_range (str "-1.0") (by decide)
    rw [show str "p-1.0" = 112 :: str "-1.0" from rfl,
      processMidiPitchBendWord_model F hF out (str "-1.0") w w1 w2,
      w4 10 10 (by decide) (by decide)]
  · obtain ⟨w, w1, w2, w3, _⟩ := bendIeee_range (str "1.0") (by decide)
    rw [show str "p1.0" = 112 :: str "1.0" from rfl,
      processMidiPitchBendWord_model F hF out (str "1.0") w w1 w2,
      w3 10 10 (by decide) (by decide)]

/-- Witness for C17 as amended: the word `p0.5`, for which `(2^13 - 0.5) * 1.5` is
12287.25 and the value is 12287, and the word `p0`, for which the value is 8192. -/
theorem processMidiPitchBendWord_ieee_witness :
    strtodDecimal (str "0.5") = some (false, 5, 10) ∧
    processMidiPitchBendWord FloatOps.binary64 [] (str "p0.5") = (1, [0x7F, 0x5F]) ∧
    processMidiPitchBendWord FloatOps.binary64 [] (str "p0") = (1, [0x00, 0x40]) :=
  ⟨by decide,
    (processMidiPitchBendWord_ieee FloatOps.binary64 binary64_ieee [] (str "0.5")
      (by decide)).2.1 false 5 10 (by decide) (Or.inr ⟨12287, by decide, by decide⟩),
    (processMidiPitchBendWord_ieee FloatOps.binary64 binary64_ieee [] (str "0")
      (by decide)).2.1 false 0 1 (by decide) (Or.inl rfl)⟩

set_option maxRecDepth 100000 in
/-- Counterexample to C17 as stated.  For the literal `-0.00000000000000000001`, which
lies between -1 and 1, the value `(2^13 - 0.5) * (x + 1)` is below 8191.5 and its
rounding is 8191, so that the bytes of the claim are `7F 3F`; in double precision
`x + 1.0` is 1.0, the product is 8191.5 and the conversion of `8191.5 + 0.5` gives
8192: the bytes emitted are `00 40`. -/
theorem processMidiPitchBendWord_ieee_counterexample :
    strtodDecimal (str "-0.00000000000000000001") = some (true, 1, 10 ^ 20) ∧
    roundHalfUp (16383 * (10 ^ 20 - 1)) (2 * 10 ^ 20) = 8191 ∧
    (8191 % 128 = 0x7F ∧ 8191 / 128 = 0x3F) ∧
    ∀ F : FloatOps, F.ieee →
      processMidiPitchBendWord F [] (str "p-0.00000000000000000001") = (1, [0x00, 0x40]) := by
  refine ⟨by decide, by decide, by decide, fun F hF => ?_⟩
  exact processMidiPitchBendWord_model F hF [] (str "-0.00000000000000000001") 8192
    bendIeee_tiny (by decide)

/-! ## C24: the ASCII dump -/

theorem foldl_runStep_word (p : Nat → Bool) : ∀ (w : List Nat) (D : List (List Nat))
    (cur : List Nat), (∀ c ∈ w, p c = true) → w.foldl (runStep p) (D, cur) = (D, cur ++ w) := by
  intro w
  induction w with
  | nil => intro D cur _; simp
  | cons c w ih =>
    intro D cur h
    rw [List.foldl_cons]
    have hc : p c = true := h c (by simp)
    simp only [runStep, hc, if_true]
    rw [ih _ _ (fun x hx => h x (by simp [hx]))]
    simp

theorem closeRuns_eq_nil (s : List (List Nat) × List Nat) (h : closeRuns s = []) :
    s = ([], []) := by
  obtain ⟨D, cur⟩ := s
  unfold closeRuns at h
  by_cases hc : cur = []
  · simp only [hc, if_true] at h
    simp [h, hc]
  · simp only [hc, if_false] at h
    simp at h

theorem mem_closeRuns_foldl (p : Nat → Bool) : ∀ (rest : List Nat)
    (s : List (List Nat) × List Nat), ∀ r ∈ s.1, r ∈ closeRuns (rest.foldl (runStep p) s) := by
  intro rest
  induction rest with
  | nil =>
    intro s r hr
    simp only [List.foldl_nil, closeRuns]
    split_ifs
    · exact hr
    · exact List.mem_append_left _ hr
  | cons c rest ih =>
    intro s r hr
    rw [List.foldl_cons]
    apply ih
    unfold runStep
    split_ifs
    · exact hr
    · exact hr
    · exact List.mem_append_left _ hr

theorem open_run_bound (p : Nat → Bool) (n : Nat) : ∀ (rest : List Nat)
    (s : List (List Nat) × List Nat),
    (∀ r ∈ closeRuns (rest.foldl (runStep p) s), r.length ≤ n) → s.2.length ≤ n := by
  intro rest
  induction rest with
  | nil =>
    intro s h
    simp only [List.foldl_nil, closeRuns] at h
    by_cases hc : s.2 = []
    · simp [hc]
    · simp only [hc, if_false] at h
      exact h _ (by simp)
  | cons c rest ih =>
    intro s h
    rw [List.foldl_cons] at h
    by_cases hc : p c = true
    · have := ih _ h
      simp only [runStep, hc, if_true, List.length_append, List.length_singleton] at this
      omega
    · by_cases he : s.2 = []
      · simp [he]
      · refine h _ (mem_closeRuns_foldl p rest _ s.2 ?_)
        simp [runStep, hc, he]

theorem maximalRuns_sep (p : Nat → Bool) (text : List Nat) (sep : Nat) (hs : p sep = false) :
    maximalRuns p (text ++ [sep]) = maximalRuns p text := by
  unfold maximalRuns
  rw [List.foldl_append]
  simp only [List.foldl_cons, List.foldl_nil, runStep, hs, Bool.false_eq_true, if_false,
    closeRuns, if_true]

theorem maximalRuns_sep_word (p : Nat → Bool) (text : List Nat) (sep : Nat) (w : List Nat)
    (hs : p sep = false) (hw : w ≠ []) (hp : ∀ c ∈ w, p c = true) :
    maximalRuns p (text ++ [sep] ++ w) = maximalRuns p text ++ [w] := by
  unfold maximalRuns
  rw [List.foldl_append, List.foldl_append]
  simp only [List.foldl_cons, List.foldl_nil, runStep, hs, Bool.false_eq_true, if_false]
  rw [foldl_runStep_word p w _ _ hp]
  simp only [closeRuns, List.nil_append, hw, if_false]

theorem maximalRuns_word (p : Nat → Bool) (text w : List Nat) (ht : maximalRuns p text = [])
    (hw : w ≠ []) (hp : ∀ c ∈ w, p c = true) : maximalRuns p (text ++ w) = [w] := by
  unfold maximalRuns at ht ⊢
  rw [List.foldl_append, closeRuns_eq_nil _ ht, foldl_runStep_word p w _ _ hp]
  simp only [closeRuns, List.nil_append, hw, if_false]

theorem cString_word (w r : List Nat) (hw : ∀ c ∈ w, c ≠ 0) : cString (w ++ 0 :: r) = w := by
  unfold cString
  induction w with
  | nil => simp [List.takeWhile]
  | cons c w ih =>
    have hc : c ≠ 0 := hw c (by simp)
    simp only [List.cons_append, List.takeWhile_cons, hc, ne_eq, not_false_eq_true,
      decide_True, if_true]
    rw [ih (fun x hx => hw x (by simp [hx]))]

theorem isWordByte_ne_zero (c : Nat) (h : isWordByte c = true) : c ≠ 0 := by
  intro h0
  subst h0
  exact absurd h (by decide)

theorem isWordByte_not_space (c : Nat) (h : isWordByte c = true) : (!isspace c) = true := by
  unfold isWordByte at h
  simp only [Bool.and_eq_true] at h
  exact h.2

theorem outputStyleAsciiStep_inv (M : Int) (out0 : List Nat) (st : AsciiState)
    (s : List (List Nat) × List Nat) (ch : Nat) (rest : List Nat)
    (hinv : AsciiInv out0 st s)
    (hb : ∀ r ∈ closeRuns (rest.foldl (runStep isWordByte) (runStep isWordByte s ch)),
      r.length ≤ 255) :
    ∃ st1, outputStyleAsciiStep M st ch = some st1 ∧
      AsciiInv out0 st1 (runStep isWordByte s ch) := by
  obtain ⟨o, buf, idx, lc, ty⟩ := st
  obtain ⟨D, cur⟩ := s
  obtain ⟨text, w, r, ho, hbuf, hlen, hidx, hw, hlc, hlc0, hcase⟩ := hinv
  simp only at ho hbuf hlen hidx hlc hlc0 hcase
  subst ho hbuf hidx
  have hcur := open_run_bound isWordByte 255 rest _ hb
  by_cases hp : isWordByte ch = true
  · -- a byte of a word
    have hs : runStep isWordByte (D, cur) ch = (D, cur ++ [ch]) := by simp [runStep, hp]
    rw [hs] at hb hcur ⊢
    simp only [List.length_append, List.length_singleton] at hcur hlen
    rcases hcase with ⟨hty, hc, hwn, hD⟩ | ⟨hty, hc, hwn, hD⟩ | ⟨hty, hc, hwn, hD, ht, hl⟩
    · -- inside a word
      subst hty hc
      obtain _ | ⟨x, r1⟩ := r
      · simp only [List.length_nil] at hlen; omega
      have e1 := storeChar_append cur r1 x ch (by omega)
      refine ⟨⟨out0 ++ text, cur ++ ch :: r1, cur.length + 1, lc, 1⟩, ?_, ?_⟩
      · simp only [outputStyleAsciiStep, hp, if_true, Option.bind_eq_bind]
        simp [e1]
      · refine ⟨text, cur ++ [ch], r1, rfl, by simp, ?_, by simp, ?_, hlc, hlc0,
          Or.inl ⟨rfl, rfl, by simp, hD⟩⟩
        · simp only [List.length_append, List.length_cons] at hlen ⊢
          omega
        · intro c hc
          rcases List.mem_append.mp hc with h | h
          · exact hw c h
          · simp only [List.mem_singleton] at h
            rw [h]; exact hp
    · -- a new word after a word
      subst hty hc
      have hwl : w.length ≤ 255 :=
        hb w (mem_closeRuns_foldl isWordByte rest _ w (by rw [hD]; simp))
      obtain _ | ⟨x, r1⟩ := r
      · simp only [List.length_nil] at hlen; omega
      obtain _ | ⟨y, w1⟩ := w
      · exact absurd rfl hwn
      have e1 := storeChar_append (y :: w1) r1 x 0 (by omega)
      have e2 : cString (y :: w1 ++ 0 :: r1) = y :: w1 :=
        cString_word _ _ (fun c hc => isWordByte_ne_zero c (hw c hc))
      have e3 : storeChar (y :: w1 ++ 0 :: r1) 0 ch = some (ch :: (w1 ++ 0 :: r1)) :=
        storeChar_append [] (w1 ++ 0 :: r1) y ch (by simp)
      have hnl : (fun c => !isspace c) 10 = false := rfl
      have hsp : (fun c => !isspace c) 32 = false := rfl
      have hns : ∀ c ∈ y :: w1, (fun c => !isspace c) c = true :=
        fun c hc => isWordByte_not_space c (hw c hc)
      have hl1 : (1 : Int) ≤ ((y :: w1).length : Int) := by
        simp only [List.length_cons, Nat.cast_add, Nat.cast_one]; omega
      have hl256 : (w1 ++ 0 :: r1).length = 255 := by
        simp only [List.length_append, List.length_cons] at hlen ⊢
        omega
      by_cases hA : ((y :: w1).length : Int) + lc ≥ M
      · refine ⟨⟨out0 ++ text ++ [10] ++ (y :: w1), ch :: (w1 ++ 0 :: r1), 1,
          ((y :: w1).length : Int), 1⟩, ?_, ?_⟩
        · simp only [outputStyleAsciiStep, hp, if_true, Option.bind_eq_bind, hA, e1,
            Option.map_some', Option.some_bind, and_self, e2, e3]
        · refine ⟨text ++ [10] ++ (y :: w1), [ch], w1 ++ 0 :: r1, by simp, rfl, ?_, rfl, ?_,
            by simp only; omega, fun h0 => absurd h0 (by simp only; omega),
            Or.inl ⟨rfl, rfl, by simp, ?_⟩⟩
          · simp only [List.length_cons, hl256]
          · intro c hc
            simp only [List.mem_singleton] at hc
            rw [hc]; exact hp
          · rw [hD]
            exact (maximalRuns_sep_word _ text 10 (y :: w1) hnl hwn hns).symm
      · by_cases hl : lc = 0
        · subst hl
          refine ⟨⟨out0 ++ text ++ (y :: w1), ch :: (w1 ++ 0 :: r1), 1,
            0 + ((y :: w1).length : Int), 1⟩, ?_, ?_⟩
          · simp only [outputStyleAsciiStep, hp, if_true, Option.bind_eq_bind, hA, e1,
              Option.map_some', Option.some_bind, and_self, e2, e3, ne_eq,
              not_true_eq_false, if_false]
          · refine ⟨text ++ (y :: w1), [ch], w1 ++ 0 :: r1, by simp, rfl, ?_, rfl, ?_,
              by simp only; omega, fun h0 => absurd h0 (by simp only; omega),
            Or.inl ⟨rfl, rfl, by simp, ?_⟩⟩
            · simp only [List.length_cons, hl256]
            · intro c hc
              simp only [List.mem_singleton] at hc
              rw [hc]; exact hp
            · rw [hD, hlc0 rfl]
              exact (maximalRuns_word _ text (y :: w1) (hlc0 rfl) hwn hns).symm
        · refine ⟨⟨out0 ++ text ++ [32] ++ (y :: w1), ch :: (w1 ++ 0 :: r1), 1,
            lc + 1 + ((y :: w1).length : Int), 1⟩, ?_, ?_⟩
          · simp only [outputStyleAsciiStep, hp, if_true, Option.bind_eq_bind, hA, e1,
              Option.map_some', Option.some_bind, and_self, e2, e3, hl, ne_eq,
              not_false_eq_true, if_false, if_true]
          · refine ⟨text ++ [32] ++ (y :: w1), [ch], w1 ++ 0 :: r1, by simp, rfl, ?_, rfl, ?_,
              by simp only; omega, fun h0 => absurd h0 (by simp only; omega),
            Or.inl ⟨rfl, rfl, by simp, ?_⟩⟩
            · simp only [List.length_cons, hl256]
            · intro c hc
              simp only [List.mem_singleton] at hc
              rw [hc]; exact hp
            · rw [hD]
              exact (maximalRuns_sep_word _ text 32 (y :: w1) hsp hwn hns).symm
    · -- the first word
      subst hty hc hwn hD ht hl
      obtain _ | ⟨x, r1⟩ := r
      · simp at hlen
      have e1 : storeChar ([] ++ x :: r1) 0 0 = some (0 :: r1) :=
        storeChar_append [] r1 x 0 (by simp)
      have e2 : cString (0 :: r1) = [] := cString_word [] r1 (fun c hc => by simp at hc)
      have e3 : storeChar (0 :: r1) 0 ch = some (ch :: r1) :=
        storeChar_append [] r1 0 ch (by simp)
      have hl256 : (ch :: r1).length = 256 := by
        simp only [List.length_nil, List.length_cons] at hlen ⊢
        omega
      have hch : ∀ c ∈ [ch], isWordByte c = true := by
        intro c hc
        simp only [List.mem_singleton] at hc
        rw [hc]; exact hp
      by_cases hA : (([] : List Nat).length : Int) + 0 ≥ M
      · refine ⟨⟨out0 ++ [] ++ [10] ++ [], ch :: r1, 1, (([] : List Nat).length : Int), 1⟩,
          ?_, ?_⟩
        · simp only [outputStyleAsciiStep, hp, if_true, Option.bind_eq_bind, hA, e1,
            Option.map_some', Option.some_bind, and_self, e2, e3]
          rfl
        · exact ⟨[10], [ch], r1, by simp, rfl, hl256, rfl, hch, by simp, fun _ => rfl,
            Or.inl ⟨rfl, rfl, by simp, rfl⟩⟩
      · refine ⟨⟨out0 ++ [] ++ [], ch :: r1, 1, 0 + (([] : List Nat).length : Int), 1⟩,
          ?_, ?_⟩
        · simp only [outputStyleAsciiStep, hp, if_true, Option.bind_eq_bind, hA, e1,
            Option.map_some', Option.some_bind, and_self, e2, e3, ne_eq,
            not_true_eq_false, if_false]
          rfl
        · exact ⟨[], [ch], r1, by simp, rfl, hl256, rfl, hch, by simp, fun _ => rfl,
            Or.inl ⟨rfl, rfl, by simp, rfl⟩⟩
  · -- a byte between words
    have hs : runStep isWordByte (D, cur) ch = (if cur = [] then D else D ++ [cur], []) := by
      simp [runStep, hp]
    rw [hs]
    refine ⟨⟨out0 ++ text, w ++ r, w.length, lc, 0⟩, ?_, ?_⟩
    · simp only [outputStyleAsciiStep, hp, if_false, Option.bind_eq_bind]
      simp
    · refine ⟨text, w, r, rfl, rfl, hlen, rfl, hw, hlc, hlc0, ?_⟩
      rcases hcase with ⟨hty, hc, hwn, hD⟩ | ⟨hty, hc, hwn, hD⟩ | ⟨hty, hc, hwn, hD, ht, hl⟩
      · subst hc
        exact Or.inr (Or.inl ⟨rfl, rfl, hwn, by simp [hwn, hD]⟩)
      · subst hc
        exact Or.inr (Or.inl ⟨rfl, rfl, hwn, by simp [hD]⟩)
      · subst hc
        exact Or.inr (Or.inr ⟨rfl, rfl, hwn, by simp [hD], ht, hl⟩)

theorem outputStyleAsciiLoop_inv (M : Int) (out0 : List Nat) : ∀ (rest : List Nat)
    (st : AsciiState) (s : List (List Nat) × List Nat), AsciiInv out0 st s →
    (∀ r ∈ closeRuns (rest.foldl (runStep isWordByte) s), r.length ≤ 255) →
    ∃ st1, outputStyleAsciiLoop M rest st = some st1 ∧
      AsciiInv out0 st1 (rest.foldl (runStep isWordByte) s) := by
  intro rest
  induction rest with
  | nil => intro st s hinv _; exact ⟨st, rfl, hinv⟩
  | cons ch rest ih =>
    intro st s hinv hb
    rw [List.foldl_cons] at hb ⊢
    obtain ⟨st1, e1, h1⟩ := outputStyleAsciiStep_inv M out0 st s ch rest hinv hb
    obtain ⟨st2, e2, h2⟩ := ih st1 _ h1 hb
    exact ⟨st2, by rw [outputStyleAsciiLoop, e1]; exact e2, h2⟩

theorem asciiInv_start (out : List Nat) :
    AsciiInv out ⟨out, List.replicate 256 0, 0, 0, 0⟩ ([], []) :=
  ⟨[], [], List.replicate 256 0, (List.append_nil _).symm, rfl, List.length_replicate _ _, rfl,
    fun c hc => absurd hc (List.not_mem_nil c),
    le_refl _, fun _ => rfl, Or.inr (Or.inr ⟨rfl, rfl, rfl, rfl, rfl, rfl⟩)⟩

theorem outputStyleAscii_runs (maxLineLength : Int) (out input : List Nat)
    (h : ∀ r ∈ maximalRuns isWordByte input, r.length ≤ 255) :
    ∃ text, outputStyleAscii maxLineLength out input = Run.ret (1, out ++ text) ∧
      textWords text = (maximalRuns isWordByte input).dropLast := by
  obtain ⟨st, e, text, w, r, ho, -, -, hidx, -, -, -, hcase⟩ :=
    outputStyleAsciiLoop_inv maxLineLength out input _ _ (asciiInv_start out) h
  have hruns : textWords text = (maximalRuns isWordByte input).dropLast := by
    unfold maximalRuns closeRuns
    rcases hcase with ⟨-, hc, hwn, hD⟩ | ⟨-, hc, hwn, hD⟩ | ⟨-, hc, hwn, hD, ht, -⟩
    · rw [hc, hD]
      simp [hwn]
    · rw [hc, hD]
      simp
    · rw [hc, hD, ht]
      rfl
  unfold outputStyleAscii
  rw [e]
  by_cases hi : st.index ≠ 0
  · refine ⟨text ++ [10], ?_, ?_⟩
    · simp only [hi, if_true, ho, List.append_assoc, ne_eq, not_false_eq_true]
    · rw [← hruns]
      exact maximalRuns_sep _ text 10 rfl
  · exact ⟨text, by simp only [hi, if_false, ho], hruns⟩

/-- C24, the failing input.  The last word of the input is never written: for
the input `ab cd` the text written is `ab` and a newline.  A word of 256 bytes that is
followed by another word makes the store of its terminator fall outside the 256 bytes
of `outputWord`. -/
theorem outputStyleAscii_words_counterexample :
    outputStyleAscii 75 [] (str "ab cd") = Run.ret (1, str "ab\n") ∧
    textWords (str "ab\n") = [str "ab"] ∧
    maximalRuns isWordByte (str "ab cd") = [str "ab", str "cd"] ∧
    maximalRuns isWordByte (List.replicate 256 97 ++ str " b") =
      [List.replicate 256 97, str "b"] ∧
    outputStyleAscii 75 [] (List.replicate 256 97 ++ str " b") = Run.undef := by
  refine ⟨by decide, by decide, by decide, ?_, ?_⟩
  · set_option maxRecDepth 100000 in rfl
  · set_option maxRecDepth 100000 in rfl

/-- C24, the behaviour of the code.  When every maximal run of printable
non-whitespace bytes of the input has at most 255 bytes, `outputStyleAscii` returns 1
and the whitespace-separated words of the text it writes are the maximal runs of
printable non-whitespace bytes of the input in the same order and none split, but
without the last one: a word is written when the next word starts, and after the loop
only `if (index != 0) out << endl;` follows, so that the word still held in
`outputWord` is never written. -/
theorem outputStyleAscii_words (maxLineLength : Int) (out input : List Nat)
    (h : ∀ r ∈ maximalRuns isWordByte input, r.length ≤ 255) :
    ∃ text, outputStyleAscii maxLineLength out input = Run.ret (1, out ++ text) ∧
      textWords text = (maximalRuns isWordByte input).dropLast :=
  outputStyleAscii_runs maxLineLength out input h

/-- Witness for the behaviour of the code at C24: five words, of which the last one
is not written. -/
theorem outputStyleAscii_words_witness :
    outputStyleAscii 5 [] (str "ab cd  ef\tgh\nx") = Run.ret (1, str "ab cd\nef gh\n") ∧
    maximalRuns isWordByte (str "ab cd  ef\tgh\nx") =
      [str "ab", str "cd", str "ef", str "gh", str "x"] ∧
    ∃ text, outputStyleAscii 5 [] (str "ab cd  ef\tgh\nx") = Run.ret (1, [] ++ text) ∧
      textWords text = (maximalRuns isWordByte (str "ab cd  ef\tgh\nx")).dropLast :=
  ⟨by decide, by decide,
    outputStyleAscii_words 5 [] (str "ab cd  ef\tgh\nx") (by decide)⟩

/-! ## C25, C26, C27: pitch names and option values -/

/-- C25. Pitch names: for every key from 0 to 127, `keyToPitchName` gives the name
of the pitch class `key mod 12` followed by the octave `key / 12 - 1` in decimal;
key 60 gives `C4` and key 0 gives `C-1`. -/
theorem keyToPitchName_spec (key : Nat) (h : key < 128) :
    keyToPitchName (key : Int) =
      pitchNames.getD (key % 12) [] ++ showInt (((key / 12 : Nat) : Int) - 1) := by
  interval_cases key <;> rfl

/-- Witness for C25: the keys 60 and 0. -/
theorem keyToPitchName_spec_witness :
    keyToPitchName 60 = str "C4" ∧ keyToPitchName 0 = str "C-1" :=
  ⟨(keyToPitchName_spec 60 (by decide)).trans (by decide),
    (keyToPitchName_spec 0 (by decide)).trans (by decide)⟩

/-- C26. Clamping setters: `setLineLength(n)` returns `n` and makes `getLineLength()`
return `n` when `n` is at least 1, and 75 for both when `n` is below 1;
`setLineBytes(n)` returns `n` when `n` is at least 1 and 25 when `n` is below 1, the
value that it stores in `maxLineBytes`; neither changes another option value. -/
theorem setLineLength_setLineBytes (b : Options) (n : Int) :
    ((setLineLength b n).1 = if n < 1 then 75 else n) ∧
    (getLineLength (setLineLength b n).2 = if n < 1 then 75 else n) ∧
    ((setLineLength b n).2.bytesQ = b.bytesQ ∧ (setLineLength b n).2.commentsQ = b.commentsQ ∧
      (setLineLength b n).2.midiQ = b.midiQ ∧
      (setLineLength b n).2.maxLineBytes = b.maxLineBytes) ∧
    ((setLineBytes b n).1 = if n < 1 then 25 else n) ∧
    ((setLineBytes b n).2.maxLineBytes = if n < 1 then 25 else n) ∧
    ((setLineBytes b n).2.bytesQ = b.bytesQ ∧ (setLineBytes b n).2.commentsQ = b.commentsQ ∧
      (setLineBytes b n).2.midiQ = b.midiQ ∧
      (setLineBytes b n).2.maxLineLength = b.maxLineLength) := by
  unfold setLineLength setLineBytes getLineLength
  by_cases h : n < 1 <;> simp [h]

/-- C27, the behaviour of the code.  `getLineBytes` returns `maxLineLength`: 75 on
an object just constructed, where `maxLineBytes` is 25; a call of `setLineBytes`
does not change what it returns and a call of `setLineLength` does. -/
theorem getLineBytes_returns_maxLineLength (b : Options) (n : Int) :
    getLineBytes b = b.maxLineLength ∧
    (getLineBytes Options.default = 75 ∧ Options.default.maxLineBytes = 25) ∧
    getLineBytes (setLineBytes b n).2 = getLineBytes b ∧
    getLineBytes (setLineLength b n).2 = (setLineLength b n).1 ∧
    (setLineBytes Options.default 10).1 = 10 ∧
    getLineBytes (setLineBytes Options.default 10).2 = 75 := by
  unfold setLineLength setLineBytes getLineBytes
  by_cases h : n < 1 <;> simp [h, Options.default]

/-! ## C28: channel voice events -/

theorem and7f_mod (c : Nat) : 0x7f &&& c = c % 128 := by
  rw [Nat.and_comm]
  exact Nat.and_pow_two_sub_one_eq_mod c 7

theorem vlv_step (o c : Nat) :
    ((o <<< 7) % 2 ^ 32) ||| (0x7f &&& c) = (o * 128 + c % 128) % 2 ^ 32 := by
  rw [and7f_mod]
  have h := shl7_or o (c % 128) (Nat.mod_lt _ (by norm_num))
  have e : (4294967296 : Nat) = 2 ^ 32 := by norm_num
  rw [e] at h
  rw [h]
  have h1 : (o * 128) % 2 ^ 32 % 128 = 0 := by omega
  omega

theorem getVLVLoop_bytes : ∀ (hs : List Nat) (l : Nat) (rest : List Nat) (fuel : Nat)
    (tb : Int) (o ch : Nat), (∀ h ∈ hs, 0x80 ≤ h ∧ h < 256) → l < 0x80 → 0x80 ≤ ch →
    hs.length + 1 < fuel →
    getVLVLoop fuel (IStream.open (hs ++ l :: rest)) tb o ch =
      Run.ret (bitsToInt ((hs ++ [l]).foldl (fun a b => (a * 128 + b % 128) % 2 ^ 32) o),
        IStream.open rest, tb + ((hs.length + 1 : Nat) : Int)) := by
  intro hs
  induction hs with
  | nil =>
    intro l rest fuel tb o ch _ hl hc hf
    obtain ⟨k, rfl⟩ : ∃ k, fuel = k + 2 := ⟨fuel - 2, by simp at hf; omega⟩
    have hl' : ¬ (l ≥ 0x80) := by omega
    simp only [List.nil_append, getVLVLoop, hc, ge_iff_le, if_true, read1_open,
      Option.getD_some, vlv_step, List.foldl_cons, List.foldl_nil, List.length_nil]
    rw [if_neg (by omega)]
    simp
  | cons h hs ih =>
    intro l rest fuel tb o ch hh hl hc hf
    obtain ⟨k, rfl⟩ : ∃ k, fuel = k + 1 := ⟨fuel - 1, by simp at hf; omega⟩
    have h1 := (hh h (by simp)).1
    rw [List.cons_append, getVLVLoop]
    simp only [hc, ge_iff_le, if_true, read1_open, Option.getD_some, vlv_step]
    rw [ih l rest k (tb + 1) _ h (fun x hx => hh x (by simp [hx])) hl h1
      (by simp at hf; omega)]
    simp only [List.cons_append, List.foldl_cons, List.length_cons, Nat.cast_add, Nat.cast_one]
    refine congrArg Run.ret (Prod.ext rfl (Prod.ext rfl ?_))
    simp only
    omega

theorem getVLV_bytes (bs rest : List Nat) (fuel : Nat) (tb : Int) (hb : isVlv bs)
    (hf : bs.length < fuel) :
    getVLV fuel (IStream.open (bs ++ rest)) tb =
      Run.ret (bitsToInt (vlvValue bs), IStream.open rest, tb + (bs.length : Nat)) := by
  obtain ⟨hs, l, rfl, hh, hl⟩ := hb
  unfold getVLV vlvValue
  cases hs with
  | nil =>
    obtain ⟨k, rfl⟩ : ∃ k, fuel = k + 1 := ⟨fuel - 1, by simp at hf; omega⟩
    simp only [List.nil_append, List.singleton_append, read1_open, getVLVLoop, vlv_step,
      List.foldl_cons, List.foldl_nil, List.length_singleton]
    rw [if_neg (by omega)]
    simp
  | cons h hs =>
    have h1 := (hh h (by simp)).1
    simp only [List.cons_append, List.append_assoc, List.singleton_append, read1_open, vlv_step,
      List.nil_append]
    rw [getVLVLoop_bytes hs l rest fuel (tb + 1) _ h (fun x hx => hh x (by simp [hx])) hl h1
      (by simp at hf; omega)]
    refine congrArg Run.ret (Prod.ext rfl (Prod.ext rfl ?_))
    simp only [List.length_cons, List.length_append, List.length_singleton, List.length_nil,
      Nat.cast_add, Nat.cast_one]
    omega

theorem readMidiEvent_two_status (F : FloatOps) (c : Bool) (fuel : Nat) (out delta rest : List Nat)
    (tb : Int) (command s d1 d2 : Nat) (hd : isVlv delta) (hf : delta.length < fuel)
    (hs : 0x80 ≤ s) (h2 : twoDataBytes s) :
    ∃ text, readMidiEvent F c fuel out (IStream.open (delta ++ s :: d1 :: d2 :: rest)) tb command =
      Run.ret (1, ⟨out ++ text, IStream.open rest, tb + ((delta.length + 3 : Nat) : Int), s⟩) := by
  have hns : ¬ s < 0x80 := by omega
  unfold readMidiEvent
  rw [getVLV_bytes delta _ fuel tb hd hf]
  simp only [read1_open, hns, if_false, Option.getD_some]
  rcases h2 with h | h | h | h | h <;>
    simp only [h, if_true, if_false, show ¬ ((144 : Nat) = 128) by decide,
      show ¬ ((160 : Nat) = 128) by decide, show ¬ ((160 : Nat) = 144) by decide,
      show ¬ ((176 : Nat) = 128) by decide, show ¬ ((176 : Nat) = 144) by decide,
      show ¬ ((176 : Nat) = 160) by decide, show ¬ ((224 : Nat) = 128) by decide,
      show ¬ ((224 : Nat) = 144) by decide, show ¬ ((224 : Nat) = 160) by decide,
      show ¬ ((224 : Nat) = 176) by decide, List.append_assoc] <;>
    exact ⟨_, congrArg Run.ret (Prod.ext rfl (by
      simp only [EventState.mk.injEq, List.append_cancel_left_eq, true_and, and_true]
      exact ⟨rfl, by push_cast; omega⟩))⟩

theorem readMidiEvent_two_running (F : FloatOps) (c : Bool) (fuel : Nat)
    (out delta rest : List Nat) (tb : Int) (command d1 d2 : Nat) (hd : isVlv delta)
    (hf : delta.length < fuel) (hr : d1 < 0x80) (h2 : twoDataBytes command) :
    ∃ text, readMidiEvent F c fuel out (IStream.open (delta ++ d1 :: d2 :: rest)) tb command =
      Run.ret (1, ⟨out ++ text, IStream.open rest, tb + ((delta.length + 2 : Nat) : Int),
        command⟩) := by
  unfold readMidiEvent
  rw [getVLV_bytes delta _ fuel tb hd hf]
  simp only [read1_open, hr, if_true, Option.getD_some]
  rcases h2 with h | h | h | h | h <;>
    simp only [h, if_true, if_false, show ¬ ((144 : Nat) = 128) by decide,
      show ¬ ((160 : Nat) = 128) by decide, show ¬ ((160 : Nat) = 144) by decide,
      show ¬ ((176 : Nat) = 128) by decide, show ¬ ((176 : Nat) = 144) by decide,
      show ¬ ((176 : Nat) = 160) by decide, show ¬ ((224 : Nat) = 128) by decide,
      show ¬ ((224 : Nat) = 144) by decide, show ¬ ((224 : Nat) = 160) by decide,
      show ¬ ((224 : Nat) = 176) by decide, List.append_assoc] <;>
    exact ⟨_, congrArg Run.ret (Prod.ext rfl (by
      simp only [EventState.mk.injEq, List.append_cancel_left_eq, true_and, and_true]
      exact ⟨rfl, by push_cast; omega⟩))⟩

theorem readMidiEvent_one_status (F : FloatOps) (c : Bool) (fuel : Nat) (out delta rest : List Nat)
    (tb : Int) (command s d1 : Nat) (hd : isVlv delta) (hf : delta.length < fuel)
    (hs : 0x80 ≤ s) (h1 : oneDataByte s) :
    ∃ text, readMidiEvent F c fuel out (IStream.open (delta ++ s :: d1 :: rest)) tb command =
      Run.ret (1, ⟨out ++ text, IStream.open rest, tb + ((delta.length + 2 : Nat) : Int), s⟩) := by
  have hns : ¬ s < 0x80 := by omega
  unfold readMidiEvent
  rw [getVLV_bytes delta _ fuel tb hd hf]
  simp only [read1_open, hns, if_false, Option.getD_some]
  rcases h1 with h | h <;>
    simp only [h, if_true, if_false, show ¬ ((192 : Nat) = 128) by decide,
      show ¬ ((192 : Nat) = 144) by decide, show ¬ ((192 : Nat) = 160) by decide,
      show ¬ ((192 : Nat) = 176) by decide, show ¬ ((192 : Nat) = 224) by decide,
      show ¬ ((208 : Nat) = 128) by decide, show ¬ ((208 : Nat) = 144) by decide,
      show ¬ ((208 : Nat) = 160) by decide, show ¬ ((208 : Nat) = 176) by decide,
      show ¬ ((208 : Nat) = 224) by decide, show ¬ ((208 : Nat) = 192) by decide,
      List.append_assoc] <;>
    exact ⟨_, congrArg Run.ret (Prod.ext rfl (by
      simp only [EventState.mk.injEq, List.append_cancel_left_eq, true_and, and_true]
      exact ⟨rfl, by push_cast; omega⟩))⟩

theorem readMidiEvent_one_running (F : FloatOps) (c : Bool) (fuel : Nat)
    (out delta rest : List Nat) (tb : Int) (command d1 : Nat) (hd : isVlv delta)
    (hf : delta.length < fuel) (hr : d1 < 0x80) (h1 : oneDataByte command) :
    ∃ text, readMidiEvent F c fuel out (IStream.open (delta ++ d1 :: rest)) tb command =
      Run.ret (1, ⟨out ++ text, IStream.open rest, tb + ((delta.length + 1 : Nat) : Int),
        command⟩) := by
  unfold readMidiEvent
  rw [getVLV_bytes delta _ fuel tb hd hf]
  simp only [read1_open, hr, if_true, Option.getD_some]
  rcases h1 with h | h <;>
    simp only [h, if_true, if_false, show ¬ ((192 : Nat) = 128) by decide,
      show ¬ ((192 : Nat) = 144) by decide, show ¬ ((192 : Nat) = 160) by decide,
      show ¬ ((192 : Nat) = 176) by decide, show ¬ ((192 : Nat) = 224) by decide,
      show ¬ ((208 : Nat) = 128) by decide, show ¬ ((208 : Nat) = 144) by decide,
      show ¬ ((208 : Nat) = 160) by decide, show ¬ ((208 : Nat) = 176) by decide,
      show ¬ ((208 : Nat) = 224) by decide, show ¬ ((208 : Nat) = 192) by decide,
      List.append_assoc] <;>
    exact ⟨_, congrArg Run.ret (Prod.ext rfl (by
      simp only [EventState.mk.injEq, List.append_cancel_left_eq, true_and, and_true]
      exact ⟨rfl, by push_cast; omega⟩))⟩

/-- C28. Channel voice events and running status.  After a delta time (any
variable-length value), when the next byte has its top bit set it is read as the
status byte and becomes the running status; `readMidiEvent` then reads exactly two
data bytes when the high nibble of the status is 8, 9, A, B or E and exactly one when
it is C or D.  When the next byte has its top bit clear there is no status byte: it is
the first data byte, the running status is left as it was and supplies the command,
and one more data byte is read for the high nibbles 8, 9, A, B, E and none for C, D.
In each case the value returned is 1 and the stream is left right after the data
bytes. -/
theorem readMidiEvent_voice (F : FloatOps) (commentsQ : Bool) (fuel : Nat)
    (out delta rest : List Nat) (trackbytes : Int) (command : Nat) (hd : isVlv delta)
    (hf : delta.length < fuel) :
    (∀ s d1 d2, 0x80 ≤ s → twoDataBytes s →
      ∃ text, readMidiEvent F commentsQ fuel out
          (IStream.open (delta ++ s :: d1 :: d2 :: rest)) trackbytes command =
        Run.ret (1, ⟨out ++ text, IStream.open rest,
          trackbytes + ((delta.length + 3 : Nat) : Int), s⟩)) ∧
    (∀ s d1, 0x80 ≤ s → oneDataByte s →
      ∃ text, readMidiEvent F commentsQ fuel out
          (IStream.open (delta ++ s :: d1 :: rest)) trackbytes command =
        Run.ret (1, ⟨out ++ text, IStream.open rest,
          trackbytes + ((delta.length + 2 : Nat) : Int), s⟩)) ∧
    (∀ d1 d2, d1 < 0x80 → twoDataBytes command →
      ∃ text, readMidiEvent F commentsQ fuel out
          (IStream.open (delta ++ d1 :: d2 :: rest)) trackbytes command =
        Run.ret (1, ⟨out ++ text, IStream.open rest,
          trackbytes + ((delta.length + 2 : Nat) : Int), command⟩)) ∧
    (∀ d1, d1 < 0x80 → oneDataByte command →
      ∃ text, readMidiEvent F commentsQ fuel out
          (IStream.open (delta ++ d1 :: rest)) trackbytes command =
        Run.ret (1, ⟨out ++ text, IStream.open rest,
          trackbytes + ((delta.length + 1 : Nat) : Int), command⟩)) :=
  ⟨fun s d1 d2 hs h2 =>
      readMidiEvent_two_status F commentsQ fuel out delta rest trackbytes command s d1 d2 hd hf
        hs h2,
    fun s d1 hs h1 =>
      readMidiEvent_one_status F commentsQ fuel out delta rest trackbytes command s d1 hd hf
        hs h1,
    fun d1 d2 hr h2 =>
      readMidiEvent_two_running F commentsQ fuel out delta rest trackbytes command d1 d2 hd hf
        hr h2,
    fun d1 hr h1 =>
      readMidiEvent_one_running F commentsQ fuel out delta rest trackbytes command d1 hd hf
        hr h1⟩

/-- Witness for C28: a note-on event `00 90 3C 64` and then, with the running status
`90`, the event `81 00 3E 00`, whose delta time takes two bytes; the bytes `FF 2F 00`
are left on the stream. -/
theorem readMidiEvent_voice_witness :
    (∃ text, readMidiEvent FloatOps.zero false 5 [] (IStream.open [0, 0x90, 60, 100, 0xff, 0x2f, 0])
        0 0 = Run.ret (1, ⟨[] ++ text, IStream.open [0xff, 0x2f, 0], 0 + ((1 + 3 : Nat) : Int),
          0x90⟩)) ∧
    (∃ text, readMidiEvent FloatOps.zero false 5 []
        (IStream.open [0x81, 0, 62, 0, 0xff, 0x2f, 0]) 4 0x90 =
      Run.ret (1, ⟨[] ++ text, IStream.open [0xff, 0x2f, 0], 4 + ((2 + 2 : Nat) : Int),
        0x90⟩)) :=
  ⟨(readMidiEvent_voice FloatOps.zero false 5 [] [0] [0xff, 0x2f, 0] 0 0
      ⟨[], 0, rfl, by simp, by decide⟩ (by decide)).1 0x90 60 100 (by decide)
      (Or.inr (Or.inl (by decide))),
    (readMidiEvent_voice FloatOps.zero false 5 [] [0x81, 0] [0xff, 0x2f, 0] 4 0x90
      ⟨[0x81], 0, rfl, by simp, by decide⟩ (by decide)).2.2.1 62 0 (by decide)
      (Or.inr (Or.inl (by decide)))⟩

/-! ## C29: meta events -/

theorem list_length_three (bs : List Nat) (h : bs.length = 3) : ∃ a b c, bs = [a, b, c] := by
  match bs, h with
  | [a, b, c], _ => exact ⟨a, b, c, rfl⟩

theorem readMetaPayload_reads (F : FloatOps) (ty : Nat) (length : Int) (bs rest : List Nat)
    (tb : Int) (ch : Nat) (output : List Nat) (hl : bs.length = metaBytesRead ty length) :
    ∃ text, readMetaPayload F ty length (IStream.open (bs ++ rest)) tb ch output =
      (IStream.open rest, tb + (bs.length : Nat), output ++ text) := by
  unfold metaBytesRead at hl
  unfold readMetaPayload
  by_cases h0 : ty = 0x00
  · rw [if_pos h0] at hl
    obtain ⟨a, b, rfl⟩ := list_length_two bs hl
    simp only [h0, if_true, List.cons_append, List.nil_append, read1_open, Option.getD_some,
      List.append_assoc]
    exact ⟨_, rfl⟩
  · rw [if_neg h0] at hl
    simp only [h0, if_false]
    by_cases h1 : ty = 0x20 ∨ ty = 0x21
    · rw [if_pos h1] at hl
      rw [if_pos h1, ← hl, readBytes_open]
      exact ⟨_, rfl⟩
    · rw [if_neg h1] at hl
      rw [if_neg h1]
      by_cases h2 : ty = 0x51
      · rw [if_pos h2] at hl
        obtain ⟨a, b, d, rfl⟩ := list_length_three bs hl
        simp only [h2, if_true, List.cons_append, List.nil_append, read1_open, Option.getD_some,
          List.append_assoc]
        exact ⟨_, rfl⟩
      · rw [if_neg h2] at hl
        rw [if_neg h2]
        by_cases h3 : ty = 0x54
        · rw [if_pos h3] at hl
          rw [if_pos h3, ← hl, readBytes_open]
          exact ⟨_, rfl⟩
        · rw [if_neg h3] at hl
          rw [if_neg h3]
          by_cases h4 : ty = 0x58
          · rw [if_pos h4] at hl
            rw [if_pos h4, ← hl, readBytes_open]
            exact ⟨_, rfl⟩
          · rw [if_neg h4] at hl
            rw [if_neg h4]
            by_cases h5 : ty = 0x59
            · rw [if_pos h5] at hl
              rw [if_pos h5, ← hl, readBytes_open]
              exact ⟨_, rfl⟩
            · rw [if_neg h5] at hl
              rw [if_neg h5]
              by_cases h6 : 0x01 ≤ ty ∧ ty ≤ 0x09
              · rw [if_pos h6, ← hl, readBytes_open]
                simp only [List.append_assoc]
                exact ⟨_, rfl⟩
              · rw [if_neg h6, ← hl, readBytes_open]
                exact ⟨_, rfl⟩

theorem readMidiEvent_meta_reads (F : FloatOps) (c : Bool) (fuel : Nat)
    (out delta lenBytes payload rest : List Nat) (tb : Int) (command ty : Nat)
    (hd : isVlv delta) (hl : isVlv lenBytes) (hf : delta.length < fuel)
    (hf2 : lenBytes.length < fuel)
    (hp : payload.length = metaBytesRead ty (bitsToInt (vlvValue lenBytes))) :
    ∃ text, readMidiEvent F c fuel out
        (IStream.open (delta ++ 0xff :: ty :: (lenBytes ++ (payload ++ rest)))) tb command =
      Run.ret (if ty = 0x2f then 0 else 1, ⟨out ++ text, IStream.open rest,
        tb + ((delta.length + 2 + lenBytes.length + payload.length : Nat) : Int), 0xff⟩) := by
  have k2 : (255 &&& 240 : Nat) = 240 := by decide
  unfold readMidiEvent
  rw [getVLV_bytes delta _ fuel tb hd hf]
  simp only [read1_open, show ¬ ((255 : Nat) < 128) by decide, if_false, Option.getD_some, k2,
    show ¬ ((240 : Nat) = 128) by decide, show ¬ ((240 : Nat) = 144) by decide,
    show ¬ ((240 : Nat) = 160) by decide, show ¬ ((240 : Nat) = 176) by decide,
    show ¬ ((240 : Nat) = 224) by decide, show ¬ ((240 : Nat) = 192) by decide,
    show ¬ ((240 : Nat) = 208) by decide, show ¬ ((255 : Nat) = 247) by decide,
    show ¬ ((255 : Nat) = 254) by decide, if_true,
    getVLV_bytes lenBytes _ fuel _ hl hf2]
  obtain ⟨text, ht⟩ := readMetaPayload_reads F ty (bitsToInt (vlvValue lenBytes)) payload rest
    (tb + (delta.length : Nat) + 1 + 1 + (lenBytes.length : Nat)) ty
    (str "v" ++ showInt (bitsToInt (vlvValue delta)) ++ str "\t" ++ showHex 255 ++ str " " ++
      showHex ty ++ str " v" ++ showInt (bitsToInt (vlvValue lenBytes))) hp
  rw [ht]
  simp only [List.append_assoc]
  exact ⟨_, congrArg Run.ret (Prod.ext rfl (by
    simp only [EventState.mk.injEq, List.append_cancel_left_eq, true_and, and_true]
    exact ⟨rfl, by push_cast; omega⟩))⟩

/-- C29, amended.  Meta events: after a delta time, the status byte `FF`, a type byte
and a length field (any variable-length values), `readMidiEvent` reads exactly
`metaBytesRead` bytes: the declared length `L` for every type other than 00, 20, 21,
51, 54, 58 and 59, and for these seven types 2, 1, 1, 3, 5, 4 and 2 bytes whatever
`L` is.  The value returned is 0 for the type 2F and 1 otherwise, and the stream is
left right after the bytes read. -/
theorem readMidiEvent_meta (F : FloatOps) (commentsQ : Bool) (fuel : Nat)
    (out delta lenBytes rest : List Nat) (trackbytes : Int) (command ty : Nat)
    (hd : isVlv delta) (hl : isVlv lenBytes) (hf : delta.length < fuel)
    (hf2 : lenBytes.length < fuel) :
    (∀ payload : List Nat,
      payload.length = metaBytesRead ty (bitsToInt (vlvValue lenBytes)) →
      ∃ text, readMidiEvent F commentsQ fuel out
          (IStream.open (delta ++ 0xff :: ty :: (lenBytes ++ (payload ++ rest))))
          trackbytes command =
        Run.ret (if ty = 0x2f then 0 else 1, ⟨out ++ text, IStream.open rest,
          trackbytes + ((delta.length + 2 + lenBytes.length + payload.length : Nat) : Int),
          0xff⟩)) ∧
    (∀ L : Int, ty ≠ 0x00 → ty ≠ 0x20 → ty ≠ 0x21 → ty ≠ 0x51 → ty ≠ 0x54 → ty ≠ 0x58 →
      ty ≠ 0x59 → metaBytesRead ty L = L.toNat) ∧
    (∀ L : Int, metaBytesRead 0x00 L = 2 ∧ metaBytesRead 0x20 L = 1 ∧ metaBytesRead 0x21 L = 1 ∧
      metaBytesRead 0x51 L = 3 ∧ metaBytesRead 0x54 L = 5 ∧ metaBytesRead 0x58 L = 4 ∧
      metaBytesRead 0x59 L = 2) := by
  refine ⟨fun payload hp => readMidiEvent_meta_reads F commentsQ fuel out delta lenBytes payload
    rest trackbytes command ty hd hl hf hf2 hp, ?_, ?_⟩
  · intro L h0 h1 h2 h3 h4 h5 h6
    unfold metaBytesRead
    simp [h0, h1, h2, h3, h4, h5, h6]
  · intro L
    simp [metaBytesRead]

/-- Witness for C29 as amended: a text event `00 FF 01 02 41 42`, whose two bytes are
read, before the bytes `00 FF 2F 00`. -/
theorem readMidiEvent_meta_witness :
    ∃ text, readMidiEvent FloatOps.zero false 5 []
        (IStream.open ([0] ++ 0xff :: 1 :: ([2] ++ ([0x41, 0x42] ++ [0, 0xff, 0x2f, 0])))) 0 0 =
      Run.ret (if (1 : Nat) = 0x2f then 0 else 1, ⟨[] ++ text, IStream.open [0, 0xff, 0x2f, 0],
        0 + ((([0] : List Nat).length + 2 + ([2] : List Nat).length +
          ([0x41, 0x42] : List Nat).length : Nat) : Int), 0xff⟩) :=
  (readMidiEvent_meta FloatOps.zero false 5 [] [0] [2] [0, 0xff, 0x2f, 0] 0 0 1
    ⟨[], 0, rfl, by simp, by decide⟩ ⟨[], 2, rfl, by simp, by decide⟩ (by decide)
    (by decide)).1 [0x41, 0x42] (by decide)

/-- Counterexample to C29 as stated.  The meta event `FF 20` with the declared length
0 is followed by the byte 55: `readMidiEvent` reads that byte as the channel prefix,
one byte where the length declares none.  The meta event `FF 59` with the declared
length 3 is followed by the bytes 01 02 03: only two of them are read. -/
theorem readMidiEvent_meta_counterexample :
    (vlvValue [0] = 0 ∧
      readMidiEvent FloatOps.zero false 5 [] (IStream.open [0, 0xff, 0x20, 0, 0x55, 0x66]) 0 0 =
        Run.ret (1, ⟨str "v0\tff 20 v0 '85", IStream.open [0x66], 5, 0xff⟩)) ∧
    (vlvValue [3] = 3 ∧
      readMidiEvent FloatOps.zero false 5 [] (IStream.open [0, 0xff, 0x59, 3, 1, 2, 3, 0x66]) 0 0 =
        Run.ret (1, ⟨str "v0\tff 59 v3 '1 '2", IStream.open [3, 0x66], 6, 0xff⟩)) := by
  refine ⟨⟨by decide, by decide⟩, by decide, by decide⟩

/-! ## C30: system exclusive events -/

theorem hexItem_two (b : Nat) (hb : b < 256) :
    hexItem b = [32, hexDigitChar (b / 16), hexDigitChar (b % 16)] := by
  rw [hexItem_eq]
  have h := hexByteText_eq b hb
  unfold hexByteText at h
  have h' := congrArg List.dropLast h
  simp only [List.dropLast_concat] at h'
  rw [h']
  rfl

theorem isVlv_cons (bs : List Nat) (h : isVlv bs) : ∃ b t, bs = b :: t := by
  obtain ⟨hs, l, rfl, _, _⟩ := h
  cases hs with
  | nil => exact ⟨l, [], rfl⟩
  | cons a t => exact ⟨a, t ++ [l], rfl⟩

theorem readMidiEvent_f7 (F : FloatOps) (c : Bool) (fuel : Nat)
    (out delta lenBytes payload rest : List Nat) (tb : Int) (command : Nat)
    (hd : isVlv delta) (hl : isVlv lenBytes) (hf : delta.length < fuel)
    (hf2 : lenBytes.length < fuel)
    (hp : (payload.length : Int) = bitsToInt (vlvValue lenBytes)) :
    readMidiEvent F c fuel out
        (IStream.open (delta ++ 0xf7 :: (lenBytes ++ (payload ++ rest)))) tb command =
      Run.ret (1, ⟨out ++ (str "v" ++ showInt (bitsToInt (vlvValue delta)) ++ str "\t" ++
          str "f7" ++ str " v" ++ showNat payload.length ++ (payload.map hexItem).flatten ++
          (if c then str "\t; " else [])),
        IStream.open rest,
        tb + ((delta.length + 1 + lenBytes.length + payload.length : Nat) : Int), 0xf7⟩) := by
  have k1 : (247 &&& 240 : Nat) = 240 := by decide
  obtain ⟨b0, lt, hlb⟩ := isVlv_cons lenBytes hl
  have hg := getVLV_bytes lenBytes (payload ++ rest) fuel (tb + (delta.length : Nat) + 1) hl hf2
  rw [← hp] at hg
  rw [hlb] at hg
  simp only [List.cons_append] at hg
  unfold readMidiEvent
  rw [getVLV_bytes delta _ fuel tb hd hf]
  simp only [hlb, List.cons_append, read1_open, show ¬ ((247 : Nat) < 128) by decide, if_false,
    Option.getD_some, k1,
    show ¬ ((240 : Nat) = 128) by decide, show ¬ ((240 : Nat) = 144) by decide,
    show ¬ ((240 : Nat) = 160) by decide, show ¬ ((240 : Nat) = 176) by decide,
    show ¬ ((240 : Nat) = 224) by decide, show ¬ ((240 : Nat) = 192) by decide,
    show ¬ ((240 : Nat) = 208) by decide, if_true, putback_open, add_sub_cancel_right, hg]
  simp only [showInt_natCast, Int.toNat_ofNat, readBytes_open]
  refine congrArg Run.ret (Prod.ext rfl ?_)
  simp only [EventState.mk.injEq, true_and, and_true]
  refine ⟨?_, ?_⟩
  · have e : showHex 247 = str "f7" := by decide
    rw [e]
    simp [List.append_assoc]
  · simp only [List.length_cons]
    push_cast
    omega

theorem readMidiEvent_f0 (F : FloatOps) (c : Bool) (fuel : Nat)
    (out delta rest : List Nat) (tb : Int) (command b : Nat)
    (hd : isVlv delta) (hf : delta.length < fuel) :
    readMidiEvent F c fuel out (IStream.open (delta ++ 0xf0 :: b :: rest)) tb command =
      Run.ret (1, ⟨out ++ (str "v" ++ showInt (bitsToInt (vlvValue delta)) ++ str "\t" ++
          str "f0" ++ (if c then str "\t; " else [])),
        IStream.open rest, tb + ((delta.length + 2 : Nat) : Int), 0xf0⟩) := by
  have k1 : (240 &&& 240 : Nat) = 240 := by decide
  unfold readMidiEvent
  rw [getVLV_bytes delta _ fuel tb hd hf]
  simp only [read1_open, show ¬ ((240 : Nat) < 128) by decide, if_false,
    Option.getD_some, k1,
    show ¬ ((240 : Nat) = 128) by decide, show ¬ ((240 : Nat) = 144) by decide,
    show ¬ ((240 : Nat) = 160) by decide, show ¬ ((240 : Nat) = 176) by decide,
    show ¬ ((240 : Nat) = 224) by decide, show ¬ ((240 : Nat) = 192) by decide,
    show ¬ ((240 : Nat) = 208) by decide, show ¬ ((240 : Nat) = 247) by decide,
    show ¬ ((240 : Nat) = 254) by decide, show ¬ ((240 : Nat) = 255) by decide, if_true]
  refine congrArg Run.ret (Prod.ext rfl ?_)
  simp only [EventState.mk.injEq, true_and, and_true]
  refine ⟨?_, ?_⟩
  · have e : showHex 240 = str "f0" := by decide
    rw [e]
    simp [List.append_assoc]
  · push_cast
    omega

/-- C30, the behaviour of the code.  After a delta time and the status byte `F7`,
`readMidiEvent` reads a length (any variable-length value), then as many bytes as
the length tells, and prints ` v` with the length and then each byte as a space and
two hexadecimal digits.  After the status byte `F0` it reads one byte, the first of
the length field, and nothing more: it prints the status alone and leaves the rest of
the length field and the data on the stream. -/
theorem readMidiEvent_sysex (F : FloatOps) (commentsQ : Bool) (fuel : Nat)
    (out delta lenBytes payload rest : List Nat) (trackbytes : Int) (command : Nat)
    (hd : isVlv delta) (hl : isVlv lenBytes) (hf : delta.length < fuel)
    (hf2 : lenBytes.length < fuel)
    (hp : (payload.length : Int) = bitsToInt (vlvValue lenBytes))
    (hb : ∀ b ∈ payload, b < 256) :
    readMidiEvent F commentsQ fuel out
        (IStream.open (delta ++ 0xf7 :: (lenBytes ++ (payload ++ rest)))) trackbytes command =
      Run.ret (1, ⟨out ++ (str "v" ++ showInt (bitsToInt (vlvValue delta)) ++ str "\t" ++
          str "f7" ++ str " v" ++ showNat payload.length ++
          (payload.map (fun b => [32, hexDigitChar (b / 16), hexDigitChar (b % 16)])).flatten ++
          (if commentsQ then str "\t; " else [])),
        IStream.open rest,
        trackbytes + ((delta.length + 1 + lenBytes.length + payload.length : Nat) : Int),
        0xf7⟩) ∧
    ∃ b0 lt, lenBytes = b0 :: lt ∧
      readMidiEvent F commentsQ fuel out
          (IStream.open (delta ++ 0xf0 :: (lenBytes ++ (payload ++ rest)))) trackbytes command =
        Run.ret (1, ⟨out ++ (str "v" ++ showInt (bitsToInt (vlvValue delta)) ++ str "\t" ++
            str "f0" ++ (if commentsQ then str "\t; " else [])),
          IStream.open (lt ++ (payload ++ rest)),
          trackbytes + ((delta.length + 2 : Nat) : Int), 0xf0⟩) := by
  constructor
  · rw [readMidiEvent_f7 F commentsQ fuel out delta lenBytes payload rest trackbytes command hd hl
      hf hf2 hp]
    have e : payload.map hexItem =
        payload.map (fun b => [32, hexDigitChar (b / 16), hexDigitChar (b % 16)]) :=
      List.map_congr_left (fun b hbm => hexItem_two b (hb b hbm))
    rw [e]
  · obtain ⟨b0, lt, hlb⟩ := isVlv_cons lenBytes hl
    refine ⟨b0, lt, hlb, ?_⟩
    rw [hlb, List.cons_append]
    exact readMidiEvent_f0 F commentsQ fuel out delta _ trackbytes command b0 hd hf

/-- Witness for the behaviour of the code at C30: the events `00 F7 02 0A B0` and
`00 F0 02 0A B0`, before the bytes `00 FF 2F 00`. -/
theorem readMidiEvent_sysex_witness :
    readMidiEvent FloatOps.zero false 5 []
        (IStream.open [0, 0xf7, 2, 0x0a, 0xb0, 0, 0xff, 0x2f, 0]) 0 0 =
      Run.ret (1, ⟨str "v0\tf7 v2 0a b0", IStream.open [0, 0xff, 0x2f, 0], 5, 0xf7⟩) ∧
    readMidiEvent FloatOps.zero false 5 []
        (IStream.open [0, 0xf0, 2, 0x0a, 0xb0, 0, 0xff, 0x2f, 0]) 0 0 =
      Run.ret (1, ⟨str "v0\tf0", IStream.open [0x0a, 0xb0, 0, 0xff, 0x2f, 0], 3, 0xf0⟩) :=
  have h := readMidiEvent_sysex FloatOps.zero false 5 [] [0] [2] [0x0a, 0xb0] [0, 0xff, 0x2f, 0]
    0 0 ⟨[], 0, rfl, by simp, by decide⟩ ⟨[], 2, rfl, by simp, by decide⟩ (by decide)
    (by decide) (by decide) (by decide)
  ⟨h.1, by
    obtain ⟨b0, lt, e, h2⟩ := h.2
    obtain ⟨rfl, rfl⟩ : b0 = 2 ∧ lt = [] := by
      simp only [List.cons.injEq] at e
      exact ⟨e.1.symm, e.2.symm⟩
    exact h2⟩

/-! ## Termination -/

theorem getline_any_line (l rest : List Nat) (h10 : (10 : Nat) ∉ l) (hlen : l.length ≤ 1023) :
    getline (IStream.open (l ++ 10 :: rest)) =
      (l.takeWhile (fun c => decide (c ≠ 0)), IStream.open rest) := by
  simp only [getline, IStream.open, IStream.good, Bool.not_false, Bool.and_self, if_true]
  rw [getlineLoop_line l rest h10 1023 [] hlen]
  rfl

theorem writeToBinary_returns (F : FloatOps) (tail : List Nat) (ht : (10 : Nat) ∉ tail)
    (htl : tail.length ≤ 1023) :
    ∀ (lines : List (List Nat)) (out : List Nat) (fuel : Nat),
    (∀ l ∈ lines, (10 : Nat) ∉ l ∧ l.length ≤ 1023) → lines.length < fuel →
    ∃ text, writeToBinary F fuel out (unlines lines ++ tail) = Run.ret (1, text) := by
  intro lines
  induction lines with
  | nil =>
    intro out fuel _ hf
    obtain ⟨k, rfl⟩ : ∃ k, fuel = k + 1 := ⟨fuel - 1, by omega⟩
    refine ⟨out, ?_⟩
    simp only [writeToBinary, unlines, List.map_nil, List.flatten_nil, List.nil_append, getline,
      IStream.open, IStream.good, Bool.not_false, Bool.and_self, if_true]
    rw [getlineLoop_last tail ht 1023 [] htl]
    simp [writeToBinaryLoop]
  | cons l ls ih =>
    intro out fuel hl hf
    obtain ⟨k, rfl⟩ : ∃ k, fuel = k + 1 := ⟨fuel - 1, by omega⟩
    obtain ⟨h10, hlen⟩ := hl l (by simp)
    have e : unlines (l :: ls) ++ tail = l ++ 10 :: (unlines ls ++ tail) := by
      simp [unlines]
    obtain ⟨r, hr⟩ := processLine_returns F out (l.takeWhile (fun c => decide (c ≠ 0)))
    obtain ⟨text, ht'⟩ := ih r.2 k (fun x hx => hl x (by simp [hx])) (by simpa using hf)
    refine ⟨text, ?_⟩
    simp only [writeToBinary] at ht' ⊢
    rw [e, getline_any_line l _ h10 hlen]
    simp only [writeToBinaryLoop, IStream.open, Bool.false_eq_true, if_false, hr]
    rw [IStream.open] at ht'
    exact ht'

theorem outputStyleBoth_returns (m : Int) (hm : 1 ≤ m) (out input : List Nat)
    (hsmall : m ≤ 84 ∨ input.length ≤ 84) :
    ∃ text, outputStyleBoth m out input = Run.ret (1, text) := by
  obtain ⟨chunks, -, -, -, h4⟩ := outputStyleBoth_chunks m hm input.length input
    (le_refl _) hsmall ⟨out, List.replicate 256 0, 0, 0⟩ rfl rfl (List.length_replicate _ _)
  rw [← outputStyleBoth_unfold] at h4
  exact ⟨_, h4⟩

theorem readTrackEvents_exhausted (F : FloatOps) (c : Bool) (fuel n : Nat)
    (tempout : List Nat) (tb : Int) (command : Nat) :
    readTrackEvents F c fuel (n + 1) tempout (IStream.open []) tb command = Run.undef := by
  have e : readMidiEvent F c fuel tempout (IStream.open []) tb command = Run.undef := by
    unfold readMidiEvent getVLV
    rfl
  rw [readTrackEvents, e]

theorem readTrackEvents_patch_change (F : FloatOps) (c : Bool) (fuel n : Nat) (hf : 2 ≤ fuel)
    (hn : 2 ≤ n) (t : List Nat) :
    readTrackEvents F c fuel n t (IStream.open [0, 0xC0, 5]) 0 0 = Run.undef := by
  obtain ⟨m, rfl⟩ : ∃ m, n = m + 1 + 1 := ⟨n - 2, by omega⟩
  obtain ⟨text, e4⟩ := readMidiEvent_one_status F c fuel t [0] [] 0 0 0xC0 5
    ⟨[], 0, rfl, by simp, by norm_num⟩ (by simpa using hf) (by norm_num) (Or.inl (by decide))
  rw [readTrackEvents]
  simp only [List.singleton_append] at e4
  rw [e4]
  simp only [ne_eq, one_ne_zero, not_false_eq_true, if_true]
  exact readTrackEvents_exhausted F c _ _ _ _ _

theorem outputStyleMidi_exhausted (F : FloatOps) (c : Bool) (fuel : Nat) (hf : 2 ≤ fuel)
    (out : List Nat) : outputStyleMidi F c fuel out exhaustedFile = Run.undef := by
  obtain ⟨tempout, ch, e⟩ := outputStyleMidi_header F c fuel out 6 0 1 0 96
    [77, 84, 114, 107, 0, 0, 0, 3, 0, 0xC0, 5] (by norm_num) (by norm_num) (by norm_num)
  rw [exhaustedFile, e]
  unfold outputStyleMidiTracks
  simp only [read1_open]
  have hx : (toInt32 (((6 : Nat) : Int) - 6)).toNat = 0 := by decide
  have hy : ¬ (toInt32 (((6 : Nat) : Int) - 6) > 0) := by decide
  simp only [hx, hy, readBytes, if_false, decide_False, Nat.cast_one, Int.toNat_one]
  have e1 : ∀ i t s x, readTracks F c false fuel 1 i t s x =
      readTracks F c false fuel (0 + 1) i t s x := fun _ _ _ _ => rfl
  rw [e1, readTracks]
  simp only [read1_open, Option.getD_some, ne_eq, not_true_eq_false, if_false]
  have e2 : readBigEndian 4 (IStream.open [0, 0, 0, 3, 0, 0xC0, 5]) 107 0 =
      (3, 3, IStream.open [0, 0xC0, 5]) := rfl
  simp only [e2, readTrackEvents_patch_change F c fuel fuel hf hf]

/-! ## C31: system messages -/

theorem readMidiEvent_system (F : FloatOps) (c : Bool) (fuel : Nat)
    (out delta rest : List Nat) (tb : Int) (command s b : Nat)
    (hd : isVlv delta) (hf : delta.length < fuel)
    (hs : (0xf1 ≤ s ∧ s ≤ 0xf6) ∨ (0xf8 ≤ s ∧ s ≤ 0xfd)) :
    readMidiEvent F c fuel out (IStream.open (delta ++ s :: b :: rest)) tb command =
      Run.ret (1, ⟨out ++ (str "v" ++ showInt (bitsToInt (vlvValue delta)) ++ str "\t" ++
          showHex s ++ (if c then str "\t; " else [])),
        IStream.open rest, tb + ((delta.length + 2 : Nat) : Int), s⟩) := by
  have k0 : ¬ s < 128 := by omega
  have k1 : s &&& 240 = 240 := by
    rcases hs with ⟨h1, h2⟩ | ⟨h1, h2⟩ <;> interval_cases s <;> rfl
  have k2 : s ≠ 247 := by omega
  have k3 : s ≠ 254 := by omega
  have k4 : s ≠ 255 := by omega
  unfold readMidiEvent
  rw [getVLV_bytes delta _ fuel tb hd hf]
  simp only [read1_open, k0, if_false, Option.getD_some, k1, k2, k3, k4,
    show ¬ ((240 : Nat) = 128) by decide, show ¬ ((240 : Nat) = 144) by decide,
    show ¬ ((240 : Nat) = 160) by decide, show ¬ ((240 : Nat) = 176) by decide,
    show ¬ ((240 : Nat) = 224) by decide, show ¬ ((240 : Nat) = 192) by decide,
    show ¬ ((240 : Nat) = 208) by decide, if_true]
  refine congrArg Run.ret (Prod.ext rfl ?_)
  simp only [EventState.mk.injEq, true_and, and_true]
  refine ⟨?_, ?_⟩
  · simp [List.append_assoc]
  · push_cast
    omega

/-- C31, the failing input.  After the delta time 0 and the status byte `F8`
the next byte, here the status byte `90` of a note-on event, is read as well: three
bytes are counted, the line printed is `v0` and `f8`, and the stream is left at the
data bytes of the note-on event. -/
theorem readMidiEvent_system_message_counterexample :
    readMidiEvent FloatOps.zero false 5 [] (IStream.open [0, 0xf8, 0x90, 60, 100, 0, 0xff, 0x2f, 0])
        0 0 =
      Run.ret (1, ⟨str "v0\tf8", IStream.open [60, 100, 0, 0xff, 0x2f, 0], 3, 0xf8⟩) := by
  decide

/-- C31, the behaviour of the code.  After a delta time (any variable-length value)
and a status byte in `F1`..`F6` or `F8`..`FD`, `readMidiEvent` reads one more byte,
whatever it is, and nothing else (the read that follows every status byte is not
undone by the cases of these status bytes, which only `break`, whereas the case `F7`
puts the byte back): the bytes counted are those of the delta time and two more, the value
returned is 1 and the status byte becomes the running status.  The line printed holds
the delta time and the status byte in hexadecimal; the byte read after the status byte
is not printed. -/
theorem readMidiEvent_system_message (F : FloatOps) (commentsQ : Bool) (fuel : Nat)
    (out delta rest : List Nat) (trackbytes : Int) (command s b : Nat)
    (hd : isVlv delta) (hf : delta.length < fuel)
    (hs : (0xf1 ≤ s ∧ s ≤ 0xf6) ∨ (0xf8 ≤ s ∧ s ≤ 0xfd)) :
    readMidiEvent F commentsQ fuel out (IStream.open (delta ++ s :: b :: rest)) trackbytes
        command =
      Run.ret (1, ⟨out ++ (str "v" ++ showInt (bitsToInt (vlvValue delta)) ++ str "\t" ++
          showHex s ++ (if commentsQ then str "\t; " else [])),
        IStream.open rest, trackbytes + ((delta.length + 2 : Nat) : Int), s⟩) ∧
    showHex s = [102, hexDigitChar (s % 16)] := by
  refine ⟨readMidiEvent_system F commentsQ fuel out delta rest trackbytes command s b hd hf hs,
    ?_⟩
  rcases hs with ⟨h1, h2⟩ | ⟨h1, h2⟩ <;> interval_cases s <;> rfl

/-- Witness for the behaviour of the code at C31: the event `00 F8` followed by the
byte `90`. -/
theorem readMidiEvent_system_message_witness :
    readMidiEvent FloatOps.zero false 5 [] (IStream.open ([0] ++ 0xf8 :: 0x90 :: [60, 100])) 0 0 =
      Run.ret (1, ⟨[] ++ (str "v" ++ showInt (bitsToInt (vlvValue [0])) ++ str "\t" ++
          showHex 0xf8 ++ (if false = true then str "\t; " else [])),
        IStream.open [60, 100], 0 + ((([0] : List Nat).length + 2 : Nat) : Int), 0xf8⟩) ∧
    showHex 0xf8 = [102, hexDigitChar (0xf8 % 16)] :=
  readMidiEvent_system_message FloatOps.zero false 5 [] [0] [60, 100] 0 0 0xf8 0x90
    ⟨[], 0, rfl, by simp, by decide⟩ (by decide) (Or.inr (by decide))

/-! ## Unknown header bytes -/

theorem readTracks_tracksBase (F : FloatOps) (c hx : Bool) (fuel : Nat) (hf : 5 ≤ fuel)
    (rest : List Nat) : ∀ (ts : List Track) (i : Nat) (tempout : List Nat) (ch : Nat),
    (∀ t ∈ ts, t.ok ∧ t.events.length ≤ fuel) →
    readTracks F c hx fuel ts.length (i : Int) tempout
        (IStream.open ((ts.map Track.bytes).flatten ++ rest)) ch =
      Run.ret (some (tempout ++ unlines (tracksLinesBase hx c i ts))) := by
  intro ts
  induction ts with
  | nil => intro i tempout ch _; simp [readTracks, tracksLinesBase, unlines]
  | cons t ts ih =>
    intro i tempout ch h
    obtain ⟨⟨hsize, hev⟩, hlen⟩ := h t (by simp)
    have eb : ((t :: ts).map Track.bytes).flatten ++ rest =
        77 :: 84 :: 114 :: 107 :: ((lowBytes 4 t.size).reverse ++
          (eventsBytes t.events ++ ((ts.map Track.bytes).flatten ++ rest))) := by
      simp [Track.bytes, str_MTrk]
    rw [eb, List.length_cons, readTracks]
    simp only [read1_open, Option.getD_some, ne_eq, not_true_eq_false, if_false,
      readBigEndian_four t.size (by omega), bitsToInt_of_lt t.size hsize]
    obtain ⟨st, s1, s2, s3, s4⟩ := readTrackEvents_events F c fuel hf
      ((ts.map Track.bytes).flatten ++ rest) t.events fuel
      (tempout ++ str "\n;;; TRACK " ++ showBase hx (i : Int) ++
        str " ----------------------------------" ++
        str "\n" ++ str "\"MTrk\"" ++
        (if c = true then str "\t\t\t; MIDI track chunk marker" else []) ++ str "\n" ++
        str "4'" ++ showBase hx (t.size : Int) ++
        (if c = true then str "\t\t\t; bytes to follow in track chunk" else []) ++ str "\n")
      0 0 hev hlen
    rw [s1]
    simp only [s3, s4, str_newline, s2]
    have hi : ((i : Nat) : Int) + 1 = ((i + 1 : Nat) : Int) := by simp
    have hcmp : ((0 : Int) + ((eventsBytes t.events).length : Nat) ≠ (t.size : Int)) ↔
        (eventsBytes t.events).length ≠ t.size := by
      simp
    rw [hi]
    by_cases hs : (eventsBytes t.events).length = t.size
    · have hs' : ¬ ((0 : Int) + ((eventsBytes t.events).length : Nat) ≠ (t.size : Int)) := by
        rw [hcmp]; simpa using hs
      rw [if_neg hs', ih (i + 1) _ _ (fun t ht => h t (by simp [ht]))]
      simp [tracksLinesBase, Track.linesBase, hs, unlines_append, unlines_cons, str_track,
        unlines]
    · have hs' : (0 : Int) + ((eventsBytes t.events).length : Nat) ≠ (t.size : Int) := by
        rw [hcmp]; exact hs
      rw [if_pos hs', ih (i + 1) _ _ (fun t ht => h t (by simp [ht]))]
      simp [tracksLinesBase, Track.linesBase, hs, unlines_append, unlines_cons, str_track,
        unlines]

theorem outputStyleMidiTracks_extended (F : FloatOps) (c : Bool) (fuel : Nat)
    (out tempout : List Nat) (m : MidiFile) (extra : List Nat) (ch : Nat)
    (hs : m.headerSize = 6 + extra.length) (hne : extra ≠ []) (h31 : m.headerSize < 2 ^ 31)
    (h4 : m.division1 < 256) (h5 : m.division2 < 256)
    (h6 : ∀ t ∈ m.tracks, t.ok) (hf : 5 ≤ fuel)
    (hev : ∀ t ∈ m.tracks, t.events.length ≤ fuel) :
    outputStyleMidiTracks F c fuel out tempout (m.headerSize : Nat) (m.tracks.length : Nat)
        (IStream.open (m.division1 :: m.division2 ::
          (extra ++ (m.tracks.map Track.bytes).flatten))) ch =
      Run.ret (1, out ++ (tempout ++ unlines
        ((if 0x80 ≤ m.division1 then
          [str "1'-" ++ showNat (0xff - m.division1 + 1) ++
              (if c then str "\t\t\t; SMPTE frames/second" else []),
            str "1'" ++ showNat m.division2 ++
              (if c then str "\t\t\t; subframes per frame" else [])]
         else
          [str "2'" ++ showNat (m.division1 * 256 + m.division2) ++
              (if c then str "\t\t\t; ticks per quarter note" else [])]) ++
          [(extra.map headerItem).flatten ++ str "\t\t\t; unknown header bytes"] ++
          tracksLinesBase true c 0 m.tracks))) := by
  have hpos : 0 < extra.length := List.length_pos.2 hne
  have hx : toInt32 ((m.headerSize : Int) - 6) = (extra.length : Int) := by
    unfold toInt32; omega
  have hx1 : ((extra.length : Nat) : Int) > 0 := by omega
  have hd : (((((0 <<< 8) % 2 ^ 32 ||| m.division1) <<< 8) % 2 ^ 32) ||| m.division2) =
      m.division1 * 256 + m.division2 := by
    rw [shl8_or _ _ h5, shl8_or _ _ h4]
    omega
  have ht := readTracks_tracksBase F c true fuel hf [] m.tracks 0
  simp only [List.append_nil, Nat.cast_zero] at ht
  have hitem : (fun c => (if c < 0x10 then str "0" else []) ++ showHex c) = headerItem := rfl
  unfold outputStyleMidiTracks
  simp only [read1_open, hx, hx1, Int.toNat_ofNat, readBytes_open, decide_True, if_true,
    ht _ _ (fun t ht' => ⟨h6 t ht', hev t ht'⟩), hd, and_128 m.division1 h4,
    bitsToInt_of_lt (m.division1 * 256 + m.division2) (by omega), showInt_natCast, hitem]
  by_cases hdv : 0x80 ≤ m.division1
  · simp [hdv, unlines_append, unlines_cons, unlines, str_newline]
  · simp [hdv, unlines_append, unlines_cons, unlines, str_newline]

theorem outputStyleMidi_extended (F : FloatOps) (c : Bool) (fuel : Nat) (out : List Nat)
    (m : MidiFile) (extra : List Nat)
    (hs : m.headerSize = 6 + extra.length) (hne : extra ≠ []) (h31 : m.headerSize < 2 ^ 31)
    (h2 : m.format < 65536) (h3 : m.tracks.length < 65536) (h4 : m.division1 < 256)
    (h5 : m.division2 < 256) (h6 : ∀ t ∈ m.tracks, t.ok) (hf : 5 ≤ fuel)
    (hev : ∀ t ∈ m.tracks, t.events.length ≤ fuel) :
    outputStyleMidi F c fuel out (extendedBytes m extra) =
      Run.ret (1, out ++ unlines (extendedLines c m extra)) := by
  have eb : extendedBytes m extra = 77 :: 84 :: 104 :: 100 ::
      ((lowBytes 4 m.headerSize).reverse ++
      ((lowBytes 2 m.format).reverse ++ ((lowBytes 2 m.tracks.length).reverse ++
        (m.division1 :: m.division2 :: (extra ++ (m.tracks.map Track.bytes).flatten))))) := by
    simp [extendedBytes, headerBytes, str_MThd]
  rw [eb]
  unfold outputStyleMidi
  simp only [read1_open, Option.getD_some, ne_eq, not_true_eq_false, if_false]
  unfold outputStyleMidiHeader
  simp only [readBigEndian_four m.headerSize (by omega), readBigEndian_two m.format h2,
    readBigEndian_two m.tracks.length h3, bitsToInt_of_lt m.headerSize (by omega),
    bitsToInt_of_lt m.format (by omega), bitsToInt_of_lt m.tracks.length (by omega),
    showInt_natCast,
    outputStyleMidiTracks_extended F c fuel out _ m extra _ hs hne h31 h4 h5 h6 hf hev]
  have e2 : ((m.format : Int) = 2) = (m.format = 2) := by
    apply propext
    constructor <;> intro h <;> omega
  simp [extendedLines, MidiFile.headerLines, unlines_append, unlines_cons, unlines,
    str_newline, e2]
  rfl

theorem lineText_hexDigits : ∀ (fuel n : Nat) (acc : List Nat), lineText acc →
    lineText (hexDigits fuel n acc) := by
  have hc : ∀ d, d < 16 → hexDigitChar d ≠ 10 ∧ hexDigitChar d ≠ 0 := by
    intro d hd
    have := hexDigitChar_cases d hd
    omega
  have hcons : ∀ (d : Nat) (acc : List Nat), d < 16 → lineText acc →
      lineText (hexDigitChar d :: acc) := by
    intro d acc hd ha x hx
    rcases List.mem_cons.1 hx with rfl | hx
    · exact hc d hd
    · exact ha x hx
  intro fuel
  induction fuel with
  | zero => intro n acc h; exact h
  | succ k ih =>
    intro n acc h
    rw [hexDigits]
    split_ifs with hn
    · exact hcons n acc hn h
    · exact ih _ _ (hcons _ acc (Nat.mod_lt _ (by norm_num)) h)

theorem lineText_showBase (hx : Bool) (z : Int) : lineText (showBase hx z) := by
  unfold showBase
  split_ifs
  · exact lineText_hexDigits _ _ [] lineText_nil
  · exact lineText_showInt z

theorem lineText_headerLines (c : Bool) (m : MidiFile) :
    ∀ l ∈ m.headerLines c, lineText l := by
  intro l hl
  have lit : ∀ (s : List Nat) (n : Nat) (t : List Nat), lineText s → lineText t →
      lineText (s ++ showNat n ++ (if c = true then t else [])) := fun s n t hs ht' =>
    lineText_append _ _ (lineText_append _ _ hs (lineText_showNat _))
      (lineText_ite _ _ _ ht' lineText_nil)
  simp only [MidiFile.headerLines, List.mem_append, List.mem_cons,
    List.mem_singleton, List.not_mem_nil, or_false] at hl
  rcases hl with (rfl | rfl | rfl | rfl) | hl
  · exact lineText_append _ _ (by unfold lineText; decide)
      (lineText_ite _ _ _ (by unfold lineText; decide) lineText_nil)
  · exact lit _ _ _ (by unfold lineText; decide) (by unfold lineText; decide)
  · refine lit _ _ _ (by unfold lineText; decide) ?_
    refine lineText_append _ _ (lineText_append _ _ (lineText_append _ _ (lineText_append _ _
      (by unfold lineText; decide) (lineText_showNat _)) (by unfold lineText; decide)) ?_)
      (by unfold lineText; decide)
    repeat' apply lineText_ite
    all_goals (unfold lineText; decide)
  · exact lit _ _ _ (by unfold lineText; decide) (by unfold lineText; decide)
  · by_cases hd : 0x80 ≤ m.division1
    · rw [if_pos hd] at hl
      simp only [List.mem_cons, List.mem_singleton, List.not_mem_nil, or_false] at hl
      rcases hl with rfl | rfl
      · exact lit _ _ _ (by unfold lineText; decide) (by unfold lineText; decide)
      · exact lit _ _ _ (by unfold lineText; decide) (by unfold lineText; decide)
    · rw [if_neg hd] at hl
      simp only [List.mem_singleton] at hl
      subst hl
      exact lit _ _ _ (by unfold lineText; decide) (by unfold lineText; decide)

theorem lineText_trackLinesBase (hx c : Bool) (i : Nat) (t : Track) (ht : t.ok) :
    ∀ l ∈ t.linesBase hx c i, lineText l := by
  intro l hl
  simp only [Track.linesBase, List.mem_append, List.mem_cons, List.mem_singleton,
    List.not_mem_nil, or_false] at hl
  rcases hl with (((rfl | rfl | rfl | rfl) | hl) | hl)
  · exact lineText_nil
  · exact lineText_append _ _ (lineText_append _ _ (by unfold lineText; decide)
      (lineText_showBase _ _)) (by unfold lineText; decide)
  · exact lineText_append _ _ (by unfold lineText; decide)
      (lineText_ite _ _ _ (by unfold lineText; decide) lineText_nil)
  · exact lineText_append _ _ (lineText_append _ _ (by unfold lineText; decide)
      (lineText_showBase _ _)) (lineText_ite _ _ _ (by unfold lineText; decide) lineText_nil)
  · exact lineText_eventsLines c _ _ ht.2 l hl
  · split_ifs at hl
    · simp only [List.mem_singleton] at hl
      subst hl
      exact lineText_append _ _ (by unfold lineText; decide) (lineText_showBase _ _)
    · simp at hl

theorem lineText_tracksLinesBase (hx c : Bool) : ∀ (ts : List Track) (i : Nat),
    (∀ t ∈ ts, t.ok) → ∀ l ∈ tracksLinesBase hx c i ts, lineText l := by
  intro ts
  induction ts with
  | nil => intro _ _ l hl; simp [tracksLinesBase] at hl
  | cons t ts ih =>
    intro i h l hl
    simp only [tracksLinesBase, List.mem_append] at hl
    rcases hl with hl | hl
    · exact lineText_trackLinesBase hx c i t (h t (by simp)) l hl
    · exact ih (i + 1) (fun t ht => h t (by simp [ht])) l hl

theorem lineText_headerItem (b : Nat) : lineText (headerItem b) := by
  unfold headerItem
  exact lineText_append _ _ (lineText_ite _ _ _ (by unfold lineText; decide) lineText_nil)
    (lineText_hexDigits _ _ [] lineText_nil)

theorem lineText_extendedLines (c : Bool) (m : MidiFile) (extra : List Nat)
    (h6 : ∀ t ∈ m.tracks, t.ok) : ∀ l ∈ extendedLines c m extra, lineText l := by
  intro l hl
  simp only [extendedLines, List.mem_append, List.mem_singleton] at hl
  rcases hl with (hl | rfl) | hl
  · exact lineText_headerLines c m l hl
  · refine lineText_append _ _ (lineText_flatten _ ?_) (by unfold lineText; decide)
    intro x hx
    obtain ⟨b, -, rfl⟩ := List.mem_map.1 hx
    exact lineText_headerItem b
  · exact lineText_tracksLinesBase true c m.tracks 0 h6 l hl

theorem headerLines_bytes (F : FloatOps) (c : Bool) (m : MidiFile) (h1 : m.headerSize < 2 ^ 31)
    (h2 : m.format < 65536) (h3 : m.tracks.length < 65536) (h4 : m.division1 < 256)
    (h5 : m.division2 < 256) :
    ((m.headerLines c).map (processLineBytes F)).flatten =
      headerBytes m.headerSize m.format m.tracks.length m.division1 m.division2 := by
  have l1 : processLineBytes F (str "\"MThd\"" ++
      (if c = true then str "\t\t\t; MIDI header chunk marker" else [])) = str "MThd" := by
    have hend := lineEnd_ite3 F c (str "\t\t\t; MIDI header chunk marker") ⟨_, rfl⟩
    have e : str "\"MThd\"" ++ (if c = true then str "\t\t\t; MIDI header chunk marker"
        else []) = 34 :: (str "MThd" ++ 34 :: (if c = true then
          str "\t\t\t; MIDI header chunk marker" else [])) := rfl
    rw [e]
    refine processLineBytes_of F _ _ 1 ?_
    rw [processLine_string F [] (str "MThd") _ (by decide) (by decide), hend.2]
    rfl
  have l2 : processLineBytes F (str "4'" ++ showNat m.headerSize ++
      (if c = true then str "\t\t\t; bytes to follow in header chunk" else [])) =
      (lowBytes 4 m.headerSize).reverse := by
    have hend := lineEnd_ite3 F c (str "\t\t\t; bytes to follow in header chunk") ⟨_, rfl⟩
    refine processLineBytes_of F _ _ 1 ?_
    rw [processLine_four F [] _ m.headerSize h1 hend.1, hend.2]
    rfl
  have l3 : processLineBytes F (str "2'" ++ showNat m.format ++
      (if c = true then
        str "\t\t\t; file format: Type-" ++ showNat m.format ++ str " (" ++
          (if m.format = 0 then str "single track"
           else if m.format = 1 then str "multitrack"
           else if m.format = 2 then str "multisegment"
           else str "unknown") ++ str ")"
       else [])) = (lowBytes 2 m.format).reverse := by
    have hend := lineEnd_ite3 F c (str "\t\t\t; file format: Type-" ++ showNat m.format ++
      str " (" ++ (if m.format = 0 then str "single track"
           else if m.format = 1 then str "multitrack"
           else if m.format = 2 then str "multisegment"
           else str "unknown") ++ str ")") ⟨_, rfl⟩
    refine processLineBytes_of F _ _ 1 ?_
    rw [processLine_two F [] _ m.format (by omega) hend.1, hend.2]
    rfl
  have l4 : processLineBytes F (str "2'" ++ showNat m.tracks.length ++
      (if c = true then str "\t\t\t; number of tracks" else [])) =
      (lowBytes 2 m.tracks.length).reverse := by
    have hend := lineEnd_ite3 F c (str "\t\t\t; number of tracks") ⟨_, rfl⟩
    refine processLineBytes_of F _ _ 1 ?_
    rw [processLine_two F [] _ m.tracks.length (by omega) hend.1, hend.2]
    rfl
  have l5 : 0x80 ≤ m.division1 → processLineBytes F (str "1'-" ++
      showNat (0xff - m.division1 + 1) ++
      (if c = true then str "\t\t\t; SMPTE frames/second" else [])) = [m.division1] := by
    intro hd
    have hend := lineEnd_ite3 F c (str "\t\t\t; SMPTE frames/second") ⟨_, rfl⟩
    refine processLineBytes_of F _ _ 1 ?_
    rw [processLine_one_signed F [] _ m.division1 hd h4 hend.1, hend.2]
    rfl
  have l6 : processLineBytes F (str "1'" ++ showNat m.division2 ++
      (if c = true then str "\t\t\t; subframes per frame" else [])) = [m.division2] := by
    have hend := lineEnd_ite3 F c (str "\t\t\t; subframes per frame") ⟨_, rfl⟩
    refine processLineBytes_of F _ _ 1 ?_
    rw [processLine_one F [] _ m.division2 h5 hend.1, hend.2]
    rfl
  have l7 : ¬ 0x80 ≤ m.division1 → processLineBytes F (str "2'" ++
      showNat (m.division1 * 256 + m.division2) ++
      (if c = true then str "\t\t\t; ticks per quarter note" else [])) =
      [m.division1, m.division2] := by
    intro hd
    have hend := lineEnd_ite3 F c (str "\t\t\t; ticks per quarter note") ⟨_, rfl⟩
    refine processLineBytes_of F _ _ 1 ?_
    rw [processLine_two F [] _ _ (by omega) hend.1, hend.2]
    have x1 : (m.division1 * 256 + m.division2) / 256 % 256 = m.division1 := by omega
    have x2 : (m.division1 * 256 + m.division2) % 256 = m.division2 := by omega
    simp [lowBytes, x1, x2]
  simp only [MidiFile.headerLines, List.map_append, List.flatten_append,
    List.map_cons, List.map_nil, List.flatten_cons, List.flatten_nil, l1, l2, l3, l4,
    headerBytes, List.append_nil]
  by_cases hd : 0x80 ≤ m.division1
  · simp only [if_pos hd, List.map_cons, List.map_nil, List.flatten_cons, List.flatten_nil,
      l5 hd, l6, List.append_nil]
    simp only [List.append_assoc, List.singleton_append, List.cons_append, List.nil_append]
  · simp only [if_neg hd, List.map_cons, List.map_nil, List.flatten_cons, List.flatten_nil,
      l7 hd, List.append_nil]
    simp only [List.append_assoc, List.singleton_append, List.cons_append, List.nil_append]

theorem processLineBytes_headerItem (F : FloatOps) (b : Nat) (hb : b < 256) :
    processLineBytes F (headerItem b ++ str "\t\t\t; unknown header bytes") = [b] := by
  have hend := lineEnd_comment3 F (str " unknown header bytes")
  have e : str "\t\t\t; unknown header bytes" = 9 :: 9 :: 9 :: 59 :: str " unknown header bytes" :=
    rfl
  rw [e]
  refine processLineBytes_of F _ _ 1 ?_
  unfold headerItem
  by_cases h : b < 16
  · simp only [h, if_true]
    have e2 : str "0" ++ showHex b ++ 9 :: 9 :: 9 :: 59 :: str " unknown header bytes" =
        48 :: showHex b ++ 9 :: 9 :: 9 :: 59 :: str " unknown header bytes" := rfl
    rw [e2, processLine_hex0 F [] _ b h hend.1, hend.2]
    rfl
  · simp only [h, if_false, List.nil_append]
    rw [processLine_hex F [] _ b hb hend.1, hend.2]
    rfl

theorem showBase_digit (n : Nat) (h : n < 10) : showBase true (n : Int) = showNat n := by
  interval_cases n <;> rfl

theorem trackLinesBase_bytes (F : FloatOps) (c : Bool) (i : Nat) (t : Track) (ht : t.ok)
    (hs : t.size < 10) :
    ((t.linesBase true c i).map (processLineBytes F)).flatten = t.bytes := by
  have l2 : processLineBytes F (str ";;; TRACK " ++ showBase true (i : Int) ++
      str " ----------------------------------") = [] :=
    processLineBytes_comment F _ rfl
  have l2' : processLineBytes F (str ";;; TRACK " ++ showNat i ++
      str " ----------------------------------") = [] :=
    processLineBytes_comment F _ rfl
  have l5 : ((if (eventsBytes t.events).length ≠ t.size then
      [str "; TRACK SIZE ERROR, ACTUAL SIZE: " ++
        showBase true ((eventsBytes t.events).length : Int)]
      else []).map (processLineBytes F)).flatten = [] := by
    split_ifs
    · simp only [List.map_cons, List.map_nil, List.flatten_cons, List.flatten_nil,
        List.append_nil]
      exact processLineBytes_comment F _ rfl
    · simp only [List.map_nil, List.flatten_nil]
  have l5' : ((if (eventsBytes t.events).length ≠ t.size then
      [str "; TRACK SIZE ERROR, ACTUAL SIZE: " ++ showNat (eventsBytes t.events).length]
      else []).map (processLineBytes F)).flatten = [] := by
    split_ifs
    · simp only [List.map_cons, List.map_nil, List.flatten_cons, List.flatten_nil,
        List.append_nil]
      exact processLineBytes_comment F _ rfl
    · simp only [List.map_nil, List.flatten_nil]
  rw [← trackLines_bytes F c i t ht]
  simp only [Track.linesBase, Track.lines, List.map_append, List.flatten_append, List.map_cons,
    List.map_nil, List.flatten_cons, List.flatten_nil, l2, l2', l5, l5', showBase_digit t.size hs]

theorem tracksLinesBase_bytes (F : FloatOps) (c : Bool) : ∀ (ts : List Track) (i : Nat),
    (∀ t ∈ ts, t.ok ∧ t.size < 10) →
    ((tracksLinesBase true c i ts).map (processLineBytes F)).flatten =
      (ts.map Track.bytes).flatten := by
  intro ts
  induction ts with
  | nil => intro _ _; rfl
  | cons t ts ih =>
    intro i h
    simp only [tracksLinesBase, List.map_append, List.flatten_append, List.map_cons,
      List.flatten_cons, trackLinesBase_bytes F c i t (h t (by simp)).1 (h t (by simp)).2,
      ih (i + 1) (fun t ht => h t (by simp [ht]))]

theorem extendedLines_bytes (F : FloatOps) (c : Bool) (m : MidiFile) (b : Nat)
    (h1 : m.headerSize < 2 ^ 31) (h2 : m.format < 65536) (h3 : m.tracks.length < 65536)
    (h4 : m.division1 < 256) (h5 : m.division2 < 256) (hb : b < 256)
    (h6 : ∀ t ∈ m.tracks, t.ok ∧ t.size < 10) :
    ((extendedLines c m [b]).map (processLineBytes F)).flatten = extendedBytes m [b] := by
  simp only [extendedLines, extendedBytes, List.map_append, List.flatten_append, List.map_cons,
    List.map_nil, List.flatten_cons, List.flatten_nil, headerLines_bytes F c m h1 h2 h3 h4 h5,
    tracksLinesBase_bytes F c m.tracks 0 h6, List.append_nil,
    processLineBytes_headerItem F b hb, List.append_assoc]

theorem oneExtraFile_ok : ∀ t ∈ oneExtraFile.tracks, t.ok := by
  simp [oneExtraFile, Track.ok, eventsOk, Event.ok, Payload.ok, metaOk, quotable,
    Event.isEnd, Event.command]
  decide

/-! ## C33: the hexadecimal style -/

theorem outputStyleBinaryLoop_groups (m : Int) (hm : 1 ≤ m) : ∀ (n : Nat) (b : List Nat),
    b.length ≤ n → ∀ (out : List Nat),
    (let r := outputStyleBinaryLoop m b 0 out
     (if r.2 ≠ 0 then r.1 ++ [10] else r.1) =
       out ++ unlines ((byteGroupsLoop m.toNat n b).map hexLine)) := by
  intro n
  induction n with
  | zero =>
    intro b hb out
    have : b = [] := List.length_eq_zero.1 (by omega)
    subst this
    simp [outputStyleBinaryLoop, unlines, byteGroupsLoop]
  | succ k ih =>
    intro b hb out
    by_cases hnil : b = []
    · subst hnil
      simp [outputStyleBinaryLoop, unlines, byteGroupsLoop]
    have hpos : 0 < b.length := List.length_pos.2 hnil
    rw [byteGroupsLoop, if_neg hnil]
    by_cases hlt : (b.length : Int) < m
    · -- a single partial group
      have ht : b.take m.toNat = b := List.take_of_length_le (by omega)
      have hd : b.drop m.toNat = [] := List.drop_of_length_le (by omega)
      have hg : byteGroupsLoop m.toNat k [] = [] := by
        cases k <;> simp [byteGroupsLoop]
      have := outputStyleBinaryLoop_part m b [] 0 out (by omega)
      simp only [List.append_nil] at this
      rw [ht, hd, hg]
      simp only
      rw [this]
      simp only [outputStyleBinaryLoop]
      have hne : ((0 : Int) + (b.length : Int)) ≠ 0 := by omega
      simp [hne, unlines, hnil]
    · -- a full group, then the rest
      have hmn : m.toNat ≤ b.length := by omega
      have hmpos : 0 < m.toNat := by omega
      have hc : (b.take m.toNat).length = m.toNat := by
        rw [List.length_take]; omega
      have hr : (b.drop m.toNat).length ≤ k := by
        rw [List.length_drop]; omega
      have hcne : b.take m.toNat ≠ [] := by
        intro e; rw [e] at hc; simp at hc; omega
      have h4 := ih (b.drop m.toNat) hr (out ++ hexLine (b.take m.toNat) ++ [10])
      have e := outputStyleBinaryLoop_full m (b.take m.toNat) (b.drop m.toNat) 0 out hcne
        (by omega)
      rw [List.take_append_drop] at e
      simp only at h4 ⊢
      rw [e, h4]
      simp [unlines]

theorem byteGroupsLoop_flatten (m : Nat) (hm : 0 < m) : ∀ (n : Nat) (b : List Nat),
    b.length ≤ n → (byteGroupsLoop m n b).flatten = b := by
  intro n
  induction n with
  | zero =>
    intro b hb
    have : b = [] := List.length_eq_zero.1 (by omega)
    subst this
    rfl
  | succ k ih =>
    intro b hb
    rw [byteGroupsLoop]
    by_cases hnil : b = []
    · simp [hnil]
    · have hpos : 0 < b.length := List.length_pos.2 hnil
      rw [if_neg hnil, List.flatten_cons, ih (b.drop m) (by rw [List.length_drop]; omega),
        List.take_append_drop]

theorem byteGroupsLoop_lengths (m : Nat) (hm : 0 < m) : ∀ (n : Nat) (b : List Nat),
    (∀ g ∈ byteGroupsLoop m n b, 1 ≤ g.length ∧ g.length ≤ m) ∧
    (∀ g ∈ (byteGroupsLoop m n b).dropLast, g.length = m) := by
  intro n
  induction n with
  | zero => intro b; simp [byteGroupsLoop]
  | succ k ih =>
    intro b
    rw [byteGroupsLoop]
    by_cases hnil : b = []
    · simp [hnil]
    · have hpos : 0 < b.length := List.length_pos.2 hnil
      rw [if_neg hnil]
      obtain ⟨h1, h2⟩ := ih (b.drop m)
      constructor
      · intro g hg
        rcases List.mem_cons.1 hg with rfl | hg
        · rw [List.length_take]
          omega
        · exact h1 g hg
      · intro g hg
        cases hrest : byteGroupsLoop m k (b.drop m) with
        | nil => rw [hrest] at hg; simp at hg
        | cons r rs =>
          rw [hrest, List.dropLast_cons₂] at hg
          rcases List.mem_cons.1 hg with rfl | hg
          · -- the rest is not empty: the first group is full
            have hne : b.drop m ≠ [] := by
              intro e
              rw [e] at hrest
              cases k <;> simp [byteGroupsLoop] at hrest
            have : m < b.length := by
              by_contra hcon
              exact hne (List.drop_of_length_le (by omega))
            rw [List.length_take]
            omega
          · rw [hrest] at h2
            exact h2 g hg

theorem hexDigitChar_lower (d : Nat) (h : d < 16) : hexDigitChar d ∈ str "0123456789abcdef" := by
  interval_cases d <;> decide

/-- C33.  Hex-only layout: for a non-empty sequence of bytes and `maxLineBytes ≥ 1`,
`outputStyleBinary` returns 1 and writes one line for each group of `maxLineBytes`
bytes, the last group being the bytes left over: the groups make up the input, every
group but the last holds exactly `maxLineBytes` bytes and the last one between 1 and
`maxLineBytes`.  A line holds, for each byte of its group, the two hexadecimal digits
of the byte in lower case and a space, and it ends with a newline. -/
theorem outputStyleBinary_layout (maxLineBytes : Int) (out input : List Nat)
    (hm : 1 ≤ maxLineBytes) (hne : input ≠ []) (hbyte : ∀ x ∈ input, x < 256) :
    outputStyleBinary maxLineBytes out input =
      (1, out ++ unlines ((byteGroups maxLineBytes.toNat input).map hexLine)) ∧
    (byteGroups maxLineBytes.toNat input).flatten = input ∧
    (∀ g ∈ (byteGroups maxLineBytes.toNat input).dropLast,
      (g.length : Int) = maxLineBytes) ∧
    (∀ g ∈ byteGroups maxLineBytes.toNat input,
      1 ≤ g.length ∧ (g.length : Int) ≤ maxLineBytes) ∧
    (∀ g ∈ byteGroups maxLineBytes.toNat input,
      hexLine g = (g.map (fun x => [hexDigitChar (x / 16), hexDigitChar (x % 16), 32])).flatten ∧
      ∀ x ∈ g, hexDigitChar (x / 16) ∈ str "0123456789abcdef" ∧
        hexDigitChar (x % 16) ∈ str "0123456789abcdef") := by
  have hpos : 0 < maxLineBytes.toNat := by omega
  have hfl := byteGroupsLoop_flatten maxLineBytes.toNat hpos input.length input (le_refl _)
  obtain ⟨hl1, hl2⟩ := byteGroupsLoop_lengths maxLineBytes.toNat hpos input.length input
  refine ⟨?_, hfl, ?_, ?_, ?_⟩
  · have h4 := outputStyleBinaryLoop_groups maxLineBytes hm input.length input (le_refl _) out
    cases input with
    | nil => exact absurd rfl hne
    | cons x xs =>
      simp only [outputStyleBinary, byteGroups]
      simp only at h4
      split_ifs with h
      · rw [if_pos h] at h4; rw [h4]
      · rw [if_neg h] at h4; rw [h4]
  · intro g hg
    have := hl2 g hg
    omega
  · intro g hg
    have := hl1 g hg
    omega
  · intro g hg
    have hgb : ∀ x ∈ g, x < 256 := by
      intro x hx
      apply hbyte
      rw [← hfl]
      exact List.mem_flatten.2 ⟨g, hg, hx⟩
    constructor
    · unfold hexLine
      congr 1
      exact List.map_congr_left (fun x hx => hexByteText_eq x (hgb x hx))
    · intro x hx
      have := hgb x hx
      exact ⟨hexDigitChar_lower _ (by omega), hexDigitChar_lower _ (by omega)⟩

/-- Witness for C33: five bytes, two to a line. -/
theorem outputStyleBinary_layout_witness :
    outputStyleBinary 2 [] [0, 255, 65, 10, 7] = (1, str "00 ff \n41 0a \n07 \n") ∧
    byteGroups 2 [0, 255, 65, 10, 7] = [[0, 255], [65, 10], [7]] :=
  ⟨(outputStyleBinary_layout 2 [] [0, 255, 65, 10, 7] (by decide) (by decide) (by decide)).1.trans
    (by decide), by decide⟩

/-! ## C34: unclosed quotes -/

theorem getWordLoop_unclosed : ∀ (s : List Nat) (fuel : Nat) (acc : List Nat),
    (34 : Nat) ∉ s → s.length < fuel →
    getWordLoop true [34] fuel s 1 acc = (acc ++ s, []) := by
  intro s
  induction s with
  | nil =>
    intro fuel acc _ hf
    obtain ⟨f, rfl⟩ : ∃ f, fuel = f + 1 := ⟨fuel - 1, by omega⟩
    simp [getWordLoop]
  | cons x xs ih =>
    intro fuel acc h34 hf
    obtain ⟨f, rfl⟩ : ∃ f, fuel = f + 1 := ⟨fuel - 1, by omega⟩
    have hx : x ≠ 34 := fun e => h34 (by simp [e])
    have hxs : (34 : Nat) ∉ xs := fun e => h34 (by simp [e])
    have hh : ¬ xs.head? = some 34 := by
      cases xs with
      | nil => simp
      | cons y ys =>
        simp only [List.head?_cons, Option.some.injEq]
        exact fun e => hxs (by simp [e])
    rw [getWordLoop]
    simp only [Bool.true_and, decide_eq_true_eq, hx, if_false, Bool.false_and,
      Bool.false_eq_true]
    have hc : ([34] : List Nat).contains x = false := by simp [hx]
    have hesc' : (decide (x = 92) && decide (xs.head? = some 34)) = false := by
      rw [decide_eq_false hh, Bool.and_false]
    simp only [hesc', hc, Bool.not_false, if_true, Bool.false_eq_true, if_false]
    rw [ih f (acc ++ [x]) hxs (by simpa using hf)]
    simp

theorem getWord_unclosed (s : List Nat) (h34 : (34 : Nat) ∉ s) :
    getWord (34 :: s) [34] = (if s = [] then [0] else s, []) := by
  have hc : ([34] : List Nat).contains 34 = true := by decide
  have hc0 : ([34] : List Nat).contains 0 = false := by decide
  cases s with
  | nil =>
    simp only [getWord, hc, List.length_cons, List.length_nil, if_true]
    rfl
  | cons x xs =>
    have hx : x ≠ 34 := fun e => h34 (by simp [e])
    have hxs : (34 : Nat) ∉ xs := fun e => h34 (by simp [e])
    have hh : ¬ xs.head? = some 34 := by
      cases xs with
      | nil => simp
      | cons y ys =>
        simp only [List.head?_cons, Option.some.injEq]
        exact fun e => hxs (by simp [e])
    have hcx : ([34] : List Nat).contains x = false := by simp [hx]
    have hesc' : (decide (x = 92) && decide (xs.head? = some 34)) = false := by
      rw [decide_eq_false hh, Bool.and_false]
    simp only [getWord, hc, List.length_cons]
    rw [getWordLoop]
    simp only [Bool.true_and, decide_True, if_true, Nat.zero_add, ge_iff_le,
      Nat.not_ofNat_le_one, decide_False, Bool.and_false, Bool.false_eq_true, if_false, hesc',
      hcx, Bool.not_false]
    rw [getWordLoop_unclosed xs _ _ hxs (by omega)]
    simp

theorem processLine_unclosed (F : FloatOps) (out s : List Nat) (h34 : (34 : Nat) ∉ s) :
    processLine F out (34 :: s) = Run.ret (1, out ++ (if s = [] then [0] else s)) := by
  have hcl : classify (34 :: s) = (Kind.string, if s = [] then [0] else s, []) := by
    simp only [classify, List.getD_cons_zero, show ¬ ((34 : Nat) = 43) by decide, if_false,
      if_true, getWord_unclosed s h34]
  rw [processLine_word F out 34 s (by decide) (by decide) Kind.string _ [] _ hcl rfl]
  rfl

/-- C34, the behaviour of the code.  When the words before it are processed, a double
quote followed to the end of the line by a text `s` that holds no double quote makes
`processLine` return 1; the bytes written for it are those of `s` when `s` is not
empty, and one null byte when `s` is empty: after the quote `getWord` reads `input[i]`
with `i` equal to the length of the line. -/
theorem processLine_unclosed_quote (F : FloatOps) (out pre out1 s : List Nat)
    (h34 : (34 : Nat) ∉ s)
    (hpre : ∀ tail, processLine F out (pre ++ tail) = processLine F out1 tail) :
    processLine F out (pre ++ 34 :: s) =
      Run.ret (1, out1 ++ (if s = [] then [0] else s)) := by
  rw [hpre, processLine_unclosed F out1 s h34]

/-- Witness for the behaviour of the code at C34: the lines `41 "ab c` and `41 "`, and
the line made of a double quote alone. -/
theorem processLine_unclosed_quote_witness :
    processLine FloatOps.zero [] (str "41 " ++ 34 :: str "ab c") =
      Run.ret (1, [0x41] ++ (if str "ab c" = [] then [0] else str "ab c")) ∧
    processLine FloatOps.zero [] (str "41 " ++ 34 :: []) =
      Run.ret (1, [0x41] ++ (if ([] : List Nat) = [] then [0] else [])) ∧
    processLine FloatOps.zero [] (str "\"") = Run.ret (1, [0]) :=
  have hpre : ∀ tail, processLine FloatOps.zero [] (str "41 " ++ tail) =
      processLine FloatOps.zero [0x41] tail := fun tail =>
    (processLine_hex FloatOps.zero [] (32 :: tail) 0x41 (by decide)
      (wordEnd_cons 32 tail (Or.inl rfl))).trans
      (processLine_space FloatOps.zero _ 32 tail (Or.inl rfl))
  ⟨processLine_unclosed_quote FloatOps.zero [] (str "41 ") [0x41] (str "ab c") (by decide) hpre,
    processLine_unclosed_quote FloatOps.zero [] (str "41 ") [0x41] [] (by decide) hpre,
    processLine_unclosed_quote FloatOps.zero [] [] [] [] (by decide) (fun _ => rfl)⟩

/-! ## C35: tempo and pitch-bend words -/

/-- C35, the failing inputs.  The words `t-`, `t+` and `t.` hold no number after
the `t`, yet `processMidiTempoWord` returns 1 for them and writes three bytes, and
`processMidiPitchBendWord` returns 1 for `p-`, `p+` and `p.` and writes two bytes: only
the character after the first is tested.  The words `t` and `p` alone are refused.
For these words `strtod` gives 0.0 and the tempo is `int(60000000.0 / 0.0 + 0.5)`, a
conversion of infinity that C++ leaves undefined: the three bytes are those of whatever
value the conversion gives (`FloatOps.tempoInt`), and only their number is stated. -/
theorem processMidiTempoWord_needs_number_counterexample :
    ((processMidiTempoWord FloatOps.binary64 [] (str "t-")).1 = 1 ∧
      (processMidiTempoWord FloatOps.binary64 [] (str "t-")).2.length = 3) ∧
    ((processMidiTempoWord FloatOps.binary64 [] (str "t+")).1 = 1 ∧
      (processMidiTempoWord FloatOps.binary64 [] (str "t+")).2.length = 3) ∧
    ((processMidiTempoWord FloatOps.binary64 [] (str "t.")).1 = 1 ∧
      (processMidiTempoWord FloatOps.binary64 [] (str "t.")).2.length = 3) ∧
    ((processMidiPitchBendWord FloatOps.binary64 [] (str "p-")).1 = 1 ∧
      (processMidiPitchBendWord FloatOps.binary64 [] (str "p-")).2.length = 2) ∧
    ((processMidiPitchBendWord FloatOps.binary64 [] (str "p+")).1 = 1 ∧
      (processMidiPitchBendWord FloatOps.binary64 [] (str "p+")).2.length = 2) ∧
    ((processMidiPitchBendWord FloatOps.binary64 [] (str "p.")).1 = 1 ∧
      (processMidiPitchBendWord FloatOps.binary64 [] (str "p.")).2.length = 2) ∧
    processMidiTempoWord FloatOps.binary64 [] (str "t") = (0, []) ∧
    processMidiPitchBendWord FloatOps.binary64 [] (str "p") = (0, []) :=
  ⟨⟨rfl, rfl⟩, ⟨rfl, rfl⟩, ⟨rfl, rfl⟩, ⟨rfl, rfl⟩, ⟨rfl, rfl⟩, ⟨rfl, rfl⟩, rfl, rfl⟩

/-- C35, the behaviour of the code.  `processMidiTempoWord` returns 0 exactly when the
word has fewer than two characters or its second character is not a digit, a period,
a minus sign or a plus sign; it then writes nothing, and otherwise it returns 1 and
writes three bytes.  The same holds of `processMidiPitchBendWord`, which writes two
bytes.  What follows the second character is not looked at, although the message of
the code asks for a floating-point number there.  The statement holds for every
`FloatOps`, that is, whatever the value of the conversions to `int` is where C++ leaves
it undefined. -/
theorem processMidiTempoWord_needs_number (F : FloatOps) (out word : List Nat) :
    ((processMidiTempoWord F out word).1 = 0 ↔
      (word.length < 2 ∨ ¬ (isdigit (word.getD 1 0) = true ∨ word.getD 1 0 = 46 ∨
        word.getD 1 0 = 45 ∨ word.getD 1 0 = 43))) ∧
    ((processMidiTempoWord F out word).1 = 0 → (processMidiTempoWord F out word).2 = out) ∧
    ((processMidiTempoWord F out word).1 ≠ 0 → (processMidiTempoWord F out word).1 = 1 ∧
      ∃ b2 b1 b0, (processMidiTempoWord F out word).2 = out ++ [b2, b1, b0]) ∧
    ((processMidiPitchBendWord F out word).1 = 0 ↔
      (word.length < 2 ∨ ¬ (isdigit (word.getD 1 0) = true ∨ word.getD 1 0 = 46 ∨
        word.getD 1 0 = 45 ∨ word.getD 1 0 = 43))) ∧
    ((processMidiPitchBendWord F out word).1 = 0 →
      (processMidiPitchBendWord F out word).2 = out) ∧
    ((processMidiPitchBendWord F out word).1 ≠ 0 →
      (processMidiPitchBendWord F out word).1 = 1 ∧
      ∃ lsb msb, (processMidiPitchBendWord F out word).2 = out ++ [lsb, msb]) := by
  unfold processMidiTempoWord processMidiPitchBendWord
  dsimp only
  generalize word.getD 1 0 = c
  have hb : (isdigit c || decide (c = 46) || decide (c = 45) || decide (c = 43)) = true ↔
      (isdigit c = true ∨ c = 46 ∨ c = 45 ∨ c = 43) := by
    simp only [Bool.or_eq_true, decide_eq_true_eq, or_assoc]
  by_cases hl : word.length < 2
  · simp only [hl, if_true, true_or, ne_eq, not_true_eq_false, false_implies, implies_true,
      and_self]
  · simp only [hl, if_false, false_or]
    rw [← hb]
    cases hv : (isdigit c || decide (c = 46) || decide (c = 45) || decide (c = 43))
    · simp only [Bool.not_false, if_true, Bool.false_eq_true, not_false_eq_true, ne_eq,
        not_true_eq_false, false_implies, implies_true, and_self]
    · simp only [Bool.not_true, Bool.false_eq_true, if_false, one_ne_zero, not_true_eq_false,
        false_implies, ne_eq, not_false_eq_true, true_implies, true_and, iff_self]
      exact ⟨⟨_, _, _, rfl⟩, ⟨_, _, rfl⟩⟩

/-- Witness for the behaviour of the code at C35: the words `t`, `tx`, `t-` and `p+`. -/
theorem processMidiTempoWord_needs_number_witness :
    (processMidiTempoWord FloatOps.binary64 [] (str "t")).1 = 0 ∧
    (processMidiTempoWord FloatOps.binary64 [] (str "tx")).1 = 0 ∧
    (processMidiTempoWord FloatOps.binary64 [] (str "t-")).1 ≠ 0 ∧
    (processMidiPitchBendWord FloatOps.binary64 [] (str "p+")).1 ≠ 0 :=
  ⟨(processMidiTempoWord_needs_number FloatOps.binary64 [] (str "t")).1.2
      (Or.inl (by decide)),
    (processMidiTempoWord_needs_number FloatOps.binary64 [] (str "tx")).1.2
      (Or.inr (by decide)),
    fun h => ((processMidiTempoWord_needs_number FloatOps.binary64 [] (str "t-")).1.1 h).elim
      (by decide) (fun hn => hn (by decide)),
    fun h => ((processMidiTempoWord_needs_number FloatOps.binary64 [] (str "p+")).2.2.2.1.1
      h).elim (by decide) (fun hn => hn (by decide))⟩

/-! ## C36: the options -/

theorem setterCall_keeps (b : Options) (call : SetterCall)
    (h : 1 ≤ b.maxLineLength ∧ 1 ≤ b.maxLineBytes ∧ (b.bytesQ = 0 ∨ b.bytesQ = 1) ∧
      (b.commentsQ = 0 ∨ b.commentsQ = 1) ∧ (b.midiQ = 0 ∨ b.midiQ = 1)) :
    1 ≤ (call.run b).maxLineLength ∧ 1 ≤ (call.run b).maxLineBytes ∧
      ((call.run b).bytesQ = 0 ∨ (call.run b).bytesQ = 1) ∧
      ((call.run b).commentsQ = 0 ∨ (call.run b).commentsQ = 1) ∧
      ((call.run b).midiQ = 0 ∨ (call.run b).midiQ = 1) := by
  obtain ⟨h1, h2, h3, h4, h5⟩ := h
  cases call <;>
    simp only [SetterCall.run, setLineLength, setLineBytes, setComments, setBytes, setMidi,
      setCommentsOn, setCommentsOff, setBytesOn, setBytesOff, setMidiOn, setMidiOff] <;>
    (try split_ifs) <;>
    refine ⟨?_, ?_, ?_, ?_, ?_⟩ <;>
    first
      | assumption
      | omega
      | exact Or.inl rfl
      | exact Or.inr rfl
      | (simp only; omega)

theorem foldl_setterCall_keeps : ∀ (calls : List SetterCall) (b : Options),
    (1 ≤ b.maxLineLength ∧ 1 ≤ b.maxLineBytes ∧ (b.bytesQ = 0 ∨ b.bytesQ = 1) ∧
      (b.commentsQ = 0 ∨ b.commentsQ = 1) ∧ (b.midiQ = 0 ∨ b.midiQ = 1)) →
    1 ≤ (calls.foldl SetterCall.run b).maxLineLength ∧
      1 ≤ (calls.foldl SetterCall.run b).maxLineBytes ∧
      ((calls.foldl SetterCall.run b).bytesQ = 0 ∨ (calls.foldl SetterCall.run b).bytesQ = 1) ∧
      ((calls.foldl SetterCall.run b).commentsQ = 0 ∨
        (calls.foldl SetterCall.run b).commentsQ = 1) ∧
      ((calls.foldl SetterCall.run b).midiQ = 0 ∨ (calls.foldl SetterCall.run b).midiQ = 1) := by
  intro calls
  induction calls with
  | nil => intro b h; exact h
  | cons call calls ih => intro b h; exact ih _ (setterCall_keeps b call h)

/-- C36.  Configuration invariant: the constructor sets `bytesQ = 1`, `commentsQ = 0`,
`midiQ = 0`, `maxLineLength = 75` and `maxLineBytes = 25`, and in the object reached
from it by any sequence of calls of `setLineLength`, `setLineBytes`, `setComments`,
`setBytes`, `setMidi` and their `On` and `Off` forms, with any integer arguments, both
`maxLineLength` and `maxLineBytes` are at least 1 and each of the three flags is 0 or
1. -/
theorem reached_invariant (calls : List SetterCall) :
    (Options.default.bytesQ = 1 ∧ Options.default.commentsQ = 0 ∧ Options.default.midiQ = 0 ∧
      Options.default.maxLineLength = 75 ∧ Options.default.maxLineBytes = 25) ∧
    1 ≤ (reached calls).maxLineLength ∧ 1 ≤ (reached calls).maxLineBytes ∧
    ((reached calls).bytesQ = 0 ∨ (reached calls).bytesQ = 1) ∧
    ((reached calls).commentsQ = 0 ∨ (reached calls).commentsQ = 1) ∧
    ((reached calls).midiQ = 0 ∨ (reached calls).midiQ = 1) :=
  ⟨⟨rfl, rfl, rfl, rfl, rfl⟩,
    foldl_setterCall_keeps calls Options.default
      ⟨by decide, by decide, Or.inr rfl, Or.inl rfl, Or.inl rfl⟩⟩

/-! ## C37: byte accounting -/

theorem counted_open (input : List Nat) (tb0 : Int) :
    Counted input tb0 (IStream.open input) tb0 :=
  fun _ => ⟨[], rfl, rfl, by simp⟩

theorem counted_read1 (input : List Nat) (tb0 : Int) (s : IStream) (tb : Int)
    (ch : Option Nat) (h : Counted input tb0 s tb) :
    Counted input tb0 (s.read1 ch).2 (tb + 1) := by
  intro hf
  obtain ⟨buf, e, f⟩ := s
  cases e <;> cases f
  · -- the stream is good
    cases buf with
    | nil => exact absurd hf (by simp [IStream.read1, IStream.good])
    | cons c cs =>
      obtain ⟨pre, h1, -, h3⟩ := h rfl
      simp only at h1 h3
      refine ⟨pre ++ [c], ?_, ?_, ?_⟩
      · simp [IStream.read1, IStream.good, h1]
      · simp [IStream.read1, IStream.good, IStream.open]
      · simp only [List.length_append, List.length_singleton, h3]
        push_cast
        omega
  all_goals exact absurd hf (by simp [IStream.read1, IStream.good])

theorem counted_putback (input : List Nat) (tb0 : Int) (s : IStream) (tb : Int)
    (ch : Option Nat) (d : Nat) (h : Counted input tb0 s tb) :
    Counted input tb0 ((s.read1 ch).2.putback ((s.read1 ch).1.getD d)) tb := by
  intro hf
  obtain ⟨buf, e, f⟩ := s
  cases e <;> cases f
  · cases buf with
    | nil => exact absurd hf (by simp [IStream.read1, IStream.good, IStream.putback])
    | cons c cs =>
      obtain ⟨pre, h1, -, h3⟩ := h rfl
      simp only at h1 h3
      exact ⟨pre, by simp [IStream.read1, IStream.good, IStream.putback, h1],
        by simp [IStream.read1, IStream.good, IStream.putback, IStream.open], h3⟩
  all_goals exact absurd hf (by simp [IStream.read1, IStream.good, IStream.putback])

theorem counted_getVLVLoop (input : List Nat) (tb0 : Int) : ∀ (fuel : Nat) (s : IStream)
    (tb : Int) (output ch : Nat) (r : Int × IStream × Int),
    Counted input tb0 s tb → getVLVLoop fuel s tb output ch = Run.ret r →
    Counted input tb0 r.2.1 r.2.2 := by
  intro fuel
  induction fuel with
  | zero => intro s tb output ch r _ h; exact absurd h (by simp [getVLVLoop])
  | succ f ih =>
    intro s tb output ch r hc h
    rw [getVLVLoop] at h
    split_ifs at h
    · exact ih _ _ _ _ _ (counted_read1 input tb0 s tb _ hc) h
    · simp only [Run.ret.injEq] at h
      subst h
      exact hc

theorem counted_getVLV (input : List Nat) (tb0 : Int) (fuel : Nat) (s : IStream) (tb : Int)
    (r : Int × IStream × Int) (hc : Counted input tb0 s tb)
    (h : getVLV fuel s tb = Run.ret r) : Counted input tb0 r.2.1 r.2.2 := by
  unfold getVLV at h
  split at h
  · exact absurd h (by simp)
  · rename_i ch s1 heq
    have h1 := counted_read1 input tb0 s tb none hc
    rw [heq] at h1
    exact counted_getVLVLoop input tb0 fuel _ _ _ _ r h1 h

theorem counted_readBytes (input : List Nat) (tb0 : Int) (item : Nat → List Nat) :
    ∀ (n : Nat) (s : IStream) (tb : Int) (ch : Nat) (output : List Nat),
    Counted input tb0 s tb →
    Counted input tb0 (readBytes item n s tb ch output).1
      (readBytes item n s tb ch output).2.1 := by
  intro n
  induction n with
  | zero => intro s tb ch output h; exact h
  | succ k ih =>
    intro s tb ch output h
    rw [readBytes]
    exact ih _ _ _ _ (counted_read1 input tb0 s tb _ h)

theorem counted_readMetaPayload (input : List Nat) (tb0 : Int) (F : FloatOps)
    (metatype : Nat) (length : Int) (s : IStream) (tb : Int) (ch : Nat) (output : List Nat)
    (h : Counted input tb0 s tb) :
    Counted input tb0 (readMetaPayload F metatype length s tb ch output).1
      (readMetaPayload F metatype length s tb ch output).2.1 := by
  have two : ∀ a b, Counted input tb0 ((s.read1 a).2.read1 b).2 (tb + 2) := by
    intro a b
    have := counted_read1 input tb0 _ _ b (counted_read1 input tb0 s tb a h)
    rw [show tb + 1 + 1 = tb + 2 by omega] at this
    exact this
  have three : ∀ a b c, Counted input tb0 (((s.read1 a).2.read1 b).2.read1 c).2 (tb + 3) := by
    intro a b c
    have := counted_read1 input tb0 _ _ c (two a b)
    rw [show tb + 2 + 1 = tb + 3 by omega] at this
    exact this
  unfold readMetaPayload
  split_ifs
  · exact two _ _
  · exact counted_readBytes input tb0 _ _ _ _ _ _ h
  · exact three _ _ _
  · exact counted_readBytes input tb0 _ _ _ _ _ _ h
  · exact counted_readBytes input tb0 _ _ _ _ _ _ h
  · exact counted_readBytes input tb0 _ _ _ _ _ _ h
  · exact counted_readBytes input tb0 _ _ _ _ _ _ h
  · exact counted_readBytes input tb0 _ _ _ _ _ _ h

theorem ret_counted (input : List Nat) (tb0 : Int) (out : List Nat) (r : Nat × EventState)
    (s : Nat) (o cm : List Nat) (c : Bool) (i : IStream) (t : Int) (k : Nat)
    (hc : Counted input tb0 i t)
    (h : Run.ret (s, (⟨out ++ o ++ (if c = true then str "\t; " ++ cm else []), i, t, k⟩ :
      EventState)) = Run.ret r) : Counted input tb0 r.2.infile r.2.trackbytes := by
  simp only [Run.ret.injEq] at h
  subst h
  exact hc

theorem counted_readMidiEvent (input : List Nat) (tb0 : Int) (F : FloatOps) (c : Bool)
    (fuel : Nat) (out : List Nat) (infile : IStream) (tb : Int) (command : Nat)
    (r : Nat × EventState) (hc : Counted input tb0 infile tb)
    (h : readMidiEvent F c fuel out infile tb command = Run.ret r) :
    Counted input tb0 r.2.infile r.2.trackbytes := by
  unfold readMidiEvent at h
  split at h
  · exact absurd h (by simp)
  · exact absurd h (by simp)
  · rename_i vlv inf1 tb1 hv
    have c1 : Counted input tb0 inf1 tb1 := counted_getVLV input tb0 fuel infile tb _ hc hv
    split at h
    · exact absurd h (by simp)
    · rename_i ch0 inf2 hr
      have c2 : Counted input tb0 inf2 (tb1 + 1) := by
        have := counted_read1 input tb0 inf1 tb1 none c1
        rw [hr] at this
        exact this
      have c3 : Counted input tb0
          (if ch0 < 128 then inf2 else (inf2.read1 (some ch0)).2)
          (if ch0 < 128 then tb1 + 1 else tb1 + 1 + 1) := by
        split_ifs
        · exact c2
        · exact counted_read1 input tb0 inf2 _ _ c2
      have cp : Counted input tb0
          ((if ch0 < 128 then inf2 else (inf2.read1 (some ch0)).2).putback
            (if ch0 < 128 then ch0 else ((inf2.read1 (some ch0)).1.getD ch0)))
          ((if ch0 < 128 then tb1 + 1 else tb1 + 1 + 1) - 1) := by
        split_ifs
        · have := counted_putback input tb0 inf1 tb1 none ch0 c1
          rw [hr] at this
          simp only [Option.getD_some] at this
          rw [show tb1 + 1 - 1 = tb1 by omega]
          exact this
        · have := counted_putback input tb0 inf2 (tb1 + 1) (some ch0) ch0 c2
          rw [show tb1 + 1 + 1 - 1 = tb1 + 1 by omega]
          exact this
      dsimp only at h
      generalize (if ch0 < 128 then command else ch0) = command1 at h
      generalize (if ch0 < 128 then ch0 else ((inf2.read1 (some ch0)).1.getD ch0)) = ch1 at h cp
      generalize (if ch0 < 128 then inf2 else (inf2.read1 (some ch0)).2) = infile3 at h c3 cp
      generalize (if ch0 < 128 then tb1 + 1 else tb1 + 1 + 1) = tb3 at h c3 cp
      generalize (if ch0 < 128 then str "v" ++ showInt vlv ++ str "\t" ++ str "   "
        else str "v" ++ showInt vlv ++ str "\t" ++ showHex ch0) = output1 at h
      have c4 : ∀ a, Counted input tb0 (infile3.read1 a).2 (tb3 + 1) :=
        fun a => counted_read1 input tb0 infile3 tb3 a c3
      by_cases h1 : command1 &&& 240 = 128
      · rw [if_pos h1] at h
        exact ret_counted _ _ _ _ _ _ _ _ _ _ _ (c4 _) h
      rw [if_neg h1] at h
      by_cases h2 : command1 &&& 240 = 144
      · rw [if_pos h2] at h
        exact ret_counted _ _ _ _ _ _ _ _ _ _ _ (c4 _) h
      rw [if_neg h2] at h
      by_cases h3 : command1 &&& 240 = 160
      · rw [if_pos h3] at h
        exact ret_counted _ _ _ _ _ _ _ _ _ _ _ (c4 _) h
      rw [if_neg h3] at h
      by_cases h4 : command1 &&& 240 = 176
      · rw [if_pos h4] at h
        exact ret_counted _ _ _ _ _ _ _ _ _ _ _ (c4 _) h
      rw [if_neg h4] at h
      by_cases h5 : command1 &&& 240 = 224
      · rw [if_pos h5] at h
        exact ret_counted _ _ _ _ _ _ _ _ _ _ _ (c4 _) h
      rw [if_neg h5] at h
      by_cases h6 : command1 &&& 240 = 192
      · rw [if_pos h6] at h
        exact ret_counted _ _ _ _ _ _ _ _ _ _ _ c3 h
      rw [if_neg h6] at h
      by_cases h7 : command1 &&& 240 = 208
      · rw [if_pos h7] at h
        exact ret_counted _ _ _ _ _ _ _ _ _ _ _ c3 h
      rw [if_neg h7] at h
      by_cases h8 : command1 &&& 240 = 240
      · rw [if_pos h8] at h
        by_cases h9 : command1 = 247
        · rw [if_pos h9] at h
          split at h
          · exact absurd h (by simp)
          · exact absurd h (by simp)
          · rename_i len inf4 tb4 hv2
            have c5 := counted_getVLV input tb0 fuel _ _ _ cp hv2
            exact ret_counted _ _ _ _ _ _ _ _ _ _ _
              (counted_readBytes input tb0 _ _ _ _ _ _ c5) h
        rw [if_neg h9] at h
        by_cases h10 : command1 = 254
        · rw [if_pos h10] at h
          simp only [Run.ret.injEq] at h
          subst h
          exact c3
        rw [if_neg h10] at h
        by_cases h11 : command1 = 255
        · rw [if_pos h11] at h
          split at h
          · exact absurd h (by simp)
          · exact absurd h (by simp)
          · rename_i len inf4 tb4 hv2
            have c5 := counted_getVLV input tb0 fuel _ _ _ c3 hv2
            exact ret_counted _ _ _ _ _ _ _ _ _ _ _
              (counted_readMetaPayload input tb0 F _ _ _ _ _ _ c5) h
        rw [if_neg h11] at h
        exact ret_counted _ _ _ _ _ _ _ _ _ _ _ c3 h
      rw [if_neg h8] at h
      exact ret_counted _ _ _ _ _ _ _ _ _ _ _ c3 h

/-- C37.  Byte accounting: when `readMidiEvent`, called on a stream just opened on
`input`, returns and no read has failed, the stream is left as just opened on what
remains of `input`, and `trackbytes` has grown by exactly the number of bytes of
`input` that were consumed (the byte put back under the status `F7` is counted once).
This holds on every branch, the return of 0 at the status `FE` included, and `getVLV`
counts in the same way. -/
theorem readMidiEvent_byte_accounting (F : FloatOps) (commentsQ : Bool) (fuel : Nat)
    (input : List Nat) (trackbytes : Int) :
    (∀ (out : List Nat) (command status : Nat) (st : EventState),
      readMidiEvent F commentsQ fuel out (IStream.open input) trackbytes command =
        Run.ret (status, st) →
      st.infile.failbit = false →
      ∃ consumed, input = consumed ++ st.infile.buf ∧ st.infile = IStream.open st.infile.buf ∧
        st.trackbytes = trackbytes + (consumed.length : Nat)) ∧
    (∀ (value : Int) (infile : IStream) (trackbytes1 : Int),
      getVLV fuel (IStream.open input) trackbytes = Run.ret (value, infile, trackbytes1) →
      infile.failbit = false →
      ∃ consumed, input = consumed ++ infile.buf ∧ infile = IStream.open infile.buf ∧
        trackbytes1 = trackbytes + (consumed.length : Nat)) :=
  ⟨fun out command _ _ h hf =>
      counted_readMidiEvent input trackbytes F commentsQ fuel out _ _ command _
        (counted_open input trackbytes) h hf,
    fun _ _ _ h hf =>
      counted_getVLV input trackbytes fuel _ _ _ (counted_open input trackbytes) h hf⟩

/-- Witness for C37: a note-on event, the status `FE`, a system exclusive event `F7`
with two bytes, the end of the track, and a delta time of two bytes; the byte 7
follows each of them. -/
theorem readMidiEvent_byte_accounting_witness :
    (∃ consumed, [0, 0x90, 60, 100, 7] = consumed ++ [7] ∧
      IStream.open [7] = IStream.open [7] ∧ (4 : Int) = 0 + (consumed.length : Nat)) ∧
    (∃ consumed, [0, 0xfe, 1, 7] = consumed ++ [7] ∧
      IStream.open [7] = IStream.open [7] ∧ (3 : Int) = 0 + (consumed.length : Nat)) ∧
    (∃ consumed, [0, 0xf7, 2, 10, 11, 7] = consumed ++ [7] ∧
      IStream.open [7] = IStream.open [7] ∧ (5 : Int) = 0 + (consumed.length : Nat)) ∧
    (∃ consumed, [0, 0xff, 0x2f, 0, 7] = consumed ++ [7] ∧
      IStream.open [7] = IStream.open [7] ∧ (14 : Int) = 10 + (consumed.length : Nat)) ∧
    (∃ consumed, [0x81, 0, 7] = consumed ++ [7] ∧
      IStream.open [7] = IStream.open [7] ∧ (2 : Int) = 0 + (consumed.length : Nat)) :=
  ⟨(readMidiEvent_byte_accounting FloatOps.zero false 5 [0, 0x90, 60, 100, 7] 0).1 [] 0 1
      ⟨str "v0\t90 '60 '100", IStream.open [7], 4, 0x90⟩ (by decide) rfl,
    (readMidiEvent_byte_accounting FloatOps.zero false 5 [0, 0xfe, 1, 7] 0).1 [] 0 0
      ⟨[], IStream.open [7], 3, 0xfe⟩ (by decide) rfl,
    (readMidiEvent_byte_accounting FloatOps.zero false 5 [0, 0xf7, 2, 10, 11, 7] 0).1 [] 0 1
      ⟨str "v0\tf7 v2 0a 0b", IStream.open [7], 5, 0xf7⟩ (by decide) rfl,
    (readMidiEvent_byte_accounting FloatOps.zero false 5 [0, 0xff, 0x2f, 0, 7] 10).1 [] 0 0
      ⟨str "v0\tff 2f v0", IStream.open [7], 14, 0xff⟩ (by decide) rfl,
    (readMidiEvent_byte_accounting FloatOps.zero false 5 [0x81, 0, 7] 0).2 128
      (IStream.open [7]) 2 (by decide) rfl⟩

/-! ## C38: the last line -/

/-- C38, the failing input.  The text `41` is one line that no newline ends:
`writeToBinary` writes nothing for it, with any fuel, and writes the byte 41 for the
same text followed by a newline.  `getline` meets the end of the input while it reads
the last line and sets `eofbit`, and the loop `while (!input.eof())` ends before that
line is processed. -/
theorem writeToBinary_last_line_counterexample :
    writeToBinary FloatOps.zero 5 [] (str "41") = Run.ret (1, []) ∧
    writeToBinary FloatOps.zero 5 [] (str "41\n") = Run.ret (1, [0x41]) ∧
    ¬ ∃ fuel, writeToBinary FloatOps.zero fuel [] (str "41") = Run.ret (1, [0x41]) :=
  ⟨by decide, by decide,
    writeToBinary_differs FloatOps.zero (str "41") [0x41] [] 1 5 (by decide) (by decide)⟩

/-- C38, the behaviour of the code.  For a text made of lines that a newline ends and
of a last line that no newline ends (no line longer than 1023 characters or holding a
null character), `writeToBinary` writes the bytes that `processLine` emits for the lines that a newline
ends, one line after the other, and nothing for the last line; for the same text
followed by a newline it writes the same bytes followed by the bytes that `processLine`
emits for the last line. -/
theorem writeToBinary_last_line (F : FloatOps) (lines : List (List Nat))
    (last out : List Nat) (fuel : Nat)
    (hl : ∀ l ∈ lines, (10 : Nat) ∉ l ∧ (0 : Nat) ∉ l ∧ l.length ≤ 1023)
    (ht : (10 : Nat) ∉ last ∧ (0 : Nat) ∉ last ∧ last.length ≤ 1023)
    (hf : lines.length + 1 < fuel) :
    writeToBinary F fuel out (unlines lines ++ last) =
      Run.ret (1, out ++ (lines.map (processLineBytes F)).flatten) ∧
    writeToBinary F fuel out (unlines lines ++ last ++ [10]) =
      Run.ret (1, out ++ (lines.map (processLineBytes F)).flatten ++
        processLineBytes F last) := by
  constructor
  · exact writeToBinary_lines F last ht.1 ht.2.2 lines out fuel hl (by omega)
  · have h := writeToBinary_lines F [] (by simp) (by simp) (lines ++ [last]) out fuel
      (by
        intro l hm
        rcases List.mem_append.mp hm with h | h
        · exact hl l h
        · simp only [List.mem_singleton] at h
          rw [h]; exact ht)
      (by simp only [List.length_append, List.length_singleton]; omega)
    have e : unlines (lines ++ [last]) ++ [] = unlines lines ++ last ++ [10] := by
      simp [unlines]
    rw [e] at h
    rw [h]
    simp

/-- Witness for the behaviour of the code at C38: the lines `41 42` and `'7` and the
unterminated last
line `ff`. -/
theorem writeToBinary_last_line_witness :
    writeToBinary FloatOps.zero 4 [] (unlines [str "41 42", str "'7"] ++ str "ff") =
      Run.ret (1, [] ++ ([str "41 42", str "'7"].map (processLineBytes FloatOps.zero)).flatten) ∧
    writeToBinary FloatOps.zero 4 [] (unlines [str "41 42", str "'7"] ++ str "ff" ++ [10]) =
      Run.ret (1, [] ++ ([str "41 42", str "'7"].map (processLineBytes FloatOps.zero)).flatten ++
        processLineBytes FloatOps.zero (str "ff")) :=
  writeToBinary_last_line FloatOps.zero [str "41 42", str "'7"] (str "ff") [] 4
    (by decide) (by decide) (by decide)

/-! ## The MIDI decoder on the tracks that it reads -/

theorem readMetaPayload_raw (F : FloatOps) (ty : Nat) (length : Int) (bs rest : List Nat)
    (tb : Int) (ch : Nat) (output : List Nat) (hl : bs.length = metaBytesRead ty length)
    (hb : ∀ b ∈ bs, b < 256) :
    readMetaPayload F ty length (IStream.open (bs ++ rest)) tb ch output =
      (IStream.open rest, tb + (bs.length : Nat), output ++ metaTextRead F ty bs) := by
  unfold metaBytesRead at hl
  unfold readMetaPayload metaTextRead metaText
  by_cases h0 : ty = 0x00
  · rw [if_pos h0] at hl
    obtain ⟨a, b, rfl⟩ := list_length_two bs hl
    have ha : a < 256 := hb a (by simp)
    have hb' : b < 256 := hb b (by simp)
    simp only [h0, if_true, List.cons_append, List.nil_append, read1_open, Option.getD_some]
    rw [shl8_or a b hb', Nat.mod_eq_of_lt (by omega), bitsToInt_of_lt _ (by omega),
      showInt_natCast]
    simp
  · rw [if_neg h0] at hl
    simp only [h0, if_false]
    by_cases h1 : ty = 0x20 ∨ ty = 0x21
    · rw [if_pos h1] at hl
      have e : (1 : Nat) = bs.length := hl.symm
      have h1' : ty = 0x20 ∨ ty = 0x21 ∨ ty = 0x54 ∨ ty = 0x58 ∨ ty = 0x59 := by omega
      have h51 : ¬ ty = 0x51 := by omega
      rw [if_pos h1, if_neg h51, if_pos h1']
      rw [e, readBytes_open]
    · rw [if_neg h1] at hl
      rw [if_neg h1]
      by_cases h2 : ty = 0x51
      · rw [if_pos h2] at hl
        obtain ⟨a, b, d, rfl⟩ : ∃ a b d, bs = [a, b, d] := by
          match bs, hl with
          | [a, b, d], _ => exact ⟨a, b, d, rfl⟩
        have ha : a < 256 := hb a (by simp)
        have hb' : b < 256 := hb b (by simp)
        have hd : d < 256 := hb d (by simp)
        simp only [h2, if_true, List.cons_append, List.nil_append, read1_open,
          Option.getD_some]
        rw [shl8_or _ a ha, shl8_or _ b hb', shl8_or _ d hd]
        have e1 : ((0 * 256 % 2 ^ 32 + a) * 256 % 2 ^ 32 + b) * 256 % 2 ^ 32 + d =
            (a * 256 + b) * 256 + d := by omega
        rw [e1, bitsToInt_of_lt _ (by omega)]
        simp
      · rw [if_neg h2] at hl
        rw [if_neg h2, if_neg h2]
        by_cases h3 : ty = 0x54
        · rw [if_pos h3] at hl
          have e : (5 : Nat) = bs.length := hl.symm
          have h' : ty = 0x20 ∨ ty = 0x21 ∨ ty = 0x54 ∨ ty = 0x58 ∨ ty = 0x59 := by omega
          rw [if_pos h3, if_pos h', e, readBytes_open]
        · rw [if_neg h3] at hl
          rw [if_neg h3]
          by_cases h4 : ty = 0x58
          · rw [if_pos h4] at hl
            have e : (4 : Nat) = bs.length := hl.symm
            have h' : ty = 0x20 ∨ ty = 0x21 ∨ ty = 0x54 ∨ ty = 0x58 ∨ ty = 0x59 := by omega
            rw [if_pos h4, if_pos h', e, readBytes_open]
          · rw [if_neg h4] at hl
            rw [if_neg h4]
            by_cases h5 : ty = 0x59
            · rw [if_pos h5] at hl
              have e : (2 : Nat) = bs.length := hl.symm
              have h' : ty = 0x20 ∨ ty = 0x21 ∨ ty = 0x54 ∨ ty = 0x58 ∨ ty = 0x59 := by omega
              rw [if_pos h5, if_pos h', e, readBytes_open]
            · rw [if_neg h5] at hl
              rw [if_neg h5]
              have h' : ¬ (ty = 0x20 ∨ ty = 0x21 ∨ ty = 0x54 ∨ ty = 0x58 ∨ ty = 0x59) := by
                omega
              rw [if_neg h']
              by_cases h6 : 0x01 ≤ ty ∧ ty ≤ 0x09
              · rw [if_pos h6, if_pos h6, ← hl, readBytes_open]
                simp [List.append_assoc, flatten_map_singleton]
              · rw [if_neg h6, if_neg h6, ← hl, readBytes_open]
                rfl

theorem isVlv_head (l : List Nat) (h : isVlv l) : ∃ a t, l = a :: t ∧ a < 256 := by
  obtain ⟨hs, x, rfl, h1, h2⟩ := h
  cases hs with
  | nil => exact ⟨x, [], rfl, by omega⟩
  | cons a t => exact ⟨a, t ++ [x], rfl, (h1 a (by simp)).2⟩

theorem isVlv_single (l : List Nat) (h : isVlv l) (h1 : l.length = 1) :
    ∃ a, l = [a] ∧ a < 0x80 := by
  obtain ⟨hs, x, rfl, -, h2⟩ := h
  cases hs with
  | nil => exact ⟨x, rfl, h2⟩
  | cons a t => simp at h1

theorem readMidiEvent_raw (F : FloatOps) (c : Bool) (fuel : Nat)
    (out rest : List Nat) (tb : Int) (command : Nat) (e : RawEvent) (he : e.read command)
    (hf : e.delta.length < fuel) (hf2 : e.body.lengthBytes < fuel) :
    readMidiEvent F c fuel out (IStream.open (e.bytes ++ rest)) tb command =
      Run.ret (if e.isEnd command then 0 else 1,
        ⟨out ++ e.text F c command, IStream.open rest, tb + (e.bytes.length : Nat),
          e.command command⟩) := by
  have k1 : (247 &&& 240 : Nat) = 240 := by decide
  have k2 : (255 &&& 240 : Nat) = 240 := by decide
  have k3 : (254 &&& 240 : Nat) = 240 := by decide
  obtain ⟨delta, status, body⟩ := e
  obtain ⟨hd, hs, hb⟩ := he
  simp only at hf hf2
  simp only [RawEvent.bytes, List.append_assoc]
  unfold readMidiEvent
  rw [getVLV_bytes delta _ fuel tb hd hf]
  cases status with
  | none =>
    cases body with
    | two d1 d2 =>
      obtain ⟨hhi, h1, h2, hr⟩ := hb
      have hr' : d1 < 0x80 := hr rfl
      simp only [RawEvent.command, Option.getD_none] at hhi
      have hfe : command ≠ 0xfe := by
        rintro rfl
        revert hhi
        unfold twoDataBytes
        decide
      simp only [Option.toList, Message.bytes, List.nil_append, List.cons_append, read1_open,
        hr', if_true, Option.getD_some, RawEvent.isEnd, RawEvent.text, RawEvent.command,
        Option.getD_none, Message.text, Message.comment, dataItem, hfe, decide_False,
        Bool.false_or, Bool.false_eq_true, if_false]
      rcases hhi with h | h | h | h | h <;> simp [h] <;> omega
    | one d1 =>
      obtain ⟨hhi, h7, hff, h1, hr⟩ := hb
      have hr' : d1 < 0x80 := hr rfl
      simp only [RawEvent.command, Option.getD_none] at hhi h7 hff
      unfold twoDataBytes at hhi
      simp only [not_or] at hhi
      obtain ⟨n8, n9, nA, nB, nE⟩ := hhi
      simp only [Option.toList, Message.bytes, List.nil_append, List.cons_append, read1_open,
        hr', if_true, Option.getD_some, RawEvent.isEnd, RawEvent.text, RawEvent.command,
        Option.getD_none, Message.text, Message.comment, dataItem, n8, n9, nA, nB, nE,
        if_false, h7, hff, Bool.or_false]
      by_cases hC : command &&& 240 = 192
      · have hfe : command ≠ 254 := by
          rintro rfl
          revert hC
          decide
        simp [hC, hfe]
        omega
      by_cases hD : command &&& 240 = 208
      · have hfe : command ≠ 254 := by
          rintro rfl
          revert hD
          decide
        simp [hC, hD, hfe]
        omega
      by_cases hF : command &&& 240 = 240
      · by_cases hfe : command = 254
        · subst hfe
          simp [k3]
          omega
        · simp [hC, hD, hF, hfe]
          omega
      · have hfe : command ≠ 254 := by
          rintro rfl
          revert hF
          decide
        simp [hC, hD, hF, hfe]
        omega
    | sysex l bs =>
      obtain ⟨hc, hl, hlen, hbs, hr⟩ := hb
      obtain ⟨a, rfl, ha⟩ := isVlv_single l hl (hr rfl)
      simp only [RawEvent.command, Option.getD_none] at hc
      subst hc
      have hg := getVLV_bytes [a] (bs ++ rest) fuel (tb + (delta.length : Nat)) hl
        (by simpa [Message.lengthBytes] using hf2)
      simp only [List.cons_append, List.nil_append, List.length_cons, List.length_nil] at hg
      simp only [Option.toList, Message.bytes, List.nil_append, List.cons_append, read1_open,
        ha, if_true, Option.getD_some, RawEvent.isEnd, RawEvent.text, RawEvent.command,
        Option.getD_none, Message.text, Message.comment, k1, putback_open,
        add_sub_cancel_right, hg]
      simp only [← hlen, readBytes_open]
      simp
      omega
    | metaEvent ty l bs =>
      obtain ⟨hc, hty, hl, hlen, hbs, hr⟩ := hb
      have hr' : ty < 0x80 := hr rfl
      simp only [RawEvent.command, Option.getD_none] at hc
      subst hc
      simp only [Option.toList, Message.bytes, List.nil_append, List.cons_append, read1_open,
        hr', if_true, Option.getD_some, RawEvent.isEnd, RawEvent.text, RawEvent.command,
        Option.getD_none, Message.text, Message.comment, k2, List.append_assoc,
        getVLV_bytes l _ fuel _ hl (by simpa [Message.lengthBytes] using hf2)]
      simp only [readMetaPayload_raw F ty _ bs rest _ _ _ hlen hbs]
      simp
      omega
  | some s =>
    obtain ⟨hs1, hs2⟩ := hs s rfl
    have hns : ¬ s < 0x80 := by omega
    cases body with
    | two d1 d2 =>
      obtain ⟨hhi, h1, h2, hr⟩ := hb
      simp only [RawEvent.command, Option.getD_some] at hhi
      have hfe : s ≠ 0xfe := by
        rintro rfl
        revert hhi
        unfold twoDataBytes
        decide
      simp only [Option.toList, Message.bytes, List.nil_append, List.cons_append, read1_open,
        hns, if_false, Option.getD_some, RawEvent.isEnd, RawEvent.text, RawEvent.command,
        Message.text, Message.comment, dataItem, List.singleton_append, hfe, decide_False,
        Bool.false_or, Bool.false_eq_true]
      rcases hhi with h | h | h | h | h <;> simp [h] <;> omega
    | one d1 =>
      obtain ⟨hhi, h7, hff, h1, hr⟩ := hb
      simp only [RawEvent.command, Option.getD_some] at hhi h7 hff
      unfold twoDataBytes at hhi
      simp only [not_or] at hhi
      obtain ⟨n8, n9, nA, nB, nE⟩ := hhi
      simp only [Option.toList, Message.bytes, List.nil_append, List.cons_append, read1_open,
        hns, if_false, Option.getD_some, RawEvent.isEnd, RawEvent.text, RawEvent.command,
        Message.text, Message.comment, dataItem, n8, n9, nA, nB, nE,
        h7, hff, Bool.or_false, List.singleton_append]
      by_cases hC : s &&& 240 = 192
      · have hfe : s ≠ 254 := by
          rintro rfl
          revert hC
          decide
        simp [hC, hfe]
        omega
      by_cases hD : s &&& 240 = 208
      · have hfe : s ≠ 254 := by
          rintro rfl
          revert hD
          decide
        simp [hC, hD, hfe]
        omega
      by_cases hF : s &&& 240 = 240
      · by_cases hfe : s = 254
        · subst hfe
          simp [k3]
          omega
        · simp [hC, hD, hF, hfe]
          omega
      · have hfe : s ≠ 254 := by
          rintro rfl
          revert hF
          decide
        simp [hC, hD, hF, hfe]
        omega
    | sysex l bs =>
      obtain ⟨hc, hl, hlen, hbs, hr⟩ := hb
      obtain ⟨a, t, rfl, ha⟩ := isVlv_head l hl
      simp only [RawEvent.command, Option.getD_some] at hc
      subst hc
      have hg := getVLV_bytes (a :: t) (bs ++ rest) fuel (tb + (delta.length : Nat) + 1) hl
        (by simpa [Message.lengthBytes] using hf2)
      simp only [List.cons_append] at hg
      simp only [Option.toList, Message.bytes, List.nil_append, List.cons_append, read1_open,
        hns, if_false, Option.getD_some, RawEvent.isEnd, RawEvent.text, RawEvent.command,
        Message.text, Message.comment, k1, putback_open, List.singleton_append,
        add_sub_cancel_right, hg, List.append_assoc]
      simp only [← hlen, readBytes_open]
      simp
      omega
    | metaEvent ty l bs =>
      obtain ⟨hc, hty, hl, hlen, hbs, hr⟩ := hb
      simp only [RawEvent.command, Option.getD_some] at hc
      subst hc
      simp only [Option.toList, Message.bytes, List.nil_append, List.cons_append, read1_open,
        hns, if_false, Option.getD_some, RawEvent.isEnd, RawEvent.text, RawEvent.command,
        Message.text, Message.comment, k2, List.singleton_append, List.append_assoc,
        getVLV_bytes l _ fuel _ hl (by simpa [Message.lengthBytes] using hf2)]
      simp only [readMetaPayload_raw F ty _ bs rest _ _ _ hlen hbs]
      simp
      omega

theorem readTrackEvents_raw (F : FloatOps) (c : Bool) (fuel : Nat) (rest : List Nat) :
    ∀ (events : List RawEvent) (n : Nat) (tempout : List Nat) (tb : Int) (command : Nat),
    rawEventsRead command events → events.length ≤ n →
    (∀ e ∈ events, e.delta.length < fuel ∧ e.body.lengthBytes < fuel) →
    ∃ st, readTrackEvents F c fuel n tempout (IStream.open (rawEventsBytes events ++ rest)) tb
        command = Run.ret st ∧
      st.out ++ [10] = tempout ++ rawEventsText F c command events ∧
      st.infile = IStream.open rest ∧
      st.trackbytes = tb + ((rawEventsBytes events).length : Nat) := by
  intro events
  induction events with
  | nil => intro n tempout tb command h; exact absurd h id
  | cons e es ih =>
    intro n tempout tb command hok hn hfuel
    obtain ⟨k, rfl⟩ : ∃ k, n = k + 1 := ⟨n - 1, by simp at hn; omega⟩
    have eb : rawEventsBytes (e :: es) ++ rest = e.bytes ++ (rawEventsBytes es ++ rest) := by
      simp [rawEventsBytes]
    obtain ⟨hf1, hf2⟩ := hfuel e (by simp)
    rw [eb, readTrackEvents]
    cases es with
    | nil =>
      obtain ⟨h1, h2⟩ := hok
      rw [readMidiEvent_raw F c fuel _ _ _ _ e h1 hf1 hf2]
      simp only [h2, if_true, ne_eq, not_true_eq_false, if_false]
      refine ⟨_, rfl, ?_, ?_, ?_⟩
      · simp [rawEventsText, str_newline]
      · simp [rawEventsBytes]
      · simp [rawEventsBytes]
    | cons e1 es1 =>
      obtain ⟨h1, h2, h3⟩ := hok
      rw [readMidiEvent_raw F c fuel _ _ _ _ e h1 hf1 hf2]
      simp only [h2, Bool.false_eq_true, if_false, ne_eq, one_ne_zero, not_false_eq_true,
        if_true]
      obtain ⟨st, s1, s2, s3, s4⟩ := ih k (tempout ++ e.text F c command ++ str "\n")
        (tb + (e.bytes.length : Nat)) (e.command command) h3 (by simpa using hn)
        (fun x hx => hfuel x (by simp [hx]))
      refine ⟨st, s1, ?_, s3, ?_⟩
      · rw [s2]
        simp only [rawEventsText, List.append_assoc]
      · rw [s4]
        simp only [rawEventsBytes, List.map_cons, List.flatten_cons, List.length_append,
          Nat.cast_add]
        omega

theorem getLast_size (t : RawTrack) (ts : List RawTrack) (ch : Nat) :
    (((t :: ts).getLast?.map (fun t => t.size % 256)).getD ch) =
      ((ts.getLast?.map (fun t => t.size % 256)).getD (t.size % 256)) := by
  cases ts with
  | nil => rfl
  | cons u us =>
    rw [List.getLast?_cons_cons]
    cases h : (u :: us).getLast? with
    | none => simp at h
    | some x => rfl

set_option maxRecDepth 100000 in
theorem readTracks_rawSkip (F : FloatOps) (c hx : Bool) (fuel : Nat) (rest : List Nat)
    (k : Nat) : ∀ (ts : List RawTrack) (i : Nat) (tempout : List Nat) (ch : Nat),
    (∀ t ∈ ts, t.read fuel) →
    readTracks F c hx fuel (ts.length + k) (i : Int) tempout
        (IStream.open ((ts.map RawTrack.bytes).flatten ++ rest)) ch =
      readTracks F c hx fuel k ((i + ts.length : Nat) : Int)
        (tempout ++ rawTracksText F hx c i ts) (IStream.open rest)
        ((ts.getLast?.map (fun t => t.size % 256)).getD ch) := by
  intro ts
  induction ts with
  | nil =>
    intro i tempout ch _
    simp [rawTracksText]
  | cons t ts ih =>
    intro i tempout ch h
    obtain ⟨hsize, hev, hlen, hfuel⟩ := h t (by simp)
    have eb : ((t :: ts).map RawTrack.bytes).flatten ++ rest =
        77 :: 84 :: 114 :: 107 :: ((lowBytes 4 t.size).reverse ++
          (rawEventsBytes t.events ++ ((ts.map RawTrack.bytes).flatten ++ rest))) := by
      simp [RawTrack.bytes, str_MTrk]
    have el : (t :: ts).length + k = (ts.length + k) + 1 := by
      simp only [List.length_cons]; omega
    have hi : ((i : Nat) : Int) + 1 = ((i + 1 : Nat) : Int) := by simp
    rw [eb, el, readTracks]
    simp only [read1_open, Option.getD_some, ne_eq, not_true_eq_false, if_false,
      readBigEndian_four t.size hsize]
    obtain ⟨st, s1, s2, s3, s4⟩ := readTrackEvents_raw F c fuel
      ((ts.map RawTrack.bytes).flatten ++ rest) t.events fuel
      (tempout ++ str "\n;;; TRACK " ++ showBase hx (i : Int) ++
        str " ----------------------------------" ++
        str "\n" ++ str "\"MTrk\"" ++
        (if c = true then str "\t\t\t; MIDI track chunk marker" else []) ++ str "\n" ++
        str "4'" ++ showBase hx (bitsToInt t.size) ++
        (if c = true then str "\t\t\t; bytes to follow in track chunk" else []) ++ str "\n")
      0 0 hev hlen hfuel
    rw [s1]
    dsimp only
    rw [s3, s4, hi]
    have ei : i + 1 + ts.length = i + (t :: ts).length := by
      simp only [List.length_cons]; omega
    have hts : ∀ u ∈ ts, u.read fuel := fun u hu => h u (by simp [hu])
    rewrite [ih (i + 1) _ _ hts, ei, getLast_size]
    have s2' : st.out ++ str "\n" = tempout ++ str "\n;;; TRACK " ++ showBase hx (i : Int) ++
        str " ----------------------------------" ++
        str "\n" ++ str "\"MTrk\"" ++
        (if c = true then str "\t\t\t; MIDI track chunk marker" else []) ++ str "\n" ++
        str "4'" ++ showBase hx (bitsToInt t.size) ++
        (if c = true then str "\t\t\t; bytes to follow in track chunk" else []) ++ str "\n" ++
        rawEventsText F c 0 t.events := s2
    have e : (if ¬ (0 : Int) + ((rawEventsBytes t.events).length : Nat) = bitsToInt t.size then
        st.out ++ str "\n" ++ str "; TRACK SIZE ERROR, ACTUAL SIZE: " ++
            showBase hx ((0 : Int) + ((rawEventsBytes t.events).length : Nat)) ++ str "\n"
      else st.out ++ str "\n") ++ rawTracksText F hx c (i + 1) ts =
        tempout ++ rawTracksText F hx c i (t :: ts) := by
      rw [s2']
      simp only [rawTracksText, RawTrack.text, sizeErrorText, zero_add, ne_eq]
      split_ifs <;> simp only [List.append_assoc, List.append_nil]
    rewrite [e]
    exact Eq.refl _

theorem outputStyleMidiTracks_rawHeader (F : FloatOps) (c : Bool) (fuel : Nat)
    (out tempout : List Nat) (headersize : Int) (n d1 d2 : Nat) (extra body : List Nat)
    (ch : Nat) (h4 : d1 < 256) (h5 : d2 < 256)
    (he : extra.length = (toInt32 (headersize - 6)).toNat)
    (g : List Nat → Option (List Nat))
    (hr : ∀ T ch1, readTracks F c (decide (extra ≠ [])) fuel n 0 T (IStream.open body) ch1 =
      Run.ret (g T)) :
    outputStyleMidiTracks F c fuel out tempout headersize (n : Nat)
        (IStream.open (d1 :: d2 :: (extra ++ body))) ch =
      Run.ret ((g (tempout ++
        ((if 0x80 ≤ d1 then
          str "1'-" ++ showNat (0xff - d1 + 1) ++
            (if c then str "\t\t\t; SMPTE frames/second" else []) ++ str "\n" ++
            str "1'" ++ showNat d2 ++
            (if c then str "\t\t\t; subframes per frame" else []) ++ str "\n"
         else
          str "2'" ++ showNat (d1 * 256 + d2) ++
            (if c then str "\t\t\t; ticks per quarter note" else []) ++ str "\n") ++
        (if extra = [] then []
         else (extra.map headerItem).flatten ++ str "\t\t\t; unknown header bytes" ++
           str "\n")))).elim (0, out) (fun t => (1, out ++ t))) := by
  have hd : (((((0 <<< 8) % 2 ^ 32 ||| d1) <<< 8) % 2 ^ 32) ||| d2) = d1 * 256 + d2 := by
    rw [shl8_or _ _ h5, shl8_or _ _ h4]
    omega
  have hx : (toInt32 (headersize - 6)).toNat = extra.length := he.symm
  have hpos : (toInt32 (headersize - 6) > 0) ↔ extra ≠ [] := by
    rw [← List.length_pos, he]
    omega
  have hdec : decide (toInt32 (headersize - 6) > 0) = decide (extra ≠ []) := by
    by_cases h : extra ≠ []
    · rw [decide_eq_true h, decide_eq_true (hpos.2 h)]
    · rw [decide_eq_false h, decide_eq_false (fun h' => h (hpos.1 h'))]
  have hitem : (fun c => (if c < 0x10 then str "0" else []) ++ showHex c) = headerItem := rfl
  have key : ∀ T1 T2 : List Nat, T1 = T2 →
      (match (Run.ret (g T1) : Run (Option (List Nat))) with
        | Run.undef => Run.undef
        | Run.spin => Run.spin
        | Run.ret none => Run.ret (0, out)
        | Run.ret (some tempout) => Run.ret (1, out ++ tempout)) =
      Run.ret ((g T2).elim (0, out) (fun t => (1, out ++ t))) := by
    intro T1 T2 h
    subst h
    cases g T1 <;> rfl
  unfold outputStyleMidiTracks
  generalize toInt32 (headersize - 6) = x at hx hpos hdec
  simp only [read1_open, hx, hdec, Int.toNat_ofNat, readBytes_open, hr, hd, and_128 d1 h4,
    bitsToInt_of_lt (d1 * 256 + d2) (by omega), showInt_natCast, hitem]
  apply key
  by_cases hne : extra = []
  · have hp : ¬ (x > 0) := by rw [hpos]; simpa using hne
    simp only [hp, if_false, hne, List.map_nil, List.flatten_nil, List.append_nil, if_true]
    split_ifs <;> simp only [List.append_assoc]
  · have hp : x > 0 := by rw [hpos]; exact hne
    simp only [hp, if_true, hne, if_false]
    split_ifs <;> simp only [List.append_assoc]

theorem outputStyleMidi_rawHeader (F : FloatOps) (c : Bool) (fuel : Nat) (out : List Nat)
    (hs fmt n d1 d2 : Nat) (extra body : List Nat)
    (h1 : hs < 2 ^ 32) (h2 : fmt < 65536) (h3 : n < 65536) (h4 : d1 < 256) (h5 : d2 < 256)
    (he : extra.length = extraCount hs) (g : List Nat → Option (List Nat))
    (hr : ∀ T ch, readTracks F c (decide (extra ≠ [])) fuel n 0 T (IStream.open body) ch =
      Run.ret (g T)) :
    outputStyleMidi F c fuel out (headerBytes hs fmt n d1 d2 ++ (extra ++ body)) =
      Run.ret ((g (rawHeaderText c hs fmt n d1 d2 extra)).elim (0, out)
        (fun t => (1, out ++ t))) := by
  have eb : headerBytes hs fmt n d1 d2 ++ (extra ++ body) =
      77 :: 84 :: 104 :: 100 :: ((lowBytes 4 hs).reverse ++
      ((lowBytes 2 fmt).reverse ++ ((lowBytes 2 n).reverse ++
        (d1 :: d2 :: (extra ++ body))))) := by
    simp [headerBytes, str_MThd]
  have e2 : ((fmt : Int) = 2) = (fmt = 2) := by
    apply propext
    constructor <;> intro h <;> omega
  have e1 : ((fmt : Int) = 1) = (fmt = 1) := by
    apply propext
    constructor <;> intro h <;> omega
  have e0 : ((fmt : Int) = 0) = (fmt = 0) := by
    apply propext
    constructor <;> intro h <;> omega
  have eo : ∀ l, (IStream.open l).eofbit = false := fun _ => rfl
  rw [eb]
  unfold outputStyleMidi
  simp only [read1_open, Option.getD_some, ne_eq, not_true_eq_false, if_false, eo,
    Bool.false_eq_true]
  unfold outputStyleMidiHeader
  simp only [readBigEndian_four hs h1, readBigEndian_two fmt h2, readBigEndian_two n h3,
    bitsToInt_of_lt fmt (by omega), bitsToInt_of_lt n (by omega), showInt_natCast, e0, e1, e2]
  unfold extraCount at he
  unfold rawHeaderText
  generalize bitsToInt hs = z at he ⊢
  rw [outputStyleMidiTracks_rawHeader F c fuel out _ z n d1 d2 extra body _ h4 h5 he g hr]
  simp only [List.append_assoc]

theorem readTracks_raw (F : FloatOps) (c hx : Bool) (fuel : Nat) (rest : List Nat)
    (ts : List RawTrack) (tempout : List Nat) (ch : Nat) (h : ∀ t ∈ ts, t.read fuel) :
    readTracks F c hx fuel ts.length 0 tempout
        (IStream.open ((ts.map RawTrack.bytes).flatten ++ rest)) ch =
      Run.ret (some (tempout ++ rawTracksText F hx c 0 ts)) := by
  have e := readTracks_rawSkip F c hx fuel rest 0 ts 0 tempout ch h
  rw [Nat.add_zero, Nat.cast_zero] at e
  rw [e]
  rfl

theorem readTracks_rawRefused (F : FloatOps) (c hx : Bool) (fuel : Nat) (tail : List Nat)
    (ts : List RawTrack) (n : Nat) (tempout : List Nat) (ch : Nat)
    (h : ∀ t ∈ ts, t.read fuel) (hn : ts.length < n) (ht : ¬ ([77, 84, 114, 107] <+: tail)) :
    readTracks F c hx fuel n 0 tempout
        (IStream.open ((ts.map RawTrack.bytes).flatten ++ tail)) ch = Run.ret none := by
  obtain ⟨k, rfl⟩ : ∃ k, n = ts.length + (k + 1) := ⟨n - ts.length - 1, by omega⟩
  have e := readTracks_rawSkip F c hx fuel tail (k + 1) ts 0 tempout ch h
  rw [Nat.cast_zero] at e
  rw [e]
  exact readTracks_bad_tag F c hx fuel k _ _ _ _ ht

theorem outputStyleMidi_raw (F : FloatOps) (c : Bool) (fuel : Nat) (out : List Nat)
    (hs fmt d1 d2 : Nat) (extra : List Nat) (tracks : List RawTrack) (tail : List Nat)
    (h1 : hs < 2 ^ 32) (h2 : fmt < 65536) (h3 : tracks.length < 65536) (h4 : d1 < 256)
    (h5 : d2 < 256) (he : extra.length = extraCount hs) (h6 : ∀ t ∈ tracks, t.read fuel) :
    outputStyleMidi F c fuel out
        (headerBytes hs fmt tracks.length d1 d2 ++
          (extra ++ ((tracks.map RawTrack.bytes).flatten ++ tail))) =
      Run.ret (1, out ++ (rawHeaderText c hs fmt tracks.length d1 d2 extra ++
        rawTracksText F (decide (extra ≠ [])) c 0 tracks)) :=
  outputStyleMidi_rawHeader F c fuel out hs fmt tracks.length d1 d2 extra _ h1 h2 h3 h4 h5 he
    (fun T => some (T ++ rawTracksText F (decide (extra ≠ [])) c 0 tracks))
    (fun T ch => readTracks_raw F c _ fuel tail tracks T ch h6)

theorem outputStyleMidi_rawRefused (F : FloatOps) (c : Bool) (fuel : Nat) (out : List Nat)
    (hs fmt n d1 d2 : Nat) (extra : List Nat) (tracks : List RawTrack) (tail : List Nat)
    (h1 : hs < 2 ^ 32) (h2 : fmt < 65536) (h3 : n < 65536) (h4 : d1 < 256)
    (h5 : d2 < 256) (he : extra.length = extraCount hs) (h6 : ∀ t ∈ tracks, t.read fuel)
    (hn : tracks.length < n) (ht : ¬ ([77, 84, 114, 107] <+: tail)) :
    outputStyleMidi F c fuel out
        (headerBytes hs fmt n d1 d2 ++
          (extra ++ ((tracks.map RawTrack.bytes).flatten ++ tail))) = Run.ret (0, out) :=
  outputStyleMidi_rawHeader F c fuel out hs fmt n d1 d2 extra _ h1 h2 h3 h4 h5 he
    (fun _ => none)
    (fun T ch => readTracks_rawRefused F c _ fuel tail tracks n T ch h6 hn ht)

theorem isVlv_one (l : Nat) (h : l < 0x80) : isVlv [l] :=
  ⟨[], l, rfl, by simp, h⟩

theorem isVlv_two (a l : Nat) (h1 : 0x80 ≤ a) (h2 : a < 256) (h : l < 0x80) : isVlv [a, l] :=
  ⟨[a], l, rfl, by simpa using ⟨h1, h2⟩, h⟩

theorem rawEndTrack_read (fuel : Nat) (hf : 2 ≤ fuel) : rawEndTrack.read fuel := by
  refine ⟨by norm_num [rawEndTrack], ?_, by simpa [rawEndTrack] using (by omega : 1 ≤ fuel), ?_⟩
  · refine ⟨⟨isVlv_one 0 (by norm_num), ?_, ?_⟩, rfl⟩
    · intro s hs
      simp only [Option.mem_def, Option.some.injEq] at hs
      omega
    · exact ⟨rfl, by norm_num, isVlv_one 0 (by norm_num), rfl, by simp, by simp⟩
  · intro e he
    simp only [rawEndTrack, List.mem_singleton] at he
    subst he
    simp only [List.length_singleton, Message.lengthBytes]
    omega

theorem rawExampleTrack_read (fuel : Nat) (hf : 7 ≤ fuel) : rawExampleTrack.read fuel := by
  have hst : ∀ (x : Nat), 0x80 ≤ x → x < 256 → ∀ s ∈ (some x : Option Nat), 0x80 ≤ s ∧ s < 256 := by
    intro x h1 h2 s hs
    simp only [Option.mem_def, Option.some.injEq] at hs
    omega
  refine ⟨by norm_num [rawExampleTrack], ?_,
    by simpa [rawExampleTrack] using hf, ?_⟩
  · refine ⟨⟨isVlv_two 0x80 0 (by norm_num) (by norm_num) (by norm_num),
        hst 0x90 (by norm_num) (by norm_num),
        Or.inr (Or.inl (by decide)), by norm_num, by norm_num, by simp⟩, rfl, ?_⟩
    refine ⟨⟨isVlv_one 10 (by norm_num), by simp,
        Or.inr (Or.inl (by decide)), by norm_num, by norm_num, by simp⟩, rfl, ?_⟩
    refine ⟨⟨isVlv_one 0 (by norm_num), hst 0xff (by norm_num) (by norm_num),
        rfl, by norm_num, isVlv_one 3 (by norm_num), rfl, by simp, by simp⟩, rfl, ?_⟩
    refine ⟨⟨isVlv_one 0 (by norm_num), hst 0xff (by norm_num) (by norm_num),
        rfl, by norm_num, isVlv_one 3 (by norm_num), by decide, by simp, by simp⟩, rfl, ?_⟩
    refine ⟨⟨isVlv_one 0 (by norm_num), hst 0xf8 (by norm_num) (by norm_num),
        by unfold twoDataBytes; decide, by decide, by decide, by norm_num, by simp⟩, rfl, ?_⟩
    refine ⟨⟨isVlv_one 0 (by norm_num), hst 0xf7 (by norm_num) (by norm_num),
        rfl, isVlv_one 2 (by norm_num), by decide, by simp, by simp⟩, rfl, ?_⟩
    exact ⟨⟨isVlv_one 0 (by norm_num), hst 0xff (by norm_num) (by norm_num),
        rfl, by norm_num, isVlv_one 0 (by norm_num), rfl, by simp, by simp⟩, rfl⟩
  · intro e he
    simp only [rawExampleTrack, List.mem_cons, List.mem_singleton, List.not_mem_nil,
      or_false] at he
    rcases he with rfl | rfl | rfl | rfl | rfl | rfl | rfl <;>
      simp only [List.length_cons, List.length_nil, Message.lengthBytes] <;> omega

/-! ## C18: chunk markers that do not match -/

set_option maxRecDepth 100000 in
/-- C18, the claim as stated fails.  The header of `sizeErrorFile` declares two tracks
and its first track declares five bytes but holds the four bytes of an end-of-track
event: the four bytes at the start of the second track, as the declared length places
it, are `T r k 00` and not `MTrk`.  `outputStyleMidi` does not use the declared length:
it looks for the marker after the end-of-track event, finds it, and returns 1 with the
text of both tracks. -/
theorem outputStyleMidi_tag_mismatch_counterexample :
    sizeErrorFile.bytes =
      [77, 84, 104, 100, 0, 0, 0, 6, 0, 1, 0, 2, 0, 96,
       77, 84, 114, 107, 0, 0, 0, 5, 0, 0xff, 0x2f, 0,
       77, 84, 114, 107, 0, 0, 0, 4, 0, 0xff, 0x2f, 0] ∧
    (sizeErrorFile.bytes.drop (14 + 8 + 5)).take 4 = [84, 114, 107, 0] ∧
    outputStyleMidi FloatOps.zero false 5 [] sizeErrorFile.bytes =
      Run.ret (1, str ("\"MThd\"\n4'6\n2'1\n2'2\n2'96\n" ++
        "\n;;; TRACK 0 ----------------------------------\n\"MTrk\"\n4'5\nv0\tff 2f v0\n" ++
        "; TRACK SIZE ERROR, ACTUAL SIZE: 4\n" ++
        "\n;;; TRACK 1 ----------------------------------\n\"MTrk\"\n4'4\nv0\tff 2f v0\n")) := by
  refine ⟨by decide, by decide, by decide⟩

/-- C18, amended.  A chunk marker that does not match where `outputStyleMidi` looks
for it is fatal and nothing is written.  On an input that is not empty and does not
begin with `MThd`, `outputStyleMidi` returns 0 and leaves the output stream as it was.
The same holds on an input made of a header chunk (any four bytes of declared length,
with the bytes beyond the first six that they declare), fewer tracks than the header
declares, each read to the first event for which `readMidiEvent` returns 0 whatever
its events and its declared length are, and then bytes that do not begin with `MTrk`:
the text of the header and of the tracks read before is not written. -/
theorem outputStyleMidi_tag_mismatch (F : FloatOps) (commentsQ : Bool) (fuel : Nat)
    (out : List Nat) :
    (∀ input : List Nat, input ≠ [] → ¬ (str "MThd" <+: input) →
      outputStyleMidi F commentsQ fuel out input = Run.ret (0, out)) ∧
    (∀ (headerSize format trackCount division1 division2 : Nat) (extra : List Nat)
      (tracks : List RawTrack) (tail : List Nat),
      headerSize < 2 ^ 32 → format < 65536 → trackCount < 65536 →
      division1 < 256 → division2 < 256 →
      extra.length = extraCount headerSize → tracks.length < trackCount →
      (∀ t ∈ tracks, t.read fuel) → ¬ (str "MTrk" <+: tail) →
      outputStyleMidi F commentsQ fuel out
        (rawFileBytes headerSize format trackCount division1 division2 extra tracks ++ tail) =
        Run.ret (0, out)) := by
  refine ⟨fun input hne hp => outputStyleMidi_bad_header F commentsQ fuel out input hne hp, ?_⟩
  intro hs fmt n d1 d2 extra tracks tail h1 h2 h3 h4 h5 he hn hts ht
  have e : rawFileBytes hs fmt n d1 d2 extra tracks ++ tail =
      headerBytes hs fmt n d1 d2 ++ (extra ++ ((tracks.map RawTrack.bytes).flatten ++ tail)) := by
    simp only [rawFileBytes, List.append_assoc]
  rw [e]
  exact outputStyleMidi_rawRefused F commentsQ fuel out hs fmt n d1 d2 extra tracks tail
    h1 h2 h3 h4 h5 he hts hn ht

/-- Witness for C18 as amended: the input `RIFF`, and a header that declares three
tracks followed by two tracks, the first with a tempo event, a text that holds a
newline and a declared length that is not that of its events, and the bytes `MTrx`;
the output stream holds `;` before and after. -/
theorem outputStyleMidi_tag_mismatch_witness :
    outputStyleMidi FloatOps.zero true 7 [59] (str "RIFF") = Run.ret (0, [59]) ∧
    outputStyleMidi FloatOps.zero true 7 [59]
      (rawFileBytes 6 1 3 0 96 [] [rawExampleTrack, rawEndTrack] ++ str "MTrx") =
      Run.ret (0, [59]) :=
  ⟨(outputStyleMidi_tag_mismatch FloatOps.zero true 7 [59]).1 (str "RIFF") (by decide)
      (by decide),
    (outputStyleMidi_tag_mismatch FloatOps.zero true 7 [59]).2 6 1 3 0 96 []
      [rawExampleTrack, rawEndTrack] (str "MTrx") (by norm_num) (by norm_num) (by norm_num)
      (by norm_num) (by norm_num) (by decide) (by decide)
      (by
        intro t ht
        simp only [List.mem_cons, List.mem_singleton, List.not_mem_nil, or_false] at ht
        rcases ht with rfl | rfl
        · exact rawExampleTrack_read 7 (by norm_num)
        · exact rawEndTrack_read 7 (by norm_num))
      (by decide)⟩

/-! ## C20: inputs that end early -/

/-- Counterexample to C20 as stated.  `truncatedEndFile` begins with `MThd` and ends
inside the end-of-track event of its only track, where one more byte is expected, and
`outputStyleMidi` returns 1.  On an input that ends inside the division of the header,
inside the length of a track, or inside a note-on event, the code uses a variable that
was never set; on an input that ends inside a delta time the loop of `getVLV` does
not end. -/
theorem outputStyleMidi_truncated_counterexample :
    (str "MThd" <+: truncatedEndFile ∧
      ∀ fuel, 2 ≤ fuel → outputStyleMidi FloatOps.zero false fuel [] truncatedEndFile =
        Run.ret (1, truncatedEndText)) ∧
    (∀ fuel, outputStyleMidi FloatOps.zero false fuel [] (truncatedEndFile.take 13) =
      Run.undef) ∧
    (∀ fuel, 1 ≤ fuel → outputStyleMidi FloatOps.zero false fuel [] (truncatedEndFile.take 20) =
      Run.undef) ∧
    (∀ fuel, 2 ≤ fuel → outputStyleMidi FloatOps.zero false fuel []
      (truncatedEndFile.take 22 ++ [0, 0x90, 60]) = Run.undef) ∧
    (∀ fuel, outputStyleMidi FloatOps.zero false fuel [] (truncatedEndFile.take 22 ++ [0x81]) =
      Run.spin) := by
  refine ⟨⟨by decide, ?_⟩, fun _ => rfl, ?_, ?_, fun fuel => outputStyleMidi_spin _ _ fuel _⟩
  · intro fuel h
    obtain ⟨k, rfl⟩ : ∃ k, fuel = k + 2 := ⟨fuel - 2, by omega⟩
    rfl
  · intro fuel h
    obtain ⟨k, rfl⟩ : ∃ k, fuel = k + 1 := ⟨fuel - 1, by omega⟩
    rfl
  · intro fuel h
    obtain ⟨k, rfl⟩ : ∃ k, fuel = k + 2 := ⟨fuel - 2, by omega⟩
    rfl

/-- C20, amended.  An input that ends at a chunk marker of a declared track, or among
the header bytes beyond the first six, is refused.  After a header chunk (any four
bytes of declared length, with the bytes beyond the first six that they declare) and
fewer tracks than the header declares, each read to the first event for which
`readMidiEvent` returns 0 whatever its events and its declared length are, an input
that ends there or inside the marker `MTrk` makes `outputStyleMidi` return 0 with
nothing written; so does an input that ends before the last of the header bytes beyond
the first six, when the header declares a track and a length below 2^31. -/
theorem outputStyleMidi_truncated (F : FloatOps) (commentsQ : Bool) (fuel : Nat)
    (out : List Nat) :
    (∀ (headerSize format trackCount division1 division2 : Nat) (extra : List Nat)
      (tracks : List RawTrack) (tail : List Nat),
      headerSize < 2 ^ 32 → format < 65536 → trackCount < 65536 →
      division1 < 256 → division2 < 256 →
      extra.length = extraCount headerSize → tracks.length < trackCount →
      (∀ t ∈ tracks, t.read fuel) →
      tail <+: str "MTrk" → tail ≠ str "MTrk" →
      outputStyleMidi F commentsQ fuel out
        (rawFileBytes headerSize format trackCount division1 division2 extra tracks ++ tail) =
        Run.ret (0, out)) ∧
    (∀ (headerSize format trackCount division1 division2 : Nat) (extra : List Nat),
      headerSize < 2 ^ 31 → format < 65536 → trackCount < 65536 →
      extra.length < headerSize - 6 → 0 < trackCount →
      outputStyleMidi F commentsQ fuel out
        (headerBytes headerSize format trackCount division1 division2 ++ extra) =
        Run.ret (0, out)) := by
  constructor
  · intro hs fmt n d1 d2 extra tracks tail h1 h2 h3 h4 h5 he hn hts ht1 ht2
    have e : rawFileBytes hs fmt n d1 d2 extra tracks ++ tail =
        headerBytes hs fmt n d1 d2 ++
          (extra ++ ((tracks.map RawTrack.bytes).flatten ++ tail)) := by
      simp only [rawFileBytes, List.append_assoc]
    rw [e]
    exact outputStyleMidi_rawRefused F commentsQ fuel out hs fmt n d1 d2 extra tracks tail
      h1 h2 h3 h4 h5 he hts hn (prefix_MTrk tail ht1 ht2)
  · intro hs fmt n d1 d2 extra h1 h2 h3 he hn
    exact outputStyleMidi_short_header F commentsQ fuel out hs fmt n d1 d2 extra h1 h2 h3 he hn

/-- Witness for C20 as amended: a header that declares three tracks followed by two
tracks, the first with a tempo event and a status byte `F8`, and the bytes `MT`; and a
header of declared length eight followed by one byte. -/
theorem outputStyleMidi_truncated_witness :
    outputStyleMidi FloatOps.zero true 7 [59]
      (rawFileBytes 6 1 3 0 96 [] [rawExampleTrack, rawEndTrack] ++ str "MT") =
      Run.ret (0, [59]) ∧
    outputStyleMidi FloatOps.zero true 7 [59] (headerBytes 8 1 1 0 96 ++ [1]) =
      Run.ret (0, [59]) :=
  ⟨(outputStyleMidi_truncated FloatOps.zero true 7 [59]).1 6 1 3 0 96 []
      [rawExampleTrack, rawEndTrack] (str "MT") (by norm_num) (by norm_num) (by norm_num)
      (by norm_num) (by norm_num) (by decide) (by decide)
      (by
        intro t ht
        simp only [List.mem_cons, List.mem_singleton, List.not_mem_nil, or_false] at ht
        rcases ht with rfl | rfl
        · exact rawExampleTrack_read 7 (by norm_num)
        · exact rawEndTrack_read 7 (by norm_num))
      (by decide) (by decide),
    (outputStyleMidi_truncated FloatOps.zero true 7 [59]).2 8 1 1 0 96 [1]
      (by norm_num) (by norm_num) (by norm_num) (by decide) (by decide)⟩

/-! ## C21: the track-length diagnostic -/

theorem rawTracksText_enum (F : FloatOps) (hx c : Bool) : ∀ (ts : List RawTrack) (i : Nat),
    rawTracksText F hx c i ts = ((ts.enumFrom i).map (fun p => p.2.text F hx c p.1)).flatten := by
  intro ts
  induction ts with
  | nil => intro i; rfl
  | cons t ts ih =>
    intro i
    simp only [rawTracksText, List.enumFrom_cons, List.map_cons, List.flatten_cons, ih]

/-- C21, the behaviour of the code.  On an input made of a header chunk, the tracks
that it declares, each read to the first event for which `readMidiEvent` returns 0
(the end-of-track event, or an event with the status `FE`), and anything after them,
`outputStyleMidi` returns 1 and writes the text of the header followed by the text of
every track in turn.  The text of a track is its heading, the text of each of its
events, and then the line `; TRACK SIZE ERROR, ACTUAL SIZE: n`, with `n` the number of
bytes of its events, when `n` differs from the declared length, and nothing when they
are equal; `n` is written in decimal when the header has no byte beyond the first six,
and in hexadecimal otherwise, as `hexErrorFile` shows.  A system exclusive event with
the status `F0` is not read as an event: on `standardSysexFile` the decoder goes past
the end-of-track event and reads beyond the end of the input. -/
theorem outputStyleMidi_size_error (F : FloatOps) (commentsQ : Bool) (fuel : Nat)
    (out : List Nat) (headerSize format division1 division2 : Nat) (extra : List Nat)
    (tracks : List RawTrack) (tail : List Nat)
    (h1 : headerSize < 2 ^ 32) (h2 : format < 65536) (h3 : tracks.length < 65536)
    (h4 : division1 < 256) (h5 : division2 < 256) (he : extra.length = extraCount headerSize)
    (h6 : ∀ t ∈ tracks, t.read fuel) :
    outputStyleMidi F commentsQ fuel out
        (rawFileBytes headerSize format tracks.length division1 division2 extra tracks ++
          tail) =
      Run.ret (1, out ++
        (rawHeaderText commentsQ headerSize format tracks.length division1 division2 extra ++
          rawTracksText F (decide (extra ≠ [])) commentsQ 0 tracks)) ∧
    rawTracksText F (decide (extra ≠ [])) commentsQ 0 tracks =
      ((tracks.enumFrom 0).map
        (fun p => p.2.text F (decide (extra ≠ [])) commentsQ p.1)).flatten ∧
    (∀ t ∈ tracks, ∀ i : Nat,
      t.text F (decide (extra ≠ [])) commentsQ i =
        str "\n;;; TRACK " ++ showBase (decide (extra ≠ [])) (i : Int) ++
          str " ----------------------------------" ++ str "\n" ++
          str "\"MTrk\"" ++
          (if commentsQ then str "\t\t\t; MIDI track chunk marker" else []) ++ str "\n" ++
          str "4'" ++ showBase (decide (extra ≠ [])) (bitsToInt t.size) ++
          (if commentsQ then str "\t\t\t; bytes to follow in track chunk" else []) ++
          str "\n" ++ rawEventsText F commentsQ 0 t.events ++
          (if ((rawEventsBytes t.events).length : Int) = bitsToInt t.size then []
           else str "; TRACK SIZE ERROR, ACTUAL SIZE: " ++
             showBase (decide (extra ≠ [])) ((rawEventsBytes t.events).length : Int) ++
             str "\n")) ∧
    (extra = [] → ∀ n : Nat, showBase (decide (extra ≠ [])) (n : Int) = showNat n) ∧
    (∀ fuel1, 4 ≤ fuel1 →
      outputStyleMidi FloatOps.zero false fuel1 [] standardSysexFile = Run.undef) ∧
    (∃ text, outputStyleMidi FloatOps.zero false 5 [] hexErrorFile =
      Run.ret (1, text ++ str "; TRACK SIZE ERROR, ACTUAL SIZE: c\n")) := by
  refine ⟨?_, rawTracksText_enum F _ commentsQ tracks 0, ?_, ?_, ?_, ?_⟩
  · have e : rawFileBytes headerSize format tracks.length division1 division2 extra tracks ++
        tail = headerBytes headerSize format tracks.length division1 division2 ++
          (extra ++ ((tracks.map RawTrack.bytes).flatten ++ tail)) := by
      simp only [rawFileBytes, List.append_assoc]
    rw [e]
    exact outputStyleMidi_raw F commentsQ fuel out headerSize format division1 division2 extra
      tracks tail h1 h2 h3 h4 h5 he h6
  · intro t _ i
    unfold RawTrack.text sizeErrorText
    by_cases hn : ((rawEventsBytes t.events).length : Int) = bitsToInt t.size
    · simp only [hn, ne_eq, not_true_eq_false, if_false, if_true]
    · simp only [hn, ne_eq, not_false_eq_true, if_true, if_false]
  · intro h n
    simp only [h, ne_eq, not_true_eq_false, decide_False, showBase, Bool.false_eq_true,
      if_false, showInt_natCast]
  · intro fuel1 hf
    obtain ⟨k, rfl⟩ : ∃ k, fuel1 = k + 4 := ⟨fuel1 - 4, by omega⟩
    rfl
  · exact ⟨_, by
      set_option maxRecDepth 100000 in
      exact (by decide : outputStyleMidi FloatOps.zero false 5 [] hexErrorFile =
        Run.ret (1, str ("\"MThd\"\n4'7\n2'0\n2'1\n2'96\n00\t\t\t; unknown header bytes\n" ++
          "\n;;; TRACK 0 ----------------------------------\n\"MTrk\"\n4'4\n" ++
          "v0\t90 '60 '100\nv0\t80 '60 '0\nv0\tff 2f v0\n") ++
          str "; TRACK SIZE ERROR, ACTUAL SIZE: c\n"))⟩

set_option maxRecDepth 100000 in
/-- Witness for the behaviour of the code at C21: a file of two tracks whose first
track declares seven bytes and holds thirty-four, among them a tempo event, a text
with a newline and the status `F8`, is decoded to the end, with one diagnostic after
the first track. -/
theorem outputStyleMidi_size_error_witness :
    outputStyleMidi FloatOps.zero false 7 []
        (rawFileBytes 6 1 2 0 96 [] [rawExampleTrack, rawEndTrack] ++ []) =
      Run.ret (1, [] ++ (rawHeaderText false 6 1 2 0 96 [] ++
        rawTracksText FloatOps.zero (decide (([] : List Nat) ≠ [])) false 0
          [rawExampleTrack, rawEndTrack])) ∧
    rawHeaderText false 6 1 2 0 96 [] ++
        rawTracksText FloatOps.zero (decide (([] : List Nat) ≠ [])) false 0
          [rawExampleTrack, rawEndTrack] =
      str ("\"MThd\"\n4'6\n2'1\n2'2\n2'96\n" ++
        "\n;;; TRACK 0 ----------------------------------\n\"MTrk\"\n4'7\n" ++
        "v0\t90 '60 '100\nv10\t    '60 '0\nv0\tff 51 v3 t0\nv0\tff 1 v3 \"a\nb\"\n" ++
        "v0\tf8\nv0\tf7 v2 0a b0\nv0\tff 2f v0\n" ++
        "; TRACK SIZE ERROR, ACTUAL SIZE: 34\n" ++
        "\n;;; TRACK 1 ----------------------------------\n\"MTrk\"\n4'4\nv0\tff 2f v0\n") :=
  ⟨(outputStyleMidi_size_error FloatOps.zero false 7 [] 6 1 0 96 []
      [rawExampleTrack, rawEndTrack] [] (by norm_num) (by norm_num) (by decide) (by norm_num)
      (by norm_num) (by decide)
      (by
        intro t ht
        simp only [List.mem_cons, List.mem_singleton, List.not_mem_nil, or_false] at ht
        rcases ht with rfl | rfl
        · exact rawExampleTrack_read 7 (by norm_num)
        · exact rawEndTrack_read 7 (by norm_num))).1, by decide⟩

/-! ## C22: termination -/

theorem outputStyleMidi_empty (F : FloatOps) (c : Bool) (fuel : Nat) (out : List Nat) :
    outputStyleMidi F c fuel out [] = Run.ret (0, out) := rfl

/-- C23, the claim as stated fails: the fourteen bytes `MThd 00 00 00 06 00 01 00 02 00 60`
alone start as the claim asks, yet `outputStyleMidi` returns 0 and writes nothing, since
the first of the two declared tracks is missing. -/
theorem outputStyleMidi_header_lines_counterexample :
    headerBytes 6 1 2 0 96 = [77, 84, 104, 100, 0, 0, 0, 6, 0, 1, 0, 2, 0, 0x60] ∧
    outputStyleMidi FloatOps.zero false 5 (str "out") (headerBytes 6 1 2 0 96) =
      Run.ret (0, str "out") := by
  constructor
  · rfl
  · rfl

/-- C23, amended.  For an input that starts with `MThd`, the length 6, a format `f`, a
track count `n` and a division `d` whose top bit is clear, and that goes on with the
`n` tracks declared, each read to the first event for which `readMidiEvent` returns 0,
`outputStyleMidi` (comments off) returns 1 and the text written starts with the lines
`"MThd"`, `4'6`, `2'f`, `2'n`, `2'd`, all numbers in decimal; what follows is the text of
the tracks, which is empty when `n` is 0 and starts with the heading of track 0
otherwise, so that no line of unknown header bytes is written. -/
theorem outputStyleMidi_header_lines (F : FloatOps) (fuel : Nat) (out : List Nat)
    (f d1 d2 : Nat) (tracks : List RawTrack) (tail : List Nat)
    (hf : f < 65536) (hn : tracks.length < 65536) (hd1 : d1 < 128) (hd2 : d2 < 256)
    (h6 : ∀ t ∈ tracks, t.read fuel) :
    outputStyleMidi F false fuel out
        (rawFileBytes 6 f tracks.length d1 d2 [] tracks ++ tail) =
      Run.ret (1, out ++ unlines [str "\"MThd\"", str "4'6", str "2'" ++ showNat f,
        str "2'" ++ showNat tracks.length, str "2'" ++ showNat (d1 * 256 + d2)] ++
        rawTracksText F false false 0 tracks) ∧
    (tracks = [] → rawTracksText F false false 0 tracks = []) ∧
    (tracks ≠ [] → str "\n;;; TRACK 0 ----------------------------------\n\"MTrk\"" <+:
      rawTracksText F false false 0 tracks) := by
  refine ⟨?_, ?_, ?_⟩
  · have e : rawFileBytes 6 f tracks.length d1 d2 [] tracks ++ tail =
        headerBytes 6 f tracks.length d1 d2 ++
          ([] ++ ((tracks.map RawTrack.bytes).flatten ++ tail)) := by
      simp only [rawFileBytes, List.append_assoc]
    have hh : rawHeaderText false 6 f tracks.length d1 d2 [] =
        unlines [str "\"MThd\"", str "4'6", str "2'" ++ showNat f,
          str "2'" ++ showNat tracks.length, str "2'" ++ showNat (d1 * 256 + d2)] := by
      have e6 : showInt (bitsToInt 6) = str "6" := by decide
      have hd : ¬ (0x80 ≤ d1) := by omega
      have e46 : ∀ X : List Nat, str "4'" ++ (str "6" ++ X) = str "4'6" ++ X := fun _ => rfl
      simp only [rawHeaderText, e6, hd, if_false, Bool.false_eq_true, if_true, unlines,
        List.map_cons, List.map_nil, List.flatten_cons, List.flatten_nil, List.append_assoc,
        List.append_nil, str_newline, e46]
    rw [e, outputStyleMidi_raw F false fuel out 6 f d1 d2 [] tracks tail (by norm_num) hf hn
      (by omega) hd2 (by decide) h6, hh]
    simp only [ne_eq, not_true_eq_false, decide_False, List.append_assoc]
  · rintro rfl
    rfl
  · intro h
    cases tracks with
    | nil => exact absurd rfl h
    | cons t ts =>
      refine ⟨str "\n" ++ str "4'" ++ showBase false (bitsToInt t.size) ++ str "\n" ++
        rawEventsText F false 0 t.events ++ sizeErrorText false t ++
        rawTracksText F false false (0 + 1) ts, ?_⟩
      have e0 : showBase false ((0 : Nat) : Int) = str "0" := by decide
      have e1 : str "\n;;; TRACK 0 ----------------------------------\n\"MTrk\"" =
          str "\n;;; TRACK " ++ (str "0" ++ (str " ----------------------------------" ++
            (str "\n" ++ str "\"MTrk\""))) := by decide
      simp only [rawTracksText, RawTrack.text, e0, e1, Bool.false_eq_true, if_false,
        List.append_nil, List.append_assoc]

set_option maxRecDepth 100000 in
/-- Witness for C23 as amended: the header bytes `MThd 00 00 00 06 00 01 00 02 00 60`
followed by two tracks, the second made of the end-of-track event alone, are decoded
with return value 1 and a text that starts with the five header lines. -/
theorem outputStyleMidi_header_lines_witness :
    (rawFileBytes 6 1 2 0 96 [] [rawExampleTrack, rawEndTrack]).take 14 =
      [77, 84, 104, 100, 0, 0, 0, 6, 0, 1, 0, 2, 0, 0x60] ∧
    outputStyleMidi FloatOps.zero false 7 []
        (rawFileBytes 6 1 2 0 96 [] [rawExampleTrack, rawEndTrack] ++ []) =
      Run.ret (1, [] ++ unlines [str "\"MThd\"", str "4'6", str "2'" ++ showNat 1,
        str "2'" ++ showNat 2, str "2'" ++ showNat (0 * 256 + 96)] ++
        rawTracksText FloatOps.zero false false 0 [rawExampleTrack, rawEndTrack]) ∧
    unlines [str "\"MThd\"", str "4'6", str "2'" ++ showNat 1,
        str "2'" ++ showNat 2, str "2'" ++ showNat (0 * 256 + 96)] =
      str "\"MThd\"\n4'6\n2'1\n2'2\n2'96\n" :=
  ⟨by decide,
    (outputStyleMidi_header_lines FloatOps.zero 7 [] 1 0 96 [rawExampleTrack, rawEndTrack] []
      (by norm_num) (by decide) (by norm_num) (by norm_num)
      (by
        intro t ht
        simp only [List.mem_cons, List.mem_singleton, List.not_mem_nil, or_false] at ht
        rcases ht with rfl | rfl
        · exact rawExampleTrack_read 7 (by norm_num)
        · exact rawEndTrack_read 7 (by norm_num))).1, by decide⟩

/-! ## C32: unknown header bytes -/

set_option maxRecDepth 100000 in
/-- C32, the failing inputs.  A header of declared length seven with the extra
byte 0 followed by a track of declared length sixteen: `outputStyleMidi` returns 1 and
writes the declared length in hexadecimal, `4'10`, which `writeToBinary` reads as ten,
so the text does not encode back to the input.  A header of declared length eight with
the extra bytes 0 and 1: the two bytes are printed as the one word `0001`, which
`writeToBinary` reads as the single byte 1. -/
theorem outputStyleMidi_unknown_header_counterexample :
    (extendedBytes hexSizeFile [0] =
      [77, 84, 104, 100, 0, 0, 0, 7, 0, 0, 0, 1, 0, 96, 0,
       77, 84, 114, 107, 0, 0, 0, 16, 0, 0x90, 60, 100, 0, 0x80, 60, 0, 0, 0x90, 62, 100,
       0, 0xff, 0x2f, 0] ∧
     outputStyleMidi FloatOps.zero false 5 [] (extendedBytes hexSizeFile [0]) =
      Run.ret (1, str ("\"MThd\"\n4'7\n2'0\n2'1\n2'96\n00\t\t\t; unknown header bytes\n" ++
        "\n;;; TRACK 0 ----------------------------------\n\"MTrk\"\n4'10\n" ++
        "v0\t90 '60 '100\nv0\t80 '60 '0\nv0\t90 '62 '100\nv0\tff 2f v0\n")) ∧
     writeToBinary FloatOps.zero 20 []
        (str ("\"MThd\"\n4'7\n2'0\n2'1\n2'96\n00\t\t\t; unknown header bytes\n" ++
        "\n;;; TRACK 0 ----------------------------------\n\"MTrk\"\n4'10\n" ++
        "v0\t90 '60 '100\nv0\t80 '60 '0\nv0\t90 '62 '100\nv0\tff 2f v0\n")) =
      Run.ret (1, [77, 84, 104, 100, 0, 0, 0, 7, 0, 0, 0, 1, 0, 96, 0,
       77, 84, 114, 107, 0, 0, 0, 10, 0, 0x90, 60, 100, 0, 0x80, 60, 0, 0, 0x90, 62, 100,
       0, 0xff, 0x2f, 0]) ∧
     ¬ ∃ fuel, writeToBinary FloatOps.zero fuel []
        (str ("\"MThd\"\n4'7\n2'0\n2'1\n2'96\n00\t\t\t; unknown header bytes\n" ++
        "\n;;; TRACK 0 ----------------------------------\n\"MTrk\"\n4'10\n" ++
        "v0\t90 '60 '100\nv0\t80 '60 '0\nv0\t90 '62 '100\nv0\tff 2f v0\n")) =
      Run.ret (1, extendedBytes hexSizeFile [0])) ∧
    (extendedBytes twoExtraFile [0, 1] =
      [77, 84, 104, 100, 0, 0, 0, 8, 0, 0, 0, 1, 0, 96, 0, 1,
       77, 84, 114, 107, 0, 0, 0, 4, 0, 0xff, 0x2f, 0] ∧
     outputStyleMidi FloatOps.zero false 5 [] (extendedBytes twoExtraFile [0, 1]) =
      Run.ret (1, str ("\"MThd\"\n4'8\n2'0\n2'1\n2'96\n0001\t\t\t; unknown header bytes\n" ++
        "\n;;; TRACK 0 ----------------------------------\n\"MTrk\"\n4'4\nv0\tff 2f v0\n")) ∧
     writeToBinary FloatOps.zero 20 []
        (str ("\"MThd\"\n4'8\n2'0\n2'1\n2'96\n0001\t\t\t; unknown header bytes\n" ++
        "\n;;; TRACK 0 ----------------------------------\n\"MTrk\"\n4'4\nv0\tff 2f v0\n")) =
      Run.ret (1, [77, 84, 104, 100, 0, 0, 0, 8, 0, 0, 0, 1, 0, 96, 1,
       77, 84, 114, 107, 0, 0, 0, 4, 0, 0xff, 0x2f, 0]) ∧
     ¬ ∃ fuel, writeToBinary FloatOps.zero fuel []
        (str ("\"MThd\"\n4'8\n2'0\n2'1\n2'96\n0001\t\t\t; unknown header bytes\n" ++
        "\n;;; TRACK 0 ----------------------------------\n\"MTrk\"\n4'4\nv0\tff 2f v0\n")) =
      Run.ret (1, extendedBytes twoExtraFile [0, 1])) := by
  have a : writeToBinary FloatOps.zero 20 []
        (str ("\"MThd\"\n4'7\n2'0\n2'1\n2'96\n00\t\t\t; unknown header bytes\n" ++
        "\n;;; TRACK 0 ----------------------------------\n\"MTrk\"\n4'10\n" ++
        "v0\t90 '60 '100\nv0\t80 '60 '0\nv0\t90 '62 '100\nv0\tff 2f v0\n")) =
      Run.ret (1, [77, 84, 104, 100, 0, 0, 0, 7, 0, 0, 0, 1, 0, 96, 0,
       77, 84, 114, 107, 0, 0, 0, 10, 0, 0x90, 60, 100, 0, 0x80, 60, 0, 0, 0x90, 62, 100,
       0, 0xff, 0x2f, 0]) := by decide
  have b : writeToBinary FloatOps.zero 20 []
        (str ("\"MThd\"\n4'8\n2'0\n2'1\n2'96\n0001\t\t\t; unknown header bytes\n" ++
        "\n;;; TRACK 0 ----------------------------------\n\"MTrk\"\n4'4\nv0\tff 2f v0\n")) =
      Run.ret (1, [77, 84, 104, 100, 0, 0, 0, 8, 0, 0, 0, 1, 0, 96, 1,
       77, 84, 114, 107, 0, 0, 0, 4, 0, 0xff, 0x2f, 0]) := by decide
  exact ⟨⟨by decide, by decide, a,
      writeToBinary_differs FloatOps.zero _ _ _ 1 20 a (by decide)⟩,
    ⟨by decide, by decide, b,
      writeToBinary_differs FloatOps.zero _ _ _ 1 20 b (by decide)⟩⟩

/-- C32, the behaviour of the code.  Unknown header bytes: on an input made of a header
chunk whose declared length asks for k > 0 bytes beyond the first six, the k bytes
`extra`, and the tracks that the header declares, each read to the first event for
which `readMidiEvent` returns 0, `outputStyleMidi` returns 1; its text is the header
lines, then the k extra bytes on one line, two hexadecimal digits each with nothing
between them, then the tracks, whose numbers, declared lengths and size-error counts
are written in hexadecimal, since `hex` stays set on the stream.  For a file kept by
`Track.ok` with k = 1, every declared track length below 10 and no line longer than
1023 characters, `writeToBinary` turns that text back into the bytes of the input. -/
theorem outputStyleMidi_unknown_header (F : FloatOps) (commentsQ : Bool) (fuel : Nat)
    (out : List Nat) (headerSize format division1 division2 : Nat) (extra : List Nat)
    (tracks : List RawTrack) (tail : List Nat)
    (h1 : headerSize < 2 ^ 32) (h2 : format < 65536) (h3 : tracks.length < 65536)
    (h4 : division1 < 256) (h5 : division2 < 256) (he : extra.length = extraCount headerSize)
    (hne : extra ≠ []) (h6 : ∀ t ∈ tracks, t.read fuel) :
    outputStyleMidi F commentsQ fuel out
        (rawFileBytes headerSize format tracks.length division1 division2 extra tracks ++
          tail) =
      Run.ret (1, out ++
        (rawHeaderText commentsQ headerSize format tracks.length division1 division2 [] ++
          ((extra.map headerItem).flatten ++ str "\t\t\t; unknown header bytes" ++ str "\n") ++
          rawTracksText F true commentsQ 0 tracks)) ∧
    (∀ (m : MidiFile) (b : Nat), m.headerSize = 7 → b < 256 → m.format < 65536 →
      m.tracks.length < 65536 → m.division1 < 256 → m.division2 < 256 →
      (∀ t ∈ m.tracks, t.ok ∧ t.size < 10 ∧ t.events.length ≤ fuel) → 5 ≤ fuel →
      (∀ l ∈ extendedLines commentsQ m [b], l.length ≤ 1023) →
      outputStyleMidi F commentsQ fuel out (extendedBytes m [b]) =
        Run.ret (1, out ++ unlines (extendedLines commentsQ m [b])) ∧
      ∀ wfuel, (extendedLines commentsQ m [b]).length < wfuel →
        writeToBinary F wfuel [] (unlines (extendedLines commentsQ m [b])) =
          Run.ret (1, extendedBytes m [b])) := by
  constructor
  · have e : rawFileBytes headerSize format tracks.length division1 division2 extra tracks ++
        tail = headerBytes headerSize format tracks.length division1 division2 ++
          (extra ++ ((tracks.map RawTrack.bytes).flatten ++ tail)) := by
      simp only [rawFileBytes, List.append_assoc]
    rw [e, outputStyleMidi_raw F commentsQ fuel out headerSize format division1 division2 extra
      tracks tail h1 h2 h3 h4 h5 he h6]
    simp only [rawHeaderText, hne, if_false, if_true, ne_eq, not_false_eq_true, decide_True,
      List.append_nil, List.append_assoc]
  · intro m b hs hb m2 m3 m4 m5 m6 hf hlen
    have h6' : ∀ t ∈ m.tracks, t.ok := fun t ht => (m6 t ht).1
    refine ⟨outputStyleMidi_extended F commentsQ fuel out m [b] (by rw [hs]; rfl) (by simp)
      (by omega) m2 m3 m4 m5 h6' hf (fun t ht => (m6 t ht).2.2), ?_⟩
    intro wfuel hw
    have h := writeToBinary_lines F [] (by simp) (by simp) (extendedLines commentsQ m [b]) []
      wfuel (fun l hl => ⟨fun h => (lineText_extendedLines commentsQ m [b] h6' l hl 10 h).1 rfl,
        fun h => (lineText_extendedLines commentsQ m [b] h6' l hl 0 h).2 rfl, hlen l hl⟩) hw
    rw [List.append_nil, List.nil_append, extendedLines_bytes F commentsQ m b (by omega) m2 m3
      m4 m5 hb (fun t ht => ⟨(m6 t ht).1, (m6 t ht).2.1⟩)] at h
    exact h

set_option maxRecDepth 100000 in
/-- Witness for the behaviour of the code at C32: a header of declared length eight,
the extra bytes `00 01` and two tracks, the first of thirty-four bytes; and a header of
declared length seven, the extra byte `AB` and a track of declared length eight, which
comes back from its text. -/
theorem outputStyleMidi_unknown_header_witness :
    outputStyleMidi FloatOps.zero false 7 []
        (rawFileBytes 8 1 2 0 96 [0, 1] [rawExampleTrack, rawEndTrack] ++ []) =
      Run.ret (1, [] ++
        (rawHeaderText false 8 1 2 0 96 [] ++
          (([0, 1].map headerItem).flatten ++ str "\t\t\t; unknown header bytes" ++ str "\n") ++
          rawTracksText FloatOps.zero true false 0 [rawExampleTrack, rawEndTrack])) ∧
    rawHeaderText false 8 1 2 0 96 [] ++
        (([0, 1].map headerItem).flatten ++ str "\t\t\t; unknown header bytes" ++ str "\n") ++
        rawTracksText FloatOps.zero true false 0 [rawExampleTrack, rawEndTrack] =
      str ("\"MThd\"\n4'8\n2'1\n2'2\n2'96\n0001\t\t\t; unknown header bytes\n" ++
        "\n;;; TRACK 0 ----------------------------------\n\"MTrk\"\n4'7\n" ++
        "v0\t90 '60 '100\nv10\t    '60 '0\nv0\tff 51 v3 t0\nv0\tff 1 v3 \"a\nb\"\n" ++
        "v0\tf8\nv0\tf7 v2 0a b0\nv0\tff 2f v0\n" ++
        "; TRACK SIZE ERROR, ACTUAL SIZE: 22\n" ++
        "\n;;; TRACK 1 ----------------------------------\n\"MTrk\"\n4'4\nv0\tff 2f v0\n") ∧
    extendedBytes oneExtraFile [0xab] =
      [77, 84, 104, 100, 0, 0, 0, 7, 0, 0, 0, 1, 0, 96, 0xab,
       77, 84, 114, 107, 0, 0, 0, 8, 0, 0x90, 60, 100, 0, 0xff, 0x2f, 0] ∧
    outputStyleMidi FloatOps.zero false 7 [] (extendedBytes oneExtraFile [0xab]) =
      Run.ret (1, [] ++ unlines (extendedLines false oneExtraFile [0xab])) ∧
    (extendedLines false oneExtraFile [0xab]).get? 5 =
      some (str "ab\t\t\t; unknown header bytes") ∧
    writeToBinary FloatOps.zero 20 [] (unlines (extendedLines false oneExtraFile [0xab])) =
      Run.ret (1, extendedBytes oneExtraFile [0xab]) :=
  have h := outputStyleMidi_unknown_header FloatOps.zero false 7 [] 8 1 0 96 [0, 1]
    [rawExampleTrack, rawEndTrack] [] (by norm_num) (by norm_num) (by decide) (by norm_num)
    (by norm_num) (by decide) (by decide)
    (by
      intro t ht
      simp only [List.mem_cons, List.mem_singleton, List.not_mem_nil, or_false] at ht
      rcases ht with rfl | rfl
      · exact rawExampleTrack_read 7 (by norm_num)
      · exact rawEndTrack_read 7 (by norm_num))
  have h2 := h.2 oneExtraFile 0xab rfl (by norm_num) (by decide) (by decide) (by decide)
    (by decide)
    (fun t ht => ⟨oneExtraFile_ok t ht, by
      simp only [oneExtraFile, List.mem_singleton] at ht
      subst ht
      decide⟩)
    (by norm_num) (by decide)
  ⟨h.1, by decide, by decide, h2.1, by decide, h2.2 20 (by decide)⟩

end Binasc
